import Mathlib

/-!
# Project-OSRM: contraction-hierarchy preprocessing

A shallow embedding of `Contractor/Contractor.h` (graph preparation, witness
search, node contraction, the main loop `Run`) and of
`include/partition/edge_based_graph_reader.hpp` (edge preparation), followed by
theorems about them.

Conventions of the embedding.

* `unsigned` fields are `Nat`, `int` fields and heap keys are `Int`; sums are the
  mathematical sums (the 32-bit range is not modelled, except for the sentinel
  `INT_MAX` of the graph preparation and the `short` hop counter, which wraps).
* `double` priorities are rationals; the theorems about selection hold for
  arbitrary priority values.
* A `std::vector` is a `List`; a loop is a fold or a recursion on an explicit
  bound that the source itself enforces.
* The worker pool is one worker: the per-thread buffers of the source are one buffer.
-/

set_option autoImplicit false
set_option linter.dupNamespace false
set_option linter.unusedVariables false

abbrev NodeID := Nat

/-- The value of `std::numeric_limits<int>::max()`, also `INT_MAX`. -/
def INT_MAX : Nat := 2147483647

/-- The value of `UINT_MAX`. -/
def UINT_MAX : Nat := 4294967295

/-- Conversion of an integer to the 16 bit type `short` (two's complement). -/
def toShort (x : Int) : Int := (x + 32768) % 65536 - 32768

/-! ## DynamicGraph -/

namespace DynamicGraph

/-- An edge as stored in the adjacency range of its source: `target` and `data`. -/
structure Edge (EdgeDataT : Type) where
  target : NodeID
  data : EdgeDataT
deriving DecidableEq, Repr

/-- The class `DynamicGraph<EdgeDataT>::InputEdge`: `source`, `target`, `data`. -/
structure InputEdge (EdgeDataT : Type) where
  source : NodeID
  target : NodeID
  data : EdgeDataT
deriving DecidableEq, Repr

instance {EdgeDataT : Type} [Inhabited EdgeDataT] : Inhabited (Edge EdgeDataT) := ⟨⟨0, default⟩⟩

instance {EdgeDataT : Type} [Inhabited EdgeDataT] : Inhabited (InputEdge EdgeDataT) :=
  ⟨⟨0, 0, default⟩⟩

end DynamicGraph

/-- Modelled from the spec: the class `DynamicGraph<EdgeDataT>` of
`DataStructures/DynamicGraph.h`, which is not among the sources. Section 4.1: every
node owns a range of edges, iterated in insertion order; `adj n` is the range
`BeginEdges(n) .. EndEdges(n)` and an edge iterator is a position in it. -/
structure DynamicGraph (EdgeDataT : Type) where
  numNodes : Nat
  adj : NodeID → List (DynamicGraph.Edge EdgeDataT)

namespace DynamicGraph

variable {EdgeDataT : Type}

/-- Modelled from the spec: the constructor `DynamicGraph(nodes)`, a graph without edges. -/
def empty (nodes : Nat) : DynamicGraph EdgeDataT :=
  { numNodes := nodes, adj := fun _ => [] }

/-- Modelled from the spec: the constructor `DynamicGraph(nodes, graph)` from an edge
list sorted by source: node `n` receives the edges of source `n`, in list order. -/
def ofEdges (nodes : Nat) (graph : List (InputEdge EdgeDataT)) : DynamicGraph EdgeDataT :=
  { numNodes := nodes
    adj := fun n => (graph.filter (fun e => e.source == n)).map (fun e => ⟨e.target, e.data⟩) }

def GetNumberOfNodes (g : DynamicGraph EdgeDataT) : Nat := g.numNodes

/-- Modelled from the spec: `InsertEdge(from, to, data)` appends to the range of `from`. -/
def InsertEdge (g : DynamicGraph EdgeDataT) (src dst : NodeID) (data : EdgeDataT) :
    DynamicGraph EdgeDataT :=
  { g with adj := Function.update g.adj src (g.adj src ++ [⟨dst, data⟩]) }

/-- Modelled from the spec: `DeleteEdgesTo(source, target)` deletes all edges from
`source` to `target`. -/
def DeleteEdgesTo (g : DynamicGraph EdgeDataT) (source target : NodeID) : DynamicGraph EdgeDataT :=
  { g with adj := Function.update g.adj source ((g.adj source).filter (fun e => e.target != target)) }

/-- Modelled from the spec: `FindEdge(from, to)`, the position of the first edge of `from`
whose target is `to`; `none` stands for the result `EndEdges(from)`. -/
def FindEdge (g : DynamicGraph EdgeDataT) (src dst : NodeID) : Option Nat :=
  (g.adj src).findIdx? (fun e => e.target == dst)

/-- Assignment through the reference `GetEdgeData(e)` for the edge at position `e` of `src`. -/
def SetEdgeData (g : DynamicGraph EdgeDataT) (src : NodeID) (e : Nat) (f : EdgeDataT → EdgeDataT) :
    DynamicGraph EdgeDataT :=
  { g with adj := Function.update g.adj src ((g.adj src).modify (fun x => { x with data := f x.data }) e) }

end DynamicGraph

/-! ## Contractor: data -/

namespace Contractor

/-- The struct `_EdgeBasedContractorEdgeData`. -/
structure _EdgeBasedContractorEdgeData where
  distance : Nat
  originalEdges : Nat
  via : Nat
  nameID : Nat
  turnInstruction : Int
  shortcut : Bool
  forward : Bool
  backward : Bool
  originalViaNodeID : Bool
deriving DecidableEq, Repr, Inhabited

/-- The struct `_HeapData`. -/
structure _HeapData where
  hop : Int
  target : Bool
deriving DecidableEq, Repr, Inhabited

/-- The struct `_PriorityData`. -/
structure _PriorityData where
  depth : Int
  bias : NodeID
deriving DecidableEq, Repr, Inhabited

/-- The struct `_ContractionInformation`. -/
structure _ContractionInformation where
  edgesDeleted : Int
  edgesAdded : Int
  originalEdgesDeleted : Int
  originalEdgesAdded : Int
deriving DecidableEq, Repr, Inhabited

abbrev _DynamicGraph := DynamicGraph _EdgeBasedContractorEdgeData
abbrev _Edge := DynamicGraph.Edge _EdgeBasedContractorEdgeData
abbrev _ImportEdge := DynamicGraph.InputEdge _EdgeBasedContractorEdgeData

end Contractor

/-! ## BinaryHeap -/

namespace BinaryHeap

/-- An element of the heap: node id, key (`weight`), auxiliary data, and whether the
node is still in the heap (`false` once `DeleteMin` has removed it). -/
structure HeapNode where
  node : NodeID
  weight : Int
  data : Contractor._HeapData
  inHeap : Bool
deriving DecidableEq, Repr, Inhabited

end BinaryHeap

/-- Modelled from the spec: the class `BinaryHeap<NodeID, NodeID, int, _HeapData>` of
`DataStructures/BinaryHeap.h`, which is not among the sources. Section 4.2: an
addressable min-heap keyed by node id; the list holds every node inserted since the
last `Clear`, most recent first, and keeps the final key of a deleted node. -/
abbrev BinaryHeap := List BinaryHeap.HeapNode

namespace BinaryHeap

def Clear (_ : BinaryHeap) : BinaryHeap := []

def Size (h : BinaryHeap) : Nat := (h.filter (fun e => e.inHeap)).length

def WasInserted (h : BinaryHeap) (node : NodeID) : Bool := h.any (fun e => e.node == node)

def Insert (h : BinaryHeap) (node : NodeID) (weight : Int) (data : Contractor._HeapData) :
    BinaryHeap :=
  ⟨node, weight, data, true⟩ :: h

def GetKey (h : BinaryHeap) (node : NodeID) : Int :=
  match h.find? (fun e => e.node == node) with
  | some e => e.weight
  | none => 0

def GetData (h : BinaryHeap) (node : NodeID) : Contractor._HeapData :=
  match h.find? (fun e => e.node == node) with
  | some e => e.data
  | none => default

def DecreaseKey (h : BinaryHeap) (node : NodeID) (weight : Int) : BinaryHeap :=
  h.map (fun e => if e.node == node then { e with weight := weight } else e)

/-- Assignment `GetData(node).hop = hop` through the reference that `GetData` returns. -/
def SetHop (h : BinaryHeap) (node : NodeID) (hop : Int) : BinaryHeap :=
  h.map (fun e => if e.node == node then { e with data := { e.data with hop := hop } } else e)

/-- The element that `DeleteMin` removes: one of minimal key among those in the heap. -/
def minNode : BinaryHeap → Option HeapNode
  | [] => none
  | e :: rest =>
    if e.inHeap then
      match minNode rest with
      | none => some e
      | some m => if m.weight < e.weight then some m else some e
    else minNode rest

/-- The operation `DeleteMin`: the removed node id and the heap without it. -/
def DeleteMin (h : BinaryHeap) : NodeID × BinaryHeap :=
  match minNode h with
  | some m => (m.node, h.map (fun e => if e.node == m.node then { e with inHeap := false } else e))
  | none => (0, h)

end BinaryHeap

/-! ## Contractor: witness search and contraction -/

namespace Contractor

abbrev _Heap := BinaryHeap

/-- The body of the edge loop of `_Dijkstra` for the edge `e` of the settled node. -/
def relaxStep (distance : Int) (currentHop : Int) (heap : _Heap) (e : _Edge) : _Heap :=
  if !e.data.forward then heap
  else
    let toNode := e.target
    let toDistance : Int := distance + (e.data.distance : Int)
    if !heap.WasInserted toNode then heap.Insert toNode toDistance ⟨currentHop, false⟩
    else if toDistance < heap.GetKey toNode then
      (heap.DecreaseKey toNode toDistance).SetHop toNode currentHop
    else heap

/-- The edge loop of `_Dijkstra`: relax the forward edges of the settled node. -/
def relaxEdges (distance : Int) (currentHop : Int) (heap : _Heap) (edges : List _Edge) : _Heap :=
  edges.foldl (relaxStep distance currentHop) heap

/-- The `while` loop of `_Dijkstra`, with the counters `nodes` and `targetsFound`. The
first argument bounds the number of iterations; `maxNodes + 1 - nodes` is enough,
because the loop returns as soon as `++nodes > maxNodes`. -/
def dijkstraLoop (g : _DynamicGraph) (maxDistance : Int) (numTargets : Nat) (maxNodes : Int)
    (hopLimit : Int) : Nat → Int → Nat → _Heap → _Heap
  | 0, _, _, heap => heap
  | fuel + 1, nodes, targetsFound, heap =>
    if heap.Size > 0 then
      let node := heap.DeleteMin.1
      let heap := heap.DeleteMin.2
      let distance := heap.GetKey node
      let currentHop := toShort ((heap.GetData node).hop + 1)
      let nodes := nodes + 1
      if nodes > maxNodes then heap
      else if distance > maxDistance then heap
      else
        let targetsFound := if (heap.GetData node).target then targetsFound + 1 else targetsFound
        if (heap.GetData node).target && targetsFound ≥ numTargets then heap
        else if currentHop ≥ hopLimit then
          dijkstraLoop g maxDistance numTargets maxNodes hopLimit fuel nodes targetsFound heap
        else
          dijkstraLoop g maxDistance numTargets maxNodes hopLimit fuel nodes targetsFound
            (relaxEdges distance currentHop heap (g.adj node))
    else heap

/-- The function `_Dijkstra`: the heap of the worker after the bounded search. -/
def _Dijkstra (g : _DynamicGraph) (maxDistance : Int) (numTargets : Nat) (maxNodes : Int)
    (hopLimit : Int) (heap : _Heap) : _Heap :=
  dijkstraLoop g maxDistance numTargets maxNodes hopLimit (maxNodes + 1).toNat 0 0 heap

/-- The default constructor `_HeapData()`. -/
def _HeapData.init : _HeapData := ⟨0, false⟩

/-- The body of the heap seeding loop of `_Contract` for the out-edge `outEdge`; the
state is the heap together with `maxDistance` and `numTargets`. -/
def seedStep (inData : _EdgeBasedContractorEdgeData) (st : _Heap × Int × Nat) (outEdge : _Edge) :
    _Heap × Int × Nat :=
  let outData := outEdge.data
  if !outData.forward then st
  else
    let target := outEdge.target
    let pathDistance : Int := ((inData.distance + outData.distance : Nat) : Int)
    let maxDistance := max st.2.1 pathDistance
    if !st.1.WasInserted target then
      (st.1.Insert target pathDistance ⟨0, true⟩, maxDistance, st.2.2 + 1)
    else if pathDistance < st.1.GetKey target then
      (st.1.DecreaseKey target pathDistance, maxDistance, st.2.2)
    else (st.1, maxDistance, st.2.2)

/-- The heap seeding loop of `_Contract` over the out-edges of `node`: every forward
out-edge enters its target with key `pathDistance`. -/
def seedTargets (inData : _EdgeBasedContractorEdgeData) (heap : _Heap) (outEdges : List _Edge) :
    _Heap × Int × Nat :=
  outEdges.foldl (seedStep inData) (heap, 0, 0)

/-- The shortcut built for in-edge `inData` (from `source`) and out-edge `outData` (to
`target`) of `node`, as the eight argument constructor of the edge data builds it. -/
def newShortcut (node source target : NodeID) (inData outData : _EdgeBasedContractorEdgeData)
    (pathDistance : Int) : _ImportEdge :=
  { source := source
    target := target
    data :=
      { distance := pathDistance.toNat
        originalEdges := outData.originalEdges + inData.originalEdges
        via := node
        nameID := 0
        turnInstruction := inData.turnInstruction
        shortcut := true
        forward := true
        backward := false
        originalViaNodeID := false } }

/-- The edge pushed second: `newShortcut` with source and target swapped, backward only. -/
def swapShortcut (e : _ImportEdge) : _ImportEdge :=
  { source := e.target
    target := e.source
    data := { e.data with forward := false, backward := true } }

/-- The body of the decision loop of `_Contract` for the out-edge `outEdge`: a shortcut
is required when `pathDistance <= heap.GetKey(target)`. -/
def shortcutStep (Simulate : Bool) (node source : NodeID) (inData : _EdgeBasedContractorEdgeData)
    (heap : _Heap) (st : List _ImportEdge × _ContractionInformation) (outEdge : _Edge) :
    List _ImportEdge × _ContractionInformation :=
  let outData := outEdge.data
  if !outData.forward then st
  else
    let target := outEdge.target
    let pathDistance : Int := ((inData.distance + outData.distance : Nat) : Int)
    let distance := heap.GetKey target
    if pathDistance ≤ distance then
      if Simulate then
        (st.1, { st.2 with
          edgesAdded := st.2.edgesAdded + 2
          originalEdgesAdded :=
            st.2.originalEdgesAdded + ((2 * (outData.originalEdges + inData.originalEdges) : Nat) : Int) })
      else
        let newEdge := newShortcut node source target inData outData pathDistance
        (st.1 ++ [newEdge, swapShortcut newEdge], st.2)
    else st

/-- The decision loop of `_Contract` over the out-edges of `node` after the witness search. -/
def addShortcuts (Simulate : Bool) (node source : NodeID) (inData : _EdgeBasedContractorEdgeData)
    (heap : _Heap) (st : List _ImportEdge × _ContractionInformation) (outEdges : List _Edge) :
    List _ImportEdge × _ContractionInformation :=
  outEdges.foldl (shortcutStep Simulate node source inData heap) st

/-- The heap that `_Contract` hands to `_Dijkstra` for the in-edge `inEdge` of `node`. -/
def seedHeap (g : _DynamicGraph) (node : NodeID) (inEdge : _Edge) : _Heap × Int × Nat :=
  let source := inEdge.target
  let heap := (BinaryHeap.Clear []).Insert source 0 _HeapData.init
  let heap := if node != source then heap.Insert node (inEdge.data.distance : Int) _HeapData.init else heap
  seedTargets inEdge.data heap (g.adj node)

/-- The heap after the witness search of `_Contract` for the in-edge `inEdge` of `node`. -/
def witnessSearch (Simulate : Bool) (g : _DynamicGraph) (node : NodeID) (inEdge : _Edge) : _Heap :=
  let seeded := seedHeap g node inEdge
  if Simulate then _Dijkstra g seeded.2.1 seeded.2.2 1000 (INT_MAX : Int) seeded.1
  else _Dijkstra g seeded.2.1 seeded.2.2 2000 (INT_MAX : Int) seeded.1

/-- The body of the loop of `_Contract` over the in-edges of `node`. The heap of the
worker is cleared for every in-edge, so it is not part of the state. -/
def contractStep (Simulate : Bool) (g : _DynamicGraph) (node : NodeID)
    (st : List _ImportEdge × _ContractionInformation) (inEdge : _Edge) :
    List _ImportEdge × _ContractionInformation :=
  let inData := inEdge.data
  let source := inEdge.target
  let stats : _ContractionInformation :=
    if Simulate then
      { st.2 with
        edgesDeleted := st.2.edgesDeleted + 1
        originalEdgesDeleted := st.2.originalEdgesDeleted + (inData.originalEdges : Int) }
    else st.2
  if !inData.backward then (st.1, stats)
  else
    addShortcuts Simulate node source inData (witnessSearch Simulate g node inEdge)
      (st.1, stats) (g.adj node)

/-- The loop of `_Contract` over the in-edges of `node` (before the duplicate merge). -/
def contractLoop (Simulate : Bool) (g : _DynamicGraph) (node : NodeID)
    (st : List _ImportEdge × _ContractionInformation) : List _ImportEdge × _ContractionInformation :=
  (g.adj node).foldl (contractStep Simulate g node) st

/-- The four `continue` tests of the duplicate search of `_Contract`. -/
def sameShortcut (a b : _ImportEdge) : Bool :=
  a.source == b.source && a.target == b.target && a.data.distance == b.data.distance
    && a.data.shortcut == b.data.shortcut

/-- One iteration `i` of the duplicate merge of `_Contract`; the state is the vector
`insertedEdges` and the write index `insertedEdgesSize`. -/
def mergeStep (iend : Nat) (st : List _ImportEdge × Nat) (i : Nat) : List _ImportEdge × Nat :=
  let insertedEdges := st.1
  match (List.range' (i + 1) (iend - (i + 1))).find?
      (fun other => sameShortcut (insertedEdges.getD other default) (insertedEdges.getD i default)) with
  | some other =>
    (insertedEdges.modify (fun o => { o with data := { o.data with
        forward := o.data.forward || (insertedEdges.getD i default).data.forward
        backward := o.data.backward || (insertedEdges.getD i default).data.backward } }) other, st.2)
  | none => (insertedEdges.set st.2 (insertedEdges.getD i default), st.2 + 1)

/-- The duplicate merge at the end of `_Contract<false>`, in place on `insertedEdges`
from the index `insertedEdgesSize` on, and the final `resize`. -/
def mergeDuplicates (insertedEdgesSize : Nat) (insertedEdges : List _ImportEdge) : List _ImportEdge :=
  let iend := insertedEdges.length
  let st := (List.range' insertedEdgesSize (iend - insertedEdgesSize)).foldl (mergeStep iend)
    (insertedEdges, insertedEdgesSize)
  st.1.take st.2

/-- The function `_Contract<Simulate>`: the buffer `insertedEdges` of the worker and the
statistics after the (simulated) contraction of `node`. -/
def _Contract (Simulate : Bool) (g : _DynamicGraph) (insertedEdges : List _ImportEdge) (node : NodeID)
    (stats : _ContractionInformation) : List _ImportEdge × _ContractionInformation :=
  let insertedEdgesSize := insertedEdges.length
  let st := contractLoop Simulate g node (insertedEdges, stats)
  if !Simulate then (mergeDuplicates insertedEdgesSize st.1, st.2) else st

/-- The algorithm `std::unique`: consecutive equal elements are reduced to one. -/
def unique {α : Type} [DecidableEq α] : List α → List α
  | [] => []
  | a :: rest =>
    match rest with
    | [] => [a]
    | b :: _ => if a = b then unique rest else a :: unique rest

/-- The neighbour collection shared by `_DeleteIncomingEdges` and `_UpdateNeighbours`:
the targets of the edges of `node` other than `node`, sorted and made unique. -/
def sortedNeighbours (g : _DynamicGraph) (node : NodeID) : List NodeID :=
  unique ((((g.adj node).filter (fun e => e.target != node)).map (fun e => e.target)).insertionSort (· ≤ ·))

/-- The function `_DeleteIncomingEdges`. -/
def _DeleteIncomingEdges (g : _DynamicGraph) (node : NodeID) : _DynamicGraph :=
  (sortedNeighbours g node).foldl (fun g u => g.DeleteEdgesTo u node) g

/-- One iteration of the loop "insert new edges" of `Run` for the buffered edge `edge`. -/
def insertEdgeStep (g : _DynamicGraph) (edge : _ImportEdge) : _DynamicGraph :=
  match g.FindEdge edge.source edge.target with
  | some currentEdgeID =>
    let currentEdgeData := ((g.adj edge.source).getD currentEdgeID default).data
    if edge.data.forward == currentEdgeData.forward && edge.data.backward == currentEdgeData.backward then
      if currentEdgeData.distance ≤ edge.data.distance then g
      else if currentEdgeData.distance > edge.data.distance then
        g.SetEdgeData edge.source currentEdgeID (fun d => { d with distance := edge.data.distance })
      else g.InsertEdge edge.source edge.target edge.data
    else g.InsertEdge edge.source edge.target edge.data
  | none => g.InsertEdge edge.source edge.target edge.data

/-- The loop "insert new edges" of `Run` over the buffer of the worker. -/
def insertNewEdges (g : _DynamicGraph) (insertedEdges : List _ImportEdge) : _DynamicGraph :=
  insertedEdges.foldl insertEdgeStep g

/-- Modelled from the spec: `InputEdge::operator<` of `DynamicGraph.h` (not among the
sources), the lexicographic order on `(source, target)` of section 4.4, here as the
reflexive order that the sorting needs. -/
def edgeLE {EdgeDataT : Type} (a b : DynamicGraph.InputEdge EdgeDataT) : Prop :=
  a.source < b.source ∨ (a.source = b.source ∧ a.target ≤ b.target)

instance {EdgeDataT : Type} : DecidableRel (@edgeLE EdgeDataT) :=
  fun a b => by unfold edgeLE; exact inferInstance

/-- The call `std::sort` on a vector of edges, as a stable sort by `(source, target)`. -/
def sortEdges {EdgeDataT : Type} (edges : List (DynamicGraph.InputEdge EdgeDataT)) :
    List (DynamicGraph.InputEdge EdgeDataT) :=
  edges.insertionSort edgeLE

/-! ## Contractor: priorities and independence -/

/-- The function `_Evaluate`: the priority of `node` from a simulated contraction. -/
def _Evaluate (g : _DynamicGraph) (nodeData : _PriorityData) (node : NodeID) : ℚ :=
  let stats := (_Contract true g [] node ⟨0, 0, 0, 0⟩).2
  if stats.edgesDeleted == 0 || stats.originalEdgesDeleted == 0 then
    1 * (nodeData.depth : ℚ)
  else
    2 * ((stats.edgesAdded : ℚ) / (stats.edgesDeleted : ℚ))
      + 4 * ((stats.originalEdgesAdded : ℚ) / (stats.originalEdgesDeleted : ℚ))
      + 1 * (nodeData.depth : ℚ)

/-- The body shared by the two edge loops of `_IsIndependent`: `false` as soon as a
target has a lower priority, or the same priority and a larger bias, than `node`. -/
def independentOver (priorities : List ℚ) (nodeData : List _PriorityData) (node : NodeID) :
    List _Edge → Bool
  | [] => true
  | e :: rest =>
    let priority := priorities.getD node 0
    let target := e.target
    let targetPriority := priorities.getD target 0
    if priority > targetPriority then false
    else if priority == targetPriority
        && decide ((nodeData.getD node default).bias < (nodeData.getD target default).bias) then false
    else independentOver priorities nodeData node rest

/-- The function `_IsIndependent`. -/
def _IsIndependent (g : _DynamicGraph) (priorities : List ℚ) (nodeData : List _PriorityData)
    (node : NodeID) : Bool :=
  if !independentOver priorities nodeData node (g.adj node) then false
  else
    let neighbours := unique (((g.adj node).map (fun e => e.target)).insertionSort (· ≤ ·))
    neighbours.all (fun u => independentOver priorities nodeData node (g.adj u))

/-- The function `_UpdateNeighbours`: the vectors `priorities` and `nodeData` afterwards. -/
def _UpdateNeighbours (g : _DynamicGraph) (priorities : List ℚ) (nodeData : List _PriorityData)
    (node : NodeID) : List ℚ × List _PriorityData :=
  let nodeData := (g.adj node).foldl (fun nodeData e =>
    let u := e.target
    if u == node then nodeData
    else nodeData.modify (fun d => { d with depth := max ((nodeData.getD node default).depth + 1) d.depth }) u)
    nodeData
  let priorities := (sortedNeighbours g node).foldl (fun priorities u =>
    priorities.set u (_Evaluate g (nodeData.getD u default) u)) priorities
  (priorities, nodeData)

/-! ## Contractor: graph preparation -/

/-- The template parameter `InputEdge` of the constructor, through its accessors:
`weight` is the value of `(int)currentEdge.weight()`. -/
structure EdgeBasedEdge where
  source : NodeID
  target : NodeID
  weight : Int
  via : Nat
  nameIDOfTurnTarget : Nat
  turnInstruction : Int
  isForward : Bool
  isBackward : Bool
deriving DecidableEq, Repr, Inhabited

/-- The first loop of the constructor: both directed copies of every input edge. With
`NDEBUG` defined an edge heavier than `24 * 60 * 60 * 10` is skipped. -/
def directedCopies (NDEBUG : Bool) (inputEdges : List EdgeBasedEdge) : List _ImportEdge :=
  inputEdges.foldl (fun edges currentEdge =>
    let edge : _ImportEdge :=
      { source := currentEdge.source
        target := currentEdge.target
        data :=
          { distance := (max currentEdge.weight 1).toNat
            originalEdges := 1
            via := currentEdge.via
            nameID := currentEdge.nameIDOfTurnTarget
            turnInstruction := currentEdge.turnInstruction
            shortcut := false
            forward := currentEdge.isForward
            backward := currentEdge.isBackward
            originalViaNodeID := false } }
    if NDEBUG && decide (edge.data.distance > 24 * 60 * 60 * 10) then edges
    else
      edges ++ [edge, { source := edge.target, target := edge.source,
                        data := { edge.data with forward := currentEdge.isBackward,
                                                 backward := currentEdge.isForward } }]) []

/-- The inner `while` of the reduction: the minimum of the distances of the edges of
a run that satisfy `flag`, starting from `INT_MAX`. -/
def minDistance (flag : _ImportEdge → Bool) (run : List _ImportEdge) : Nat :=
  run.foldl (fun d e => if flag e then min e.data.distance d else d) INT_MAX

/-- The reduction loop of the constructor, in place on the sorted vector `edges`: `i` is
the read index and `edge` the write index. `uninit` is the bit `originalViaNodeID`,
which the default constructor of the edge data leaves uninitialised. The first
argument bounds the number of iterations (`edges.size()` is enough, `i` grows). -/
def reduceEdges (uninit : Bool) : Nat → List _ImportEdge → Nat → Nat → List _ImportEdge × Nat
  | 0, edges, _, edge => (edges, edge)
  | fuel + 1, edges, i, edge =>
    if i < edges.length then
      let source := (edges.getD i default).source
      let target := (edges.getD i default).target
      let via := (edges.getD i default).data.via
      let turnType := (edges.getD i default).data.turnInstruction
      if source == target then reduceEdges uninit fuel edges (i + 1) edge
      else
        let run := (edges.drop i).takeWhile (fun e => e.source == source && e.target == target)
        let forwardEdge : _ImportEdge :=
          { source := source
            target := target
            data :=
              { distance := minDistance (fun e => e.data.forward) run
                originalEdges := 1
                via := via
                nameID := (edges.getD i default).data.nameID
                turnInstruction := turnType
                shortcut := false
                forward := true
                backward := false
                originalViaNodeID := uninit } }
        let backwardEdge : _ImportEdge :=
          { forwardEdge with
            data := { forwardEdge.data with
              distance := minDistance (fun e => e.data.backward) run
              forward := false
              backward := true } }
        let i := i + run.length
        if forwardEdge.data.distance == backwardEdge.data.distance then
          if forwardEdge.data.distance != INT_MAX then
            reduceEdges uninit fuel
              (edges.set edge { forwardEdge with data := { forwardEdge.data with backward := true } })
              i (edge + 1)
          else reduceEdges uninit fuel edges i edge
        else
          let st1 := if forwardEdge.data.distance != INT_MAX then (edges.set edge forwardEdge, edge + 1)
            else (edges, edge)
          let st2 := if backwardEdge.data.distance != INT_MAX then (st1.1.set st1.2 backwardEdge, st1.2 + 1)
            else st1
          reduceEdges uninit fuel st2.1 i st2.2
    else (edges, edge)

/-- The vector `edges` of the constructor after the reduction and `edges.resize(edge)`. -/
def preparedEdges (NDEBUG uninit : Bool) (inputEdges : List EdgeBasedEdge) : List _ImportEdge :=
  let edges := sortEdges (directedCopies NDEBUG inputEdges)
  let st := reduceEdges uninit edges.length edges 0 0
  st.1.take st.2

/-- The constructor `Contractor(nodes, inputEdges)`: the graph `_graph`. -/
def Contractor (NDEBUG uninit : Bool) (nodes : Nat) (inputEdges : List EdgeBasedEdge) : _DynamicGraph :=
  DynamicGraph.ofEdges nodes (preparedEdges NDEBUG uninit inputEdges)

/-! ## Contractor: the main loop -/

/-- The local state of `Run` together with the members of the class that `Run` writes.
`temporaryEdgeStorage` is the content of the temporary file: the spilled edges. -/
structure RunState where
  graph : _DynamicGraph
  numberOfContractedNodes : Nat
  remainingNodes : List (NodeID × Bool)
  nodePriority : List ℚ
  nodeData : List _PriorityData
  flushedContractor : Bool
  oldNodeIDFromNewNodeIDMap : List NodeID
  temporaryEdgeStorage : List _ImportEdge

/-- The renumbering loop of the compaction: the state is `oldNodeIDFromNewNodeIDMap`,
`newNodeIDFromOldNodeIDMap`, `newNodePriority` and `remainingNodes`. -/
def renumber (nodePriority : List ℚ) (count : Nat)
    (st : List NodeID × List NodeID × List ℚ × List (NodeID × Bool)) :
    List NodeID × List NodeID × List ℚ × List (NodeID × Bool) :=
  (List.range count).foldl (fun st newNodeID =>
    let old := (st.2.2.2.getD newNodeID default).1
    (st.1.set newNodeID old,
     st.2.1.set old newNodeID,
     st.2.2.1.set newNodeID (nodePriority.getD old 0),
     st.2.2.2.modify (fun p => (newNodeID, p.2)) newNodeID)) st

/-- The walk over all nodes of the compaction: the edges of a contracted node go to the
temporary file with their ids unchanged, the edges of the other nodes go renumbered
into the new graph. The state is the new graph and the file content. -/
def moveEdges (g : _DynamicGraph) (newNodeIDFromOldNodeIDMap : List NodeID)
    (st : _DynamicGraph × List _ImportEdge) : _DynamicGraph × List _ImportEdge :=
  (List.range g.GetNumberOfNodes).foldl (fun st i =>
    (g.adj i).foldl (fun st currentEdge =>
      let start := i
      let target := currentEdge.target
      if UINT_MAX == newNodeIDFromOldNodeIDMap.getD i 0 then
        (st.1, st.2 ++ [⟨start, target, currentEdge.data⟩])
      else
        (st.1.InsertEdge (newNodeIDFromOldNodeIDMap.getD start 0)
            (newNodeIDFromOldNodeIDMap.getD target 0)
            { currentEdge.data with originalViaNodeID := true }, st.2)) st) st

/-- The mid-run compaction of `Run` (the body of the `if` on `flushedContractor`). -/
def flush (numberOfNodes : Nat) (st : RunState) : RunState :=
  let count := st.remainingNodes.length
  let maps := renumber st.nodePriority count
    (st.oldNodeIDFromNewNodeIDMap.take count
        ++ List.replicate (count - st.oldNodeIDFromNewNodeIDMap.length) 0,
     List.replicate numberOfNodes UINT_MAX,
     List.replicate count 0,
     st.remainingNodes)
  let moved := moveEdges st.graph maps.2.1 (DynamicGraph.empty count, [])
  { st with
    graph := moved.1
    remainingNodes := maps.2.2.2
    nodePriority := maps.2.2.1
    flushedContractor := true
    oldNodeIDFromNewNodeIDMap := maps.1
    temporaryEdgeStorage := moved.2 }

/-- The algorithm `std::stable_partition` with `_NodePartitionor`: the nodes that are
not independent first, the independent ones last, both in their order. -/
def partitionNodes (remainingNodes : List (NodeID × Bool)) : List (NodeID × Bool) :=
  remainingNodes.filter (fun p => !p.2) ++ remainingNodes.filter (fun p => p.2)

/-- One iteration of the `while` loop of `Run`. -/
def round (numberOfNodes : Nat) (st0 : RunState) : RunState :=
  let st :=
    if !st0.flushedContractor
        && decide ((st0.numberOfContractedNodes : ℚ) > (numberOfNodes : ℚ) * (3 / 4)) then
      flush numberOfNodes st0
    else st0
  let last := st.remainingNodes.length
  let marked := st.remainingNodes.map
    (fun p => (p.1, _IsIndependent st.graph st.nodePriority st.nodeData p.1))
  let remainingNodes := partitionNodes marked
  let firstIndependent := (marked.filter (fun p => !p.2)).length
  let independent := (remainingNodes.drop firstIndependent).map (fun p => p.1)
  let contracted := independent.foldl (fun (acc : List _ImportEdge × List ℚ) x =>
    ((_Contract false st.graph acc.1 x default).1, acc.2.set x (-1))) ([], st.nodePriority)
  let insertedEdges := sortEdges contracted.1
  let graph := independent.foldl _DeleteIncomingEdges st.graph
  let graph := insertNewEdges graph insertedEdges
  let updated := independent.foldl (fun (acc : List ℚ × List _PriorityData) x =>
    _UpdateNeighbours graph acc.1 acc.2 x) (contracted.2, st.nodeData)
  { st with
    graph := graph
    numberOfContractedNodes := st.numberOfContractedNodes + (last - firstIndependent)
    remainingNodes := remainingNodes.take firstIndependent
    nodePriority := updated.1
    nodeData := updated.2 }

/-- The state of `Run` when the `while` loop is entered. `shuffled` is the order that
`std::random_shuffle` leaves in `remainingNodes`. -/
def initialState (g : _DynamicGraph) (shuffled : List NodeID) : RunState :=
  let numberOfNodes := g.GetNumberOfNodes
  let remainingNodes : List (NodeID × Bool) := shuffled.map (fun x => (x, false))
  let nodeData : List _PriorityData := (List.range numberOfNodes).foldl (fun nodeData x =>
    nodeData.modify (fun d => { d with bias := x }) (remainingNodes.getD x default).1)
    (List.replicate numberOfNodes ⟨0, 0⟩)
  let nodePriority : List ℚ := (List.range numberOfNodes).map
    (fun x => _Evaluate g (nodeData.getD x default) x)
  { graph := g
    numberOfContractedNodes := 0
    remainingNodes := remainingNodes
    nodePriority := nodePriority
    nodeData := nodeData
    flushedContractor := false
    oldNodeIDFromNewNodeIDMap := []
    temporaryEdgeStorage := [] }

/-- The `while` loop of `Run`; `none` when the bound on the number of rounds is used up
before the loop condition fails. -/
def runLoop (numberOfNodes : Nat) : Nat → RunState → Option RunState
  | 0, st => if st.numberOfContractedNodes < numberOfNodes then none else some st
  | fuel + 1, st =>
    if st.numberOfContractedNodes < numberOfNodes then runLoop numberOfNodes fuel (round numberOfNodes st)
    else some st

/-- The function `Run`, with one round per node as the bound of the loop. -/
def Run (g : _DynamicGraph) (shuffled : List NodeID) : Option RunState :=
  runLoop g.GetNumberOfNodes g.GetNumberOfNodes (initialState g shuffled)

/-- The data of an edge that `GetEdges` emits: the fields of `Edge::data` that it
assigns. -/
structure OutputEdgeData where
  distance : Nat
  shortcut : Bool
  via : Nat
  nameID : Nat
  turnInstruction : Int
  forward : Bool
  backward : Bool
deriving DecidableEq, Repr, Inhabited

/-- An edge that `GetEdges` emits (the template parameter `Edge`). -/
structure OutputEdge where
  source : NodeID
  target : NodeID
  data : OutputEdgeData
deriving DecidableEq, Repr, Inhabited

/-- All the elements of a list of lookups, `none` when one of them failed. -/
def collect {α : Type} : List (Option α) → Option (List α)
  | [] => some []
  | none :: _ => none
  | some a :: r => (collect r).map (fun l => a :: l)

/-- The body of the inner loop of `GetEdges` for the edge `e` of the node `node`; `none`
when `oldNodeIDFromNewNodeIDMap` is indexed out of its bounds. -/
def outputEdge (oldNodeIDFromNewNodeIDMap : List NodeID) (node : NodeID) (e : _Edge) :
    Option OutputEdge :=
  match oldNodeIDFromNewNodeIDMap[node]?, oldNodeIDFromNewNodeIDMap[e.target]?,
      (if !e.data.originalViaNodeID then oldNodeIDFromNewNodeIDMap[e.data.via]?
        else some e.data.via) with
  | some source, some target, some via =>
    some ⟨source, target, ⟨e.data.distance, e.data.shortcut, via, e.data.nameID,
      e.data.turnInstruction, e.data.forward, e.data.backward⟩⟩
  | _, _, _ => none

/-- The edge that `GetEdges` makes of an edge read from the temporary file. -/
def storedEdge (e : _ImportEdge) : OutputEdge :=
  ⟨e.source, e.target, ⟨e.data.distance, e.data.shortcut, e.data.via, e.data.nameID,
    e.data.turnInstruction, e.data.forward, e.data.backward⟩⟩

/-- The edges of the in-memory graph in the order of the two loops of `GetEdges`, each
with its node. -/
def graphEdges (g : _DynamicGraph) : List (NodeID × _Edge) :=
  (List.range g.GetNumberOfNodes).flatMap (fun node => (g.adj node).map (fun e => (node, e)))

/-- The function `GetEdges` on the state that `Run` left: the edges of the in-memory
graph, then the edges of the temporary file; `none` when a lookup in
`oldNodeIDFromNewNodeIDMap` is out of bounds. -/
def GetEdges (st : RunState) : Option (List OutputEdge) :=
  (collect ((graphEdges st.graph).map
      (fun p => outputEdge st.oldNodeIDFromNewNodeIDMap p.1 p.2))).map
    (fun edges => edges ++ st.temporaryEdgeStorage.map storedEdge)

end Contractor

/-! ## partition: edge preparation of `edge_based_graph_reader.hpp` -/

namespace partition

/-- The struct `extractor::EdgeBasedEdge::EdgeData`, also the base of
`EdgeBasedGraphEdgeData`; its declaration is not among the sources, the fields are
those that `edge_based_graph_reader.hpp` reads and writes. -/
structure EdgeData where
  edge_id : Nat
  weight : Int
  payload : Nat
  forward : Bool
  backward : Bool
deriving DecidableEq, Repr, Inhabited

abbrev EdgeBasedEdge := DynamicGraph.InputEdge EdgeData
abbrev EdgeBasedGraphEdge := DynamicGraph.InputEdge EdgeData

/-- The function `splitBidirectionalEdges`. -/
def splitBidirectionalEdges (edges : List EdgeBasedEdge) : List EdgeBasedEdge :=
  edges.foldl (fun directed edge =>
    directed ++
      [⟨edge.source, edge.target,
        ⟨edge.data.edge_id, max edge.data.weight 1, edge.data.payload,
          edge.data.forward, edge.data.backward⟩⟩,
       ⟨edge.target, edge.source,
        ⟨edge.data.edge_id, max edge.data.weight 1, edge.data.payload,
          edge.data.backward, edge.data.forward⟩⟩]) []

/-- The inner `while` of `prepareEdgesForUsageInGraph` for one direction: the first edge
of least weight below the initial weight among those of the run that satisfy `flag`. -/
def lightest (flag : EdgeBasedEdge → Bool) (init : EdgeBasedGraphEdge) (run : List EdgeBasedEdge) :
    EdgeBasedGraphEdge :=
  run.foldl (fun acc e =>
    if flag e then
      if e.data.weight < acc.data.weight then
        { acc with data := { acc.data with weight := e.data.weight, payload := e.data.payload } }
      else acc
    else acc) init

/-- The loop of `prepareEdgesForUsageInGraph`: the first list is `edges` from the index
`i` on, the second is `graph_edges`. The constants `INVALID_EDGE_WEIGHT` and
`INVALID_PAYLOAD` of `util/typedefs.hpp` (not among the sources) are parameters. The
first argument bounds the number of iterations (`edges.size()` is enough). -/
def prepareLoop (INVALID_EDGE_WEIGHT : Int) (INVALID_PAYLOAD : Nat) :
    Nat → List EdgeBasedEdge → List EdgeBasedGraphEdge → List EdgeBasedGraphEdge
  | 0, _, graph_edges => graph_edges
  | _ + 1, [], graph_edges => graph_edges
  | fuel + 1, first :: rest, graph_edges =>
    let source := first.source
    let target := first.target
    if source == target then prepareLoop INVALID_EDGE_WEIGHT INVALID_PAYLOAD fuel rest graph_edges
    else
      let run := (first :: rest).takeWhile (fun e => e.source == source && e.target == target)
      let forward_init : EdgeBasedGraphEdge :=
        ⟨source, target, ⟨first.data.edge_id, INVALID_EDGE_WEIGHT, INVALID_PAYLOAD, true, false⟩⟩
      let reverse_init : EdgeBasedGraphEdge :=
        ⟨source, target, ⟨first.data.edge_id, INVALID_EDGE_WEIGHT, INVALID_PAYLOAD, false, true⟩⟩
      let forward_edge := lightest (fun e => e.data.forward) forward_init run
      let reverse_edge := lightest (fun e => e.data.backward) reverse_init run
      let emitted : List EdgeBasedGraphEdge :=
        if forward_edge.data.weight == reverse_edge.data.weight then
          if forward_edge.data.weight != INVALID_EDGE_WEIGHT then
            [{ forward_edge with data := { forward_edge.data with backward := true } }]
          else []
        else
          (if forward_edge.data.weight != INVALID_EDGE_WEIGHT then [forward_edge] else [])
            ++ (if reverse_edge.data.weight != INVALID_EDGE_WEIGHT then [reverse_edge] else [])
      prepareLoop INVALID_EDGE_WEIGHT INVALID_PAYLOAD fuel ((first :: rest).drop run.length)
        (graph_edges ++ emitted)

/-- The function `prepareEdgesForUsageInGraph`. The order of `std::sort` on
`extractor::EdgeBasedEdge` is modelled by `Contractor.sortEdges`. -/
def prepareEdgesForUsageInGraph (INVALID_EDGE_WEIGHT : Int) (INVALID_PAYLOAD : Nat)
    (edges : List EdgeBasedEdge) : List EdgeBasedGraphEdge :=
  let edges := Contractor.sortEdges edges
  prepareLoop INVALID_EDGE_WEIGHT INVALID_PAYLOAD edges.length edges []

end partition

/-! ## EdgeBasedGraphFactory: turn expansion of `EdgeBasedGraphFactory.cpp` -/

namespace EdgeBasedGraphFactory

/-- The struct `_NodeBasedEdgeData`, through the fields that the factory assigns. -/
structure _NodeBasedEdgeData where
  distance : Int
  edgeBasedNodeID : Nat
  nameID : Nat
  type : Int
  shortcut : Bool
  forward : Bool
  backward : Bool
  roundabout : Bool
deriving DecidableEq, Repr, Inhabited

abbrev _NodeBasedDynamicGraph := DynamicGraph _NodeBasedEdgeData
abbrev _NodeBasedEdge := DynamicGraph.InputEdge _NodeBasedEdgeData
abbrev _Edge := DynamicGraph.Edge _NodeBasedEdgeData

/-- The class `NodeBasedEdge` of the input, through its accessors; `weight` is the value
of `(int)i->weight()`. -/
structure NodeBasedEdge where
  source : NodeID
  target : NodeID
  name : Nat
  weight : Int
  isForward : Bool
  isBackward : Bool
  type : Int
  isRoundabout : Bool
deriving DecidableEq, Repr, Inhabited

/-- The struct `_Restriction`, through the fields that `Run` reads; `isOnly` is
`flags.isOnly`. -/
structure _Restriction where
  fromNode : NodeID
  viaNode : NodeID
  toNode : NodeID
  isOnly : Bool
deriving DecidableEq, Repr, Inhabited

/-- The struct `NodeInfo`, through the fields that the factory reads. -/
structure NodeInfo where
  lat : Int
  lon : Int
deriving DecidableEq, Repr, Inhabited

/-- The struct `EdgeBasedNode`. -/
structure EdgeBasedNode where
  nameID : Nat
  lat1 : Int
  lon1 : Int
  lat2 : Int
  lon2 : Int
  id : Nat
  weight : Int
deriving DecidableEq, Repr, Inhabited

/-- The members of the factory that the constructor sets and `Run` reads. -/
structure Factory where
  inputRestrictions : List _Restriction
  inputNodeInfoList : List NodeInfo
  _nodeBasedGraph : _NodeBasedDynamicGraph

/-- The vectors `edgeBasedEdges` and `edgeBasedNodes` that `Run` fills. -/
structure Output where
  edgeBasedEdges : List Contractor.EdgeBasedEdge
  edgeBasedNodes : List EdgeBasedNode
deriving DecidableEq, Repr

/-- Modelled from the spec: the call `std::sort` with `CmpRestrictionByFrom`, whose
definition is not among the sources; section 4.3 has the restrictions sorted by their
from field. A stable sort by `fromNode`. -/
def sortRestrictions (irs : List _Restriction) : List _Restriction :=
  irs.insertionSort (fun a b => a.fromNode ≤ b.fromNode)

/-- The body of the loop of the constructor over the input edges: self-loops are
skipped, the distance is `max(weight, 1)`, the id is the position in `edges`, and an
edge that is open backwards is pushed a second time, reversed. -/
def pushEdges (edges : List _NodeBasedEdge) (i : NodeBasedEdge) : List _NodeBasedEdge :=
  if i.source == i.target then edges
  else
    let data : _NodeBasedEdgeData :=
      { distance := max i.weight 1
        edgeBasedNodeID := edges.length
        nameID := i.name
        type := i.type
        shortcut := false
        forward := i.isForward
        backward := i.isBackward
        roundabout := i.isRoundabout }
    let edges := edges ++ [⟨i.source, i.target, data⟩]
    if data.backward then
      edges ++ [⟨i.target, i.source,
        { data with forward := i.isBackward, backward := i.isForward,
                    edgeBasedNodeID := edges.length }⟩]
    else edges

/-- The constructor `EdgeBasedGraphFactory(nodes, inputEdges, irs, nI)`. -/
def EdgeBasedGraphFactory (nodes : Nat) (inputEdges : List NodeBasedEdge)
    (irs : List _Restriction) (nI : List NodeInfo) : Factory :=
  { inputRestrictions := sortRestrictions irs
    inputNodeInfoList := nI
    _nodeBasedGraph := DynamicGraph.ofEdges nodes (Contractor.sortEdges (inputEdges.foldl pushEdges [])) }

/-- The values of `TurnInstructions` that `AnalyzeTurn` names (section 6 of the
specification lists the codes). -/
def NoTurn : Int := 0
def EnterRoundAbout : Int := 10
def LeaveRoundAbout : Int := 11
def StayOnRoundAbout : Int := 12

/-- The function `AnalyzeTurn(u, v, w)`. `angle` is the value of
`GetAngleBetweenTwoEdges` for the three nodes and `GetTurnDirectionOfInstruction` the
function of `TurnInstructions`, which is not among the sources. `none` when `FindEdge`
finds no edge `(u, v)` or no edge `(v, w)` and the edge data is read at `EndEdges`. -/
def AnalyzeTurn (g : _NodeBasedDynamicGraph) (GetTurnDirectionOfInstruction : ℚ → Int)
    (angle : ℚ) (u v w : NodeID) : Option Int :=
  match g.FindEdge u v, g.FindEdge v w with
  | some edge1, some edge2 =>
    let data1 := ((g.adj u).getD edge1 default).data
    let data2 := ((g.adj v).getD edge2 default).data
    if data1.roundabout && data2.roundabout then
      if 1 == (g.adj v).length then some NoTurn else some StayOnRoundAbout
    else if (data1.roundabout || data2.roundabout) && (!data1.roundabout && data2.roundabout) then
      some EnterRoundAbout
    else if (data1.roundabout || data2.roundabout) && (data1.roundabout && !data2.roundabout) then
      some LeaveRoundAbout
    else if data1.nameID == data2.nameID then some NoTurn
    else some (GetTurnDirectionOfInstruction angle)
  | _, _ => none

/-- The `do ... while(u == secondRestrictionIterator->fromNode)` loops of `Run`, started
at a position of `inputRestrictions` given as the rest of the vector from there: `f`
is the body and `s` the variables it writes. `none` when the loop condition reads
`fromNode` at the end of the vector. -/
def scanBlock {σ : Type} (u : NodeID) (f : σ → _Restriction → σ) :
    List _Restriction → σ → Option σ
  | [], _ => none
  | r :: rest, s =>
    match rest with
    | [] => none
    | r' :: _ => if u == r'.fromNode then scanBlock u f rest (f s r) else some (f s r)

/-- The guard `restrictionIterator != inputRestrictions.end() && u ==
restrictionIterator->fromNode` with the loop that it protects. -/
def scanIfFrom {σ : Type} (u : NodeID) (f : σ → _Restriction → σ)
    (restrictionIterator : List _Restriction) (s : σ) : Option σ :=
  match restrictionIterator with
  | [] => some s
  | r :: _ => if u == r.fromNode then scanBlock u f restrictionIterator s else some s

/-- The body of the first loop over the restrictions: `isOnlyAllowed` and `onlyToNode`. -/
def onlyStep (v : NodeID) (s : Bool × NodeID) (r : _Restriction) : Bool × NodeID :=
  if v == r.viaNode && r.isOnly then (true, r.toNode) else s

/-- The body of the second loop over the restrictions: `isTurnRestricted`. -/
def restrictedStep (v w : NodeID) (isTurnRestricted : Bool) (r : _Restriction) : Bool :=
  if v == r.viaNode && w == r.toNode then true else isTurnRestricted

/-- The edge-based node that `Run` pushes for the edge `e1` of the node `u`. -/
def currentNode (F : Factory) (u : NodeID) (e1 : _Edge) : EdgeBasedNode :=
  { nameID := e1.data.nameID
    lat1 := (F.inputNodeInfoList.getD u default).lat
    lon1 := (F.inputNodeInfoList.getD u default).lon
    lat2 := (F.inputNodeInfoList.getD e1.target default).lat
    lon2 := (F.inputNodeInfoList.getD e1.target default).lon
    id := e1.data.edgeBasedNodeID
    weight := e1.data.distance }

/-- The edge-based edge of the turn from `e1` onto `e2`:
`EdgeBasedEdge(edgeBasedSource, edgeBasedTarget, v, nameID, distance, true, false,
turnInstruction)`, the distance being `(int)(distance(e1) * (1 + |angle - 180| / 180))`. -/
def newEdge (e1 e2 : _Edge) (angle : ℚ) (turnInstruction : Int) :
    Contractor.EdgeBasedEdge :=
  { source := e1.data.edgeBasedNodeID
    target := e2.data.edgeBasedNodeID
    weight := ⌊(e1.data.distance : ℚ) * (1 + |(angle - 180) / 180|)⌋
    via := e1.target
    nameIDOfTurnTarget := e2.data.nameID
    turnInstruction := turnInstruction
    isForward := true
    isBackward := false }

/-- The body of the loop of `Run` over the edges `e2` of `v`, the target of `e1`. The
state is the two output vectors. -/
def turnStep (F : Factory) (GetAngleBetweenTwoEdges : NodeInfo → NodeInfo → NodeInfo → ℚ)
    (GetTurnDirectionOfInstruction : ℚ → Int) (restrictionIterator : List _Restriction)
    (u : NodeID) (e1 : _Edge) (isOnlyAllowed : Bool) (onlyToNode : NodeID)
    (out : List Contractor.EdgeBasedEdge × List EdgeBasedNode) (e2 : _Edge) :
    Option (List Contractor.EdgeBasedEdge × List EdgeBasedNode) :=
  let v := e1.target
  let w := e2.target
  if isOnlyAllowed && w != onlyToNode then some out
  else if u != w then
    match scanIfFrom u (restrictedStep v w) restrictionIterator false with
    | none => none
    | some isTurnRestricted =>
      if !isTurnRestricted || (isOnlyAllowed && w == onlyToNode) then
        let angle := GetAngleBetweenTwoEdges (F.inputNodeInfoList.getD u default)
          (F.inputNodeInfoList.getD v default) (F.inputNodeInfoList.getD w default)
        match AnalyzeTurn F._nodeBasedGraph GetTurnDirectionOfInstruction angle u v w with
        | none => none
        | some turnInstruction =>
          some (out.1 ++ [newEdge e1 e2 angle turnInstruction],
            if e1.data.type != 14 then out.2 ++ [currentNode F u e1] else out.2)
      else some out
  else some out

/-- A loop over a vector whose body can fail. -/
def foldlOpt {σ α : Type} (f : σ → α → Option σ) : List α → σ → Option σ
  | [], s => some s
  | a :: rest, s =>
    match f s a with
    | none => none
    | some s' => foldlOpt f rest s'

/-- The body of the loop of `Run` over the edges `e1` of `u`. The state is
`onlyToNode` and the two output vectors. -/
def edgeStep (F : Factory) (GetAngleBetweenTwoEdges : NodeInfo → NodeInfo → NodeInfo → ℚ)
    (GetTurnDirectionOfInstruction : ℚ → Int) (restrictionIterator : List _Restriction)
    (u : NodeID) (st : NodeID × List Contractor.EdgeBasedEdge × List EdgeBasedNode) (e1 : _Edge) :
    Option (NodeID × List Contractor.EdgeBasedEdge × List EdgeBasedNode) :=
  let v := e1.target
  match scanIfFrom u (onlyStep v) restrictionIterator (false, st.1) with
  | none => none
  | some only =>
    let edgeBasedNodes :=
      if (F._nodeBasedGraph.adj v).length == 1 && e1.data.type != 14 then
        st.2.2 ++ [currentNode F u e1]
      else st.2.2
    match foldlOpt (turnStep F GetAngleBetweenTwoEdges GetTurnDirectionOfInstruction
        restrictionIterator u e1 only.1 only.2) (F._nodeBasedGraph.adj v)
        (st.2.1, edgeBasedNodes) with
    | none => none
    | some out => some (only.2, out)

/-- The body of the loop of `Run` over the nodes `u`. The state is
`restrictionIterator` (the rest of `inputRestrictions` from its position),
`onlyToNode` and the two output vectors. -/
def nodeStep (F : Factory) (GetAngleBetweenTwoEdges : NodeInfo → NodeInfo → NodeInfo → ℚ)
    (GetTurnDirectionOfInstruction : ℚ → Int)
    (st : List _Restriction × NodeID × List Contractor.EdgeBasedEdge × List EdgeBasedNode)
    (u : NodeID) :
    Option (List _Restriction × NodeID × List Contractor.EdgeBasedEdge × List EdgeBasedNode) :=
  let restrictionIterator := st.1.dropWhile (fun r => decide (r.fromNode < u))
  match foldlOpt (edgeStep F GetAngleBetweenTwoEdges GetTurnDirectionOfInstruction
      restrictionIterator u) (F._nodeBasedGraph.adj u) st.2 with
  | none => none
  | some r => some (restrictionIterator, r)

/-- Modelled from the spec: `std::sort` on `edgeBasedNodes`; the order `operator<` of
`EdgeBasedNode` is not among the sources, section 4.3 only has the list sorted. A
stable sort by `id`. -/
def sortNodes (nodes : List EdgeBasedNode) : List EdgeBasedNode :=
  nodes.insertionSort (fun a b => a.id ≤ b.id)

/-- Modelled from the spec: `std::unique` on `edgeBasedNodes`; the `operator==` of
`EdgeBasedNode` is not among the sources, section 4.3 only has the list
deduplicated. The first of consecutive nodes with the same `id` stays. -/
def uniqueNodes : List EdgeBasedNode → List EdgeBasedNode
  | [] => []
  | a :: rest => a :: (uniqueNodes rest).dropWhile (fun b => b.id == a.id)

/-- The function `Run`: the sweep over all nodes, then the sort and the deduplication of
the edge-based nodes. `none` when a loop over the restrictions reads past the end of
`inputRestrictions` or `AnalyzeTurn` reads the data of a missing edge. The counters
that `Run` only logs are left out. -/
def Run (F : Factory) (GetAngleBetweenTwoEdges : NodeInfo → NodeInfo → NodeInfo → ℚ)
    (GetTurnDirectionOfInstruction : ℚ → Int) : Option Output :=
  match foldlOpt (nodeStep F GetAngleBetweenTwoEdges GetTurnDirectionOfInstruction)
      (List.range F._nodeBasedGraph.GetNumberOfNodes) (F.inputRestrictions, 0, [], []) with
  | none => none
  | some st => some ⟨st.2.2.1, uniqueNodes (sortNodes st.2.2.2)⟩

end EdgeBasedGraphFactory

/-! ## StaticGraph: edge lookup of `StaticGraph.h` -/

/-- The struct `StaticGraph<EdgeDataT>::EdgeArrayEntry`. -/
structure StaticGraph.EdgeArrayEntry (EdgeDataT : Type) where
  target : NodeID
  data : EdgeDataT
deriving DecidableEq, Repr, Inhabited

/-- The class `StaticGraph<EdgeDataT>`, through the members that the lookups read.
Modelled from the spec: the member `node_idx` is a `RangeTable`, which is not among the
sources; section 4.1 has the graph as an immutable CSR with range-based adjacency, so
`node_array` holds the first edge id of every node, followed by the number of edges. -/
structure StaticGraph (EdgeDataT : Type) where
  node_array : List Nat
  edge_array : List (StaticGraph.EdgeArrayEntry EdgeDataT)

namespace StaticGraph

variable {EdgeDataT : Type} [Inhabited EdgeDataT]

/-- Modelled from the spec: `GetAdjacentEdgeRange(node)`, the value of
`node_idx.GetRange(node)`: the edge ids from the first edge of `node` up to the first
edge of the next node. -/
def GetAdjacentEdgeRange (g : StaticGraph EdgeDataT) (node : NodeID) : List Nat :=
  List.range' (g.node_array.getD node 0) (g.node_array.getD (node + 1) 0 - g.node_array.getD node 0)

def GetTarget (g : StaticGraph EdgeDataT) (e : Nat) : NodeID :=
  (g.edge_array.getD e default).target

def GetEdgeData (g : StaticGraph EdgeDataT) (e : Nat) : EdgeDataT :=
  (g.edge_array.getD e default).data

/-- The body of the loop of `FindEdge`; the state is `smallest_edge` and
`smallest_weight`, and `distance` reads the member `distance` of the edge data. -/
def findStep (g : StaticGraph EdgeDataT) (distance : EdgeDataT → Int) (dst : NodeID)
    (st : Nat × Int) (edge : Nat) : Nat × Int :=
  let target := g.GetTarget edge
  let weight := distance (g.GetEdgeData edge)
  if target == dst && decide (weight < st.2) then (edge, weight) else st

/-- The function `FindEdge(from, to)`. The constants `SPECIAL_EDGEID` and
`INVALID_EDGE_WEIGHT` of `typedefs.h` (not among the sources) are parameters. -/
def FindEdge (SPECIAL_EDGEID : Nat) (INVALID_EDGE_WEIGHT : Int) (g : StaticGraph EdgeDataT)
    (distance : EdgeDataT → Int) (src dst : NodeID) : Nat :=
  ((g.GetAdjacentEdgeRange src).foldl (findStep g distance dst)
    (SPECIAL_EDGEID, INVALID_EDGE_WEIGHT)).1

/-- The function `FindEdgeInEitherDirection(from, to)`, which compares the result of
`FindEdge` with `SPECIAL_NODEID`. -/
def FindEdgeInEitherDirection (SPECIAL_EDGEID SPECIAL_NODEID : Nat) (INVALID_EDGE_WEIGHT : Int)
    (g : StaticGraph EdgeDataT) (distance : EdgeDataT → Int) (src dst : NodeID) : Nat :=
  let tmp := FindEdge SPECIAL_EDGEID INVALID_EDGE_WEIGHT g distance src dst
  if SPECIAL_NODEID != tmp then tmp
  else FindEdge SPECIAL_EDGEID INVALID_EDGE_WEIGHT g distance dst src

end StaticGraph

/-! ## alternative_path: the via-node ranking of `alternative_path.cpp` -/

namespace alternative_path

/-- The constants `VIAPATH_EPSILON` (0.15) and `VIAPATH_GAMMA` (0.75). -/
def VIAPATH_EPSILON : ℚ := 15 / 100
def VIAPATH_GAMMA : ℚ := 75 / 100

/-- The struct `RankedCandidateNode`. -/
structure RankedCandidateNode where
  node : NodeID
  length : Int
  sharing : Int
deriving DecidableEq, Repr, Inhabited

/-- The conversion `static_cast<int>` of a `double`: the fraction is cut off. -/
def castToInt (x : ℚ) : Int := if 0 ≤ x then ⌊x⌋ else ⌈x⌉

/-- The body of the loop "prioritizing via nodes for deep inspection" of
`alternativePathSearch`. `computeLengthAndSharingOfViaPath` gives, for a via node, the
values that the function of this name leaves in `length_of_via_path` and
`sharing_of_via_path`, both 0 before the call. The two products of the type `double`
are taken as exact rationals, with the constants 0.75 and 0.15 as these fractions. -/
def rankStep (computeLengthAndSharingOfViaPath : NodeID → Int × Int)
    (upper_bound_to_shortest_path_weight : Int) (ranked_candidates_list : List RankedCandidateNode)
    (node : NodeID) : List RankedCandidateNode :=
  let length_of_via_path := (computeLengthAndSharingOfViaPath node).1
  let sharing_of_via_path := (computeLengthAndSharingOfViaPath node).2
  let maximum_allowed_sharing :=
    castToInt ((upper_bound_to_shortest_path_weight : ℚ) * VIAPATH_GAMMA)
  if sharing_of_via_path ≤ maximum_allowed_sharing
      ∧ (length_of_via_path : ℚ)
          ≤ (upper_bound_to_shortest_path_weight : ℚ) * (1 + VIAPATH_EPSILON) then
    ranked_candidates_list ++ [⟨node, length_of_via_path, sharing_of_via_path⟩]
  else ranked_candidates_list

/-- The value of an expression of type `int` whose exact value is `x`: a 32-bit signed
integer, with sums and products taken in two's complement. -/
def toInt32 (x : Int) : Int := (x + 2147483648) % 4294967296 - 2147483648

/-- The expression `2 * length + sharing` of type `int` that
`RankedCandidateNode::operator<` compares. -/
def RankedCandidateNode.key (c : RankedCandidateNode) : Int :=
  toInt32 (toInt32 (2 * c.length) + c.sharing)

/-- The call `std::sort` on `ranked_candidates_list` with `operator<` of
`RankedCandidateNode`, as a stable sort: `a` stays before `b` unless `b < a`. -/
def sortCandidates (l : List RankedCandidateNode) : List RankedCandidateNode :=
  l.insertionSort (fun a b => ¬ (b.key < a.key))

/-- The list `ranked_candidates_list` after the loop over `preselected_node_list` and the
sort. -/
def rankedCandidates (computeLengthAndSharingOfViaPath : NodeID → Int × Int)
    (upper_bound_to_shortest_path_weight : Int) (preselected_node_list : List NodeID) :
    List RankedCandidateNode :=
  sortCandidates (preselected_node_list.foldl
    (rankStep computeLengthAndSharingOfViaPath upper_bound_to_shortest_path_weight) [])

/-- The loop over `ranked_candidates_list` that selects the first candidate passing the
T-test: the value of `selected_via_node` after it. `viaNodeCandidatePassesTTest` is
the result of the function of this name for a candidate. -/
def selectViaNode (SPECIAL_NODEID : NodeID)
    (viaNodeCandidatePassesTTest : RankedCandidateNode → Bool) :
    List RankedCandidateNode → NodeID
  | [] => SPECIAL_NODEID
  | candidate :: rest =>
    if viaNodeCandidatePassesTTest candidate then candidate.node
    else selectViaNode SPECIAL_NODEID viaNodeCandidatePassesTTest rest

end alternative_path

/-! ## alternative_path: the bidirectional search of `alternativePathSearch` -/

/-- Modelled from the spec: the class `SearchEngineData::QueryHeap`, a binary heap with
node ids as handles and the parent of a node as data, whose definition is not among
the sources. Section 4.2: an addressable min-heap keyed by node id; `inserted` holds
the nodes inserted since the last `Clear`, most recent first, `key` and `parent` the
key and the data of a node, and `inHeap` tells whether the node is still queued. -/
structure QueryHeap where
  inserted : List NodeID
  key : NodeID → Int
  parent : NodeID → NodeID
  inHeap : NodeID → Bool

namespace QueryHeap

/-- Modelled from the spec: the heap after `Clear`. -/
def empty : QueryHeap := ⟨[], fun _ => 0, fun _ => 0, fun _ => false⟩

/-- The queued nodes, most recently inserted first. -/
def queued (h : QueryHeap) : List NodeID := h.inserted.filter h.inHeap

/-- Modelled from the spec: `Size()`, the number of queued nodes. -/
def Size (h : QueryHeap) : Nat := h.queued.length

/-- Modelled from the spec: `WasInserted(node)`. -/
def WasInserted (h : QueryHeap) (node : NodeID) : Bool := decide (node ∈ h.inserted)

/-- Modelled from the spec: `GetKey(node)`. -/
def GetKey (h : QueryHeap) (node : NodeID) : Int := h.key node

/-- Modelled from the spec: `Insert(node, weight, parent)`. -/
def Insert (h : QueryHeap) (node : NodeID) (weight : Int) (parent : NodeID) : QueryHeap :=
  { inserted := node :: h.inserted
    key := Function.update h.key node weight
    parent := Function.update h.parent node parent
    inHeap := Function.update h.inHeap node true }

/-- Modelled from the spec: `DecreaseKey(node, weight)`. -/
def DecreaseKey (h : QueryHeap) (node : NodeID) (weight : Int) : QueryHeap :=
  { h with key := Function.update h.key node weight }

/-- The assignment `GetData(node).parent = parent`. -/
def SetParent (h : QueryHeap) (node : NodeID) (parent : NodeID) : QueryHeap :=
  { h with parent := Function.update h.parent node parent }

/-- A node of least key in a list of nodes, the first of them; `d` for the empty list. -/
def argmin (key : NodeID → Int) (d : NodeID) : List NodeID → NodeID
  | [] => d
  | a :: rest =>
    match rest with
    | [] => a
    | _ :: _ => if key (argmin key d rest) < key a then argmin key d rest else a

/-- Modelled from the spec: `DeleteMin()`: the removed node, one of least key among the
queued nodes, and the heap without it. -/
def DeleteMin (h : QueryHeap) : NodeID × QueryHeap :=
  (argmin h.key 0 h.queued,
    { h with inHeap := Function.update h.inHeap (argmin h.key 0 h.queued) false })

/-- Modelled from the spec: `DeleteAll()`: no node is queued any more; keys and data of
the inserted nodes stay. -/
def DeleteAll (h : QueryHeap) : QueryHeap := { h with inHeap := fun _ => false }

end QueryHeap

namespace alternative_path

/-- The data of an edge of the hierarchy, through the fields that the search and the
T-test read; `id` is the middle node of a shortcut. -/
structure EdgeData where
  weight : Int
  forward : Bool
  backward : Bool
  shortcut : Bool
  id : NodeID
deriving DecidableEq, Repr, Inhabited

/-- The variables of `alternativePathSearch` that the search writes: `forward_heap1`,
`reverse_heap1`, `middle_node`, `upper_bound_to_shortest_path_weight`,
`via_node_candidate_list`, `forward_search_space` and `reverse_search_space`. -/
structure SearchState where
  forward_heap1 : QueryHeap
  reverse_heap1 : QueryHeap
  middle_node : NodeID
  upper_bound_to_shortest_path_weight : Int
  via_node_candidate_list : List NodeID
  forward_search_space : List (NodeID × NodeID)
  reverse_search_space : List (NodeID × NodeID)

/-- The body of the loop over the edges of `node` in `alternativeRoutingStep`, on the
heap of the direction of the step. -/
def relaxEdge (facade : StaticGraph EdgeData) (DIRECTION : Bool) (node : NodeID) (weight : Int)
    (forward_heap : QueryHeap) (edge : Nat) : QueryHeap :=
  let data := facade.GetEdgeData edge
  if (if DIRECTION then data.forward else data.backward) then
    let target := facade.GetTarget edge
    let edge_weight := data.weight
    let to_weight := weight + edge_weight
    if !forward_heap.WasInserted target then forward_heap.Insert target to_weight node
    else if to_weight < forward_heap.GetKey target then
      (forward_heap.SetParent target node).DecreaseKey target to_weight
    else forward_heap
  else forward_heap

/-- The update of `middle_node` and `upper_bound_to_shortest_path_weight` in
`alternativeRoutingStep` when the node is in the heap of the other direction.
`getLoopWeight` is the function of `routing_base.hpp`, which is not among the sources. -/
def updateUpperBound (INVALID_EDGE_WEIGHT : Int) (getLoopWeight : NodeID → Int) (node : NodeID)
    (new_weight : Int) (st : NodeID × Int) : NodeID × Int :=
  if new_weight < st.2 then
    if new_weight ≥ 0 then (node, new_weight)
    else
      let loop_weight := getLoopWeight node
      let new_weight_with_loop := new_weight + loop_weight
      if loop_weight != INVALID_EDGE_WEIGHT && decide (new_weight_with_loop ≤ st.2) then
        (node, loop_weight)
      else st
  else st

/-- The function `alternativeRoutingStep<DIRECTION>`, called with the heaps, the
search space of the direction and the other arguments as `alternativePathSearch`
passes them; `DIRECTION` is `true` for `FORWARD_DIRECTION`. -/
def alternativeRoutingStep (INVALID_EDGE_WEIGHT : Int) (getLoopWeight : NodeID → Int)
    (facade : StaticGraph EdgeData) (min_edge_offset : Int) (DIRECTION : Bool)
    (st : SearchState) : SearchState :=
  let forward_heap := if DIRECTION then st.forward_heap1 else st.reverse_heap1
  let reverse_heap := if DIRECTION then st.reverse_heap1 else st.forward_heap1
  let node := forward_heap.DeleteMin.1
  let forward_heap := forward_heap.DeleteMin.2
  let weight := forward_heap.GetKey node
  let scaled_weight := castToInt (((weight + min_edge_offset : Int) : ℚ) / (1 + VIAPATH_EPSILON))
  if INVALID_EDGE_WEIGHT != st.upper_bound_to_shortest_path_weight
      && decide (scaled_weight > st.upper_bound_to_shortest_path_weight) then
    if DIRECTION then { st with forward_heap1 := forward_heap.DeleteAll }
    else { st with reverse_heap1 := forward_heap.DeleteAll }
  else
    let search_space := (if DIRECTION then st.forward_search_space else st.reverse_search_space)
      ++ [(forward_heap.parent node, node)]
    let via := if reverse_heap.WasInserted node then st.via_node_candidate_list ++ [node]
      else st.via_node_candidate_list
    let bound := if reverse_heap.WasInserted node then
        updateUpperBound INVALID_EDGE_WEIGHT getLoopWeight node (reverse_heap.GetKey node + weight)
          (st.middle_node, st.upper_bound_to_shortest_path_weight)
      else (st.middle_node, st.upper_bound_to_shortest_path_weight)
    let forward_heap := (facade.GetAdjacentEdgeRange node).foldl
      (relaxEdge facade DIRECTION node weight) forward_heap
    if DIRECTION then
      { st with forward_heap1 := forward_heap, middle_node := bound.1,
                upper_bound_to_shortest_path_weight := bound.2,
                via_node_candidate_list := via, forward_search_space := search_space }
    else
      { st with reverse_heap1 := forward_heap, middle_node := bound.1,
                upper_bound_to_shortest_path_weight := bound.2,
                via_node_candidate_list := via, reverse_search_space := search_space }

/-- The body of the loop "search from s and t" of `alternativePathSearch`: a step
forwards when `forward_heap1` is not empty, then a step in reverse when
`reverse_heap1` is not empty. -/
def searchRound (INVALID_EDGE_WEIGHT : Int) (getLoopWeight : NodeID → Int)
    (facade : StaticGraph EdgeData) (min_edge_offset : Int) (st : SearchState) : SearchState :=
  let st := if 0 < st.forward_heap1.Size then
      alternativeRoutingStep INVALID_EDGE_WEIGHT getLoopWeight facade min_edge_offset true st
    else st
  if 0 < st.reverse_heap1.Size then
    alternativeRoutingStep INVALID_EDGE_WEIGHT getLoopWeight facade min_edge_offset false st
  else st

/-- The loop `while (0 < (forward_heap1.Size() + reverse_heap1.Size()))`; `none` when the
bound on the number of rounds is used up before the loop condition fails. -/
def searchLoop (INVALID_EDGE_WEIGHT : Int) (getLoopWeight : NodeID → Int)
    (facade : StaticGraph EdgeData) (min_edge_offset : Int) : Nat → SearchState → Option SearchState
  | 0, st => if 0 < st.forward_heap1.Size + st.reverse_heap1.Size then none else some st
  | fuel + 1, st =>
    if 0 < st.forward_heap1.Size + st.reverse_heap1.Size then
      searchLoop INVALID_EDGE_WEIGHT getLoopWeight facade min_edge_offset fuel
        (searchRound INVALID_EDGE_WEIGHT getLoopWeight facade min_edge_offset st)
    else some st

/-- The struct `SegmentID`, through its members `id` and `enabled`. -/
structure SegmentID where
  id : NodeID
  enabled : Bool
deriving DecidableEq, Repr, Inhabited

/-- The struct `PhantomNode`, which is not among the sources, through what
`alternativePathSearch` reads of it: the two segment ids and the values that
`GetForwardWeightPlusOffset()` and `GetReverseWeightPlusOffset()` return. -/
structure PhantomNode where
  forward_segment_id : SegmentID
  reverse_segment_id : SegmentID
  GetForwardWeightPlusOffset : Int
  GetReverseWeightPlusOffset : Int
deriving DecidableEq, Repr, Inhabited

/-- The struct `PhantomNodes`. -/
structure PhantomNodes where
  source_phantom : PhantomNode
  target_phantom : PhantomNode
deriving DecidableEq, Repr, Inhabited

/-- The constant `min_edge_offset` of `alternativePathSearch`. -/
def min_edge_offset (phantom_node_pair : PhantomNodes) : Int :=
  min
    (if phantom_node_pair.source_phantom.forward_segment_id.enabled
      then -phantom_node_pair.source_phantom.GetForwardWeightPlusOffset else 0)
    (if phantom_node_pair.source_phantom.reverse_segment_id.enabled
      then -phantom_node_pair.source_phantom.GetReverseWeightPlusOffset else 0)

/-- The state in which `alternativePathSearch` enters the loop "search from s and t": the
enabled segments of the source are in `forward_heap1` with the negated weight plus
offset as key, the enabled segments of the target in `reverse_heap1` with the weight
plus offset as key, each as its own parent. -/
def initialSearch (INVALID_EDGE_WEIGHT : Int) (SPECIAL_NODEID : NodeID)
    (phantom_node_pair : PhantomNodes) : SearchState :=
  let forward_heap1 := QueryHeap.empty
  let reverse_heap1 := QueryHeap.empty
  let forward_heap1 :=
    if phantom_node_pair.source_phantom.forward_segment_id.enabled then
      forward_heap1.Insert phantom_node_pair.source_phantom.forward_segment_id.id
        (-phantom_node_pair.source_phantom.GetForwardWeightPlusOffset)
        phantom_node_pair.source_phantom.forward_segment_id.id
    else forward_heap1
  let forward_heap1 :=
    if phantom_node_pair.source_phantom.reverse_segment_id.enabled then
      forward_heap1.Insert phantom_node_pair.source_phantom.reverse_segment_id.id
        (-phantom_node_pair.source_phantom.GetReverseWeightPlusOffset)
        phantom_node_pair.source_phantom.reverse_segment_id.id
    else forward_heap1
  let reverse_heap1 :=
    if phantom_node_pair.target_phantom.forward_segment_id.enabled then
      reverse_heap1.Insert phantom_node_pair.target_phantom.forward_segment_id.id
        phantom_node_pair.target_phantom.GetForwardWeightPlusOffset
        phantom_node_pair.target_phantom.forward_segment_id.id
    else reverse_heap1
  let reverse_heap1 :=
    if phantom_node_pair.target_phantom.reverse_segment_id.enabled then
      reverse_heap1.Insert phantom_node_pair.target_phantom.reverse_segment_id.id
        phantom_node_pair.target_phantom.GetReverseWeightPlusOffset
        phantom_node_pair.target_phantom.reverse_segment_id.id
    else reverse_heap1
  { forward_heap1 := forward_heap1
    reverse_heap1 := reverse_heap1
    middle_node := SPECIAL_NODEID
    upper_bound_to_shortest_path_weight := INVALID_EDGE_WEIGHT
    via_node_candidate_list := []
    forward_search_space := []
    reverse_search_space := [] }

/-- The loop "search from s and t" of `alternativePathSearch` from the state in which the
function enters it, with its `min_edge_offset`. -/
def shortestPathSearch (INVALID_EDGE_WEIGHT : Int) (SPECIAL_NODEID : NodeID)
    (getLoopWeight : NodeID → Int) (facade : StaticGraph EdgeData)
    (phantom_node_pair : PhantomNodes) (fuel : Nat) : Option SearchState :=
  searchLoop INVALID_EDGE_WEIGHT getLoopWeight facade (min_edge_offset phantom_node_pair) fuel
    (initialSearch INVALID_EDGE_WEIGHT SPECIAL_NODEID phantom_node_pair)

end alternative_path

/-! ## alternative_path: the result of `alternativePathSearch` and the via-path length -/

namespace alternative_path

/-- The value of `raw_route_data.unpacked_alternative` when `alternativePathSearch`
returns: empty unless `SPECIAL_NODEID != selected_via_node`; `unpackPath` is what the
call of `unpackPath` (of `routing_base.hpp`, not among the sources) writes for the
packed alternative path. -/
def unpacked_alternative (SPECIAL_NODEID selected_via_node : NodeID) (unpackPath : List NodeID) :
    List NodeID :=
  if SPECIAL_NODEID != selected_via_node then unpackPath else []

/-- The sum of two values of the type `int`, 32 bits wide, in two's complement: the
result wraps around. -/
def addInt32 (a b : Int) : Int := (a + b + 2147483648) % 4294967296 - 2147483648

/-- The function `computeLengthAndSharingOfViaPath`, from the results of its two loops
over `routingStep` (of `routing_base.hpp`, not among the sources): the middle node and
the upper bound of the search for `<s,..,v>` and of the search for `<v,..,t>`. The
result is the pair of `*real_length_of_via_path` and `*sharing_of_via_path`; `sharing`
is what the partial unpacking adds to the sharing, which is 0 at the call, when the
function does not return before it. -/
def computeLengthAndSharingOfViaPath (SPECIAL_NODEID : NodeID) (s_v_middle : NodeID)
    (upper_bound_s_v_path_length : Int) (v_t_middle : NodeID)
    (upper_bound_of_v_t_path_length : Int) (sharing : Int) : Int × Int :=
  let real_length_of_via_path :=
    addInt32 upper_bound_s_v_path_length upper_bound_of_v_t_path_length
  if SPECIAL_NODEID == s_v_middle || SPECIAL_NODEID == v_t_middle then
    (real_length_of_via_path, 0)
  else (real_length_of_via_path, sharing)

end alternative_path

/-! ## alternative_path: the T-test -/

namespace alternative_path

/-- The type `SearchSpaceEdge`. -/
abbrev SearchSpaceEdge := NodeID × NodeID

/-- The call `facade.GetEdgeData(e)`: `none` when `e` is not an edge id of the graph, a
read outside `edge_array`. -/
def edgeDataAt (facade : StaticGraph EdgeData) (e : Nat) : Option EdgeData :=
  facade.edge_array[e]?.map (fun x => x.data)

/-- The call `facade.FindEdgeInEitherDirection(from, to)`. The facade class is not among
the sources; the call is taken as the function of this name of `StaticGraph`, with the
member `weight` as the distance. -/
def FindEdgeInEitherDirection (SPECIAL_EDGEID SPECIAL_NODEID : Nat) (INVALID_EDGE_WEIGHT : Int)
    (facade : StaticGraph EdgeData) (src dst : NodeID) : Nat :=
  StaticGraph.FindEdgeInEitherDirection SPECIAL_EDGEID SPECIAL_NODEID INVALID_EDGE_WEIGHT facade
    (fun d => d.weight) src dst

/-- The body of the first loop "Traverse path s-->v" of `viaNodeCandidatePassesTTest` for
the index `i`, which does nothing once `unpack_stack` is not empty. The state is
`unpacked_until_weight`, `s_P` and `unpack_stack`, top first; `find` is
`facade.FindEdgeInEitherDirection`. -/
def traverseStepSV (find : NodeID → NodeID → Nat) (facade : StaticGraph EdgeData)
    (T_threshold : Int) (packed_s_v_path : List NodeID)
    (st : Int × NodeID × List SearchSpaceEdge) (i : Nat) :
    Option (Int × NodeID × List SearchSpaceEdge) :=
  if st.2.2.isEmpty then
    let current_edge_id :=
      find (packed_s_v_path.getD (i - 1) default) (packed_s_v_path.getD i default)
    match edgeDataAt facade current_edge_id with
    | none => none
    | some data =>
      let length_of_current_edge := data.weight
      if length_of_current_edge + st.1 ≥ T_threshold then
        some (st.1, st.2.1,
          (packed_s_v_path.getD (i - 1) default, packed_s_v_path.getD i default) :: st.2.2)
      else some (st.1 + length_of_current_edge, packed_s_v_path.getD (i - 1) default, st.2.2)
  else some st

/-- The first loop `while (!unpack_stack.empty())` of `viaNodeCandidatePassesTTest`, which
unpacks in reverse. The result is `some none` for `return false`, `some (some _)` with
`unpacked_until_weight` and `s_P` when the stack is empty, and `none` when an edge is
read outside `edge_array` or the bound on the number of iterations is used up. -/
def unpackSV (SPECIAL_EDGEID : Nat) (find : NodeID → NodeID → Nat) (facade : StaticGraph EdgeData)
    (T_threshold : Int) :
    Nat → Int → NodeID → List SearchSpaceEdge → Option (Option (Int × NodeID))
  | _, unpacked_until_weight, s_P, [] => some (some (unpacked_until_weight, s_P))
  | 0, _, _, _ :: _ => none
  | fuel + 1, unpacked_until_weight, s_P, via_path_edge :: unpack_stack =>
    let edge_in_via_path_id := find via_path_edge.1 via_path_edge.2
    if SPECIAL_EDGEID == edge_in_via_path_id then some none
    else
      match edgeDataAt facade edge_in_via_path_id with
      | none => none
      | some current_edge_data =>
        if current_edge_data.shortcut then
          let via_path_middle_node_id := current_edge_data.id
          let second_segment_edge_id := find via_path_middle_node_id via_path_edge.2
          match edgeDataAt facade second_segment_edge_id with
          | none => none
          | some second_segment =>
            if unpacked_until_weight + second_segment.weight ≥ T_threshold then
              unpackSV SPECIAL_EDGEID find facade T_threshold fuel unpacked_until_weight s_P
                ((via_path_middle_node_id, via_path_edge.2) :: unpack_stack)
            else
              unpackSV SPECIAL_EDGEID find facade T_threshold fuel
                (unpacked_until_weight + second_segment.weight) s_P
                ((via_path_edge.1, via_path_middle_node_id) :: unpack_stack)
        else
          unpackSV SPECIAL_EDGEID find facade T_threshold fuel
            (unpacked_until_weight + current_edge_data.weight) via_path_edge.1 unpack_stack

/-- The body of the second loop over the packed path, `packed_v_t_path`, for the index
`i`; the state is `unpacked_until_weight`, `t_P` and `unpack_stack`. -/
def traverseStepVT (find : NodeID → NodeID → Nat) (facade : StaticGraph EdgeData)
    (T_threshold : Int) (packed_v_t_path : List NodeID)
    (st : Int × NodeID × List SearchSpaceEdge) (i : Nat) :
    Option (Int × NodeID × List SearchSpaceEdge) :=
  if st.2.2.isEmpty then
    let edgeID := find (packed_v_t_path.getD i default) (packed_v_t_path.getD (i + 1) default)
    match edgeDataAt facade edgeID with
    | none => none
    | some data =>
      let length_of_current_edge := data.weight
      if length_of_current_edge + st.1 ≥ T_threshold then
        some (st.1, st.2.1,
          (packed_v_t_path.getD i default, packed_v_t_path.getD (i + 1) default) :: st.2.2)
      else some (st.1 + length_of_current_edge, packed_v_t_path.getD (i + 1) default, st.2.2)
  else some st

/-- The second loop `while (!unpack_stack.empty())` of `viaNodeCandidatePassesTTest`; the
result is as for `unpackSV`, with `t_P`. -/
def unpackVT (SPECIAL_EDGEID : Nat) (find : NodeID → NodeID → Nat) (facade : StaticGraph EdgeData)
    (T_threshold : Int) :
    Nat → Int → NodeID → List SearchSpaceEdge → Option (Option (Int × NodeID))
  | _, unpacked_until_weight, t_P, [] => some (some (unpacked_until_weight, t_P))
  | 0, _, _, _ :: _ => none
  | fuel + 1, unpacked_until_weight, t_P, via_path_edge :: unpack_stack =>
    let edge_in_via_path_id := find via_path_edge.1 via_path_edge.2
    if SPECIAL_EDGEID == edge_in_via_path_id then some none
    else
      match edgeDataAt facade edge_in_via_path_id with
      | none => none
      | some current_edge_data =>
        if current_edge_data.shortcut then
          let middleOfViaPath := current_edge_data.id
          let edgeIDOfFirstSegment := find via_path_edge.1 middleOfViaPath
          match edgeDataAt facade edgeIDOfFirstSegment with
          | none => none
          | some first_segment =>
            if unpacked_until_weight + first_segment.weight ≥ T_threshold then
              unpackVT SPECIAL_EDGEID find facade T_threshold fuel unpacked_until_weight t_P
                ((via_path_edge.1, middleOfViaPath) :: unpack_stack)
            else
              unpackVT SPECIAL_EDGEID find facade T_threshold fuel
                (unpacked_until_weight + first_segment.weight) t_P
                ((middleOfViaPath, via_path_edge.2) :: unpack_stack)
        else
          unpackVT SPECIAL_EDGEID find facade T_threshold fuel
            (unpacked_until_weight + current_edge_data.weight) via_path_edge.2 unpack_stack

/-- The function `viaNodeCandidatePassesTTest`, from the results of the calls that are not
among the sources: the middle node and the upper bound of the two loops over
`routingStep`, the paths that `retrievePackedPathFromHeap` returns, and
`freshSearch s_P t_P`, the upper bound with which the third search, from `s_P` and
`t_P`, ends. `fuel` bounds the iterations of each loop over `unpack_stack`. The result is
`none` when an empty packed path or an edge outside `edge_array` is read or the bound is
used up. -/
def viaNodeCandidatePassesTTest (SPECIAL_NODEID SPECIAL_EDGEID : Nat) (INVALID_EDGE_WEIGHT : Int)
    (find : NodeID → NodeID → Nat) (facade : StaticGraph EdgeData)
    (s_v_middle : NodeID) (upper_bound_s_v_path_length : Int)
    (v_t_middle : NodeID) (upper_bound_of_v_t_path_length : Int)
    (packed_s_v_path packed_v_t_path : List NodeID) (freshSearch : NodeID → NodeID → Int)
    (length_of_shortest_path : Int) (fuel : Nat) : Option Bool :=
  if INVALID_EDGE_WEIGHT == upper_bound_s_v_path_length then some false
  else if INVALID_EDGE_WEIGHT == upper_bound_of_v_t_path_length then some false
  else if SPECIAL_NODEID == s_v_middle then some false
  else if SPECIAL_NODEID == v_t_middle then some false
  else
    let T_threshold := castToInt (VIAPATH_EPSILON * (length_of_shortest_path : ℚ))
    if packed_s_v_path.isEmpty then none
    else
      match EdgeBasedGraphFactory.foldlOpt
          (traverseStepSV find facade T_threshold packed_s_v_path)
          (List.range' 1 (packed_s_v_path.length - 1)).reverse (0, s_v_middle, []) with
      | none => none
      | some st =>
        match unpackSV SPECIAL_EDGEID find facade T_threshold fuel st.1 st.2.1 st.2.2 with
        | none => none
        | some none => some false
        | some (some (t_test_path_length, s_P)) =>
          if packed_v_t_path.isEmpty then none
          else
            match EdgeBasedGraphFactory.foldlOpt
                (traverseStepVT find facade T_threshold packed_v_t_path)
                (List.range (packed_v_t_path.length - 1)) (0, v_t_middle, []) with
            | none => none
            | some st2 =>
              match unpackVT SPECIAL_EDGEID find facade T_threshold fuel st2.1 st2.2.1
                  st2.2.2 with
              | none => none
              | some none => some false
              | some (some (unpacked_until_weight, t_P)) =>
                some (decide (freshSearch s_P t_P ≤ t_test_path_length + unpacked_until_weight))

end alternative_path

/-! ## Specification-side definitions -/

namespace Contractor

/-- A forward-flagged edge from `u` to `v` of distance `w` in the range of `u`. -/
def FwdEdge (g : _DynamicGraph) (u v : NodeID) (w : Nat) : Prop :=
  ∃ e ∈ g.adj u, e.target = v ∧ e.data.forward = true ∧ e.data.distance = w

/-- A backward-flagged edge of distance `w` in the range of `u` with target `v`. -/
def BwdEdge (g : _DynamicGraph) (u v : NodeID) (w : Nat) : Prop :=
  ∃ e ∈ g.adj u, e.target = v ∧ e.data.backward = true ∧ e.data.distance = w

/-- A walk from `u` to `v` over forward-flagged edges, of total distance `W`. -/
inductive Walk (g : _DynamicGraph) : NodeID → NodeID → Nat → Prop
  | nil (u : NodeID) : Walk g u u 0
  | snoc {u x v : NodeID} {W w : Nat} : Walk g u x W → FwdEdge g x v w → Walk g u v (W + w)

/-- The shortest-path distance from `u` to `v` over forward-flagged edges is `d`. -/
def IsDist (g : _DynamicGraph) (u v : NodeID) (d : Nat) : Prop :=
  Walk g u v d ∧ ∀ W, Walk g u v W → d ≤ W

/-- The graph is direction-explicit: an edge `(s,t)` with the forward flag and distance
`d` is stored exactly when an edge `(t,s)` with the backward flag and distance `d` is. -/
def DirectionExplicit (g : _DynamicGraph) : Prop :=
  ∀ s t d, FwdEdge g s t d ↔ BwdEdge g t s d

/-- The in-edge `inEdge` of `n` is matched by a walk: there is a walk from its source to
`n` over forward-flagged edges that is not longer than the in-edge, as when the edge
is stored at its source with the forward flag and at most this distance. -/
def InEdgeBacked (g : _DynamicGraph) (n : NodeID) (inEdge : _Edge) : Prop :=
  ∃ W, W ≤ inEdge.data.distance ∧ Walk g inEdge.target n W

/-- All edge distances are strictly positive. -/
def PositiveWeights (g : _DynamicGraph) : Prop :=
  ∀ u, ∀ e ∈ g.adj u, 0 < e.data.distance

/-- The graph without the node `n`: its range is empty and no edge leads to it. -/
def removeNode (g : _DynamicGraph) (n : NodeID) : _DynamicGraph :=
  { g with adj := fun x => if x = n then [] else (g.adj x).filter (fun e => e.target != n) }

end Contractor

namespace Contractor

open BinaryHeap

/-- The node `x` is in the heap list with a key of at most `k`. -/
def KeyLE (h : _Heap) (x : NodeID) (k : Int) : Prop :=
  ∃ e ∈ h, e.node = x ∧ e.weight ≤ k

/-- The forward edges of the heap element `e` have been relaxed in `h`. -/
def Relaxed (g : _DynamicGraph) (h : _Heap) (e : HeapNode) : Prop :=
  ∀ ed ∈ g.adj e.node, ed.data.forward = true → KeyLE h ed.target (e.weight + (ed.data.distance : Int))

/-- The number of elements that `DeleteMin` has removed. -/
def removedCount (h : _Heap) : Nat := h.countP (fun e => !e.inHeap)

/-- The number of elements with the `target` flag. -/
def flaggedCount (h : _Heap) : Nat := h.countP (fun e => e.data.target)

/-- The number of removed elements with the `target` flag. -/
def foundCount (h : _Heap) : Nat := h.countP (fun e => e.data.target && !e.inHeap)

/-- Basic invariant of the heap of a witness search from `s`: node ids are unique, every
key is at least the distance of a walk from `s` to the node, and `s` has key 0. -/
structure HeapInv (g : _DynamicGraph) (s : NodeID) (h : _Heap) : Prop where
  nodup : (h.map (fun e => e.node)).Nodup
  sound : ∀ e ∈ h, ∃ W : Nat, (W : Int) ≤ e.weight ∧ Walk g s e.node W
  source : ∃ e ∈ h, e.node = s ∧ e.weight = 0

/-- Invariant at the head of the `while` loop of `_Dijkstra`. -/
structure LoopInv (g : _DynamicGraph) (s : NodeID) (h : _Heap) extends HeapInv g s h : Prop where
  relaxed : ∀ e ∈ h, e.inHeap = false → Relaxed g h e
  order : ∀ e ∈ h, e.inHeap = false → ∀ e' ∈ h, e'.inHeap = true → e.weight ≤ e'.weight

/-- Invariant of the edge loop of `_Dijkstra` while the node `m`, removed with key `d`,
is being relaxed. -/
structure RelaxInv (g : _DynamicGraph) (s m : NodeID) (d : Int) (h : _Heap)
    extends HeapInv g s h : Prop where
  popped : ∃ e ∈ h, e.node = m ∧ e.weight = d ∧ e.inHeap = false
  relaxed : ∀ e ∈ h, e.inHeap = false → e.node ≠ m → Relaxed g h e
  below : ∀ e ∈ h, e.inHeap = false → e.weight ≤ d
  above : ∀ e ∈ h, e.inHeap = true → d ≤ e.weight

/-- Every element with a key below `M` has been removed and relaxed. -/
def SettledBelow (g : _DynamicGraph) (h : _Heap) (M : Int) : Prop :=
  ∀ e ∈ h, e.weight < M → e.inHeap = false ∧ Relaxed g h e

/-- Keys never increase, elements never disappear and keep their `target` flag. -/
def Evolves (h h' : _Heap) : Prop :=
  ∀ e ∈ h, ∃ e' ∈ h', e'.node = e.node ∧ e'.weight ≤ e.weight ∧ e'.data.target = e.data.target

/-- What holds of the heap when `_Dijkstra` returns: either every element has been
removed and relaxed, or the loop returned at the removed element `P`, which bounds the
keys of the removed elements, for one of the three reasons of the source. -/
def Outcome (g : _DynamicGraph) (s : NodeID) (maxDistance : Int) (maxNodes : Int) (h : _Heap) : Prop :=
  HeapInv g s h ∧ (removedCount h : Int) ≤ maxNodes + 1 ∧
  ((∀ M, SettledBelow g h M) ∨
   ∃ P ∈ h, P.inHeap = false ∧ SettledBelow g h P.weight
     ∧ (∀ e ∈ h, e.inHeap = false → e.weight ≤ P.weight)
     ∧ (maxDistance < P.weight
        ∨ (∀ e ∈ h, e.data.target = true → e.inHeap = false)
        ∨ maxNodes < (removedCount h : Int)))

end Contractor

namespace Contractor

open BinaryHeap

/-- Invariant of the heap seeding loop of `_Contract` for an in-edge of distance `a`
from `s` to the node `n`. -/
structure SeedInv (g : _DynamicGraph) (s n : NodeID) (a : Nat) (st : _Heap × Int × Nat) : Prop where
  hinv : HeapInv g s st.1
  allIn : ∀ e ∈ st.1, e.inHeap = true
  count : st.2.2 = flaggedCount st.1
  maxNonneg : 0 ≤ st.2.1
  hasNode : KeyLE st.1 n (a : Int)
  flagged : ∀ e ∈ st.1, e.data.target = true ↔ (e.node ≠ s ∧ e.node ≠ n)

end Contractor

namespace Contractor

open BinaryHeap

/-- The combined update of `DecreaseKey` and `SetHop` as one map. -/
def lowerKey (x : NodeID) (k : Int) (hop : Int) (e : HeapNode) : HeapNode :=
  if e.node == x then { e with weight := k, data := { e.data with hop := hop } } else e

/-- The update of `DeleteMin` on the elements of the heap list. -/
def markRemoved (x : NodeID) (e : HeapNode) : HeapNode :=
  if e.node == x then { e with inHeap := false } else e

/-- The update of `DecreaseKey` on the elements of the heap list. -/
def setKey (x : NodeID) (k : Int) (e : HeapNode) : HeapNode :=
  if e.node == x then { e with weight := k } else e

end Contractor
namespace Contractor

/-- The buffered edge `e` stands for the pushed edge `r`: same endpoints, distance and
shortcut flag, and at least the direction flags of `r`. -/
def Covers (e r : _ImportEdge) : Prop :=
  e.source = r.source ∧ e.target = r.target ∧ e.data.distance = r.data.distance
    ∧ e.data.shortcut = r.data.shortcut
    ∧ (r.data.forward = true → e.data.forward = true)
    ∧ (r.data.backward = true → e.data.backward = true)

/-- The buffered edge `e` comes from the pushed edges `raw`: one of them has its
endpoints, distance, shortcut flag and via node, and each direction flag of `e` is the
flag of a pushed edge with the same endpoints and distance. -/
def Backed (raw : List _ImportEdge) (e : _ImportEdge) : Prop :=
  (∃ r ∈ raw, e.source = r.source ∧ e.target = r.target ∧ e.data.distance = r.data.distance
      ∧ e.data.shortcut = r.data.shortcut ∧ e.data.via = r.data.via)
  ∧ (e.data.forward = true → ∃ r ∈ raw, e.source = r.source ∧ e.target = r.target
      ∧ e.data.distance = r.data.distance ∧ r.data.forward = true)
  ∧ (e.data.backward = true → ∃ r ∈ raw, e.source = r.source ∧ e.target = r.target
      ∧ e.data.distance = r.data.distance ∧ r.data.backward = true)

/-- The positions of the vector that the duplicate merge still uses at iteration `i`:
the part already written and the part not yet read. -/
def Live (s0 size i iend j : Nat) : Prop :=
  (s0 ≤ j ∧ j < size) ∨ (i ≤ j ∧ j < iend)

/-- Invariant of the duplicate merge of `_Contract` at iteration `i`, for the vector
`L0` at entry and the first new index `s0`. -/
structure MergeInv (L0 : List _ImportEdge) (s0 i : Nat) (st : List _ImportEdge × Nat) : Prop where
  len : st.1.length = L0.length
  lo : s0 ≤ st.2
  mid : st.2 ≤ i
  hi : i ≤ L0.length
  front : ∀ j, j < s0 → st.1[j]? = L0[j]?
  backed : ∀ j e, st.1[j]? = some e → Live s0 st.2 i L0.length j → Backed (L0.drop s0) e
  covered : ∀ r ∈ L0.drop s0, ∃ j e, st.1[j]? = some e ∧ Live s0 st.2 i L0.length j ∧ Covers e r

/-- The flag update of the duplicate merge: the flags of `x` are merged into `o`. -/
def orFlags (x o : _ImportEdge) : _ImportEdge :=
  { o with data := { o.data with
      forward := o.data.forward || x.data.forward
      backward := o.data.backward || x.data.backward } }

end Contractor
namespace Contractor

/-- The decision of `_Contract<false>` for the in-edge `inEdge` and the out-edge `outEdge`
of `node`: the in-edge is backward, the out-edge is forward, and after the witness
search `pathDistance <= heap.GetKey(target)`. -/
def shortcutRequired (g : _DynamicGraph) (node : NodeID) (inEdge outEdge : _Edge) : Bool :=
  inEdge.data.backward && outEdge.data.forward
    && decide (((inEdge.data.distance + outEdge.data.distance : Nat) : Int)
        ≤ (witnessSearch false g node inEdge).GetKey outEdge.target)

/-- The pair of edges of section 4.5 for an in-edge from `s` and an out-edge to `t` of
`node`: `(s, t)` forward only and `(t, s)` backward only, both with the summed
distance, `via = node`, `shortcut = true` and the summed number of original edges. -/
def shortcutPair (node : NodeID) (inEdge outEdge : _Edge) : List _ImportEdge :=
  [ { source := inEdge.target
      target := outEdge.target
      data :=
        { distance := inEdge.data.distance + outEdge.data.distance
          originalEdges := inEdge.data.originalEdges + outEdge.data.originalEdges
          via := node
          nameID := 0
          turnInstruction := inEdge.data.turnInstruction
          shortcut := true
          forward := true
          backward := false
          originalViaNodeID := false } },
    { source := outEdge.target
      target := inEdge.target
      data :=
        { distance := inEdge.data.distance + outEdge.data.distance
          originalEdges := inEdge.data.originalEdges + outEdge.data.originalEdges
          via := node
          nameID := 0
          turnInstruction := inEdge.data.turnInstruction
          shortcut := true
          forward := false
          backward := true
          originalViaNodeID := false } } ]

/-- All pairs that the contraction of `node` pushes, in the order of the two loops. -/
def pushedPairs (g : _DynamicGraph) (node : NodeID) : List _ImportEdge :=
  (g.adj node).flatMap (fun inEdge =>
    (g.adj node).flatMap (fun outEdge =>
      if shortcutRequired g node inEdge outEdge then shortcutPair node inEdge outEdge else []))

end Contractor
namespace Contractor

/-- The contraction of the single node `n` as `Run` performs it: `_Contract<false>(n)`
into an empty buffer, the sort of the buffer, `_DeleteIncomingEdges(n)` and the loop
"insert new edges". -/
def contractNode (g : _DynamicGraph) (n : NodeID) : _DynamicGraph :=
  insertNewEdges (_DeleteIncomingEdges g n) (sortEdges (_Contract false g [] n default).1)

end Contractor
namespace Contractor

/-- The input of the triangle scenario of section 8: nodes 0, 1, 2 and the bidirectional
edges `(0,1)` of weight 3, `(1,2)` of weight 4 and `(0,2)` of weight 10. -/
def triangleInput : List EdgeBasedEdge :=
  [ { source := 0, target := 1, weight := 3, via := 0, nameIDOfTurnTarget := 0,
      turnInstruction := 0, isForward := true, isBackward := true },
    { source := 1, target := 2, weight := 4, via := 0, nameIDOfTurnTarget := 0,
      turnInstruction := 0, isForward := true, isBackward := true },
    { source := 0, target := 2, weight := 10, via := 0, nameIDOfTurnTarget := 0,
      turnInstruction := 0, isForward := true, isBackward := true } ]

/-- The graph that the constructor builds for the triangle scenario. -/
def triangle : _DynamicGraph := Contractor true false 3 triangleInput

end Contractor
namespace Contractor

/-- The input of the witness scenario of section 8: nodes 0, 1, 2, 3 and the
bidirectional edges `(0,1)` and `(1,2)` of weight 5, `(0,3)` and `(3,2)` of weight 4. -/
def witnessInput : List EdgeBasedEdge :=
  [ { source := 0, target := 1, weight := 5, via := 0, nameIDOfTurnTarget := 0,
      turnInstruction := 0, isForward := true, isBackward := true },
    { source := 1, target := 2, weight := 5, via := 0, nameIDOfTurnTarget := 0,
      turnInstruction := 0, isForward := true, isBackward := true },
    { source := 0, target := 3, weight := 4, via := 0, nameIDOfTurnTarget := 0,
      turnInstruction := 0, isForward := true, isBackward := true },
    { source := 3, target := 2, weight := 4, via := 0, nameIDOfTurnTarget := 0,
      turnInstruction := 0, isForward := true, isBackward := true } ]

/-- The graph that the constructor builds for the witness scenario. -/
def witnessGraph : _DynamicGraph := Contractor true false 4 witnessInput

/-- The property of section 8, invariant 1, for the contraction of `n`: every edge of the
buffer of `_Contract<false>(n)` has the distance `d(u,n) + d(n,v)` of shortest-path
distances, where `u -> v` is the direction of travel that a flag of the edge stands for
(source to target for the forward flag, target to source for the backward flag). -/
def ShortcutsAreShortest (g : _DynamicGraph) (n : NodeID) : Prop :=
  ∀ e ∈ (_Contract false g [] n default).1,
    (e.data.forward = true →
      ∃ a b, IsDist g e.source n a ∧ IsDist g n e.target b ∧ e.data.distance = a + b)
    ∧ (e.data.backward = true →
      ∃ a b, IsDist g e.target n a ∧ IsDist g n e.source b ∧ e.data.distance = a + b)

end Contractor
namespace Contractor

open BinaryHeap

/-- Every key is its seed key, or the node is the target of a forward edge of an
element that has been removed from the heap. -/
def Prov (g : _DynamicGraph) (h0 h : _Heap) : Prop :=
  ∀ e ∈ h, (∃ e0 ∈ h0, e0.node = e.node ∧ e0.weight = e.weight)
    ∨ (∃ p ∈ h, p.inHeap = false ∧ ∃ ed ∈ g.adj p.node, ed.data.forward = true ∧ ed.target = e.node)

/-- A bidirectional original edge to `t` of distance `d`, as the constructor stores it. -/
def plainEdge (t d : Nat) : _Edge :=
  ⟨t, ⟨d, 1, 0, 0, 0, false, true, true, false⟩⟩

/-- A graph of 2004 nodes on which the witness search reaches its limit: the
bidirectional edges 0-1:4000, 1-2:1000, 0-3:2500, 3-1:1 and the chain
0-4:1, 4-5:1, ..., 2002-2003:1, every edge stored in both ranges with both flags. -/
def limitGraph : _DynamicGraph :=
  { numNodes := 2004
    adj := fun (x : Nat) =>
      if x = 0 then [plainEdge 1 4000, plainEdge 3 2500, plainEdge 4 1]
      else if x = 1 then [plainEdge 0 4000, plainEdge 2 1000, plainEdge 3 1]
      else if x = 2 then [plainEdge 1 1000]
      else if x = 3 then [plainEdge 0 2500, plainEdge 1 1]
      else if x = 4 then [plainEdge 0 1, plainEdge 5 1]
      else if x < 2003 then [plainEdge (x - 1) 1, plainEdge (x + 1) 1]
      else if x = 2003 then [plainEdge 2002 1]
      else [] }

/-- The shortest-path distance from node 0 in `limitGraph`. -/
def limitPotential (x : Nat) : Nat :=
  if x = 0 then 0 else if x = 1 then 2501 else if x = 2 then 3501 else if x = 3 then 2500
  else x - 3

/-- The nodes of `limitGraph` that a search from node 0 removes before node 1: node 1
itself, node 0 and the chain 4, ..., 2003. -/
def limitSettled : List Nat := 1 :: 0 :: (List.range 2000).map (fun k => k + 4)

end Contractor
namespace Contractor

/-- The edges that the reduction of the constructor emits for the run `run` of copies of
one pair `(source, target)`, whose first element is `first`. -/
def emitRun (uninit : Bool) (first : _ImportEdge) (run : List _ImportEdge) : List _ImportEdge :=
  let forwardEdge : _ImportEdge :=
    { source := first.source
      target := first.target
      data :=
        { distance := minDistance (fun e => e.data.forward) run
          originalEdges := 1
          via := first.data.via
          nameID := first.data.nameID
          turnInstruction := first.data.turnInstruction
          shortcut := false
          forward := true
          backward := false
          originalViaNodeID := uninit } }
  let backwardEdge : _ImportEdge :=
    { forwardEdge with
      data := { forwardEdge.data with
        distance := minDistance (fun e => e.data.backward) run
        forward := false
        backward := true } }
  if forwardEdge.data.distance == backwardEdge.data.distance then
    if forwardEdge.data.distance != INT_MAX then
      [{ forwardEdge with data := { forwardEdge.data with backward := true } }]
    else []
  else
    (if forwardEdge.data.distance != INT_MAX then [forwardEdge] else [])
      ++ (if backwardEdge.data.distance != INT_MAX then [backwardEdge] else [])

/-- The reduction loop of the constructor as a function of the unread part of the
sorted vector: the edges written from the current write index on. -/
def reduceList (uninit : Bool) : Nat → List _ImportEdge → List _ImportEdge
  | 0, _ => []
  | _ + 1, [] => []
  | fuel + 1, first :: rest =>
    if first.source == first.target then reduceList uninit fuel rest
    else
      let run := (first :: rest).takeWhile
        (fun e => e.source == first.source && e.target == first.target)
      emitRun uninit first run ++ reduceList uninit fuel ((first :: rest).drop run.length)

end Contractor
namespace Contractor

open DynamicGraph

/-- The test of the inner `while` of both edge reductions: the edge has the endpoints
`(s, t)`. -/
def sameKey {D : Type} (s t : NodeID) (e : InputEdge D) : Bool :=
  e.source == s && e.target == t

/-- The shape shared by the reduction loop of the constructor and the loop of
`prepareEdgesForUsageInGraph`: self-loops are skipped, and `emit` is applied to every
maximal run of edges with the endpoints of its first edge. -/
def groupEmit {D E : Type} (emit : InputEdge D → List (InputEdge D) → List (InputEdge E)) :
    Nat → List (InputEdge D) → List (InputEdge E)
  | 0, _ => []
  | _ + 1, [] => []
  | fuel + 1, first :: rest =>
    if first.source == first.target then groupEmit emit fuel rest
    else
      let run := (first :: rest).takeWhile (fun e => e.source == first.source && e.target == first.target)
      emit first run ++ groupEmit emit fuel ((first :: rest).drop run.length)

/-- The edges emitted for a group of copies of one pair of endpoints. -/
def emitGroup {D E : Type} (emit : InputEdge D → List (InputEdge D) → List (InputEdge E)) :
    List (InputEdge D) → List (InputEdge E)
  | [] => []
  | first :: rest => emit first (first :: rest)

end Contractor

namespace partition

/-- The edges that `prepareEdgesForUsageInGraph` pushes for the run `run` of copies of
one pair `(source, target)`, whose first element is `first`. -/
def emitLightest (INVALID_EDGE_WEIGHT : Int) (INVALID_PAYLOAD : Nat) (first : EdgeBasedEdge)
    (run : List EdgeBasedEdge) : List EdgeBasedGraphEdge :=
  let forward_init : EdgeBasedGraphEdge :=
    ⟨first.source, first.target, ⟨first.data.edge_id, INVALID_EDGE_WEIGHT, INVALID_PAYLOAD, true, false⟩⟩
  let reverse_init : EdgeBasedGraphEdge :=
    ⟨first.source, first.target, ⟨first.data.edge_id, INVALID_EDGE_WEIGHT, INVALID_PAYLOAD, false, true⟩⟩
  let forward_edge := lightest (fun e => e.data.forward) forward_init run
  let reverse_edge := lightest (fun e => e.data.backward) reverse_init run
  if forward_edge.data.weight == reverse_edge.data.weight then
    if forward_edge.data.weight != INVALID_EDGE_WEIGHT then
      [{ forward_edge with data := { forward_edge.data with backward := true } }]
    else []
  else
    (if forward_edge.data.weight != INVALID_EDGE_WEIGHT then [forward_edge] else [])
      ++ (if reverse_edge.data.weight != INVALID_EDGE_WEIGHT then [reverse_edge] else [])

end partition
namespace Contractor

instance edgeLE_total {D : Type} : IsTotal (DynamicGraph.InputEdge D) edgeLE :=
  ⟨fun a b => by unfold edgeLE; unfold NodeID at *; omega⟩

instance edgeLE_trans {D : Type} : IsTrans (DynamicGraph.InputEdge D) edgeLE :=
  ⟨fun a b c h1 h2 => by unfold edgeLE at *; unfold NodeID at *; omega⟩

end Contractor
namespace Contractor

/-- The least element of a list, `none` for the empty list. -/
def least {α : Type} [LinearOrder α] : List α → Option α
  | [] => none
  | x :: xs =>
    match least xs with
    | none => some x
    | some m => some (min x m)

/-- The parallel-edge reduction as section 4.4 words it, on the copies of one ordered
pair given as triples `(forward, backward, distance)`: the forward distance is the
minimum over the forward copies, the backward distance the minimum over the backward
copies; equal minima give one edge with both flags, otherwise up to two edges. -/
def reducedPair {α : Type} [LinearOrder α] (copies : List (Bool × Bool × α)) : List (Bool × Bool × α) :=
  match least ((copies.filter (fun c => c.1)).map (fun c => c.2.2)),
        least ((copies.filter (fun c => c.2.1)).map (fun c => c.2.2)) with
  | some a, some b => if a = b then [(true, true, a)] else [(true, false, a), (false, true, b)]
  | some a, none => [(true, false, a)]
  | none, some b => [(false, true, b)]
  | none, none => []

/-- The flags and the distance of an edge of the constructor. -/
def flagsAndDistance (e : _ImportEdge) : Bool × Bool × Nat :=
  (e.data.forward, e.data.backward, e.data.distance)

end Contractor

namespace partition

/-- The flags and the weight of an edge of `edge_based_graph_reader.hpp`. -/
def flagsAndWeight (e : EdgeBasedEdge) : Bool × Bool × Int :=
  (e.data.forward, e.data.backward, e.data.weight)

end partition
namespace Contractor

/-- The cleanup step of the constructor on a vector of direction-explicit edges: the
sort, the reduction loop and the final `resize`. -/
def cleanup (uninit : Bool) (edges : List _ImportEdge) : List _ImportEdge :=
  let edges := sortEdges edges
  let st := reduceEdges uninit edges.length edges 0 0
  st.1.take st.2

end Contractor
namespace Contractor

/-- The four counters of a simulated contraction are non-negative. -/
def StatsOK (s : _ContractionInformation) : Prop :=
  0 ≤ s.edgesDeleted ∧ 0 ≤ s.edgesAdded ∧ 0 ≤ s.originalEdgesDeleted ∧ 0 ≤ s.originalEdgesAdded

/-- The state of `Run` after `k` iterations of the `while` loop. -/
def afterRounds (g : _DynamicGraph) (shuffled : List NodeID) (k : Nat) : RunState :=
  (round g.GetNumberOfNodes)^[k] (initialState g shuffled)

/-- Every node that is still to be contracted has a non-negative priority, and every
depth is non-negative. -/
def PrioritiesOK (st : RunState) : Prop :=
  (∀ p ∈ st.remainingNodes, 0 ≤ st.nodePriority.getD p.1 0) ∧ (∀ d ∈ st.nodeData, 0 ≤ d.depth)

end Contractor
namespace Contractor

/-- The body of the renumbering loop of the compaction for the new id `newNodeID`. -/
def renumberStep (nodePriority : List ℚ)
    (st : List NodeID × List NodeID × List ℚ × List (NodeID × Bool)) (newNodeID : Nat) :
    List NodeID × List NodeID × List ℚ × List (NodeID × Bool) :=
  let old := (st.2.2.2.getD newNodeID default).1
  (st.1.set newNodeID old,
   st.2.1.set old newNodeID,
   st.2.2.1.set newNodeID (nodePriority.getD old 0),
   st.2.2.2.modify (fun p => (newNodeID, p.2)) newNodeID)

/-- Invariant of the renumbering loop after `k` iterations, for the vector
`remainingNodes` at entry (`rem0`), the old priorities `np` and the map
`newNodeIDFromOldNodeIDMap` at entry (`new0`). -/
structure RenumInv (np : List ℚ) (rem0 : List (NodeID × Bool)) (new0 : List NodeID) (k : Nat)
    (st : List NodeID × List NodeID × List ℚ × List (NodeID × Bool)) : Prop where
  len1 : st.1.length = rem0.length
  len2 : st.2.1.length = new0.length
  len3 : st.2.2.1.length = rem0.length
  len4 : st.2.2.2.length = rem0.length
  old : ∀ i, i < k → st.1.getD i 0 = (rem0.getD i default).1
  prio : ∀ i, i < k → st.2.2.1.getD i 0 = np.getD (rem0.getD i default).1 0
  remLo : ∀ i, i < k → st.2.2.2.getD i default = (i, (rem0.getD i default).2)
  remHi : ∀ i, k ≤ i → st.2.2.2.getD i default = rem0.getD i default
  newHit : ∀ i, i < k → (rem0.getD i default).1 < new0.length →
    (∀ j, j < k → i < j → (rem0.getD j default).1 ≠ (rem0.getD i default).1) →
    st.2.1.getD (rem0.getD i default).1 0 = i
  newMiss : ∀ o, (∀ i, i < k → (rem0.getD i default).1 ≠ o) → st.2.1.getD o 0 = new0.getD o 0

end Contractor
namespace Contractor

/-- The four vectors that the renumbering loop of the compaction leaves:
`oldNodeIDFromNewNodeIDMap`, `newNodeIDFromOldNodeIDMap`, `newNodePriority` and
`remainingNodes`. -/
def flushMaps (numberOfNodes : Nat) (st : RunState) :
    List NodeID × List NodeID × List ℚ × List (NodeID × Bool) :=
  renumber st.nodePriority st.remainingNodes.length
    (st.oldNodeIDFromNewNodeIDMap.take st.remainingNodes.length
        ++ List.replicate (st.remainingNodes.length - st.oldNodeIDFromNewNodeIDMap.length) 0,
     List.replicate numberOfNodes UINT_MAX,
     List.replicate st.remainingNodes.length 0,
     st.remainingNodes)

/-- The state with which an iteration of the `while` loop of `Run` goes on after the
test for the compaction. -/
def preRound (numberOfNodes : Nat) (st0 : RunState) : RunState :=
  if !st0.flushedContractor
      && decide ((st0.numberOfContractedNodes : ℚ) > (numberOfNodes : ℚ) * (3 / 4)) then
    flush numberOfNodes st0
  else st0

/-- The vector `remainingNodes` after the loop "determine independent node set". -/
def markIndependent (st : RunState) : List (NodeID × Bool) :=
  st.remainingNodes.map (fun p => (p.1, _IsIndependent st.graph st.nodePriority st.nodeData p.1))

/-- The nodes that a round contracts, in the order of the loop. -/
def independentSet (st : RunState) : List NodeID :=
  ((markIndependent st).filter (fun p => p.2)).map (fun p => p.1)

/-- The buffer of the worker and the vector `nodePriority` after the loop "contract
independent nodes". -/
def contractAll (st : RunState) : List _ImportEdge × List ℚ :=
  (independentSet st).foldl (fun (acc : List _ImportEdge × List ℚ) x =>
    ((_Contract false st.graph acc.1 x default).1, acc.2.set x (-1))) ([], st.nodePriority)

/-- The graph after the edge removal and the loop "insert new edges" of a round. -/
def roundGraph (st : RunState) : _DynamicGraph :=
  insertNewEdges ((independentSet st).foldl _DeleteIncomingEdges st.graph)
    (sortEdges (contractAll st).1)

/-- The vectors `nodePriority` and `nodeData` after the loop "update priorities". -/
def updateAll (st : RunState) : List ℚ × List _PriorityData :=
  (independentSet st).foldl (fun (acc : List ℚ × List _PriorityData) x =>
    _UpdateNeighbours (roundGraph st) acc.1 acc.2 x) ((contractAll st).2, st.nodeData)

end Contractor
namespace Contractor

/-- The ids in `remainingNodes` are pairwise distinct and below `n`. -/
def IdsOK (n : Nat) (st : RunState) : Prop :=
  (st.remainingNodes.map (fun p => p.1)).Nodup ∧ ∀ p ∈ st.remainingNodes, p.1 < n

end Contractor
namespace Contractor

/-- The graph has an edge from `a` to `b` (in the range of `a`, whatever its flags). -/
def HasEdge (g : _DynamicGraph) (a b : NodeID) : Prop :=
  ∃ e ∈ g.adj a, e.target = b

/-- The bias of the node `x` as `_IsIndependent` reads it. -/
def biasOf (nodeData : List _PriorityData) (x : NodeID) : Nat :=
  (nodeData.getD x default).bias

/-- The node `n` wins against the node `m` in `_IsIndependent`: neither of the two
tests that return `false` fires. -/
def Beats (priorities : List ℚ) (nodeData : List _PriorityData) (n m : NodeID) : Prop :=
  ¬ priorities.getD n 0 > priorities.getD m 0
    ∧ ¬ (priorities.getD n 0 = priorities.getD m 0 ∧ biasOf nodeData n < biasOf nodeData m)

/-- The node `x` is in `remainingNodes`. -/
def Remaining (st : RunState) (x : NodeID) : Prop :=
  ∃ p ∈ st.remainingNodes, p.1 = x

/-- Shape of the graph on a set `R` of nodes: the edges of a node of `R` lead to nodes of
`R` other than itself, each has an edge back, and each has a positive distance. -/
structure GraphOK (g : _DynamicGraph) (R : NodeID → Prop) : Prop where
  closed : ∀ a, R a → ∀ e ∈ g.adj a, R e.target
  symm : ∀ a, R a → ∀ e ∈ g.adj a, HasEdge g e.target a
  noLoop : ∀ a, R a → ∀ e ∈ g.adj a, e.target ≠ a
  pos : ∀ a, R a → ∀ e ∈ g.adj a, 0 < e.data.distance

/-- Invariant of the `while` loop of `Run` for a graph of `n` nodes. -/
structure RunInv (n : Nat) (st : RunState) : Prop where
  ids : IdsOK n st
  len : st.remainingNodes.length ≤ n
  graph : GraphOK st.graph (Remaining st)
  bias : ∀ a b, a < n → b < n → biasOf st.nodeData a = biasOf st.nodeData b → a = b
  count : st.numberOfContractedNodes + st.remainingNodes.length = n
  nodesLe : st.graph.GetNumberOfNodes ≤ n
  inGraph : ∀ x, Remaining st x → x < st.graph.GetNumberOfNodes

end Contractor
namespace Contractor

open BinaryHeap

/-- The node ids of the heap list are pairwise distinct and the source `s` of the
witness search has a key of at most 0. -/
def SourceZero (s : NodeID) (h : _Heap) : Prop :=
  (h.map (fun e => e.node)).Nodup ∧ ∃ e ∈ h, e.node = s ∧ e.weight ≤ 0

end Contractor
namespace Contractor

/-- Every buffered edge joins the targets of an in-edge and an out-edge of a contracted
node `x` (one with `P x`) for which a shortcut is required, with the summed distance,
and the buffer holds an edge in the opposite direction. -/
def BufferOK (g : _DynamicGraph) (P : NodeID → Prop) (buffer : List _ImportEdge) : Prop :=
  (∀ e ∈ buffer, ∃ x, P x ∧ ∃ inEdge ∈ g.adj x, ∃ outEdge ∈ g.adj x,
      shortcutRequired g x inEdge outEdge = true
      ∧ ((e.source = inEdge.target ∧ e.target = outEdge.target)
          ∨ (e.source = outEdge.target ∧ e.target = inEdge.target))
      ∧ e.data.distance = inEdge.data.distance + outEdge.data.distance)
  ∧ ∀ e ∈ buffer, ∃ e' ∈ buffer, e'.source = e.target ∧ e'.target = e.source

end Contractor
namespace Contractor

/-- Every backward-flagged edge in the range of a node of `R` is matched at its target:
the edge in the opposite direction is stored there with the forward flag and at most
its distance. -/
def BackwardsBacked (g : _DynamicGraph) (R : NodeID → Prop) : Prop :=
  ∀ n, R n → ∀ e ∈ g.adj n, e.data.backward = true →
    ∃ f ∈ g.adj e.target, f.target = n ∧ f.data.forward = true
      ∧ f.data.distance ≤ e.data.distance

/-- Every buffered edge with the backward flag has its mirror in the buffer: an edge in
the opposite direction with the forward flag and the same distance. -/
def MirrorOK (buffer : List _ImportEdge) : Prop :=
  ∀ e ∈ buffer, e.data.backward = true →
    ∃ e' ∈ buffer, e'.source = e.target ∧ e'.target = e.source ∧ e'.data.forward = true
      ∧ e'.data.distance = e.data.distance

end Contractor
namespace Contractor

/-- The body of the inner loop of the walk over all nodes of the compaction, for the
edge `currentEdge` of the node `i`. -/
def moveStep (newNodeIDFromOldNodeIDMap : List NodeID) (i : NodeID)
    (st : _DynamicGraph × List _ImportEdge) (currentEdge : _Edge) :
    _DynamicGraph × List _ImportEdge :=
  if UINT_MAX == newNodeIDFromOldNodeIDMap.getD i 0 then
    (st.1, st.2 ++ [⟨i, currentEdge.target, currentEdge.data⟩])
  else
    (st.1.InsertEdge (newNodeIDFromOldNodeIDMap.getD i 0)
        (newNodeIDFromOldNodeIDMap.getD currentEdge.target 0)
        { currentEdge.data with originalViaNodeID := true }, st.2)

/-- The edge of the new graph that the compaction makes of the edge `e`. -/
def renumberedEdge (newNodeIDFromOldNodeIDMap : List NodeID) (e : _Edge) : _Edge :=
  ⟨newNodeIDFromOldNodeIDMap.getD e.target 0, { e.data with originalViaNodeID := true }⟩

end Contractor
namespace Contractor

/-- The contraction carried out without the mid-run compaction: the loop of `Run` with
the test for the compaction switched off from the start. -/
def RunWithoutCompaction (g : _DynamicGraph) (shuffled : List NodeID) : Option RunState :=
  runLoop g.GetNumberOfNodes g.GetNumberOfNodes
    { initialState g shuffled with flushedContractor := true }

/-- The edges of the graph of a run without compaction, with the ids as they are. -/
def plainEdges (st : RunState) : List OutputEdge :=
  (graphEdges st.graph).map (fun p =>
    ⟨p.1, p.2.target, ⟨p.2.data.distance, p.2.data.shortcut, p.2.data.via, p.2.data.nameID,
      p.2.data.turnInstruction, p.2.data.forward, p.2.data.backward⟩⟩)

/-- Input edges on 13 nodes: 5 - 3 (3), 2 - 9 (3), 3 - 9 (8), 2 - 6 (6), all open in both
directions. -/
def compactionInput : List EdgeBasedEdge :=
  [⟨5, 3, 3, 0, 0, 0, true, true⟩, ⟨2, 9, 3, 0, 0, 0, true, true⟩,
   ⟨3, 9, 8, 0, 0, 0, true, true⟩, ⟨2, 6, 6, 0, 0, 0, true, true⟩]

/-- The graph that the constructor builds from `compactionInput`. -/
def compactionGraph : _DynamicGraph := Contractor true false 13 compactionInput

end Contractor
namespace Contractor

/-- Input edges on 3 nodes, each open in its forward direction only: 0 -> 2 of weight
5, 2 -> 0 of weight 7, 2 -> 1 of weight 1 and 1 -> 0 of weight 1. -/
def mergeInput : List EdgeBasedEdge :=
  [⟨0, 2, 5, 0, 0, 0, true, false⟩, ⟨2, 0, 7, 0, 0, 0, true, false⟩,
   ⟨2, 1, 1, 0, 0, 0, true, false⟩, ⟨1, 0, 1, 0, 0, 0, true, false⟩]

/-- The graph that the constructor builds from `mergeInput`. -/
def mergeGraph : _DynamicGraph := Contractor true false 3 mergeInput

end Contractor
namespace Contractor

/-- Every edge of the graph has a target below `N`, and a via below `N` when the via is
marked as an id of the current id space (`originalViaNodeID` is `false`). -/
def EdgesIn (g : _DynamicGraph) (N : Nat) : Prop :=
  ∀ i, ∀ e ∈ g.adj i, e.target < N ∧ (e.data.originalViaNodeID = false → e.data.via < N)

/-- The edge that `GetEdges` emits for the edge `e` of the node `node` when all lookups
are within bounds. -/
def translatedEdge (oldNodeIDFromNewNodeIDMap : List NodeID) (node : NodeID) (e : _Edge) :
    OutputEdge :=
  ⟨oldNodeIDFromNewNodeIDMap.getD node 0, oldNodeIDFromNewNodeIDMap.getD e.target 0,
    ⟨e.data.distance, e.data.shortcut,
      if e.data.originalViaNodeID then e.data.via
      else oldNodeIDFromNewNodeIDMap.getD e.data.via 0,
      e.data.nameID, e.data.turnInstruction, e.data.forward, e.data.backward⟩⟩

end Contractor
namespace Contractor

/-- Input edges of the path 0 - 1 - 2 - 3 - 4, each of weight 1 and open in both
directions. -/
def pathInput : List EdgeBasedEdge :=
  [⟨0, 1, 1, 0, 0, 0, true, true⟩, ⟨1, 2, 1, 0, 0, 0, true, true⟩,
   ⟨2, 3, 1, 0, 0, 0, true, true⟩, ⟨3, 4, 1, 0, 0, 0, true, true⟩]

end Contractor
namespace EdgeBasedGraphFactory

/-- A node-based graph with the roundabout edges 0 -> 1 and 1 -> 2 and the exit 1 -> 3. -/
def roundaboutExits : _NodeBasedDynamicGraph :=
  (EdgeBasedGraphFactory 4
    [⟨0, 1, 7, 5, true, false, 0, true⟩, ⟨1, 2, 7, 5, true, false, 0, true⟩,
     ⟨1, 3, 8, 5, true, false, 0, false⟩] [] [])._nodeBasedGraph

end EdgeBasedGraphFactory
namespace EdgeBasedGraphFactory

/-- The position of `restrictionIterator` while `Run` handles the node `u`, as the rest
of `inputRestrictions` from there: the restrictions with a smaller `fromNode` at the
front are skipped. -/
def iteratorAt (rs : List _Restriction) (u : NodeID) : List _Restriction :=
  rs.dropWhile (fun r => decide (r.fromNode < u))

/-- The restrictions that the two loops over the restrictions visit for the node `u`:
from the position of `restrictionIterator` on, as long as `fromNode` is `u`. -/
def block (rs : List _Restriction) (u : NodeID) : List _Restriction :=
  (iteratorAt rs u).takeWhile (fun r => r.fromNode == u)

/-- The loops over the restrictions of `u` read `fromNode` at the end of the vector: the
restrictions of `u` are the last of the vector. -/
def overrun (rs : List _Restriction) (u : NodeID) : Bool :=
  !(block rs u).isEmpty && ((iteratorAt rs u).dropWhile (fun r => r.fromNode == u)).isEmpty

/-- The value of `onlyToNode` when the first loop over the restrictions `rs` sets
`isOnlyAllowed` for the via node `v`: the `toNode` of the last `only` restriction with
via node `v`; `none` when `isOnlyAllowed` stays `false`. -/
def onlyOf (rs : List _Restriction) (v : NodeID) : Option NodeID :=
  rs.foldl (fun acc r => if v == r.viaNode && r.isOnly then some r.toNode else acc) none

/-- The value of `isTurnRestricted` after the second loop over the restrictions `rs`. -/
def restrictedOf (rs : List _Restriction) (v w : NodeID) : Bool :=
  rs.any (fun r => v == r.viaNode && w == r.toNode)

/-- The turn from an edge `(u, v)` onto an edge `(v, w)` passes the tests of `Run`: it
is no U-turn, and it leads to `onlyToNode` when `isOnlyAllowed` is set, is not
restricted otherwise. -/
def emit (rs : List _Restriction) (u v w : NodeID) : Bool :=
  u != w && (match onlyOf (block rs u) v with
    | some onlyToNode => w == onlyToNode
    | none => !restrictedOf (block rs u) v w)

/-- The edge-based edge that `Run` pushes for the turn from the edge `e1` of `u` onto
`e2`. -/
def turnEdge (F : Factory) (GetAngleBetweenTwoEdges : NodeInfo → NodeInfo → NodeInfo → ℚ)
    (GetTurnDirectionOfInstruction : ℚ → Int) (u : NodeID) (e1 e2 : _Edge) :
    Contractor.EdgeBasedEdge :=
  newEdge e1 e2
    (GetAngleBetweenTwoEdges (F.inputNodeInfoList.getD u default)
      (F.inputNodeInfoList.getD e1.target default) (F.inputNodeInfoList.getD e2.target default))
    ((AnalyzeTurn F._nodeBasedGraph GetTurnDirectionOfInstruction
      (GetAngleBetweenTwoEdges (F.inputNodeInfoList.getD u default)
        (F.inputNodeInfoList.getD e1.target default) (F.inputNodeInfoList.getD e2.target default))
      u e1.target e2.target).getD 0)

/-- The edge-based edges of the turns from the edge `e1` of `u` that pass the tests, in
the order of the loop over `e2`. -/
def edgesOfEdge (F : Factory) (GetAngleBetweenTwoEdges : NodeInfo → NodeInfo → NodeInfo → ℚ)
    (GetTurnDirectionOfInstruction : ℚ → Int) (u : NodeID) (e1 : _Edge) :
    List Contractor.EdgeBasedEdge :=
  (F._nodeBasedGraph.adj e1.target).flatMap (fun e2 =>
    if emit F.inputRestrictions u e1.target e2.target then
      [turnEdge F GetAngleBetweenTwoEdges GetTurnDirectionOfInstruction u e1 e2]
    else [])

/-- The edge-based nodes that `Run` pushes while it handles the edge `e1` of `u`. -/
def nodesOfEdge (F : Factory) (u : NodeID) (e1 : _Edge) : List EdgeBasedNode :=
  (if (F._nodeBasedGraph.adj e1.target).length == 1 && e1.data.type != 14 then
      [currentNode F u e1] else [])
    ++ (F._nodeBasedGraph.adj e1.target).flatMap (fun e2 =>
      if emit F.inputRestrictions u e1.target e2.target && e1.data.type != 14 then
        [currentNode F u e1]
      else [])

/-- All pairs of an edge `e1 = (u, v)` and an edge `e2 = (v, w)` of the graph with
`u != w`, each with `u`, in the order of the three loops of `Run`. -/
def adjacentPairs (g : _NodeBasedDynamicGraph) : List (NodeID × _Edge × _Edge) :=
  (List.range g.GetNumberOfNodes).flatMap (fun u =>
    (g.adj u).flatMap (fun e1 =>
      ((g.adj e1.target).filter (fun e2 => u != e2.target)).map (fun e2 => (u, e1, e2))))

end EdgeBasedGraphFactory
namespace EdgeBasedGraphFactory

/-- The factory for the edges 0 -> 1, 1 -> 2 and 1 -> 3 (names 0, 1, 2, each open
forwards only) and the restrictions `irs`. -/
def forkFactory (irs : List _Restriction) : Factory :=
  EdgeBasedGraphFactory 4
    [⟨0, 1, 0, 5, true, false, 0, false⟩, ⟨1, 2, 1, 5, true, false, 0, false⟩,
     ⟨1, 3, 2, 5, true, false, 0, false⟩] irs [⟨0, 0⟩, ⟨0, 1⟩, ⟨0, 2⟩, ⟨1, 1⟩]

end EdgeBasedGraphFactory
namespace StaticGraph

variable {EdgeDataT : Type} [Inhabited EdgeDataT]

/-- The edge `e` leads to `dst` and is lighter than `INVALID_EDGE_WEIGHT`: the edges among
which `FindEdge` chooses. -/
def Candidate (INVALID_EDGE_WEIGHT : Int) (g : StaticGraph EdgeDataT)
    (distance : EdgeDataT → Int) (dst : NodeID) (e : Nat) : Prop :=
  g.GetTarget e = dst ∧ distance (g.GetEdgeData e) < INVALID_EDGE_WEIGHT

instance (INVALID_EDGE_WEIGHT : Int) (g : StaticGraph EdgeDataT) (distance : EdgeDataT → Int)
    (dst : NodeID) (e : Nat) : Decidable (Candidate INVALID_EDGE_WEIGHT g distance dst e) := by
  unfold Candidate
  exact inferInstance

/-- State of the loop of `FindEdge` after the edges `pre`. -/
def FindInv (S : Nat) (INV : Int) (g : StaticGraph EdgeDataT) (distance : EdgeDataT → Int)
    (dst : NodeID) (pre : List Nat) (st : Nat × Int) : Prop :=
  (st = (S, INV) ∧ ∀ e ∈ pre, ¬ Candidate INV g distance dst e)
  ∨ (∃ l1 l2, pre = l1 ++ st.1 :: l2 ∧ Candidate INV g distance dst st.1
      ∧ st.2 = distance (g.GetEdgeData st.1)
      ∧ (∀ e ∈ l1, Candidate INV g distance dst e → st.2 < distance (g.GetEdgeData e))
      ∧ (∀ e ∈ l2, Candidate INV g distance dst e → st.2 ≤ distance (g.GetEdgeData e)))

/-- A graph with the nodes 0 and 1 and three edges from 0 to 1, of distance 7, 4 and 4;
the edge data is the distance. -/
def parallelGraph : StaticGraph Int :=
  { node_array := [0, 3, 3], edge_array := [⟨1, 7⟩, ⟨1, 4⟩, ⟨1, 4⟩] }

/-- A graph with the nodes 0 and 1 and one edge from 0 to 1 of distance 2147483647. -/
def heavyGraph : StaticGraph Int :=
  { node_array := [0, 1, 1], edge_array := [⟨1, 2147483647⟩] }

end StaticGraph

namespace alternative_path

/-- The phantom nodes of a source on the segment `s` and a target on the segment `t`
without offsets: only the forward segment ids are enabled and every weight plus
offset is 0. -/
def plainPhantoms (s t : NodeID) : PhantomNodes :=
  { source_phantom := ⟨⟨s, true⟩, ⟨s, false⟩, 0, 0⟩
    target_phantom := ⟨⟨t, true⟩, ⟨t, false⟩, 0, 0⟩ }

/-- The state in which the search is entered for a source and a target without offsets:
the source is in `forward_heap1` and the target in `reverse_heap1`, both with key 0
and as their own parent. -/
def zeroKeySearch (INVALID_EDGE_WEIGHT : Int) (SPECIAL_NODEID : NodeID) (s t : NodeID) :
    SearchState :=
  { forward_heap1 := QueryHeap.empty.Insert s 0 s
    reverse_heap1 := QueryHeap.empty.Insert t 0 t
    middle_node := SPECIAL_NODEID
    upper_bound_to_shortest_path_weight := INVALID_EDGE_WEIGHT
    via_node_candidate_list := []
    forward_search_space := []
    reverse_search_space := [] }

end alternative_path
namespace alternative_path

/-- The flag that a step of direction `DIRECTION` tests on an edge. -/
def flag (DIRECTION : Bool) (data : EdgeData) : Bool :=
  if DIRECTION then data.forward else data.backward

/-- The node `u` has an edge to `v` of weight `c` that a step of direction `DIRECTION`
relaxes. -/
def Arc (facade : StaticGraph EdgeData) (DIRECTION : Bool) (u v : NodeID) (c : Int) : Prop :=
  ∃ e ∈ facade.GetAdjacentEdgeRange u, flag DIRECTION (facade.GetEdgeData e) = true
    ∧ facade.GetTarget e = v ∧ (facade.GetEdgeData e).weight = c

/-- A path of weight `a` from `x0` to `v` over edges that the search of direction
`DIRECTION` relaxes. -/
inductive UpPath (facade : StaticGraph EdgeData) (DIRECTION : Bool) (x0 : NodeID) :
    NodeID → Int → Prop
  | nil : UpPath facade DIRECTION x0 x0 0
  | snoc {u v : NodeID} {a c : Int} : UpPath facade DIRECTION x0 u a →
      Arc facade DIRECTION u v c → UpPath facade DIRECTION x0 v (a + c)

/-- A path of weight `a` from `s` to `v` in the original edge-based graph, given as the
list of its edges `(source, target, weight)`. -/
inductive Route (G : List (NodeID × NodeID × Int)) (s : NodeID) : NodeID → Int → Prop
  | nil : Route G s s 0
  | snoc {u v : NodeID} {a c : Int} : Route G s u a → (u, v, c) ∈ G → Route G s v (a + c)

/-- The hierarchy `facade` is valid for the graph `G` and the pair `(s, t)`: every path
from `s` to `t` in `G` is matched by a forward path from `s` and a reverse path from `t`
to a common node that together are not heavier, and every such pair of paths by a
path in `G` that is not heavier. -/
def ValidHierarchy (G : List (NodeID × NodeID × Int)) (facade : StaticGraph EdgeData)
    (s t : NodeID) : Prop :=
  (∀ w, Route G s t w → ∃ m a b, UpPath facade true s m a ∧ UpPath facade false t m b
      ∧ a + b ≤ w)
    ∧ (∀ m a b, UpPath facade true s m a → UpPath facade false t m b →
        ∃ w, Route G s t w ∧ w ≤ a + b)

/-- The nodes that the steps of direction `DIRECTION` have put into their search space. -/
def processedOf (DIRECTION : Bool) (st : SearchState) : List NodeID :=
  (if DIRECTION then st.forward_search_space else st.reverse_search_space).map (fun p => p.2)

/-- Every node that the search from `x0` can insert. -/
def reachable (facade : StaticGraph EdgeData) (x0 : NodeID) : List NodeID :=
  x0 :: 0 :: facade.edge_array.map (fun e => e.target)

/-- Invariant of the heap `h` of one direction, started at `x0`, with the processed
nodes `P` and the upper bound `ub`. -/
structure DirInv (INVALID_EDGE_WEIGHT : Int) (facade : StaticGraph EdgeData) (DIRECTION : Bool)
    (x0 : NodeID) (h : QueryHeap) (P : List NodeID) (ub : Int) : Prop where
  nodup : h.inserted.Nodup
  src : x0 ∈ h.inserted
  sound : ∀ v ∈ h.inserted, UpPath facade DIRECTION x0 v (h.key v)
  queuedIns : ∀ v, h.inHeap v = true → v ∈ h.inserted
  part : ∀ v ∈ h.inserted, v ∈ P ∨ h.inHeap v = true
    ∨ ((∀ q, h.inHeap q = false) ∧ ub < INVALID_EDGE_WEIGHT ∧ ub < h.key v)
  procIns : ∀ v ∈ P, v ∈ h.inserted ∧ h.inHeap v = false
  closed : ∀ u ∈ P, ∀ v c, Arc facade DIRECTION u v c → v ∈ h.inserted ∧ h.key v ≤ h.key u + c
  mono : ∀ u ∈ P, ∀ q, h.inHeap q = true → h.key u ≤ h.key q
  sub : ∀ v ∈ h.inserted, v ∈ reachable facade x0
  src0 : h.key x0 ≤ 0

/-- Invariant of the heap `h` of one direction inside the loop over the edges of the
node `n`, removed from the heap with key `k`, when the edges `done` have been relaxed;
`key0` holds the keys before the loop. -/
structure RelaxInv (facade : StaticGraph EdgeData) (DIRECTION : Bool) (x0 n : NodeID) (k : Int)
    (key0 : NodeID → Int) (done : List Nat) (h : QueryHeap) (P : List NodeID) : Prop where
  nodup : h.inserted.Nodup
  src : x0 ∈ h.inserted
  sound : ∀ v ∈ h.inserted, UpPath facade DIRECTION x0 v (h.key v)
  queuedIns : ∀ v, h.inHeap v = true → v ∈ h.inserted
  part0 : ∀ v ∈ h.inserted, v ∈ P ∨ h.inHeap v = true
  procIns : ∀ v ∈ P, v ∈ h.inserted ∧ h.inHeap v = false
  keyn : h.key n = k
  nmem : n ∈ P
  below : ∀ u ∈ P, h.key u ≤ k
  closedOld : ∀ u ∈ P, u ≠ n → ∀ v c, Arc facade DIRECTION u v c →
    v ∈ h.inserted ∧ h.key v ≤ h.key u + c
  closedNew : ∀ e ∈ done, flag DIRECTION (facade.GetEdgeData e) = true →
    facade.GetTarget e ∈ h.inserted
      ∧ h.key (facade.GetTarget e) ≤ k + (facade.GetEdgeData e).weight
  mono : ∀ u ∈ P, ∀ q, h.inHeap q = true → h.key u ≤ h.key q
  sub : ∀ v ∈ h.inserted, v ∈ reachable facade x0
  frozen : ∀ u ∈ P, h.key u = key0 u
  src0 : h.key x0 ≤ 0

/-- The upper bound is the sentinel, or the weight of a forward path from `s` and a
reverse path from `t` to a common node. -/
def UbOk (INVALID_EDGE_WEIGHT : Int) (facade : StaticGraph EdgeData) (s t : NodeID) (ub : Int) :
    Prop :=
  ub = INVALID_EDGE_WEIGHT
    ∨ (0 ≤ ub ∧ ub < INVALID_EDGE_WEIGHT
      ∧ ∃ m a b, UpPath facade true s m a ∧ UpPath facade false t m b ∧ ub = a + b)

/-- Invariant of the loop "search from s and t". -/
structure SearchInv (INVALID_EDGE_WEIGHT : Int) (facade : StaticGraph EdgeData) (s t : NodeID)
    (st : SearchState) : Prop where
  fwd : DirInv INVALID_EDGE_WEIGHT facade true s st.forward_heap1 (processedOf true st)
    st.upper_bound_to_shortest_path_weight
  rev : DirInv INVALID_EDGE_WEIGHT facade false t st.reverse_heap1 (processedOf false st)
    st.upper_bound_to_shortest_path_weight
  ub : UbOk INVALID_EDGE_WEIGHT facade s t st.upper_bound_to_shortest_path_weight
  meet : ∀ v, v ∈ processedOf true st → v ∈ processedOf false st →
    st.upper_bound_to_shortest_path_weight ≤ st.forward_heap1.key v + st.reverse_heap1.key v

/-- The number of nodes that have left the heap. -/
def removedCount (h : QueryHeap) : Nat := (h.inserted.filter (fun v => !h.inHeap v)).length

end alternative_path

namespace alternative_path

/-- A graph with the single edge from node 0 to node 1, of weight 3. -/
def lineGraph : List (NodeID × NodeID × Int) := [(0, 1, 3)]

/-- The hierarchy of `lineGraph`: node 0 has the forward edge to node 1. -/
def lineHierarchy : StaticGraph EdgeData :=
  { node_array := [0, 1, 1], edge_array := [⟨1, ⟨3, true, false, false, 0⟩⟩] }

end alternative_path

namespace alternative_path

/-- The hierarchy with the single node 0 and a loop edge of weight 12 at it. -/
def loopHierarchy : StaticGraph EdgeData :=
  { node_array := [0, 1], edge_array := [⟨0, ⟨12, true, true, false, 0⟩⟩] }

/-- A state of the search in which the node 0 is queued forwards with key -5, as a source
with the offset 5 enters `forward_heap1`, and in reverse with key 2. -/
def loopState : SearchState :=
  { forward_heap1 := QueryHeap.empty.Insert 0 (-5) 0
    reverse_heap1 := QueryHeap.empty.Insert 0 2 0
    middle_node := 4294967295
    upper_bound_to_shortest_path_weight := 2147483647
    via_node_candidate_list := []
    forward_search_space := []
    reverse_search_space := [] }

/-- A source on the segment 0 with weight plus offset 5 and a target on the same segment
with weight plus offset 2, behind the source: only the forward segment ids are
enabled. -/
def loopPhantoms : PhantomNodes :=
  { source_phantom := ⟨⟨0, true⟩, ⟨0, false⟩, 5, 0⟩
    target_phantom := ⟨⟨0, true⟩, ⟨0, false⟩, 2, 0⟩ }

end alternative_path

namespace EdgeBasedGraphFactory

/-- The factory for the input edge between 0 and 1 that is open backwards only and the
input edge from 1 to 2 that is open forwards only, without restrictions. -/
def backwardFactory : Factory :=
  EdgeBasedGraphFactory 3
    [⟨0, 1, 0, 5, false, true, 0, false⟩, ⟨1, 2, 1, 5, true, false, 0, false⟩] []
    [⟨0, 0⟩, ⟨0, 1⟩, ⟨0, 2⟩]

end EdgeBasedGraphFactory

namespace Contractor

/-- One iteration of the reduction loop of the constructor (the body of `reduceEdges`)
on the state of the loop: the vector `edges`, the read index `i` and the write index
`edge`. The state stays when the loop condition `i < edges.size()` fails. -/
def reduceBody (uninit : Bool) (st : List _ImportEdge × Nat × Nat) :
    List _ImportEdge × Nat × Nat :=
  let edges := st.1
  let i := st.2.1
  let edge := st.2.2
  if i < edges.length then
    let source := (edges.getD i default).source
    let target := (edges.getD i default).target
    let via := (edges.getD i default).data.via
    let turnType := (edges.getD i default).data.turnInstruction
    if source == target then (edges, i + 1, edge)
    else
      let run := (edges.drop i).takeWhile (fun e => e.source == source && e.target == target)
      let forwardEdge : _ImportEdge :=
        { source := source
          target := target
          data :=
            { distance := minDistance (fun e => e.data.forward) run
              originalEdges := 1
              via := via
              nameID := (edges.getD i default).data.nameID
              turnInstruction := turnType
              shortcut := false
              forward := true
              backward := false
              originalViaNodeID := uninit } }
      let backwardEdge : _ImportEdge :=
        { forwardEdge with
          data := { forwardEdge.data with
            distance := minDistance (fun e => e.data.backward) run
            forward := false
            backward := true } }
      let i := i + run.length
      if forwardEdge.data.distance == backwardEdge.data.distance then
        if forwardEdge.data.distance != INT_MAX then
          (edges.set edge { forwardEdge with data := { forwardEdge.data with backward := true } },
            i, edge + 1)
        else (edges, i, edge)
      else
        let st1 := if forwardEdge.data.distance != INT_MAX then (edges.set edge forwardEdge, edge + 1)
          else (edges, edge)
        let st2 := if backwardEdge.data.distance != INT_MAX then (st1.1.set st1.2 backwardEdge, st1.2 + 1)
          else st1
        (st2.1, i, st2.2)
  else st

end Contractor

namespace Contractor

open BinaryHeap

/-- One iteration of the `while` loop of `_Dijkstra` (the body of `dijkstraLoop`) on the
state at the head of the loop: the counters `nodes` and `targetsFound` and the heap.
`Except.error` holds the heap with which the function returns or the loop ends,
`Except.ok` the state at the next head of the loop. -/
def dijkstraBody (g : _DynamicGraph) (maxDistance : Int) (numTargets : Nat) (maxNodes : Int)
    (hopLimit : Int) (st : Int × Nat × _Heap) : Except _Heap (Int × Nat × _Heap) :=
  let nodes := st.1
  let targetsFound := st.2.1
  let heap := st.2.2
  if heap.Size > 0 then
    let node := heap.DeleteMin.1
    let heap := heap.DeleteMin.2
    let distance := heap.GetKey node
    let currentHop := toShort ((heap.GetData node).hop + 1)
    let nodes := nodes + 1
    if nodes > maxNodes then Except.error heap
    else if distance > maxDistance then Except.error heap
    else
      let targetsFound := if (heap.GetData node).target then targetsFound + 1 else targetsFound
      if (heap.GetData node).target && targetsFound ≥ numTargets then Except.error heap
      else if currentHop ≥ hopLimit then Except.ok (nodes, targetsFound, heap)
      else Except.ok (nodes, targetsFound, relaxEdges distance currentHop heap (g.adj node))
  else Except.error heap

end Contractor

namespace alternative_path

/-- An edge of an unpacked path: source, target and weight. -/
abbrev PathEdge := NodeID × NodeID × Int

/-- The weight of a list of edges. -/
def pathWeight (L : List PathEdge) : Int := (L.map (fun e => e.2.2)).sum

/-- The packed edge from `a` to `b` unpacks into the list `L` of edges that are no
shortcuts: the edge is found, and when it is a shortcut its weight is the sum of the
weights of its two halves, the edges to and from its middle node, which unpack in
turn. -/
inductive Unpacked (SPECIAL_EDGEID : Nat) (find : NodeID → NodeID → Nat)
    (facade : StaticGraph EdgeData) : NodeID → NodeID → List PathEdge → Prop
  | plain {a b : NodeID} {d : EdgeData} :
      find a b ≠ SPECIAL_EDGEID → edgeDataAt facade (find a b) = some d → d.shortcut = false →
      Unpacked SPECIAL_EDGEID find facade a b [(a, b, d.weight)]
  | shortcut {a b : NodeID} {d d1 d2 : EdgeData} {L1 L2 : List PathEdge} :
      find a b ≠ SPECIAL_EDGEID → edgeDataAt facade (find a b) = some d → d.shortcut = true →
      edgeDataAt facade (find a d.id) = some d1 → edgeDataAt facade (find d.id b) = some d2 →
      d.weight = d1.weight + d2.weight →
      Unpacked SPECIAL_EDGEID find facade a d.id L1 →
      Unpacked SPECIAL_EDGEID find facade d.id b L2 →
      Unpacked SPECIAL_EDGEID find facade a b (L1 ++ L2)

/-- The node at which the list of edges `S` starts; `v` for the empty list. -/
def startOf (S : List PathEdge) (v : NodeID) : NodeID :=
  match S with
  | [] => v
  | e :: _ => e.1

/-- The node at which the list of edges `P` ends; `v` for the empty list. -/
def endOf (P : List PathEdge) (v : NodeID) : NodeID :=
  match P.getLast? with
  | none => v
  | some e => e.2.1

/-- The unpacked edges of the packed edges with the indices `lo + 1, ..., hi` of a packed
path, `Ls i` being the unpacked edges of the packed edge that ends at index `i`. -/
def unpackedBetween (Ls : Nat → List PathEdge) (lo hi : Nat) : List PathEdge :=
  (List.range' (lo + 1) (hi - lo)).flatMap Ls

end alternative_path

namespace alternative_path

/-- The hierarchy of the chain of the edges from 0 to 1 (weight 2), from 1 to 2 (weight 3)
and from 2 to 3 (weight 4), with the shortcut from 0 to 2 over 1 (weight 5) and the
shortcut from 0 to 3 over 2 (weight 9). -/
def chainHierarchy : StaticGraph EdgeData :=
  { node_array := [0, 3, 4, 5, 5],
    edge_array := [⟨1, ⟨2, true, false, false, 0⟩⟩, ⟨2, ⟨5, true, false, true, 1⟩⟩,
      ⟨3, ⟨9, true, false, true, 2⟩⟩, ⟨2, ⟨3, true, false, false, 0⟩⟩,
      ⟨3, ⟨4, true, false, false, 0⟩⟩] }

/-- The function `FindEdgeInEitherDirection` of the chain hierarchy. -/
def chainFind : NodeID → NodeID → Nat :=
  FindEdgeInEitherDirection 4294967295 4294967295 2147483647 chainHierarchy

end alternative_path

namespace Contractor

/-- Input edges on 5 nodes: 0 -> 1 (1), 1 -> 2 (1), 0 -> 2 (5), 2 -> 0 (3) and 3 -> 4 (1),
each open in its forward direction only, and 2 - 4 (2) and 0 - 4 (5), open in both
directions. The first round of `Run` with the order 0, 1, 2, 3, 4 contracts the nodes
1 and 3; the shortcut for 0 -> 1 -> 2 lowers the edge 0 -> 2 at node 0 to the distance
2 and is added to node 2 as a new edge, so node 2 keeps the edge from 0 of distance 5
with the backward flag. -/
def staleInput : List EdgeBasedEdge :=
  [⟨0, 1, 1, 0, 0, 0, true, false⟩, ⟨1, 2, 1, 0, 0, 0, true, false⟩,
   ⟨0, 2, 5, 0, 0, 0, true, false⟩, ⟨2, 0, 3, 0, 0, 0, true, false⟩,
   ⟨3, 4, 1, 0, 0, 0, true, false⟩, ⟨2, 4, 2, 0, 0, 0, true, true⟩,
   ⟨0, 4, 5, 0, 0, 0, true, true⟩]

/-- The state of `Run` on `staleInput` with the order 0, 1, 2, 3, 4 before the second
round. -/
def staleState : RunState :=
  preRound 5 (afterRounds (Contractor true false 5 staleInput) [0, 1, 2, 3, 4] 1)

end Contractor

/-! ## Lemmas -/

namespace BinaryHeap

theorem WasInserted_iff (h : BinaryHeap) (x : NodeID) :
    h.WasInserted x = true ↔ ∃ e ∈ h, e.node = x := by
  simp [WasInserted, List.any_eq_true]

theorem WasInserted_false_iff (h : BinaryHeap) (x : NodeID) :
    h.WasInserted x = false ↔ ∀ e ∈ h, e.node ≠ x := by
  rw [← Bool.not_eq_true, WasInserted_iff]
  push_neg
  rfl

theorem find_of_mem {h : BinaryHeap} (hnd : (h.map (fun e => e.node)).Nodup) {e : HeapNode}
    (he : e ∈ h) : h.find? (fun x => x.node == e.node) = some e := by
  induction h with
  | nil => simp at he
  | cons a t ih =>
    simp only [List.map_cons, List.nodup_cons, List.mem_map, not_exists, not_and] at hnd
    rcases List.mem_cons.1 he with rfl | het
    · simp
    · have hne : a.node ≠ e.node := fun hh => hnd.1 e het hh.symm
      simp [List.find?_cons, hne, ih hnd.2 het]

theorem GetKey_of_mem {h : BinaryHeap} (hnd : (h.map (fun e => e.node)).Nodup) {e : HeapNode}
    (he : e ∈ h) : h.GetKey e.node = e.weight := by
  simp [GetKey, find_of_mem hnd he]

theorem GetData_of_mem {h : BinaryHeap} (hnd : (h.map (fun e => e.node)).Nodup) {e : HeapNode}
    (he : e ∈ h) : h.GetData e.node = e.data := by
  simp [GetData, find_of_mem hnd he]

theorem minNode_none {h : BinaryHeap} : minNode h = none ↔ ∀ e ∈ h, e.inHeap = false := by
  induction h with
  | nil => simp [minNode]
  | cons a t ih =>
    by_cases ha : a.inHeap = true
    · simp only [minNode, ha, if_true]
      cases hm : minNode t with
      | none => simp [ha]
      | some m =>
        simp only
        split <;> simp [ha]
    · simp only [Bool.not_eq_true] at ha
      simp [minNode, ha, ih]

theorem minNode_some {h : BinaryHeap} {m : HeapNode} (hm : minNode h = some m) :
    m ∈ h ∧ m.inHeap = true ∧ ∀ e ∈ h, e.inHeap = true → m.weight ≤ e.weight := by
  induction h generalizing m with
  | nil => simp [minNode] at hm
  | cons a t ih =>
    by_cases ha : a.inHeap = true
    · simp only [minNode, ha, if_true] at hm
      cases ht : minNode t with
      | none =>
        simp only [ht, Option.some.injEq] at hm
        subst hm
        refine ⟨by simp, ha, ?_⟩
        intro e he hin
        rcases List.mem_cons.1 he with rfl | het
        · exact le_refl _
        · have := minNode_none.1 ht e het
          simp [this] at hin
      | some m' =>
        obtain ⟨h1, h2, h3⟩ := ih ht
        simp only [ht] at hm
        by_cases hlt : m'.weight < a.weight
        · simp only [hlt, if_true, Option.some.injEq] at hm
          subst hm
          refine ⟨List.mem_cons_of_mem _ h1, h2, ?_⟩
          intro e he hin
          rcases List.mem_cons.1 he with rfl | het
          · exact le_of_lt hlt
          · exact h3 e het hin
        · simp only [hlt, if_false, Option.some.injEq] at hm
          subst hm
          refine ⟨by simp, ha, ?_⟩
          intro e he hin
          rcases List.mem_cons.1 he with rfl | het
          · exact le_refl _
          · exact le_trans (not_lt.1 hlt) (h3 e het hin)
    · simp only [Bool.not_eq_true] at ha
      simp only [minNode, ha] at hm
      obtain ⟨h1, h2, h3⟩ := ih hm
      refine ⟨List.mem_cons_of_mem _ h1, h2, ?_⟩
      intro e he hin
      rcases List.mem_cons.1 he with rfl | het
      · simp [ha] at hin
      · exact h3 e het hin

theorem Size_pos_iff (h : BinaryHeap) : 0 < h.Size ↔ ∃ e ∈ h, e.inHeap = true := by
  simp [Size, List.length_pos_iff_exists_mem]

theorem Size_pos_minNode {h : BinaryHeap} (hs : 0 < h.Size) : ∃ m, minNode h = some m := by
  cases hm : minNode h with
  | some m => exact ⟨m, rfl⟩
  | none =>
    obtain ⟨e, he, hin⟩ := (Size_pos_iff h).1 hs
    have := minNode_none.1 hm e he
    simp [this] at hin

end BinaryHeap

namespace Contractor

open BinaryHeap

theorem Walk_append {g : _DynamicGraph} {u x v : NodeID} {W1 W2 : Nat}
    (h1 : Walk g u x W1) (h2 : Walk g x v W2) : Walk g u v (W1 + W2) := by
  induction h2 with
  | nil => simpa using h1
  | snoc _ he ih =>
    rw [← Nat.add_assoc]
    exact Walk.snoc ih he

theorem Walk_single {g : _DynamicGraph} {u v : NodeID} {w : Nat} (he : FwdEdge g u v w) :
    Walk g u v w := by
  simpa using Walk.snoc (Walk.nil u) he

theorem Walk_cons {g : _DynamicGraph} {u x v : NodeID} {w W : Nat}
    (he : FwdEdge g u x w) (h2 : Walk g x v W) : Walk g u v (w + W) :=
  Walk_append (Walk_single he) h2

theorem KeyLE_mono {h : _Heap} {x : NodeID} {k k' : Int} (hk : KeyLE h x k) (hle : k ≤ k') :
    KeyLE h x k' := by
  obtain ⟨e, he, hn, hw⟩ := hk
  exact ⟨e, he, hn, le_trans hw hle⟩

theorem decreaseKey_setHop (h : _Heap) (x : NodeID) (k hop : Int) :
    (h.DecreaseKey x k).SetHop x hop = h.map (lowerKey x k hop) := by
  simp only [DecreaseKey, SetHop, List.map_map]
  apply List.map_congr_left
  intro e _
  simp only [Function.comp, lowerKey]
  by_cases hx : e.node = x <;> simp [hx]

theorem lowerKey_node (x : NodeID) (k hop : Int) (e : HeapNode) : (lowerKey x k hop e).node = e.node := by
  unfold lowerKey; split <;> rfl

theorem lowerKey_inHeap (x : NodeID) (k hop : Int) (e : HeapNode) :
    (lowerKey x k hop e).inHeap = e.inHeap := by
  unfold lowerKey; split <;> rfl

theorem lowerKey_target (x : NodeID) (k hop : Int) (e : HeapNode) :
    (lowerKey x k hop e).data.target = e.data.target := by
  unfold lowerKey; split <;> rfl

theorem lowerKey_weight_of_ne {x : NodeID} {k hop : Int} {e : HeapNode} (hne : e.node ≠ x) :
    (lowerKey x k hop e).weight = e.weight := by
  simp [lowerKey, hne]

theorem lowerKey_weight_of_eq {x : NodeID} {k hop : Int} {e : HeapNode} (heq : e.node = x) :
    (lowerKey x k hop e).weight = k := by
  simp [lowerKey, heq]

theorem map_node_lowerKey (h : _Heap) (x : NodeID) (k hop : Int) :
    (h.map (lowerKey x k hop)).map (fun e => e.node) = h.map (fun e => e.node) := by
  simp [List.map_map, Function.comp, lowerKey_node]

/-- The three results of `relaxStep`. -/
theorem relaxStep_cases (d hop : Int) (h : _Heap) (ed : _Edge) :
    relaxStep d hop h ed = h
    ∨ (ed.data.forward = true ∧ (∀ e ∈ h, e.node ≠ ed.target)
        ∧ relaxStep d hop h ed = ⟨ed.target, d + (ed.data.distance : Int), ⟨hop, false⟩, true⟩ :: h)
    ∨ (ed.data.forward = true ∧ (∃ e ∈ h, e.node = ed.target)
        ∧ d + (ed.data.distance : Int) < h.GetKey ed.target
        ∧ relaxStep d hop h ed = h.map (lowerKey ed.target (d + (ed.data.distance : Int)) hop)) := by
  unfold relaxStep
  by_cases hf : ed.data.forward = true
  · by_cases hw : h.WasInserted ed.target = true
    · by_cases hlt : d + (ed.data.distance : Int) < h.GetKey ed.target
      · right; right
        refine ⟨hf, (WasInserted_iff _ _).1 hw, hlt, ?_⟩
        simp [hf, hw, hlt, decreaseKey_setHop]
      · left; simp [hf, hw, hlt]
    · right; left
      simp only [Bool.not_eq_true] at hw
      refine ⟨hf, (WasInserted_false_iff _ _).1 hw, ?_⟩
      simp [hf, hw, BinaryHeap.Insert]
  · left; simp [hf]

theorem relaxStep_keyLE {d hop : Int} {h : _Heap} {ed : _Edge} {x : NodeID} {k : Int}
    (hnd : (h.map (fun e => e.node)).Nodup) (hk : KeyLE h x k) :
    KeyLE (relaxStep d hop h ed) x k := by
  rcases relaxStep_cases d hop h ed with h0 | ⟨_, _, h1⟩ | ⟨_, _, hlt, h2⟩
  · rw [h0]; exact hk
  · rw [h1]
    obtain ⟨e, he, hn, hw⟩ := hk
    exact ⟨e, List.mem_cons_of_mem _ he, hn, hw⟩
  · rw [h2]
    obtain ⟨e, he, hn, hw⟩ := hk
    refine ⟨lowerKey ed.target _ hop e, List.mem_map_of_mem _ he, by rw [lowerKey_node]; exact hn, ?_⟩
    by_cases hx : e.node = ed.target
    · rw [lowerKey_weight_of_eq hx]
      have := GetKey_of_mem hnd he
      rw [hx] at this
      omega
    · rw [lowerKey_weight_of_ne hx]; exact hw

theorem relaxStep_established {d hop : Int} {h : _Heap} {ed : _Edge}
    (hnd : (h.map (fun e => e.node)).Nodup) (hf : ed.data.forward = true) :
    KeyLE (relaxStep d hop h ed) ed.target (d + (ed.data.distance : Int)) := by
  unfold relaxStep
  simp only [hf, Bool.not_true, Bool.false_eq_true, if_false]
  by_cases hw : h.WasInserted ed.target = true
  · obtain ⟨e, he, hn⟩ := (WasInserted_iff _ _).1 hw
    have hk := GetKey_of_mem hnd he
    rw [hn] at hk
    by_cases hlt : d + (ed.data.distance : Int) < h.GetKey ed.target
    · simp only [hw, Bool.not_true, Bool.false_eq_true, if_false, hlt, if_true, decreaseKey_setHop]
      exact ⟨lowerKey ed.target _ hop e, List.mem_map_of_mem _ he, by rw [lowerKey_node]; exact hn,
        by rw [lowerKey_weight_of_eq hn]⟩
    · simp only [hw, Bool.not_true, Bool.false_eq_true, if_false, hlt]
      exact ⟨e, he, hn, by omega⟩
  · simp only [Bool.not_eq_true] at hw
    simp only [hw, Bool.not_false, if_true, BinaryHeap.Insert]
    exact ⟨_, List.mem_cons_self _ _, rfl, le_refl _⟩

theorem relaxStep_inv {g : _DynamicGraph} {s m : NodeID} {d hop : Int} {h : _Heap} {ed : _Edge}
    (hinv : RelaxInv g s m d h) (hed : ed ∈ g.adj m) :
    RelaxInv g s m d (relaxStep d hop h ed) := by
  obtain ⟨em, hem, hemn, hemw, hemr⟩ := hinv.popped
  obtain ⟨Wm, hWm, hwalk⟩ := hinv.sound em hem
  rw [hemw] at hWm
  rw [hemn] at hwalk
  rcases relaxStep_cases d hop h ed with h0 | ⟨hf, hnew, h1⟩ | ⟨hf, ⟨et, het, hetn⟩, hlt, h2⟩
  · rw [h0]; exact hinv
  · rw [h1]
    have hfe : FwdEdge g m ed.target ed.data.distance := ⟨ed, hed, rfl, hf, rfl⟩
    refine ⟨⟨?_, ?_, ?_⟩, ?_, ?_, ?_, ?_⟩
    · simp only [List.map_cons, List.nodup_cons, List.mem_map, not_exists, not_and]
      exact ⟨fun e he => hnew e he, hinv.nodup⟩
    · intro e he
      rcases List.mem_cons.1 he with rfl | he
      · exact ⟨Wm + ed.data.distance, by push_cast; omega, Walk.snoc hwalk hfe⟩
      · exact hinv.sound e he
    · obtain ⟨e, he, h1, h2⟩ := hinv.source
      exact ⟨e, List.mem_cons_of_mem _ he, h1, h2⟩
    · exact ⟨em, List.mem_cons_of_mem _ hem, hemn, hemw, hemr⟩
    · intro e he hr hne
      rcases List.mem_cons.1 he with rfl | he
      · simp at hr
      · intro ed' hed' hf'
        obtain ⟨e', he', h1, h2⟩ := hinv.relaxed e he hr hne ed' hed' hf'
        exact ⟨e', List.mem_cons_of_mem _ he', h1, h2⟩
    · intro e he hr
      rcases List.mem_cons.1 he with rfl | he
      · simp at hr
      · exact hinv.below e he hr
    · intro e he hr
      rcases List.mem_cons.1 he with rfl | he
      · simp
      · exact hinv.above e he hr
  · rw [h2]
    have hfe : FwdEdge g m ed.target ed.data.distance := ⟨ed, hed, rfl, hf, rfl⟩
    have hkt : h.GetKey ed.target = et.weight := by
      have := GetKey_of_mem hinv.nodup het
      rwa [hetn] at this
    have hetin : et.inHeap = true := by
      by_contra hc
      simp only [Bool.not_eq_true] at hc
      have := hinv.below et het hc
      omega
    have huniq : ∀ e ∈ h, e.node = ed.target → e = et := by
      intro e he hn
      have h1 := find_of_mem hinv.nodup he
      have h2 := find_of_mem hinv.nodup het
      rw [hn] at h1
      rw [hetn] at h2
      rw [h1] at h2
      exact Option.some.inj h2
    have hrem : ∀ e ∈ h, e.inHeap = false → lowerKey ed.target (d + (ed.data.distance : Int)) hop e = e := by
      intro e he hr
      have hne : e.node ≠ ed.target := by
        intro hn
        have := huniq e he hn
        rw [this, hetin] at hr
        simp at hr
      simp [lowerKey, hne]
    have hmono : ∀ x k, KeyLE h x k → KeyLE (h.map (lowerKey ed.target (d + (ed.data.distance : Int)) hop)) x k := by
      intro x k hk
      have := @relaxStep_keyLE d hop h ed x k hinv.nodup hk
      rwa [h2] at this
    refine ⟨⟨?_, ?_, ?_⟩, ?_, ?_, ?_, ?_⟩
    · rw [map_node_lowerKey]; exact hinv.nodup
    · intro e' he'
      obtain ⟨e, he, rfl⟩ := List.mem_map.1 he'
      by_cases hn : e.node = ed.target
      · rw [lowerKey_weight_of_eq hn, lowerKey_node, hn]
        exact ⟨Wm + ed.data.distance, by push_cast; omega, Walk.snoc hwalk hfe⟩
      · rw [lowerKey_weight_of_ne hn, lowerKey_node]
        exact hinv.sound e he
    · obtain ⟨e, he, h1, h2'⟩ := hinv.source
      refine ⟨lowerKey ed.target _ hop e, List.mem_map_of_mem _ he, by rw [lowerKey_node]; exact h1, ?_⟩
      by_cases hn : e.node = ed.target
      · have := huniq e he hn
        rw [this] at h2'
        omega
      · rw [lowerKey_weight_of_ne hn]; exact h2'
    · refine ⟨lowerKey ed.target _ hop em, List.mem_map_of_mem _ hem, ?_⟩
      rw [hrem em hem hemr]
      exact ⟨hemn, hemw, hemr⟩
    · intro e' he' hr hne
      obtain ⟨e, he, rfl⟩ := List.mem_map.1 he'
      rw [lowerKey_inHeap] at hr
      rw [hrem e he hr] at hne ⊢
      intro ed' hed' hf'
      exact hmono _ _ (hinv.relaxed e he hr hne ed' hed' hf')
    · intro e' he' hr
      obtain ⟨e, he, rfl⟩ := List.mem_map.1 he'
      rw [lowerKey_inHeap] at hr
      rw [hrem e he hr]
      exact hinv.below e he hr
    · intro e' he' hr
      obtain ⟨e, he, rfl⟩ := List.mem_map.1 he'
      rw [lowerKey_inHeap] at hr
      by_cases hn : e.node = ed.target
      · rw [lowerKey_weight_of_eq hn]; omega
      · rw [lowerKey_weight_of_ne hn]; exact hinv.above e he hr

end Contractor

namespace Contractor

open BinaryHeap

theorem Evolves_refl (h : _Heap) : Evolves h h :=
  fun e he => ⟨e, he, rfl, le_refl _, rfl⟩

theorem Evolves_trans {h1 h2 h3 : _Heap} (h12 : Evolves h1 h2) (h23 : Evolves h2 h3) :
    Evolves h1 h3 := by
  intro e he
  obtain ⟨e2, he2, hn2, hw2, ht2⟩ := h12 e he
  obtain ⟨e3, he3, hn3, hw3, ht3⟩ := h23 e2 he2
  exact ⟨e3, he3, hn3.trans hn2, le_trans hw3 hw2, ht3.trans ht2⟩

theorem countP_map_same {q : HeapNode → Bool} {f : HeapNode → HeapNode} (h : _Heap)
    (hq : ∀ e ∈ h, q (f e) = q e) : (h.map f).countP q = h.countP q := by
  induction h with
  | nil => rfl
  | cons a t ih =>
    have ha := hq a (List.mem_cons_self _ _)
    have ht := ih (fun e he => hq e (List.mem_cons_of_mem _ he))
    simp only [List.map_cons, List.countP_cons, ht, ha]

theorem countP_map_update {q : HeapNode → Bool} {f : HeapNode → HeapNode} {h : _Heap}
    {m : HeapNode} (hnd : (h.map (fun e => e.node)).Nodup) (hm : m ∈ h)
    (hf : ∀ e, e.node ≠ m.node → f e = e) :
    (h.map f).countP q + (if q m then 1 else 0) = h.countP q + (if q (f m) then 1 else 0) := by
  induction h with
  | nil => simp at hm
  | cons a t ih =>
    simp only [List.map_cons, List.nodup_cons, List.mem_map, not_exists, not_and] at hnd
    rcases List.mem_cons.1 hm with rfl | hmt
    · have ht : t.map f = t := by
        conv_rhs => rw [← List.map_id t]
        apply List.map_congr_left
        intro e he
        simp only [id]
        exact hf e (fun hh => hnd.1 e he hh)
      simp only [List.map_cons, List.countP_cons, ht]
      omega
    · have hne : a.node ≠ m.node := fun hh => hnd.1 m hmt hh.symm
      have := ih hnd.2 hmt
      simp only [List.map_cons, List.countP_cons, hf a hne]
      omega

theorem relaxStep_counts {d hop : Int} {h : _Heap} {ed : _Edge} :
    removedCount (relaxStep d hop h ed) = removedCount h
    ∧ flaggedCount (relaxStep d hop h ed) = flaggedCount h
    ∧ foundCount (relaxStep d hop h ed) = foundCount h := by
  rcases relaxStep_cases d hop h ed with h0 | ⟨_, _, h1⟩ | ⟨_, _, _, h2⟩
  · rw [h0]; exact ⟨rfl, rfl, rfl⟩
  · rw [h1]; simp [removedCount, flaggedCount, foundCount, List.countP_cons]
  · rw [h2]
    refine ⟨?_, ?_, ?_⟩
    · exact countP_map_same h (fun e _ => by simp only [lowerKey_inHeap])
    · exact countP_map_same h (fun e _ => by simp only [lowerKey_target])
    · exact countP_map_same h (fun e _ => by simp only [lowerKey_inHeap, lowerKey_target])

theorem relaxStep_evolves {d hop : Int} {h : _Heap} {ed : _Edge}
    (hnd : (h.map (fun e => e.node)).Nodup) : Evolves h (relaxStep d hop h ed) := by
  rcases relaxStep_cases d hop h ed with h0 | ⟨_, _, h1⟩ | ⟨_, _, hlt, h2⟩
  · rw [h0]; exact Evolves_refl h
  · rw [h1]
    intro e he
    exact ⟨e, List.mem_cons_of_mem _ he, rfl, le_refl _, rfl⟩
  · rw [h2]
    intro e he
    refine ⟨lowerKey ed.target _ hop e, List.mem_map_of_mem _ he, lowerKey_node _ _ _ _, ?_,
      lowerKey_target _ _ _ _⟩
    by_cases hx : e.node = ed.target
    · rw [lowerKey_weight_of_eq hx]
      have := GetKey_of_mem hnd he
      rw [hx] at this
      omega
    · rw [lowerKey_weight_of_ne hx]

theorem relaxEdges_inv {g : _DynamicGraph} {s m : NodeID} {d hop : Int} (edges : List _Edge) :
    ∀ h : _Heap, RelaxInv g s m d h → (∀ ed ∈ edges, ed ∈ g.adj m) →
      RelaxInv g s m d (relaxEdges d hop h edges)
      ∧ (∀ ed ∈ edges, ed.data.forward = true →
          KeyLE (relaxEdges d hop h edges) ed.target (d + (ed.data.distance : Int)))
      ∧ (∀ x k, KeyLE h x k → KeyLE (relaxEdges d hop h edges) x k)
      ∧ removedCount (relaxEdges d hop h edges) = removedCount h
      ∧ flaggedCount (relaxEdges d hop h edges) = flaggedCount h
      ∧ foundCount (relaxEdges d hop h edges) = foundCount h
      ∧ Evolves h (relaxEdges d hop h edges) := by
  induction edges with
  | nil =>
    intro h hinv _
    exact ⟨hinv, by simp, fun _ _ hk => hk, rfl, rfl, rfl, Evolves_refl h⟩
  | cons ed rest ih =>
    intro h hinv hmem
    have hstep := @relaxStep_inv g s m d hop h ed hinv (hmem ed (List.mem_cons_self _ _))
    obtain ⟨i1, i2, i3, i4, i5, i6, i7⟩ :=
      ih (relaxStep d hop h ed) hstep (fun e he => hmem e (List.mem_cons_of_mem _ he))
    obtain ⟨c1, c2, c3⟩ := @relaxStep_counts d hop h ed
    have hfold : relaxEdges d hop h (ed :: rest) = relaxEdges d hop (relaxStep d hop h ed) rest := rfl
    rw [hfold]
    refine ⟨i1, ?_, ?_, i4.trans c1, i5.trans c2, i6.trans c3,
      Evolves_trans (relaxStep_evolves hinv.nodup) i7⟩
    · intro e he hf
      rcases List.mem_cons.1 he with rfl | he
      · exact i3 _ _ (relaxStep_established hinv.nodup hf)
      · exact i2 e he hf
    · intro x k hk
      exact i3 _ _ (relaxStep_keyLE hinv.nodup hk)

theorem markRemoved_node (x : NodeID) (e : HeapNode) : (markRemoved x e).node = e.node := by
  unfold markRemoved; split <;> rfl

theorem markRemoved_weight (x : NodeID) (e : HeapNode) : (markRemoved x e).weight = e.weight := by
  unfold markRemoved; split <;> rfl

theorem markRemoved_data (x : NodeID) (e : HeapNode) : (markRemoved x e).data = e.data := by
  unfold markRemoved; split <;> rfl

theorem markRemoved_of_ne {x : NodeID} {e : HeapNode} (hne : e.node ≠ x) : markRemoved x e = e := by
  simp [markRemoved, hne]

theorem markRemoved_inHeap_of_eq {x : NodeID} {e : HeapNode} (heq : e.node = x) :
    (markRemoved x e).inHeap = false := by
  simp [markRemoved, heq]

theorem map_node_markRemoved (h : _Heap) (x : NodeID) :
    (h.map (markRemoved x)).map (fun e => e.node) = h.map (fun e => e.node) := by
  simp [List.map_map, Function.comp, markRemoved_node]

theorem DeleteMin_of_minNode {h : _Heap} {m : HeapNode} (hm : minNode h = some m) :
    h.DeleteMin = (m.node, h.map (markRemoved m.node)) := by
  simp only [DeleteMin, hm]
  rfl

theorem node_unique {h : _Heap} (hnd : (h.map (fun e => e.node)).Nodup) {e e' : HeapNode}
    (he : e ∈ h) (he' : e' ∈ h) (hn : e.node = e'.node) : e = e' := by
  have h1 := find_of_mem hnd he
  have h2 := find_of_mem hnd he'
  rw [hn] at h1
  rw [h1] at h2
  exact Option.some.inj h2

/-- The state after `DeleteMin` on a heap that satisfies the loop invariant. -/
theorem deleteMin_inv {g : _DynamicGraph} {s : NodeID} {h : _Heap} {m : HeapNode}
    (hinv : LoopInv g s h) (hm : minNode h = some m) :
    RelaxInv g s m.node m.weight (h.map (markRemoved m.node))
    ∧ removedCount (h.map (markRemoved m.node)) = removedCount h + 1
    ∧ flaggedCount (h.map (markRemoved m.node)) = flaggedCount h
    ∧ foundCount (h.map (markRemoved m.node)) = foundCount h + (if m.data.target then 1 else 0)
    ∧ Evolves h (h.map (markRemoved m.node))
    ∧ BinaryHeap.GetKey (h.map (markRemoved m.node)) m.node = m.weight
    ∧ BinaryHeap.GetData (h.map (markRemoved m.node)) m.node = m.data
    ∧ markRemoved m.node m ∈ h.map (markRemoved m.node) := by
  obtain ⟨hmem, hmin, hleast⟩ := minNode_some hm
  have hnd' : ((h.map (markRemoved m.node)).map (fun e => e.node)).Nodup := by
    rw [map_node_markRemoved]
    exact hinv.nodup
  have hmm : markRemoved m.node m ∈ h.map (markRemoved m.node) := List.mem_map_of_mem _ hmem
  have hkeep : ∀ x k, KeyLE h x k → KeyLE (h.map (markRemoved m.node)) x k := by
    intro x k ⟨e, he, hn, hw⟩
    exact ⟨markRemoved m.node e, List.mem_map_of_mem _ he, by rw [markRemoved_node]; exact hn,
      by rw [markRemoved_weight]; exact hw⟩
  have hfix : ∀ e, e.node ≠ m.node → markRemoved m.node e = e := fun e hne => markRemoved_of_ne hne
  refine ⟨⟨⟨hnd', ?_, ?_⟩, ?_, ?_, ?_, ?_⟩, ?_, ?_, ?_, ?_, ?_, ?_, hmm⟩
  · intro e' he'
    obtain ⟨e, he, rfl⟩ := List.mem_map.1 he'
    rw [markRemoved_node, markRemoved_weight]
    exact hinv.sound e he
  · obtain ⟨e, he, h1, h2⟩ := hinv.source
    exact ⟨markRemoved m.node e, List.mem_map_of_mem _ he, by rw [markRemoved_node]; exact h1,
      by rw [markRemoved_weight]; exact h2⟩
  · exact ⟨markRemoved m.node m, hmm, markRemoved_node _ _, markRemoved_weight _ _,
      markRemoved_inHeap_of_eq rfl⟩
  · intro e' he' hr hne
    obtain ⟨e, he, rfl⟩ := List.mem_map.1 he'
    rw [markRemoved_node] at hne
    rw [markRemoved_of_ne hne] at hr ⊢
    intro ed hed hf
    exact hkeep _ _ (hinv.relaxed e he hr ed hed hf)
  · intro e' he' hr
    obtain ⟨e, he, rfl⟩ := List.mem_map.1 he'
    rw [markRemoved_weight]
    by_cases hn : e.node = m.node
    · rw [node_unique hinv.nodup he hmem hn]
    · rw [markRemoved_of_ne hn] at hr
      exact hinv.order e he hr m hmem hmin
  · intro e' he' hr
    obtain ⟨e, he, rfl⟩ := List.mem_map.1 he'
    rw [markRemoved_weight]
    by_cases hn : e.node = m.node
    · rw [markRemoved_inHeap_of_eq hn] at hr
      simp at hr
    · rw [markRemoved_of_ne hn] at hr
      exact hleast e he hr
  · have := @countP_map_update (fun e => !e.inHeap) _ _ _ hinv.nodup hmem hfix
    simp only [hmin, markRemoved_inHeap_of_eq, Bool.not_true, Bool.false_eq_true, if_false,
      Bool.not_false, if_true, add_zero] at this
    exact this
  · exact countP_map_same h (fun e _ => by rw [markRemoved_data])
  · have := @countP_map_update (fun e => e.data.target && !e.inHeap) _ _ _ hinv.nodup hmem hfix
    simp only [hmin, markRemoved_inHeap_of_eq, markRemoved_data, Bool.not_true, Bool.and_false,
      Bool.false_eq_true, if_false, Bool.not_false, Bool.and_true, add_zero] at this
    exact this
  · intro e he
    exact ⟨markRemoved m.node e, List.mem_map_of_mem _ he, markRemoved_node _ _,
      by rw [markRemoved_weight], by rw [markRemoved_data]⟩
  · have := GetKey_of_mem hnd' hmm
    rwa [markRemoved_node, markRemoved_weight] at this
  · have := GetData_of_mem hnd' hmm
    rwa [markRemoved_node, markRemoved_data] at this

end Contractor

namespace Contractor

open BinaryHeap

theorem toShort_lt (x : Int) : toShort x < 32768 := by
  unfold toShort; omega

theorem found_all {h : _Heap} (hc : flaggedCount h ≤ foundCount h) :
    ∀ e ∈ h, e.data.target = true → e.inHeap = false := by
  induction h with
  | nil => simp
  | cons a t ih =>
    have hle : foundCount t ≤ flaggedCount t := by
      unfold foundCount flaggedCount
      apply List.countP_mono_left
      intro e _ he
      simp only [Bool.and_eq_true] at he
      exact he.1
    simp only [flaggedCount, foundCount, List.countP_cons] at hc hle ih
    intro e he ht
    rcases List.mem_cons.1 he with rfl | het
    · by_contra hin
      simp only [Bool.not_eq_false] at hin
      simp only [ht, hin, Bool.not_true, Bool.and_false, Bool.false_eq_true, if_false, if_true,
        add_zero] at hc
      omega
    · apply ih _ e het ht
      by_cases h1 : a.data.target = true <;> by_cases h2 : a.inHeap = true <;>
        simp [h1, h2] at hc ⊢ <;> omega

theorem loopInv_of_relaxInv {g : _DynamicGraph} {s m : NodeID} {d : Int} {h : _Heap}
    (hinv : RelaxInv g s m d h)
    (hall : ∀ ed ∈ g.adj m, ed.data.forward = true → KeyLE h ed.target (d + (ed.data.distance : Int))) :
    LoopInv g s h := by
  obtain ⟨em, hem, hemn, hemw, hemr⟩ := hinv.popped
  refine ⟨hinv.toHeapInv, ?_, ?_⟩
  · intro e he hr
    by_cases hn : e.node = m
    · have : e = em := node_unique hinv.nodup he hem (hn.trans hemn.symm)
      intro ed hed hf
      rw [this, hemw]
      rw [hn] at hed
      exact hall ed hed hf
    · exact hinv.relaxed e he hr hn
  · intro e he hr e' he' hr'
    exact le_trans (hinv.below e he hr) (hinv.above e' he' hr')

theorem settledBelow_of_relaxInv {g : _DynamicGraph} {s m : NodeID} {d : Int} {h : _Heap}
    (hinv : RelaxInv g s m d h) : SettledBelow g h d := by
  obtain ⟨em, hem, hemn, hemw, hemr⟩ := hinv.popped
  intro e he hlt
  have hr : e.inHeap = false := by
    by_contra hc
    simp only [Bool.not_eq_false] at hc
    have := hinv.above e he hc
    omega
  refine ⟨hr, hinv.relaxed e he hr ?_⟩
  intro hn
  have : e = em := node_unique hinv.nodup he hem (hn.trans hemn.symm)
  rw [this, hemw] at hlt
  omega

/-- The outcome of the loop of `_Dijkstra` from a state that satisfies the invariant. -/
theorem dijkstraLoop_outcome (g : _DynamicGraph) (s : NodeID) (maxDistance : Int) (numTargets : Nat)
    (maxNodes hopLimit : Int) (hhop : 32768 ≤ hopLimit) :
    ∀ (fuel : Nat) (nodes : Int) (tf : Nat) (h : _Heap), LoopInv g s h →
      nodes = (removedCount h : Int) → tf = foundCount h → numTargets = flaggedCount h →
      nodes ≤ maxNodes → maxNodes + 1 ≤ (fuel : Int) + nodes →
      Outcome g s maxDistance maxNodes (dijkstraLoop g maxDistance numTargets maxNodes hopLimit fuel nodes tf h)
      ∧ Evolves h (dijkstraLoop g maxDistance numTargets maxNodes hopLimit fuel nodes tf h) := by
  intro fuel
  induction fuel with
  | zero =>
    intro nodes tf h _ _ _ _ h1 h2
    simp only [Nat.cast_zero, zero_add] at h2
    omega
  | succ fuel ih =>
    intro nodes tf h hinv hnodes htf hnt hle hfuel
    rw [dijkstraLoop]
    by_cases hs : h.Size > 0
    · obtain ⟨m, hm⟩ := Size_pos_minNode hs
      obtain ⟨r1, r2, r3, r4, r5, r6, r7, r8⟩ := deleteMin_inv hinv hm
      simp only [hs, if_true, DeleteMin_of_minNode hm, r6, r7]
      by_cases hlim : nodes + 1 > maxNodes
      · simp only [hlim, if_true]
        refine ⟨⟨r1.toHeapInv, by rw [r2]; push_cast; omega, Or.inr ⟨_, r8, ?_, ?_, ?_, ?_⟩⟩, r5⟩
        · exact markRemoved_inHeap_of_eq rfl
        · rw [markRemoved_weight]; exact settledBelow_of_relaxInv r1
        · rw [markRemoved_weight]; exact r1.below
        · right; right; rw [r2]; push_cast; omega
      · simp only [hlim, if_false]
        by_cases hmax : m.weight > maxDistance
        · simp only [hmax, if_true]
          refine ⟨⟨r1.toHeapInv, by rw [r2]; push_cast; omega, Or.inr ⟨_, r8, ?_, ?_, ?_, ?_⟩⟩, r5⟩
          · exact markRemoved_inHeap_of_eq rfl
          · rw [markRemoved_weight]; exact settledBelow_of_relaxInv r1
          · rw [markRemoved_weight]; exact r1.below
          · left; rw [markRemoved_weight]; exact hmax
        · simp only [hmax, if_false]
          by_cases htg : (m.data.target && decide ((if m.data.target = true then tf + 1 else tf) ≥ numTargets)) = true
          · simp only [htg, if_true]
            simp only [Bool.and_eq_true, decide_eq_true_eq] at htg
            refine ⟨⟨r1.toHeapInv, by rw [r2]; push_cast; omega, Or.inr ⟨_, r8, ?_, ?_, ?_, ?_⟩⟩, r5⟩
            · exact markRemoved_inHeap_of_eq rfl
            · rw [markRemoved_weight]; exact settledBelow_of_relaxInv r1
            · rw [markRemoved_weight]; exact r1.below
            · right; left
              apply found_all
              rw [r3, r4]
              simp only [htg.1, if_true] at htg ⊢
              omega
          · simp only [htg, Bool.false_eq_true, if_false]
            have hh : ¬ toShort (m.data.hop + 1) ≥ hopLimit := by
              have := toShort_lt (m.data.hop + 1)
              omega
            simp only [hh, if_false]
            obtain ⟨i1, i2, _, i4, i5, i6, i7⟩ :=
              @relaxEdges_inv g s m.node m.weight (toShort (m.data.hop + 1)) (g.adj m.node) _ r1 (fun _ he => he)
            have hinv' := loopInv_of_relaxInv i1 i2
            have hres := ih (nodes + 1) (if m.data.target = true then tf + 1 else tf) _ hinv'
              (by rw [i4, r2]; push_cast; omega)
              (by rw [i6, r4, htf]; split <;> rfl)
              (by rw [i5, r3]; exact hnt)
              (by omega) (by push_cast at hfuel ⊢; omega)
            exact ⟨hres.1, Evolves_trans r5 (Evolves_trans i7 hres.2)⟩
    · simp only [hs, if_false]
      have hall : ∀ e ∈ h, e.inHeap = false := by
        intro e he
        by_contra hc
        simp only [Bool.not_eq_false] at hc
        exact hs ((Size_pos_iff h).2 ⟨e, he, hc⟩)
      refine ⟨⟨hinv.toHeapInv, by omega, Or.inl ?_⟩, Evolves_refl h⟩
      intro M e he _
      exact ⟨hall e he, hinv.relaxed e he (hall e he)⟩

end Contractor

namespace Contractor

open BinaryHeap

theorem settled_complete {g : _DynamicGraph} {s : NodeID} {h : _Heap} {M : Int}
    (hinv : HeapInv g s h) (hsb : SettledBelow g h M) {y : NodeID} {W : Nat}
    (hw : Walk g s y W) (hlt : (W : Int) < M) : KeyLE h y (W : Int) := by
  induction hw with
  | nil =>
    obtain ⟨e, he, h1, h2⟩ := hinv.source
    exact ⟨e, he, h1, by simp [h2]⟩
  | @snoc x v W' w hwalk hedge ih =>
    push_cast at hlt
    obtain ⟨ex, hex, hexn, hexw⟩ := ih (by omega)
    obtain ⟨_, hrel⟩ := hsb ex hex (by omega)
    obtain ⟨ed, hed, hedt, hedf, hedw⟩ := hedge
    rw [← hexn] at hed
    obtain ⟨ey, hey, heyn, heyw⟩ := hrel ed hed hedf
    refine ⟨ey, hey, heyn.trans hedt, ?_⟩
    push_cast
    rw [hedw] at heyw
    omega

theorem decreaseKey_eq (h : _Heap) (x : NodeID) (k : Int) :
    h.DecreaseKey x k = h.map (setKey x k) := rfl

theorem setKey_node (x : NodeID) (k : Int) (e : HeapNode) : (setKey x k e).node = e.node := by
  unfold setKey; split <;> rfl

theorem setKey_inHeap (x : NodeID) (k : Int) (e : HeapNode) : (setKey x k e).inHeap = e.inHeap := by
  unfold setKey; split <;> rfl

theorem setKey_data (x : NodeID) (k : Int) (e : HeapNode) : (setKey x k e).data = e.data := by
  unfold setKey; split <;> rfl

theorem setKey_weight_of_ne {x : NodeID} {k : Int} {e : HeapNode} (hne : e.node ≠ x) :
    (setKey x k e).weight = e.weight := by
  simp [setKey, hne]

theorem setKey_weight_of_eq {x : NodeID} {k : Int} {e : HeapNode} (heq : e.node = x) :
    (setKey x k e).weight = k := by
  simp [setKey, heq]

theorem map_node_setKey (h : _Heap) (x : NodeID) (k : Int) :
    (h.map (setKey x k)).map (fun e => e.node) = h.map (fun e => e.node) := by
  simp [List.map_map, Function.comp, setKey_node]

/-- The three results of `seedStep`. -/
theorem seedStep_cases (inData : _EdgeBasedContractorEdgeData) (st : _Heap × Int × Nat) (ed : _Edge) :
    (ed.data.forward = false ∧ seedStep inData st ed = st)
    ∨ (ed.data.forward = true ∧ (∀ e ∈ st.1, e.node ≠ ed.target)
        ∧ seedStep inData st ed =
          (⟨ed.target, ((inData.distance + ed.data.distance : Nat) : Int), ⟨0, true⟩, true⟩ :: st.1,
            max st.2.1 ((inData.distance + ed.data.distance : Nat) : Int), st.2.2 + 1))
    ∨ (ed.data.forward = true ∧ (∃ e ∈ st.1, e.node = ed.target)
        ∧ seedStep inData st ed =
          (if ((inData.distance + ed.data.distance : Nat) : Int) < st.1.GetKey ed.target then
              st.1.map (setKey ed.target ((inData.distance + ed.data.distance : Nat) : Int))
            else st.1,
            max st.2.1 ((inData.distance + ed.data.distance : Nat) : Int), st.2.2)) := by
  unfold seedStep
  by_cases hf : ed.data.forward = true
  · by_cases hw : st.1.WasInserted ed.target = true
    · right; right
      refine ⟨hf, (WasInserted_iff _ _).1 hw, ?_⟩
      simp only [hf, hw, Bool.not_true, Bool.false_eq_true, if_false, decreaseKey_eq]
      split_ifs <;> rfl
    · right; left
      simp only [Bool.not_eq_true] at hw
      refine ⟨hf, (WasInserted_false_iff _ _).1 hw, ?_⟩
      simp [hf, hw, BinaryHeap.Insert]
  · left; simp [hf]

theorem seedStep_inv {g : _DynamicGraph} {s n : NodeID} {inData : _EdgeBasedContractorEdgeData}
    {st : _Heap × Int × Nat} {ed : _Edge} (hin : ∃ W, W ≤ inData.distance ∧ Walk g s n W)
    (hinv : SeedInv g s n inData.distance st) (hed : ed ∈ g.adj n) :
    SeedInv g s n inData.distance (seedStep inData st ed)
    ∧ (∀ x k, KeyLE st.1 x k → KeyLE (seedStep inData st ed).1 x k)
    ∧ st.2.1 ≤ (seedStep inData st ed).2.1
    ∧ (ed.data.forward = true →
        KeyLE (seedStep inData st ed).1 ed.target ((inData.distance + ed.data.distance : Nat) : Int)
        ∧ ((inData.distance + ed.data.distance : Nat) : Int) ≤ (seedStep inData st ed).2.1) := by
  obtain ⟨es, hes, hesn, hesw⟩ := hinv.hinv.source
  obtain ⟨en, hen, henn, henw⟩ := hinv.hasNode
  obtain ⟨a', ha', hwa'⟩ := hin
  rcases seedStep_cases inData st ed with ⟨hf, h0⟩ | ⟨hf, hnew, h1⟩ | ⟨hf, ⟨et, het, hetn⟩, h2⟩
  · rw [h0]
    refine ⟨hinv, fun _ _ hk => hk, le_refl _, ?_⟩
    intro hf'
    rw [hf] at hf'
    simp at hf'
  · rw [h1]
    have hwalk : Walk g s ed.target (a' + ed.data.distance) :=
      Walk.snoc hwa' ⟨ed, hed, rfl, hf, rfl⟩
    refine ⟨⟨⟨?_, ?_, ?_⟩, ?_, ?_, ?_, ?_, ?_⟩, ?_, le_max_left _ _, ?_⟩
    · simp only [List.map_cons, List.nodup_cons, List.mem_map, not_exists, not_and]
      exact ⟨fun e he => hnew e he, hinv.hinv.nodup⟩
    · intro e he
      rcases List.mem_cons.1 he with rfl | he
      · exact ⟨_, by push_cast; omega, hwalk⟩
      · exact hinv.hinv.sound e he
    · exact ⟨es, List.mem_cons_of_mem _ hes, hesn, hesw⟩
    · intro e he
      rcases List.mem_cons.1 he with rfl | he
      · rfl
      · exact hinv.allIn e he
    · simp only [flaggedCount, List.countP_cons, if_true]
      have := hinv.count
      simp only [flaggedCount] at this
      omega
    · exact le_trans hinv.maxNonneg (le_max_left _ _)
    · exact ⟨en, List.mem_cons_of_mem _ hen, henn, henw⟩
    · intro e he
      rcases List.mem_cons.1 he with rfl | he
      · simp only [true_iff]
        exact ⟨fun hh => hnew es hes (hesn.trans hh.symm), fun hh => hnew en hen (henn.trans hh.symm)⟩
      · exact hinv.flagged e he
    · intro x k ⟨e, he, h1, h2⟩
      exact ⟨e, List.mem_cons_of_mem _ he, h1, h2⟩
    · intro _
      exact ⟨⟨_, List.mem_cons_self _ _, rfl, le_refl _⟩, le_max_right _ _⟩
  · rw [h2]
    have hwalk : Walk g s ed.target (a' + ed.data.distance) :=
      Walk.snoc hwa' ⟨ed, hed, rfl, hf, rfl⟩
    have hkt : st.1.GetKey ed.target = et.weight := by
      have := GetKey_of_mem hinv.hinv.nodup het
      rwa [hetn] at this
    by_cases hlt : ((inData.distance + ed.data.distance : Nat) : Int) < st.1.GetKey ed.target
    · simp only [hlt, if_true]
      have hmono : ∀ x k, KeyLE st.1 x k →
          KeyLE (st.1.map (setKey ed.target ((inData.distance + ed.data.distance : Nat) : Int))) x k := by
        intro x k ⟨e, he, h1, h2⟩
        refine ⟨setKey ed.target _ e, List.mem_map_of_mem _ he, by rw [setKey_node]; exact h1, ?_⟩
        by_cases hx : e.node = ed.target
        · rw [setKey_weight_of_eq hx]
          have := node_unique hinv.hinv.nodup he het (hx.trans hetn.symm)
          rw [this] at h2
          omega
        · rw [setKey_weight_of_ne hx]; exact h2
      refine ⟨⟨⟨?_, ?_, ?_⟩, ?_, ?_, ?_, ?_, ?_⟩, hmono, le_max_left _ _, ?_⟩
      · rw [map_node_setKey]; exact hinv.hinv.nodup
      · intro e' he'
        obtain ⟨e, he, rfl⟩ := List.mem_map.1 he'
        by_cases hx : e.node = ed.target
        · rw [setKey_weight_of_eq hx, setKey_node, hx]
          exact ⟨_, by push_cast; omega, hwalk⟩
        · rw [setKey_weight_of_ne hx, setKey_node]
          exact hinv.hinv.sound e he
      · refine ⟨setKey ed.target _ es, List.mem_map_of_mem _ hes, by rw [setKey_node]; exact hesn, ?_⟩
        by_cases hx : es.node = ed.target
        · have := node_unique hinv.hinv.nodup hes het (hx.trans hetn.symm)
          rw [this] at hesw
          omega
        · rw [setKey_weight_of_ne hx]; exact hesw
      · intro e' he'
        obtain ⟨e, he, rfl⟩ := List.mem_map.1 he'
        rw [setKey_inHeap]
        exact hinv.allIn e he
      · show st.2.2 = flaggedCount _
        rw [hinv.count]
        exact (countP_map_same st.1 (fun e _ => by rw [setKey_data])).symm
      · exact le_trans hinv.maxNonneg (le_max_left _ _)
      · exact hmono _ _ hinv.hasNode
      · intro e' he'
        obtain ⟨e, he, rfl⟩ := List.mem_map.1 he'
        rw [setKey_data, setKey_node]
        exact hinv.flagged e he
      · intro _
        exact ⟨⟨setKey ed.target _ et, List.mem_map_of_mem _ het, by rw [setKey_node]; exact hetn,
          by rw [setKey_weight_of_eq hetn]⟩, le_max_right _ _⟩
    · simp only [hlt, if_false]
      refine ⟨⟨hinv.hinv, hinv.allIn, hinv.count, le_trans hinv.maxNonneg (le_max_left _ _),
        hinv.hasNode, hinv.flagged⟩, fun _ _ hk => hk, le_max_left _ _, ?_⟩
      intro _
      exact ⟨⟨et, het, hetn, by omega⟩, le_max_right _ _⟩

end Contractor

namespace Contractor

open BinaryHeap

theorem seedTargets_inv {g : _DynamicGraph} {s n : NodeID} {inData : _EdgeBasedContractorEdgeData}
    (hin : ∃ W, W ≤ inData.distance ∧ Walk g s n W) (edges : List _Edge) :
    ∀ st : _Heap × Int × Nat, SeedInv g s n inData.distance st → (∀ ed ∈ edges, ed ∈ g.adj n) →
      SeedInv g s n inData.distance (edges.foldl (seedStep inData) st)
      ∧ (∀ x k, KeyLE st.1 x k → KeyLE (edges.foldl (seedStep inData) st).1 x k)
      ∧ st.2.1 ≤ (edges.foldl (seedStep inData) st).2.1
      ∧ (∀ ed ∈ edges, ed.data.forward = true →
          KeyLE (edges.foldl (seedStep inData) st).1 ed.target
            ((inData.distance + ed.data.distance : Nat) : Int)
          ∧ ((inData.distance + ed.data.distance : Nat) : Int) ≤ (edges.foldl (seedStep inData) st).2.1) := by
  induction edges with
  | nil =>
    intro st hinv _
    exact ⟨hinv, fun _ _ hk => hk, le_refl _, by simp⟩
  | cons ed rest ih =>
    intro st hinv hmem
    obtain ⟨s1, s2, s3, s4⟩ := seedStep_inv hin hinv (hmem ed (List.mem_cons_self _ _))
    obtain ⟨i1, i2, i3, i4⟩ := ih (seedStep inData st ed) s1
      (fun e he => hmem e (List.mem_cons_of_mem _ he))
    rw [List.foldl_cons]
    refine ⟨i1, fun x k hk => i2 x k (s2 x k hk), le_trans s3 i3, ?_⟩
    intro e he hf
    rcases List.mem_cons.1 he with rfl | he
    · obtain ⟨a1, a2⟩ := s4 hf
      exact ⟨i2 _ _ a1, le_trans a2 i3⟩
    · exact i4 e he hf

theorem seedHeap_inv {g : _DynamicGraph} {n : NodeID} {inEdge : _Edge}
    (hin : InEdgeBacked g n inEdge) :
    SeedInv g inEdge.target n inEdge.data.distance (seedHeap g n inEdge)
    ∧ (∀ ed ∈ g.adj n, ed.data.forward = true →
        KeyLE (seedHeap g n inEdge).1 ed.target ((inEdge.data.distance + ed.data.distance : Nat) : Int)
        ∧ ((inEdge.data.distance + ed.data.distance : Nat) : Int) ≤ (seedHeap g n inEdge).2.1) := by
  have hinit : SeedInv g inEdge.target n inEdge.data.distance
      (if (n != inEdge.target) = true then
          ((BinaryHeap.Clear []).Insert inEdge.target 0 _HeapData.init).Insert n
            (inEdge.data.distance : Int) _HeapData.init
        else (BinaryHeap.Clear []).Insert inEdge.target 0 _HeapData.init, 0, 0) := by
    by_cases hn : n = inEdge.target
    · have hb : (n != inEdge.target) = false := by simp [hn]
      simp only [hb, Bool.false_eq_true, if_false, BinaryHeap.Insert, BinaryHeap.Clear]
      refine ⟨⟨by simp, ?_, ⟨_, List.mem_singleton_self _, rfl, rfl⟩⟩, by simp, by simp [flaggedCount, _HeapData.init],
        le_refl _, ⟨_, List.mem_singleton_self _, hn.symm, by simp⟩, ?_⟩
      · intro e he
        rw [List.mem_singleton.1 he]
        exact ⟨0, le_refl _, Walk.nil _⟩
      · intro e he
        rw [List.mem_singleton.1 he]
        simp [_HeapData.init]
    · have hb : (n != inEdge.target) = true := by simp [hn]
      simp only [hb, if_true, BinaryHeap.Insert, BinaryHeap.Clear]
      refine ⟨⟨by simp [hn], ?_, ⟨_, List.mem_cons_of_mem _ (List.mem_singleton_self _), rfl, rfl⟩⟩, by simp,
        by simp [flaggedCount, _HeapData.init], le_refl _, ⟨_, List.mem_cons_self _ _, rfl, le_refl _⟩, ?_⟩
      · intro e he
        rcases List.mem_cons.1 he with rfl | he
        · obtain ⟨W, hW, hwalk⟩ := hin
          exact ⟨W, by show (W : Int) ≤ (inEdge.data.distance : Int); exact_mod_cast hW, hwalk⟩
        · rw [List.mem_singleton.1 he]
          exact ⟨0, le_refl _, Walk.nil _⟩
      · intro e he
        rcases List.mem_cons.1 he with rfl | he
        · simp [_HeapData.init]
        · rw [List.mem_singleton.1 he]
          simp [_HeapData.init]
  obtain ⟨i1, _, _, i4⟩ := seedTargets_inv hin (g.adj n) _ hinit (fun _ he => he)
  exact ⟨i1, i4⟩

theorem loopInv_of_seedInv {g : _DynamicGraph} {s n : NodeID} {a : Nat} {st : _Heap × Int × Nat}
    (hinv : SeedInv g s n a st) :
    LoopInv g s st.1 ∧ removedCount st.1 = 0 ∧ foundCount st.1 = 0 := by
  refine ⟨⟨hinv.hinv, ?_, ?_⟩, ?_, ?_⟩
  · intro e he hr
    rw [hinv.allIn e he] at hr
    simp at hr
  · intro e he hr
    rw [hinv.allIn e he] at hr
    simp at hr
  · unfold removedCount
    rw [List.countP_eq_zero]
    intro e he
    simp [hinv.allIn e he]
  · unfold foundCount
    rw [List.countP_eq_zero]
    intro e he
    simp [hinv.allIn e he]

/-- The settled-node limit that `_Contract<Simulate>` passes to `_Dijkstra`. -/
theorem witnessSearch_eq (Simulate : Bool) (g : _DynamicGraph) (n : NodeID) (inEdge : _Edge) :
    witnessSearch Simulate g n inEdge =
      _Dijkstra g (seedHeap g n inEdge).2.1 (seedHeap g n inEdge).2.2
        (if Simulate then 1000 else 2000) (INT_MAX : Int) (seedHeap g n inEdge).1 := by
  unfold witnessSearch
  cases Simulate <;> simp

theorem witnessSearch_outcome (Simulate : Bool) {g : _DynamicGraph} {n : NodeID} {inEdge : _Edge}
    (hin : InEdgeBacked g n inEdge) :
    Outcome g inEdge.target (seedHeap g n inEdge).2.1 (if Simulate then 1000 else 2000)
      (witnessSearch Simulate g n inEdge)
    ∧ Evolves (seedHeap g n inEdge).1 (witnessSearch Simulate g n inEdge) := by
  obtain ⟨hseed, _⟩ := seedHeap_inv hin
  obtain ⟨hloop, hrc, hfc⟩ := loopInv_of_seedInv hseed
  rw [witnessSearch_eq]
  unfold _Dijkstra
  apply dijkstraLoop_outcome g inEdge.target _ _ _ _ (by unfold INT_MAX; norm_num) _ _ _ _ hloop
  · rw [hrc]; rfl
  · rw [hfc]
  · exact hseed.count
  · cases Simulate <;> simp
  · cases Simulate <;> simp

/-- The final key of an out-edge target is at least the distance of a walk from the source
of the in-edge, and at most the distance of the path through the contracted node. -/
theorem witness_key_sound (Simulate : Bool) {g : _DynamicGraph} {n : NodeID} {inEdge ed : _Edge}
    (hin : InEdgeBacked g n inEdge) (hed : ed ∈ g.adj n)
    (hf : ed.data.forward = true) :
    ∃ W : Nat, (W : Int) ≤ (witnessSearch Simulate g n inEdge).GetKey ed.target
      ∧ Walk g inEdge.target ed.target W ∧ W ≤ inEdge.data.distance + ed.data.distance := by
  obtain ⟨hseed, hkeys⟩ := seedHeap_inv hin
  obtain ⟨⟨hinv, _, _⟩, hev⟩ := witnessSearch_outcome Simulate hin
  obtain ⟨⟨e0, he0, he0n, he0w⟩, _⟩ := hkeys ed hed hf
  obtain ⟨e', he', hn', hw', _⟩ := hev e0 he0
  have hk := GetKey_of_mem hinv.nodup he'
  rw [hn', he0n] at hk
  obtain ⟨W, hW, hwalk⟩ := hinv.sound e' he'
  rw [hn', he0n] at hwalk
  refine ⟨W, by rw [hk]; exact hW, hwalk, ?_⟩
  have : (W : Int) ≤ ((inEdge.data.distance + ed.data.distance : Nat) : Int) := by omega
  exact_mod_cast this

/-- When the settled-node limit is not reached, a strictly shorter walk from the source
of the in-edge to the target of an out-edge brings the key of the target below the
distance of the path through the contracted node. -/
theorem witness_key_complete (Simulate : Bool) {g : _DynamicGraph} {n : NodeID} {inEdge ed : _Edge}
    (hin : InEdgeBacked g n inEdge) (hed : ed ∈ g.adj n)
    (hf : ed.data.forward = true) (hpos : 0 < ed.data.distance)
    (hlimit : ¬ ((if Simulate then 1000 else 2000 : Int) < (removedCount (witnessSearch Simulate g n inEdge) : Int)))
    {W : Nat} (hwalk : Walk g inEdge.target ed.target W)
    (hlt : W < inEdge.data.distance + ed.data.distance) :
    (witnessSearch Simulate g n inEdge).GetKey ed.target
      < ((inEdge.data.distance + ed.data.distance : Nat) : Int) := by
  obtain ⟨hseed, hkeys⟩ := seedHeap_inv hin
  obtain ⟨⟨hinv, _, hout⟩, hev⟩ := witnessSearch_outcome Simulate hin
  obtain ⟨⟨e0, he0, he0n, he0w⟩, hmax⟩ := hkeys ed hed hf
  obtain ⟨e', he', hn', hw', ht'⟩ := hev e0 he0
  have hk := GetKey_of_mem hinv.nodup he'
  rw [hn', he0n] at hk
  rw [hk]
  have huse : KeyLE (witnessSearch Simulate g n inEdge) ed.target (W : Int) →
      e'.weight < ((inEdge.data.distance + ed.data.distance : Nat) : Int) := by
    intro ⟨e2, he2, hn2, hw2⟩
    have : e2 = e' := node_unique hinv.nodup he2 he' (by rw [hn2, hn', he0n])
    rw [this] at hw2
    have : (W : Int) < ((inEdge.data.distance + ed.data.distance : Nat) : Int) := by exact_mod_cast hlt
    omega
  rcases hout with hall | ⟨P, hP, hPr, hsb, hPmax, hreason⟩
  · exact huse (settled_complete hinv (hall ((W : Int) + 1)) hwalk (by omega))
  · by_cases hWP : (W : Int) < P.weight
    · exact huse (settled_complete hinv hsb hwalk hWP)
    · rcases hreason with hmd | hfound | hlim
      · have : (W : Int) < ((inEdge.data.distance + ed.data.distance : Nat) : Int) := by exact_mod_cast hlt
        omega
      · by_cases hflag : e0.data.target = true
        · have hrem := hfound e' he' (by rw [ht']; exact hflag)
          have := hPmax e' he' hrem
          have : (W : Int) < ((inEdge.data.distance + ed.data.distance : Nat) : Int) := by exact_mod_cast hlt
          omega
        · have hnn : ¬ (e0.node ≠ inEdge.target ∧ e0.node ≠ n) := fun hh => hflag ((hseed.flagged e0 he0).2 hh)
          by_cases hs : e0.node = inEdge.target
          · obtain ⟨es, hes, hesn, hesw⟩ := hinv.source
            have : es = e' := node_unique hinv.nodup hes he' (by rw [hesn, hn', hs])
            rw [← this, hesw]
            have : 0 < inEdge.data.distance + ed.data.distance := by omega
            exact_mod_cast this
          · have hnode : e0.node = n := by
              by_contra hc
              exact hnn ⟨hs, hc⟩
            obtain ⟨en, hen, henn, henw⟩ := hseed.hasNode
            have : en = e0 := node_unique hseed.hinv.nodup hen he0 (by rw [henn, hnode])
            rw [this] at henw
            have : (inEdge.data.distance : Int) < ((inEdge.data.distance + ed.data.distance : Nat) : Int) := by
              push_cast; omega
            omega
      · exact absurd hlim hlimit

end Contractor
namespace Contractor

theorem sameShortcut_iff (a b : _ImportEdge) :
    sameShortcut a b = true ↔ a.source = b.source ∧ a.target = b.target
      ∧ a.data.distance = b.data.distance ∧ a.data.shortcut = b.data.shortcut := by
  simp [sameShortcut, and_assoc]

theorem Covers_refl (r : _ImportEdge) : Covers r r :=
  ⟨rfl, rfl, rfl, rfl, id, id⟩

theorem Backed_self {raw : List _ImportEdge} {r : _ImportEdge} (hr : r ∈ raw) : Backed raw r :=
  ⟨⟨r, hr, rfl, rfl, rfl, rfl, rfl⟩, fun hf => ⟨r, hr, rfl, rfl, rfl, hf⟩,
    fun hb => ⟨r, hr, rfl, rfl, rfl, hb⟩⟩

theorem mergeStep_eq (iend : Nat) (st : List _ImportEdge × Nat) (i : Nat) :
    mergeStep iend st i =
      match (List.range' (i + 1) (iend - (i + 1))).find?
          (fun other => sameShortcut (st.1.getD other default) (st.1.getD i default)) with
      | some other => (st.1.modify (orFlags (st.1.getD i default)) other, st.2)
      | none => (st.1.set st.2 (st.1.getD i default), st.2 + 1) := rfl

theorem mergeInv_init (L0 : List _ImportEdge) (s0 : Nat) (hs : s0 ≤ L0.length) :
    MergeInv L0 s0 s0 (L0, s0) := by
  refine ⟨rfl, le_refl _, le_refl _, hs, fun _ _ => rfl, ?_, ?_⟩
  · intro j e he hl
    apply Backed_self
    rcases hl with ⟨h1, h2⟩ | ⟨h1, h2⟩
    · simp only at h2; omega
    · rw [List.mem_iff_getElem?]
      refine ⟨j - s0, ?_⟩
      rw [List.getElem?_drop]
      have : s0 + (j - s0) = j := by omega
      rw [this]; exact he
  · intro r hr
    obtain ⟨k, hk⟩ := List.mem_iff_getElem?.1 hr
    rw [List.getElem?_drop] at hk
    have hlt : s0 + k < L0.length := by
      by_contra hc
      rw [List.getElem?_eq_none (by omega)] at hk
      simp at hk
    exact ⟨s0 + k, r, hk, Or.inr ⟨by omega, hlt⟩, Covers_refl r⟩

theorem mergeStep_inv {L0 : List _ImportEdge} {s0 i : Nat} {st : List _ImportEdge × Nat}
    (hinv : MergeInv L0 s0 i st) (hi : i < L0.length) :
    MergeInv L0 s0 (i + 1) (mergeStep L0.length st i) := by
  have hilen : i < st.1.length := by rw [hinv.len]; exact hi
  obtain ⟨x, hx⟩ : ∃ x, st.1[i]? = some x := ⟨st.1[i], List.getElem?_eq_getElem hilen⟩
  have hxd : st.1.getD i default = x := by
    rw [List.getD_eq_getElem?_getD, hx]; rfl
  have hxb : Backed (L0.drop s0) x := hinv.backed i x hx (Or.inr ⟨le_refl _, hi⟩)
  rw [mergeStep_eq, hxd]
  cases hfind : (List.range' (i + 1) (L0.length - (i + 1))).find?
      (fun other => sameShortcut (st.1.getD other default) x) with
  | some other =>
    simp only
    have hmem := List.mem_of_find?_eq_some hfind
    rw [List.mem_range'_1] at hmem
    have hsame := List.find?_some hfind
    have holen : other < st.1.length := by rw [hinv.len]; omega
    obtain ⟨o, ho⟩ : ∃ o, st.1[other]? = some o := ⟨st.1[other], List.getElem?_eq_getElem holen⟩
    have hod : st.1.getD other default = o := by
      rw [List.getD_eq_getElem?_getD, ho]; rfl
    simp only [hod, sameShortcut_iff] at hsame
    obtain ⟨e1, e2, e3, e4⟩ := hsame
    have hob : Backed (L0.drop s0) o := hinv.backed other o ho (Or.inr ⟨by omega, by omega⟩)
    have hget : ∀ j, (List.modify (orFlags x) other st.1)[j]? =
        if other = j then some (orFlags x o) else st.1[j]? := by
      intro j
      rw [List.getElem?_modify]
      by_cases hj : other = j
      · subst hj; simp [ho]
      · simp only [hj, if_false]
        cases st.1[j]? <;> rfl
    refine ⟨by simp only [List.length_modify]; exact hinv.len, hinv.lo, by have := hinv.mid; simp only at this ⊢; omega,
      by omega, ?_, ?_, ?_⟩
    · intro j hj
      simp only [hget]
      have : other ≠ j := by have := hinv.mid; have := hinv.lo; omega
      simp only [this, if_false]
      exact hinv.front j hj
    · intro j e he hl
      simp only [hget] at he
      by_cases hj : other = j
      · simp only [hj, if_true, Option.some.injEq] at he
        subst he
        obtain ⟨⟨r, hr, r1, r2, r3, r4, r5⟩, hfo, hbo⟩ := hob
        refine ⟨⟨r, hr, r1, r2, r3, r4, r5⟩, ?_, ?_⟩
        · intro hf
          simp only [orFlags, Bool.or_eq_true] at hf
          rcases hf with hf | hf
          · exact hfo hf
          · obtain ⟨r', hr', q1, q2, q3, q4⟩ := hxb.2.1 hf
            exact ⟨r', hr', by simp only [orFlags]; rw [e1, q1], by simp only [orFlags]; rw [e2, q2],
              by simp only [orFlags]; rw [e3, q3], q4⟩
        · intro hf
          simp only [orFlags, Bool.or_eq_true] at hf
          rcases hf with hf | hf
          · exact hbo hf
          · obtain ⟨r', hr', q1, q2, q3, q4⟩ := hxb.2.2 hf
            exact ⟨r', hr', by simp only [orFlags]; rw [e1, q1], by simp only [orFlags]; rw [e2, q2],
              by simp only [orFlags]; rw [e3, q3], q4⟩
      · simp only [hj, if_false] at he
        apply hinv.backed j e he
        rcases hl with hl | hl
        · exact Or.inl hl
        · exact Or.inr ⟨by omega, hl.2⟩
    · intro r hr
      obtain ⟨j, e, he, hl, hc⟩ := hinv.covered r hr
      have hlive_other : Live s0 st.2 (i + 1) L0.length other := Or.inr ⟨by omega, by omega⟩
      have hcov_o : ∀ r', Covers o r' → Covers (orFlags x o) r' := by
        intro r' ⟨c1, c2, c3, c4, c5, c6⟩
        exact ⟨c1, c2, c3, c4, fun hh => by simp [orFlags, c5 hh], fun hh => by simp [orFlags, c6 hh]⟩
      by_cases hj : j = other
      · subst hj
        rw [ho] at he
        cases he
        exact ⟨j, orFlags x o, by simp [hget], hlive_other, hcov_o r hc⟩
      · by_cases hji : j = i
        · subst hji
          rw [hx] at he
          cases he
          obtain ⟨c1, c2, c3, c4, c5, c6⟩ := hc
          refine ⟨other, orFlags x o, by simp [hget], hlive_other, ?_⟩
          exact ⟨by simp only [orFlags]; rw [e1, c1], by simp only [orFlags]; rw [e2, c2],
            by simp only [orFlags]; rw [e3, c3], by simp only [orFlags]; rw [e4, c4],
            fun hh => by simp [orFlags, c5 hh], fun hh => by simp [orFlags, c6 hh]⟩
        · refine ⟨j, e, ?_, ?_, hc⟩
          · simp only [hget]
            have : other ≠ j := fun hh => hj hh.symm
            simp only [this, if_false]; exact he
          · rcases hl with hl | hl
            · exact Or.inl hl
            · exact Or.inr ⟨by omega, hl.2⟩
  | none =>
    simp only
    have hszlen : st.2 < st.1.length := by have := hinv.mid; omega
    have hget : ∀ j, (st.1.set st.2 x)[j]? = if st.2 = j then some x else st.1[j]? := by
      intro j
      rw [List.getElem?_set]
      simp [hszlen]
    refine ⟨by simp only [List.length_set]; exact hinv.len, by have := hinv.lo; simp only at this ⊢; omega,
      by have := hinv.mid; simp only at this ⊢; omega, by omega, ?_, ?_, ?_⟩
    · intro j hj
      simp only [hget]
      have : st.2 ≠ j := by have := hinv.lo; omega
      simp only [this, if_false]
      exact hinv.front j hj
    · intro j e he hl
      simp only [hget] at he
      by_cases hj : st.2 = j
      · simp only [hj, if_true, Option.some.injEq] at he
        subst he
        exact hxb
      · simp only [hj, if_false] at he
        apply hinv.backed j e he
        rcases hl with hl | hl
        · exact Or.inl ⟨hl.1, by simp only at hl; omega⟩
        · exact Or.inr ⟨by omega, hl.2⟩
    · intro r hr
      obtain ⟨j, e, he, hl, hc⟩ := hinv.covered r hr
      by_cases hji : j = i
      · subst hji
        rw [hx] at he
        cases he
        exact ⟨st.2, x, by simp [hget], Or.inl ⟨hinv.lo, by simp⟩, hc⟩
      · have hne : st.2 ≠ j := by
          rcases hl with hl | hl
          · omega
          · have := hinv.mid; omega
        refine ⟨j, e, by simp only [hget, hne, if_false]; exact he, ?_, hc⟩
        rcases hl with hl | hl
        · exact Or.inl ⟨hl.1, by simp only; omega⟩
        · exact Or.inr ⟨by omega, hl.2⟩

theorem mergeFold_inv {L0 : List _ImportEdge} {s0 : Nat} (k : Nat) :
    ∀ (i : Nat) (st : List _ImportEdge × Nat), MergeInv L0 s0 i st → i + k ≤ L0.length →
      MergeInv L0 s0 (i + k) ((List.range' i k).foldl (mergeStep L0.length) st) := by
  induction k with
  | zero => intro i st hinv _; simpa using hinv
  | succ k ih =>
    intro i st hinv hle
    rw [List.range'_succ, List.foldl_cons]
    have := ih (i + 1) _ (mergeStep_inv hinv (by omega)) (by omega)
    have h2 : i + 1 + k = i + (k + 1) := by omega
    rw [h2] at this
    exact this

/-- The buffer after the duplicate merge: the old part is unchanged, every new edge
is backed by pushed edges and every pushed edge is covered by a new edge. -/
theorem mergeDuplicates_spec (s0 : Nat) (L0 : List _ImportEdge) (hs : s0 ≤ L0.length) :
    (mergeDuplicates s0 L0).take s0 = L0.take s0
    ∧ (∀ e ∈ (mergeDuplicates s0 L0).drop s0, Backed (L0.drop s0) e)
    ∧ (∀ r ∈ L0.drop s0, ∃ e ∈ (mergeDuplicates s0 L0).drop s0, Covers e r) := by
  have hinv := @mergeFold_inv L0 s0 (L0.length - s0) s0 (L0, s0)
    (mergeInv_init L0 s0 hs) (by omega)
  have hend : s0 + (L0.length - s0) = L0.length := by omega
  rw [hend] at hinv
  unfold mergeDuplicates
  simp only
  generalize (List.range' s0 (L0.length - s0)).foldl (mergeStep L0.length) (L0, s0) = st at hinv
  have hlen := hinv.len
  have hlo := hinv.lo
  have hmid := hinv.mid
  refine ⟨?_, ?_, ?_⟩
  · apply List.ext_getElem?
    intro j
    simp only [List.getElem?_take]
    by_cases hj : j < s0
    · have : j < st.2 := by omega
      simp only [hj, this, if_true]
      exact hinv.front j hj
    · simp [hj]
  · intro e he
    obtain ⟨k, hk⟩ := List.mem_iff_getElem?.1 he
    rw [List.getElem?_drop, List.getElem?_take] at hk
    by_cases hlt : s0 + k < st.2
    · simp only [hlt, if_true] at hk
      exact hinv.backed _ e hk (Or.inl ⟨by omega, hlt⟩)
    · simp [hlt] at hk
  · intro r hr
    obtain ⟨j, e, he, hl, hc⟩ := hinv.covered r hr
    have hj : s0 ≤ j ∧ j < st.2 := by
      rcases hl with hl | hl
      · exact hl
      · omega
    refine ⟨e, ?_, hc⟩
    rw [List.mem_iff_getElem?]
    refine ⟨j - s0, ?_⟩
    rw [List.getElem?_drop, List.getElem?_take]
    have : s0 + (j - s0) = j := by omega
    rw [this]
    simp only [hj.2, if_true]
    exact he

end Contractor
namespace Contractor

theorem shortcutStep_false (g : _DynamicGraph) (node : NodeID) (inEdge outEdge : _Edge)
    (hb : inEdge.data.backward = true) (st : List _ImportEdge × _ContractionInformation) :
    shortcutStep false node inEdge.target inEdge.data (witnessSearch false g node inEdge) st outEdge
      = (st.1 ++ (if shortcutRequired g node inEdge outEdge then shortcutPair node inEdge outEdge
          else []), st.2) := by
  unfold shortcutStep shortcutRequired
  by_cases hf : outEdge.data.forward = true
  · by_cases hle : ((inEdge.data.distance + outEdge.data.distance : Nat) : Int)
        ≤ (witnessSearch false g node inEdge).GetKey outEdge.target
    · simp only [hf, hb, hle, Bool.not_true, Bool.false_eq_true, if_false, if_true, Bool.and_self,
        decide_True, Bool.and_true, shortcutPair, newShortcut, swapShortcut, Int.toNat_ofNat,
        Nat.add_comm outEdge.data.originalEdges]
    · simp only [hf, hb, hle, Bool.not_true, Bool.false_eq_true, if_false, Bool.and_self,
        decide_False, Bool.and_false, List.append_nil]
  · simp [hf]

theorem flatMap_const_nil {α β : Type} (l : List α) : l.flatMap (fun _ => ([] : List β)) = [] := by
  induction l with
  | nil => rfl
  | cons a t ih => simp [List.flatMap_cons, ih]

theorem addShortcuts_false (g : _DynamicGraph) (node : NodeID) (inEdge : _Edge)
    (hb : inEdge.data.backward = true) (outs : List _Edge) :
    ∀ st : List _ImportEdge × _ContractionInformation,
      addShortcuts false node inEdge.target inEdge.data (witnessSearch false g node inEdge) st outs
        = (st.1 ++ outs.flatMap (fun outEdge =>
            if shortcutRequired g node inEdge outEdge then shortcutPair node inEdge outEdge else []),
           st.2) := by
  induction outs with
  | nil => intro st; simp [addShortcuts]
  | cons o rest ih =>
    intro st
    have : addShortcuts false node inEdge.target inEdge.data (witnessSearch false g node inEdge) st
        (o :: rest) = addShortcuts false node inEdge.target inEdge.data
          (witnessSearch false g node inEdge)
          (shortcutStep false node inEdge.target inEdge.data (witnessSearch false g node inEdge) st o)
          rest := rfl
    rw [this, ih, shortcutStep_false g node inEdge o hb]
    simp [List.flatMap_cons, List.append_assoc]

theorem contractStep_false (g : _DynamicGraph) (node : NodeID) (inEdge : _Edge)
    (st : List _ImportEdge × _ContractionInformation) :
    contractStep false g node st inEdge
      = (st.1 ++ (g.adj node).flatMap (fun outEdge =>
            if shortcutRequired g node inEdge outEdge then shortcutPair node inEdge outEdge else []),
         st.2) := by
  unfold contractStep
  by_cases hb : inEdge.data.backward = true
  · simp only [hb, Bool.not_true, Bool.false_eq_true, if_false]
    exact addShortcuts_false g node inEdge hb (g.adj node) (st.1, st.2)
  · simp only [Bool.not_eq_true] at hb
    simp [hb, shortcutRequired, flatMap_const_nil]

theorem contractFold_false (g : _DynamicGraph) (node : NodeID) (ins : List _Edge) :
    ∀ st : List _ImportEdge × _ContractionInformation,
      ins.foldl (contractStep false g node) st
        = (st.1 ++ ins.flatMap (fun inEdge => (g.adj node).flatMap (fun outEdge =>
            if shortcutRequired g node inEdge outEdge then shortcutPair node inEdge outEdge else [])),
           st.2) := by
  induction ins with
  | nil => intro st; simp
  | cons i rest ih =>
    intro st
    rw [List.foldl_cons, ih, contractStep_false]
    simp [List.flatMap_cons, List.append_assoc]

theorem contractLoop_false (g : _DynamicGraph) (node : NodeID)
    (st : List _ImportEdge × _ContractionInformation) :
    contractLoop false g node st = (st.1 ++ pushedPairs g node, st.2) :=
  contractFold_false g node (g.adj node) st

theorem Contract_false (g : _DynamicGraph) (insertedEdges : List _ImportEdge) (node : NodeID)
    (stats : _ContractionInformation) :
    _Contract false g insertedEdges node stats
      = (mergeDuplicates insertedEdges.length (insertedEdges ++ pushedPairs g node), stats) := by
  simp [_Contract, contractLoop_false]

theorem mem_pushedPairs {g : _DynamicGraph} {node : NodeID} {e : _ImportEdge} :
    e ∈ pushedPairs g node ↔ ∃ inEdge ∈ g.adj node, ∃ outEdge ∈ g.adj node,
      shortcutRequired g node inEdge outEdge = true ∧ e ∈ shortcutPair node inEdge outEdge := by
  unfold pushedPairs
  simp only [List.mem_flatMap]
  constructor
  · rintro ⟨i, hi, o, ho, he⟩
    by_cases hr : shortcutRequired g node i o = true
    · simp only [hr, if_true] at he
      exact ⟨i, hi, o, ho, hr, he⟩
    · simp [hr] at he
  · rintro ⟨i, hi, o, ho, hr, he⟩
    exact ⟨i, hi, o, ho, by simp only [hr, if_true]; exact he⟩

/-- The new part of the buffer after `_Contract<false>`. -/
theorem Contract_false_spec (g : _DynamicGraph) (insertedEdges : List _ImportEdge) (node : NodeID)
    (stats : _ContractionInformation) :
    (_Contract false g insertedEdges node stats).1.take insertedEdges.length = insertedEdges
    ∧ (∀ e ∈ (_Contract false g insertedEdges node stats).1.drop insertedEdges.length,
        Backed (pushedPairs g node) e)
    ∧ (∀ r ∈ pushedPairs g node,
        ∃ e ∈ (_Contract false g insertedEdges node stats).1.drop insertedEdges.length, Covers e r) := by
  rw [Contract_false]
  have := mergeDuplicates_spec insertedEdges.length (insertedEdges ++ pushedPairs g node) (by simp)
  simpa using this

end Contractor
namespace Contractor

open DynamicGraph

theorem mem_unique {α : Type} [DecidableEq α] (l : List α) (x : α) : x ∈ unique l ↔ x ∈ l := by
  induction l with
  | nil => simp [unique]
  | cons a t ih =>
    cases t with
    | nil => simp [unique]
    | cons b r =>
      unfold unique
      by_cases hab : a = b
      · simp only [hab, if_true, ih]
        simp
      · simp only [hab, if_false, List.mem_cons, ih]

theorem mem_sortedNeighbours (g : _DynamicGraph) (node x : NodeID) :
    x ∈ sortedNeighbours g node ↔ x ≠ node ∧ ∃ e ∈ g.adj node, e.target = x := by
  unfold sortedNeighbours
  rw [mem_unique, List.mem_insertionSort, List.mem_map]
  constructor
  · rintro ⟨e, he, rfl⟩
    rw [List.mem_filter] at he
    exact ⟨by simpa using he.2, e, he.1, rfl⟩
  · rintro ⟨hne, e, he, rfl⟩
    exact ⟨e, List.mem_filter.2 ⟨he, by simpa using hne⟩, rfl⟩

theorem deleteFold_adj (node : NodeID) (us : List NodeID) :
    ∀ (g : _DynamicGraph) (x : NodeID) (e : _Edge),
      e ∈ (us.foldl (fun g u => g.DeleteEdgesTo u node) g).adj x
        ↔ e ∈ g.adj x ∧ (x ∈ us → e.target ≠ node) := by
  induction us with
  | nil => intro g x e; simp
  | cons u rest ih =>
    intro g x e
    rw [List.foldl_cons, ih]
    simp only [DeleteEdgesTo, List.mem_cons]
    by_cases hx : x = u
    · subst hx
      simp only [Function.update_same, List.mem_filter, bne_iff_ne, ne_eq, true_or, true_implies]
      tauto
    · simp only [Function.update_noteq hx, hx, false_or]

/-- The edges of the graph after `_DeleteIncomingEdges`. -/
theorem DeleteIncomingEdges_adj (g : _DynamicGraph) (node x : NodeID) (e : _Edge) :
    e ∈ (_DeleteIncomingEdges g node).adj x
      ↔ e ∈ g.adj x ∧ (x ∈ sortedNeighbours g node → e.target ≠ node) :=
  deleteFold_adj node _ g x e

theorem mem_modify {α : Type} (f : α → α) (i : Nat) (l : List α) (y : α) :
    y ∈ l.modify f i ↔ (∃ j, j ≠ i ∧ l[j]? = some y) ∨ (∃ x, l[i]? = some x ∧ y = f x) := by
  simp only [List.mem_iff_getElem?, List.getElem?_modify]
  constructor
  · rintro ⟨j, hj⟩
    by_cases hij : i = j
    · subst hij
      cases hx : l[i]? with
      | none => simp [hx] at hj
      | some x =>
        simp only [hx, Option.map_eq_map, Option.map_some', if_true, Option.some.injEq] at hj
        exact Or.inr ⟨x, rfl, hj.symm⟩
    · cases hx : l[j]? with
      | none => simp [hx] at hj
      | some x =>
        simp only [hx, Option.map_eq_map, Option.map_some', hij, if_false, Option.some.injEq] at hj
        subst hj
        exact Or.inl ⟨j, fun h => hij h.symm, hx⟩
  · rintro (⟨j, hji, hj⟩ | ⟨x, hx, rfl⟩)
    · have hne : ¬ i = j := fun h => hji h.symm
      exact ⟨j, by simp [hj, hne]⟩
    · exact ⟨i, by simp [hx]⟩

/-- The three results of `insertEdgeStep`. -/
theorem insertEdgeStep_cases (g : _DynamicGraph) (edge : _ImportEdge) :
    (insertEdgeStep g edge = g
      ∧ ∃ cur ∈ g.adj edge.source, cur.target = edge.target
          ∧ cur.data.forward = edge.data.forward ∧ cur.data.backward = edge.data.backward
          ∧ cur.data.distance ≤ edge.data.distance)
    ∨ (∃ idx cur, (g.adj edge.source)[idx]? = some cur ∧ cur.target = edge.target
          ∧ cur.data.forward = edge.data.forward ∧ cur.data.backward = edge.data.backward
          ∧ edge.data.distance < cur.data.distance
          ∧ insertEdgeStep g edge
              = g.SetEdgeData edge.source idx (fun d => { d with distance := edge.data.distance }))
    ∨ insertEdgeStep g edge = g.InsertEdge edge.source edge.target edge.data := by
  unfold insertEdgeStep
  cases hfind : g.FindEdge edge.source edge.target with
  | none => right; right; rfl
  | some idx =>
    simp only
    unfold FindEdge at hfind
    obtain ⟨hlt, hp, _⟩ := List.findIdx?_eq_some_iff_getElem.1 hfind
    have hget : (g.adj edge.source)[idx]? = some (g.adj edge.source)[idx] := List.getElem?_eq_getElem hlt
    have hd : (g.adj edge.source).getD idx default = (g.adj edge.source)[idx] := by
      rw [List.getD_eq_getElem?_getD, hget]; rfl
    rw [hd]
    have htgt : (g.adj edge.source)[idx].target = edge.target := by simpa using hp
    by_cases hflags : (edge.data.forward == (g.adj edge.source)[idx].data.forward
        && edge.data.backward == (g.adj edge.source)[idx].data.backward) = true
    · simp only [hflags, if_true]
      simp only [Bool.and_eq_true, beq_iff_eq] at hflags
      by_cases hle : (g.adj edge.source)[idx].data.distance ≤ edge.data.distance
      · left
        simp only [hle, if_true, true_and]
        exact ⟨_, List.getElem_mem hlt, htgt, hflags.1.symm, hflags.2.symm, hle⟩
      · right; left
        have hgt : (g.adj edge.source)[idx].data.distance > edge.data.distance := by omega
        simp only [hle, if_false, hgt, if_true]
        exact ⟨idx, _, hget, htgt, hflags.1.symm, hflags.2.symm, hgt, rfl⟩
    · right; right
      simp only [hflags, Bool.false_eq_true, if_false]

/-- The buffered edge `edge` is represented in the range of `x` by the stored edge `e`:
same target and flags, and a distance that is not larger. -/
theorem insertEdgeStep_sound (g : _DynamicGraph) (edge : _ImportEdge) (x : NodeID) (e : _Edge)
    (he : e ∈ (insertEdgeStep g edge).adj x) :
    e ∈ g.adj x ∨ (x = edge.source ∧ e.target = edge.target
      ∧ e.data.forward = edge.data.forward ∧ e.data.backward = edge.data.backward
      ∧ e.data.distance = edge.data.distance
      ∧ ((e.data.shortcut = edge.data.shortcut ∧ e.data.via = edge.data.via) ∨
          ∃ cur ∈ g.adj x, cur.target = e.target ∧ cur.data.shortcut = e.data.shortcut
            ∧ cur.data.via = e.data.via)) := by
  rcases insertEdgeStep_cases g edge with ⟨h0, _⟩ | ⟨idx, cur, hcur, h1, h2, h3, _, hset⟩ | hins
  · rw [h0] at he; exact Or.inl he
  · rw [hset] at he
    simp only [SetEdgeData] at he
    by_cases hx : x = edge.source
    · subst hx
      simp only [Function.update_same] at he
      rcases (mem_modify _ _ _ _).1 he with ⟨j, _, hj⟩ | ⟨c, hc, rfl⟩
      · exact Or.inl (List.mem_iff_getElem?.2 ⟨j, hj⟩)
      · rw [hcur] at hc
        cases hc
        exact Or.inr ⟨rfl, h1, h2, h3, rfl, Or.inr ⟨cur, List.mem_iff_getElem?.2 ⟨idx, hcur⟩, rfl, rfl, rfl⟩⟩
    · simp only [Function.update_noteq hx] at he
      exact Or.inl he
  · rw [hins] at he
    simp only [InsertEdge] at he
    by_cases hx : x = edge.source
    · subst hx
      simp only [Function.update_same, List.mem_append, List.mem_singleton] at he
      rcases he with he | rfl
      · exact Or.inl he
      · exact Or.inr ⟨rfl, rfl, rfl, rfl, rfl, Or.inl ⟨rfl, rfl⟩⟩
    · simp only [Function.update_noteq hx] at he
      exact Or.inl he

theorem insertEdgeStep_mono (g : _DynamicGraph) (edge : _ImportEdge) (x : NodeID) (e : _Edge)
    (he : e ∈ g.adj x) :
    ∃ e' ∈ (insertEdgeStep g edge).adj x, e'.target = e.target
      ∧ e'.data.forward = e.data.forward ∧ e'.data.backward = e.data.backward
      ∧ e'.data.distance ≤ e.data.distance := by
  rcases insertEdgeStep_cases g edge with ⟨h0, _⟩ | ⟨idx, cur, hcur, h1, h2, h3, hlt, hset⟩ | hins
  · rw [h0]; exact ⟨e, he, rfl, rfl, rfl, le_refl _⟩
  · rw [hset]
    simp only [SetEdgeData]
    by_cases hx : x = edge.source
    · subst hx
      simp only [Function.update_same]
      obtain ⟨j, hj⟩ := List.mem_iff_getElem?.1 he
      by_cases hji : j = idx
      · subst hji
        rw [hcur] at hj
        cases hj
        refine ⟨_, (mem_modify _ _ _ _).2 (Or.inr ⟨e, hcur, rfl⟩), rfl, rfl, rfl, ?_⟩
        simp only
        omega
      · exact ⟨e, (mem_modify _ _ _ _).2 (Or.inl ⟨j, hji, hj⟩), rfl, rfl, rfl, le_refl _⟩
    · simp only [Function.update_noteq hx]
      exact ⟨e, he, rfl, rfl, rfl, le_refl _⟩
  · rw [hins]
    simp only [InsertEdge]
    by_cases hx : x = edge.source
    · subst hx
      simp only [Function.update_same]
      exact ⟨e, List.mem_append_left _ he, rfl, rfl, rfl, le_refl _⟩
    · simp only [Function.update_noteq hx]
      exact ⟨e, he, rfl, rfl, rfl, le_refl _⟩

theorem insertEdgeStep_present (g : _DynamicGraph) (edge : _ImportEdge) :
    ∃ e' ∈ (insertEdgeStep g edge).adj edge.source, e'.target = edge.target
      ∧ e'.data.forward = edge.data.forward ∧ e'.data.backward = edge.data.backward
      ∧ e'.data.distance ≤ edge.data.distance := by
  rcases insertEdgeStep_cases g edge with ⟨h0, cur, hc, h1, h2, h3, h4⟩ | ⟨idx, cur, hcur, h1, h2, h3, hlt, hset⟩ | hins
  · rw [h0]; exact ⟨cur, hc, h1, h2, h3, h4⟩
  · rw [hset]
    simp only [SetEdgeData, Function.update_same]
    exact ⟨_, (mem_modify _ _ _ _).2 (Or.inr ⟨cur, hcur, rfl⟩), h1, h2, h3, le_refl _⟩
  · rw [hins]
    simp only [InsertEdge, Function.update_same]
    exact ⟨⟨edge.target, edge.data⟩, List.mem_append_right _ (List.mem_singleton_self _), rfl, rfl, rfl,
      le_refl _⟩

theorem insertNewEdges_mono (edges : List _ImportEdge) :
    ∀ (g : _DynamicGraph) (x : NodeID) (e : _Edge), e ∈ g.adj x →
      ∃ e' ∈ (insertNewEdges g edges).adj x, e'.target = e.target
        ∧ e'.data.forward = e.data.forward ∧ e'.data.backward = e.data.backward
        ∧ e'.data.distance ≤ e.data.distance := by
  induction edges with
  | nil => intro g x e he; exact ⟨e, he, rfl, rfl, rfl, le_refl _⟩
  | cons a rest ih =>
    intro g x e he
    obtain ⟨e1, he1, a1, a2, a3, a4⟩ := insertEdgeStep_mono g a x e he
    obtain ⟨e2, he2, b1, b2, b3, b4⟩ := ih (insertEdgeStep g a) x e1 he1
    exact ⟨e2, he2, b1.trans a1, b2.trans a2, b3.trans a3, le_trans b4 a4⟩

theorem insertNewEdges_present (edges : List _ImportEdge) :
    ∀ (g : _DynamicGraph) (edge : _ImportEdge), edge ∈ edges →
      ∃ e' ∈ (insertNewEdges g edges).adj edge.source, e'.target = edge.target
        ∧ e'.data.forward = edge.data.forward ∧ e'.data.backward = edge.data.backward
        ∧ e'.data.distance ≤ edge.data.distance := by
  induction edges with
  | nil => intro g edge he; simp at he
  | cons a rest ih =>
    intro g edge he
    rcases List.mem_cons.1 he with rfl | he
    · obtain ⟨e1, he1, a1, a2, a3, a4⟩ := insertEdgeStep_present g edge
      obtain ⟨e2, he2, b1, b2, b3, b4⟩ := insertNewEdges_mono rest (insertEdgeStep g edge) _ e1 he1
      exact ⟨e2, he2, b1.trans a1, b2.trans a2, b3.trans a3, le_trans b4 a4⟩
    · exact ih (insertEdgeStep g a) edge he

theorem insertNewEdges_sound (edges : List _ImportEdge) :
    ∀ (g : _DynamicGraph) (x : NodeID) (e : _Edge), e ∈ (insertNewEdges g edges).adj x →
      e ∈ g.adj x ∨ ∃ edge ∈ edges, x = edge.source ∧ e.target = edge.target
        ∧ e.data.forward = edge.data.forward ∧ e.data.backward = edge.data.backward
        ∧ e.data.distance = edge.data.distance := by
  induction edges with
  | nil => intro g x e he; exact Or.inl he
  | cons a rest ih =>
    intro g x e he
    rcases ih (insertEdgeStep g a) x e he with h1 | ⟨edge, hedge, hrest⟩
    · rcases insertEdgeStep_sound g a x e h1 with h2 | ⟨c1, c2, c3, c4, c5, _⟩
      · exact Or.inl h2
      · exact Or.inr ⟨a, List.mem_cons_self _ _, c1, c2, c3, c4, c5⟩
    · exact Or.inr ⟨edge, List.mem_cons_of_mem _ hedge, hrest⟩

end Contractor
namespace Contractor

theorem Walk_uncons {g : _DynamicGraph} {u v : NodeID} {W : Nat} (h : Walk g u v W) :
    (u = v ∧ W = 0) ∨ ∃ x w W2, FwdEdge g u x w ∧ Walk g x v W2 ∧ W = w + W2 := by
  induction h with
  | nil => exact Or.inl ⟨rfl, rfl⟩
  | @snoc x v W1 w hwalk hedge ih =>
    right
    rcases ih with ⟨rfl, rfl⟩ | ⟨y, w0, W2, he, hw, rfl⟩
    · exact ⟨v, w, 0, hedge, Walk.nil v, by omega⟩
    · exact ⟨y, w0, W2 + w, he, Walk.snoc hw hedge, by omega⟩

theorem Walk_mono_graph {g g' : _DynamicGraph} (hsub : ∀ x y w, FwdEdge g x y w → Walk g' x y w)
    {u v : NodeID} {W : Nat} (h : Walk g u v W) : Walk g' u v W := by
  induction h with
  | nil => exact Walk.nil _
  | snoc _ hedge ih => exact Walk_append ih (hsub _ _ _ hedge)

theorem mem_shortcutPair_forward {node : NodeID} {inEdge outEdge : _Edge} {r : _ImportEdge}
    (hr : r ∈ shortcutPair node inEdge outEdge) (hf : r.data.forward = true) :
    r.source = inEdge.target ∧ r.target = outEdge.target
      ∧ r.data.distance = inEdge.data.distance + outEdge.data.distance := by
  simp only [shortcutPair, List.mem_cons, List.mem_singleton, List.not_mem_nil, or_false] at hr
  rcases hr with rfl | rfl
  · exact ⟨rfl, rfl, rfl⟩
  · simp at hf

theorem mem_shortcutPair_backward {node : NodeID} {inEdge outEdge : _Edge} {r : _ImportEdge}
    (hr : r ∈ shortcutPair node inEdge outEdge) (hf : r.data.backward = true) :
    r.source = outEdge.target ∧ r.target = inEdge.target
      ∧ r.data.distance = inEdge.data.distance + outEdge.data.distance := by
  simp only [shortcutPair, List.mem_cons, List.mem_singleton, List.not_mem_nil, or_false] at hr
  rcases hr with rfl | rfl
  · simp at hf
  · exact ⟨rfl, rfl, rfl⟩

theorem shortcutRequired_iff {g : _DynamicGraph} {node : NodeID} {inEdge outEdge : _Edge} :
    shortcutRequired g node inEdge outEdge = true ↔
      inEdge.data.backward = true ∧ outEdge.data.forward = true
        ∧ ((inEdge.data.distance + outEdge.data.distance : Nat) : Int)
            ≤ (witnessSearch false g node inEdge).GetKey outEdge.target := by
  simp [shortcutRequired, and_assoc]

/-- A forward flag in the buffer of `_Contract<false>` stands for the path through the
contracted node. -/
theorem buffer_forward_real {g : _DynamicGraph} {n : NodeID} (hsym : DirectionExplicit g)
    {stats : _ContractionInformation} {e : _ImportEdge}
    (he : e ∈ (_Contract false g [] n stats).1) (hf : e.data.forward = true) :
    ∃ a b, FwdEdge g e.source n a ∧ FwdEdge g n e.target b ∧ e.data.distance = a + b
      ∧ ∃ inEdge ∈ g.adj n, ∃ outEdge ∈ g.adj n, shortcutRequired g n inEdge outEdge = true
          ∧ inEdge.target = e.source ∧ outEdge.target = e.target
          ∧ inEdge.data.distance = a ∧ outEdge.data.distance = b := by
  obtain ⟨_, hback, _⟩ := Contract_false_spec g [] n stats
  have hb := hback e (by simpa using he)
  obtain ⟨r, hr, r1, r2, r3, r4⟩ := hb.2.1 hf
  obtain ⟨i, hi, o, ho, hreq, hmem⟩ := mem_pushedPairs.1 hr
  obtain ⟨p1, p2, p3⟩ := mem_shortcutPair_forward hmem r4
  obtain ⟨q1, q2, _⟩ := shortcutRequired_iff.1 hreq
  refine ⟨i.data.distance, o.data.distance, ?_, ?_, by rw [r3, p3], i, hi, o, ho, hreq,
    by rw [r1, p1], by rw [r2, p2], rfl, rfl⟩
  · rw [r1, p1]
    exact (hsym _ _ _).2 ⟨i, hi, rfl, q1, rfl⟩
  · rw [r2, p2]
    exact ⟨o, ho, rfl, q2, rfl⟩

/-- A forward flag in the buffer of `_Contract<false>` comes from an in-edge from the
source and an out-edge to the target of the buffered edge for which a shortcut is
required. -/
theorem buffer_forward_origin {g : _DynamicGraph} {n : NodeID}
    {stats : _ContractionInformation} {e : _ImportEdge}
    (he : e ∈ (_Contract false g [] n stats).1) (hf : e.data.forward = true) :
    ∃ inEdge ∈ g.adj n, ∃ outEdge ∈ g.adj n, shortcutRequired g n inEdge outEdge = true
      ∧ inEdge.target = e.source ∧ outEdge.target = e.target
      ∧ e.data.distance = inEdge.data.distance + outEdge.data.distance := by
  obtain ⟨_, hback, _⟩ := Contract_false_spec g [] n stats
  have hb := hback e (by simpa using he)
  obtain ⟨r, hr, r1, r2, r3, r4⟩ := hb.2.1 hf
  obtain ⟨i, hi, o, ho, hreq, hmem⟩ := mem_pushedPairs.1 hr
  obtain ⟨p1, p2, p3⟩ := mem_shortcutPair_forward hmem r4
  exact ⟨i, hi, o, ho, hreq, by rw [r1, p1], by rw [r2, p2], by rw [r3, p3]⟩

theorem contractNode_fwd_real {g : _DynamicGraph} {n : NodeID} (hsym : DirectionExplicit g)
    {x y : NodeID} {w : Nat} (h : FwdEdge (contractNode g n) x y w) : Walk g x y w := by
  obtain ⟨e, he, rfl, hf, rfl⟩ := h
  rcases insertNewEdges_sound _ _ x e he with h1 | ⟨edge, hedge, c1, c2, c3, c4, c5⟩
  · have := ((DeleteIncomingEdges_adj g n x e).1 h1).1
    exact Walk_single ⟨e, this, rfl, hf, rfl⟩
  · have hedge' : edge ∈ (_Contract false g [] n default).1 := by
      simpa [sortEdges, List.mem_insertionSort] using hedge
    obtain ⟨a, b, ha, hb, hd, _⟩ := buffer_forward_real hsym hedge' (by rw [← c3]; exact hf)
    rw [c1, c2, c5, hd]
    exact Walk.snoc (Walk_single ha) hb

theorem removeNode_fwd {g : _DynamicGraph} {n x y : NodeID} {w : Nat}
    (h : FwdEdge (removeNode g n) x y w) : FwdEdge g x y w := by
  obtain ⟨e, he, h1, h2, h3⟩ := h
  simp only [removeNode] at he
  by_cases hx : x = n
  · simp [hx] at he
  · simp only [hx, if_false, List.mem_filter] at he
    exact ⟨e, he.1, h1, h2, h3⟩

theorem fwd_removeNode {g : _DynamicGraph} {n x y : NodeID} {w : Nat}
    (h : FwdEdge g x y w) (hx : x ≠ n) (hy : y ≠ n) : FwdEdge (removeNode g n) x y w := by
  obtain ⟨e, he, h1, h2, h3⟩ := h
  refine ⟨e, ?_, h1, h2, h3⟩
  simp only [removeNode, hx, if_false, List.mem_filter]
  exact ⟨he, by simpa [h1] using hy⟩

theorem contractNode_keeps {g : _DynamicGraph} {n x y : NodeID} {w : Nat}
    (h : FwdEdge g x y w) (hx : x ≠ n) (hy : y ≠ n) :
    ∃ w', w' ≤ w ∧ FwdEdge (removeNode (contractNode g n) n) x y w' := by
  obtain ⟨e, he, h1, h2, h3⟩ := h
  have h1' : e ∈ (_DeleteIncomingEdges g n).adj x :=
    (DeleteIncomingEdges_adj g n x e).2 ⟨he, fun _ => by rw [h1]; exact hy⟩
  obtain ⟨e', he', a1, a2, a3, a4⟩ := insertNewEdges_mono
    (sortEdges (_Contract false g [] n default).1) _ x e h1'
  refine ⟨e'.data.distance, by omega, ?_⟩
  exact fwd_removeNode ⟨e', he', a1.trans h1, a2.trans h2, rfl⟩ hx hy

theorem contractNode_shortcut {g : _DynamicGraph} {n : NodeID} {inEdge outEdge : _Edge}
    (hi : inEdge ∈ g.adj n) (ho : outEdge ∈ g.adj n)
    (hreq : shortcutRequired g n inEdge outEdge = true)
    (hs : inEdge.target ≠ n) (ht : outEdge.target ≠ n) :
    ∃ w', w' ≤ inEdge.data.distance + outEdge.data.distance
      ∧ FwdEdge (removeNode (contractNode g n) n) inEdge.target outEdge.target w' := by
  obtain ⟨_, _, hcov⟩ := Contract_false_spec g [] n default
  have hr : (shortcutPair n inEdge outEdge).head (by simp [shortcutPair]) ∈ pushedPairs g n :=
    mem_pushedPairs.2 ⟨inEdge, hi, outEdge, ho, hreq, List.head_mem _⟩
  obtain ⟨e, he, c1, c2, c3, _, c5, _⟩ := hcov _ hr
  simp only [shortcutPair, List.head_cons] at c1 c2 c3 c5
  have he' : e ∈ sortEdges (_Contract false g [] n default).1 := by
    simpa [sortEdges, List.mem_insertionSort] using he
  obtain ⟨e', hmem, a1, a2, _, a4⟩ := insertNewEdges_present _ (_DeleteIncomingEdges g n) e he'
  refine ⟨e'.data.distance, by omega, ?_⟩
  apply fwd_removeNode _ hs ht
  rw [c1] at hmem
  exact ⟨e', hmem, a1.trans c2, a2.trans (c5 trivial), rfl⟩

theorem fwd_pos {g : _DynamicGraph} (hpos : PositiveWeights g) {x y : NodeID} {w : Nat}
    (h : FwdEdge g x y w) : 0 < w := by
  obtain ⟨e, he, _, _, rfl⟩ := h
  exact hpos x e he

/-- Every walk of the graph between two nodes other than `n` has a walk that is not
longer in the graph after the contraction of `n`, without `n`. -/
theorem contractNode_complete {g : _DynamicGraph} {n : NodeID} (hsym : DirectionExplicit g)
    (hpos : PositiveWeights g) (m : Nat) :
    (∀ x v W, x ≠ n → v ≠ n → Walk g x v W → W ≤ m →
        ∃ W', W' ≤ W ∧ Walk (removeNode (contractNode g n) n) x v W')
    ∧ (∀ s v W a, s ≠ n → v ≠ n → FwdEdge g s n a → Walk g n v W → a + W ≤ m →
        ∃ W', W' ≤ a + W ∧ Walk (removeNode (contractNode g n) n) s v W') := by
  induction m using Nat.strong_induction_on with
  | _ m ih =>
    have part2 : ∀ s v W a, s ≠ n → v ≠ n → FwdEdge g s n a → Walk g n v W → a + W ≤ m →
        ∃ W', W' ≤ a + W ∧ Walk (removeNode (contractNode g n) n) s v W' := by
      intro s v W a hs hv hin hwalk hle
      have ha := fwd_pos hpos hin
      rcases (Walk_uncons hwalk) with ⟨rfl, _⟩ | ⟨t, b, W2, hout, hrest, rfl⟩
      · exact absurd rfl hv
      · have hb := fwd_pos hpos hout
        by_cases ht : t = n
        · subst ht
          obtain ⟨W', h1, h2⟩ := (ih (a + W2) (by omega)).2 s v W2 a hs hv hin hrest (le_refl _)
          exact ⟨W', by omega, h2⟩
        · obtain ⟨inEdge, hi, hit, hib, hid⟩ := (hsym s n a).1 hin
          obtain ⟨outEdge, ho, hot, hof, hod⟩ := hout
          by_cases hreq : shortcutRequired g n inEdge outEdge = true
          · obtain ⟨w', hw', hfe⟩ := contractNode_shortcut hi ho hreq (by rw [hit]; exact hs)
              (by rw [hot]; exact ht)
            rw [hit, hot] at hfe
            obtain ⟨W2', h1, h2⟩ := (ih W2 (by omega)).1 t v W2 ht hv hrest (le_refl _)
            exact ⟨w' + W2', by omega, Walk_cons hfe h2⟩
          · have hin' : FwdEdge g inEdge.target n inEdge.data.distance := by
              rw [hit, hid]; exact hin
            obtain ⟨K, hK, hKw, _⟩ := witness_key_sound false
              ⟨_, le_refl _, Walk_single hin'⟩ ho hof
            have hlt : (K : Int) < ((inEdge.data.distance + outEdge.data.distance : Nat) : Int) := by
              by_contra hc
              apply hreq
              rw [shortcutRequired_iff]
              exact ⟨hib, hof, by omega⟩
            have hlt' : K < a + b := by
              rw [hid, hod] at hlt
              exact_mod_cast hlt
            rw [hit, hot] at hKw
            obtain ⟨W', h1, h2⟩ := (ih (K + W2) (by omega)).1 s v (K + W2) hs hv
              (Walk_append hKw hrest) (le_refl _)
            exact ⟨W', by omega, h2⟩
    refine ⟨?_, part2⟩
    intro x v W hx hv hwalk hle
    rcases (Walk_uncons hwalk) with ⟨rfl, rfl⟩ | ⟨y, w, W2, hedge, hrest, rfl⟩
    · exact ⟨0, le_refl _, Walk.nil _⟩
    · have hw := fwd_pos hpos hedge
      by_cases hy : y = n
      · subst hy
        exact part2 x v W2 w hx hv hedge hrest hle
      · obtain ⟨w', hw', hfe⟩ := @contractNode_keeps g n x y w hedge hx hy
        obtain ⟨W2', h1, h2⟩ := (ih W2 (by omega)).1 y v W2 hy hv hrest (le_refl _)
        exact ⟨w' + W2', by omega, Walk_cons hfe h2⟩

theorem contractNode_sound {g : _DynamicGraph} {n : NodeID} (hsym : DirectionExplicit g)
    {u v : NodeID} {W : Nat} (h : Walk (removeNode (contractNode g n) n) u v W) : Walk g u v W :=
  Walk_mono_graph (fun _ _ _ he => contractNode_fwd_real hsym (removeNode_fwd he)) h

end Contractor

namespace Contractor

theorem triangle_prepared :
    preparedEdges true false triangleInput =
      [ ⟨0, 1, ⟨3, 1, 0, 0, 0, false, true, true, false⟩⟩,
        ⟨0, 2, ⟨10, 1, 0, 0, 0, false, true, true, false⟩⟩,
        ⟨1, 0, ⟨3, 1, 0, 0, 0, false, true, true, false⟩⟩,
        ⟨1, 2, ⟨4, 1, 0, 0, 0, false, true, true, false⟩⟩,
        ⟨2, 0, ⟨10, 1, 0, 0, 0, false, true, true, false⟩⟩,
        ⟨2, 1, ⟨4, 1, 0, 0, 0, false, true, true, false⟩⟩ ] := by
  decide

theorem triangle_adj (x : NodeID) :
    triangle.adj x =
      if x = 0 then [⟨1, ⟨3, 1, 0, 0, 0, false, true, true, false⟩⟩, ⟨2, ⟨10, 1, 0, 0, 0, false, true, true, false⟩⟩]
      else if x = 1 then [⟨0, ⟨3, 1, 0, 0, 0, false, true, true, false⟩⟩, ⟨2, ⟨4, 1, 0, 0, 0, false, true, true, false⟩⟩]
      else if x = 2 then [⟨0, ⟨10, 1, 0, 0, 0, false, true, true, false⟩⟩, ⟨1, ⟨4, 1, 0, 0, 0, false, true, true, false⟩⟩]
      else [] := by
  simp only [triangle, Contractor, DynamicGraph.ofEdges, triangle_prepared]
  by_cases h0 : x = 0
  · subst h0; rfl
  · by_cases h1 : x = 1
    · subst h1; rfl
    · by_cases h2 : x = 2
      · subst h2; rfl
      · have e0 : ¬ (0 = x) := fun h => h0 h.symm
        have e1 : ¬ (1 = x) := fun h => h1 h.symm
        have e2 : ¬ (2 = x) := fun h => h2 h.symm
        simp [h0, h1, h2, List.filter_cons, e0, e1, e2]

theorem triangle_mem_adj {x : NodeID} {e : _Edge} (he : e ∈ triangle.adj x) :
    (x = 0 ∧ e = ⟨1, ⟨3, 1, 0, 0, 0, false, true, true, false⟩⟩)
    ∨ (x = 0 ∧ e = ⟨2, ⟨10, 1, 0, 0, 0, false, true, true, false⟩⟩)
    ∨ (x = 1 ∧ e = ⟨0, ⟨3, 1, 0, 0, 0, false, true, true, false⟩⟩)
    ∨ (x = 1 ∧ e = ⟨2, ⟨4, 1, 0, 0, 0, false, true, true, false⟩⟩)
    ∨ (x = 2 ∧ e = ⟨0, ⟨10, 1, 0, 0, 0, false, true, true, false⟩⟩)
    ∨ (x = 2 ∧ e = ⟨1, ⟨4, 1, 0, 0, 0, false, true, true, false⟩⟩) := by
  rw [triangle_adj] at he
  split_ifs at he with h0 h1 h2 <;>
    simp only [List.mem_cons, List.mem_singleton, List.not_mem_nil, or_false] at he
  · rcases he with rfl | rfl <;> simp [h0]
  · rcases he with rfl | rfl <;> simp [h1]
  · rcases he with rfl | rfl <;> simp [h2]

theorem triangle_directionExplicit : DirectionExplicit triangle := by
  intro s t d
  constructor
  · rintro ⟨e, he, rfl, hf, rfl⟩
    rcases triangle_mem_adj he with ⟨rfl, rfl⟩ | ⟨rfl, rfl⟩ | ⟨rfl, rfl⟩ | ⟨rfl, rfl⟩ | ⟨rfl, rfl⟩ | ⟨rfl, rfl⟩ <;>
      simp [BwdEdge, triangle_adj]
  · rintro ⟨e, he, rfl, hf, rfl⟩
    rcases triangle_mem_adj he with ⟨rfl, rfl⟩ | ⟨rfl, rfl⟩ | ⟨rfl, rfl⟩ | ⟨rfl, rfl⟩ | ⟨rfl, rfl⟩ | ⟨rfl, rfl⟩ <;>
      simp [FwdEdge, triangle_adj]

theorem triangle_positive : PositiveWeights triangle := by
  intro u e he
  rcases triangle_mem_adj he with ⟨rfl, rfl⟩ | ⟨rfl, rfl⟩ | ⟨rfl, rfl⟩ | ⟨rfl, rfl⟩ | ⟨rfl, rfl⟩ | ⟨rfl, rfl⟩ <;>
    simp

end Contractor
namespace Contractor

/-- The witness rule, for an in-edge whose witness search stays below the limit. -/
theorem shortcutRequired_iff_no_witness {g : _DynamicGraph} {n : NodeID}
    {inEdge outEdge : _Edge} (hpos : 0 < outEdge.data.distance)
    (hin : InEdgeBacked g n inEdge) (ho : outEdge ∈ g.adj n)
    (hib : inEdge.data.backward = true) (hof : outEdge.data.forward = true)
    (hlimit : removedCount (witnessSearch false g n inEdge) ≤ 2000) :
    shortcutRequired g n inEdge outEdge = true ↔
      ¬ ∃ W, Walk g inEdge.target outEdge.target W
        ∧ W < inEdge.data.distance + outEdge.data.distance := by
  have hlim : ¬ ((if false then 1000 else 2000 : Int) < (removedCount (witnessSearch false g n inEdge) : Int)) := by
    simp only [Bool.false_eq_true, if_false]
    omega
  rw [shortcutRequired_iff]
  constructor
  · rintro ⟨_, _, hle⟩ ⟨W, hW, hlt⟩
    have := witness_key_complete false hin ho hof hpos hlim hW hlt
    omega
  · intro hno
    refine ⟨hib, hof, ?_⟩
    obtain ⟨K, hK, hKw, _⟩ := witness_key_sound false hin ho hof
    by_contra hc
    apply hno
    have hlt : (K : Int) < ((inEdge.data.distance + outEdge.data.distance : Nat) : Int) := by
      omega
    exact ⟨K, hKw, by exact_mod_cast hlt⟩

theorem mem_adj_ofEdges {nodes : Nat} {l : List _ImportEdge} {x : NodeID} {e : _Edge} :
    e ∈ (DynamicGraph.ofEdges nodes l).adj x ↔ (⟨x, e.target, e.data⟩ : _ImportEdge) ∈ l := by
  simp only [DynamicGraph.ofEdges, List.mem_map, List.mem_filter, beq_iff_eq]
  constructor
  · rintro ⟨a, ⟨ha, rfl⟩, rfl⟩
    exact ha
  · intro h
    exact ⟨_, ⟨h, rfl⟩, rfl⟩

theorem witness_prepared :
    preparedEdges true false witnessInput =
      [ ⟨0, 1, ⟨5, 1, 0, 0, 0, false, true, true, false⟩⟩,
        ⟨0, 3, ⟨4, 1, 0, 0, 0, false, true, true, false⟩⟩,
        ⟨1, 0, ⟨5, 1, 0, 0, 0, false, true, true, false⟩⟩,
        ⟨1, 2, ⟨5, 1, 0, 0, 0, false, true, true, false⟩⟩,
        ⟨2, 1, ⟨5, 1, 0, 0, 0, false, true, true, false⟩⟩,
        ⟨2, 3, ⟨4, 1, 0, 0, 0, false, true, true, false⟩⟩,
        ⟨3, 0, ⟨4, 1, 0, 0, 0, false, true, true, false⟩⟩,
        ⟨3, 2, ⟨4, 1, 0, 0, 0, false, true, true, false⟩⟩ ] := by
  decide

theorem witness_mem_adj {x : NodeID} {e : _Edge} :
    e ∈ witnessGraph.adj x ↔
      (⟨x, e.target, e.data⟩ : _ImportEdge) ∈
        ([ ⟨0, 1, ⟨5, 1, 0, 0, 0, false, true, true, false⟩⟩,
           ⟨0, 3, ⟨4, 1, 0, 0, 0, false, true, true, false⟩⟩,
           ⟨1, 0, ⟨5, 1, 0, 0, 0, false, true, true, false⟩⟩,
           ⟨1, 2, ⟨5, 1, 0, 0, 0, false, true, true, false⟩⟩,
           ⟨2, 1, ⟨5, 1, 0, 0, 0, false, true, true, false⟩⟩,
           ⟨2, 3, ⟨4, 1, 0, 0, 0, false, true, true, false⟩⟩,
           ⟨3, 0, ⟨4, 1, 0, 0, 0, false, true, true, false⟩⟩,
           ⟨3, 2, ⟨4, 1, 0, 0, 0, false, true, true, false⟩⟩ ] : List _ImportEdge) := by
  rw [← witness_prepared]
  exact mem_adj_ofEdges

theorem witness_directionExplicit : DirectionExplicit witnessGraph := by
  intro s t d
  constructor
  · rintro ⟨e, he, rfl, hf, rfl⟩
    rw [witness_mem_adj] at he
    simp only [List.mem_cons, List.mem_singleton, List.not_mem_nil, or_false,
      DynamicGraph.InputEdge.mk.injEq] at he
    rcases he with ⟨rfl, h1, h2⟩ | ⟨rfl, h1, h2⟩ | ⟨rfl, h1, h2⟩ | ⟨rfl, h1, h2⟩ | ⟨rfl, h1, h2⟩
      | ⟨rfl, h1, h2⟩ | ⟨rfl, h1, h2⟩ | ⟨rfl, h1, h2⟩ <;>
    · rw [h1, h2]
      exact ⟨⟨_, _⟩, witness_mem_adj.2 (by simp), rfl, rfl, rfl⟩
  · rintro ⟨e, he, rfl, hf, rfl⟩
    rw [witness_mem_adj] at he
    simp only [List.mem_cons, List.mem_singleton, List.not_mem_nil, or_false,
      DynamicGraph.InputEdge.mk.injEq] at he
    rcases he with ⟨rfl, h1, h2⟩ | ⟨rfl, h1, h2⟩ | ⟨rfl, h1, h2⟩ | ⟨rfl, h1, h2⟩ | ⟨rfl, h1, h2⟩
      | ⟨rfl, h1, h2⟩ | ⟨rfl, h1, h2⟩ | ⟨rfl, h1, h2⟩ <;>
    · rw [h1, h2]
      exact ⟨⟨_, _⟩, witness_mem_adj.2 (by simp), rfl, rfl, rfl⟩

end Contractor
namespace Contractor

theorem walk_target_lt {g : _DynamicGraph} (hwf : ∀ u, ∀ e ∈ g.adj u, e.target < g.numNodes)
    {s x : NodeID} {W : Nat} (hs : s < g.numNodes) (h : Walk g s x W) : x < g.numNodes := by
  induction h with
  | nil => exact hs
  | snoc _ hedge _ =>
    obtain ⟨e, he, rfl, _, _⟩ := hedge
    exact hwf _ e he

/-- In a graph of at most 2000 nodes the witness search of `_Contract<false>` does not
reach its limit of 2000 settled nodes. -/
theorem limit_not_reached_of_small {g : _DynamicGraph} {n : NodeID} (hsym : DirectionExplicit g)
    (hwf : ∀ u, ∀ e ∈ g.adj u, e.target < g.numNodes) (hsmall : g.numNodes ≤ 2000)
    {inEdge : _Edge} (hi : inEdge ∈ g.adj n) (hib : inEdge.data.backward = true) :
    removedCount (witnessSearch false g n inEdge) ≤ 2000 := by
  have hin : InEdgeBacked g n inEdge :=
    ⟨_, le_refl _, Walk_single ((hsym _ _ _).2 ⟨inEdge, hi, rfl, hib, rfl⟩)⟩
  obtain ⟨⟨hinv, _, _⟩, _⟩ := witnessSearch_outcome false hin
  have hsub : (witnessSearch false g n inEdge).map (fun e => e.node) ⊆ List.range g.numNodes := by
    intro x hx
    obtain ⟨e, he, rfl⟩ := List.mem_map.1 hx
    obtain ⟨W, _, hW⟩ := hinv.sound e he
    exact List.mem_range.2 (walk_target_lt hwf (hwf n inEdge hi) hW)
  have hlen := (List.subperm_of_subset hinv.nodup hsub).length_le
  rw [List.length_map, List.length_range] at hlen
  have : removedCount (witnessSearch false g n inEdge) ≤ (witnessSearch false g n inEdge).length :=
    List.countP_le_length _
  omega

end Contractor
namespace Contractor

/-- A backward flag in the buffer of `_Contract<false>` stands for the path through the
contracted node from the target to the source of the buffered edge. -/
theorem buffer_backward_real {g : _DynamicGraph} {n : NodeID}
    {stats : _ContractionInformation} {e : _ImportEdge}
    (he : e ∈ (_Contract false g [] n stats).1) (hf : e.data.backward = true) :
    ∃ inEdge ∈ g.adj n, ∃ outEdge ∈ g.adj n, shortcutRequired g n inEdge outEdge = true
      ∧ inEdge.target = e.target ∧ outEdge.target = e.source
      ∧ e.data.distance = inEdge.data.distance + outEdge.data.distance := by
  obtain ⟨_, hback, _⟩ := Contract_false_spec g [] n stats
  have hb := hback e (by simpa using he)
  obtain ⟨r, hr, r1, r2, r3, r4⟩ := hb.2.2 hf
  obtain ⟨i, hi, o, ho, hreq, hmem⟩ := mem_pushedPairs.1 hr
  obtain ⟨p1, p2, p3⟩ := mem_shortcutPair_backward hmem r4
  exact ⟨i, hi, o, ho, hreq, by rw [r2, p2], by rw [r1, p1], by rw [r3, p3]⟩

/-- A required shortcut joins two shortest paths when the witness search stays below
the settled-node limit. -/
theorem required_isDist {g : _DynamicGraph} {n : NodeID}
    {inEdge outEdge : _Edge} (hpos : 0 < outEdge.data.distance)
    (hin : InEdgeBacked g n inEdge) (ho : outEdge ∈ g.adj n)
    (hreq : shortcutRequired g n inEdge outEdge = true)
    (hlimit : removedCount (witnessSearch false g n inEdge) ≤ 2000) :
    IsDist g inEdge.target n inEdge.data.distance
      ∧ IsDist g n outEdge.target outEdge.data.distance := by
  obtain ⟨hib, hof, _⟩ := shortcutRequired_iff.1 hreq
  have hout : FwdEdge g n outEdge.target outEdge.data.distance := ⟨outEdge, ho, rfl, hof, rfl⟩
  have hno := (shortcutRequired_iff_no_witness hpos hin ho hib hof hlimit).1 hreq
  have hmin : ∀ W, Walk g inEdge.target n W → inEdge.data.distance ≤ W := by
    intro W hW
    by_contra hc
    exact hno ⟨W + outEdge.data.distance, Walk.snoc hW hout, by omega⟩
  obtain ⟨W0, hW0, hwalk0⟩ := hin
  have heq : W0 = inEdge.data.distance := le_antisymm hW0 (hmin W0 hwalk0)
  rw [heq] at hwalk0
  refine ⟨⟨hwalk0, hmin⟩, ⟨Walk_single hout, ?_⟩⟩
  intro W hW
  by_contra hc
  exact hno ⟨inEdge.data.distance + W, Walk_append hwalk0 hW, by omega⟩

end Contractor
namespace Contractor

open BinaryHeap

theorem relaxStep_prov {g : _DynamicGraph} {h0 h : _Heap} {m : NodeID} {d hop : Int} {ed : _Edge}
    (hp : Prov g h0 h) (hm : ∃ em ∈ h, em.node = m ∧ em.inHeap = false) (hed : ed ∈ g.adj m) :
    Prov g h0 (relaxStep d hop h ed)
    ∧ ∃ em ∈ relaxStep d hop h ed, em.node = m ∧ em.inHeap = false := by
  obtain ⟨em, hem, hemn, hemr⟩ := hm
  rcases relaxStep_cases d hop h ed with h0' | ⟨hf, _, h1⟩ | ⟨hf, _, _, h2⟩
  · rw [h0']; exact ⟨hp, em, hem, hemn, hemr⟩
  · rw [h1]
    refine ⟨?_, em, List.mem_cons_of_mem _ hem, hemn, hemr⟩
    intro e he
    rcases List.mem_cons.1 he with rfl | he
    · exact Or.inr ⟨em, List.mem_cons_of_mem _ hem, hemr, ed, by rw [hemn]; exact hed, hf, rfl⟩
    · rcases hp e he with hl | ⟨p, hp1, hp2, hp3⟩
      · exact Or.inl hl
      · exact Or.inr ⟨p, List.mem_cons_of_mem _ hp1, hp2, hp3⟩
  · rw [h2]
    have hem' : lowerKey ed.target (d + (ed.data.distance : Int)) hop em
        ∈ h.map (lowerKey ed.target (d + (ed.data.distance : Int)) hop) := List.mem_map_of_mem _ hem
    refine ⟨?_, _, hem', by rw [lowerKey_node]; exact hemn, by rw [lowerKey_inHeap]; exact hemr⟩
    intro e' he'
    obtain ⟨e, he, rfl⟩ := List.mem_map.1 he'
    by_cases hn : e.node = ed.target
    · right
      refine ⟨_, hem', by rw [lowerKey_inHeap]; exact hemr, ed, ?_, hf, ?_⟩
      · rw [lowerKey_node, hemn]; exact hed
      · rw [lowerKey_node, hn]
    · rw [lowerKey_node, lowerKey_weight_of_ne hn]
      rcases hp e he with hl | ⟨p, hp1, hp2, hp3⟩
      · exact Or.inl hl
      · exact Or.inr ⟨_, List.mem_map_of_mem _ hp1, by rw [lowerKey_inHeap]; exact hp2,
          by rw [lowerKey_node]; exact hp3⟩

theorem relaxEdges_prov {g : _DynamicGraph} {h0 : _Heap} {m : NodeID} {d hop : Int}
    (edges : List _Edge) :
    ∀ h : _Heap, Prov g h0 h → (∃ em ∈ h, em.node = m ∧ em.inHeap = false) →
      (∀ ed ∈ edges, ed ∈ g.adj m) → Prov g h0 (relaxEdges d hop h edges) := by
  induction edges with
  | nil => intro h hp _ _; exact hp
  | cons ed rest ih =>
    intro h hp hm hmem
    obtain ⟨s1, s2⟩ := @relaxStep_prov g h0 h m d hop ed hp hm (hmem ed (List.mem_cons_self _ _))
    exact ih _ s1 s2 (fun e he => hmem e (List.mem_cons_of_mem _ he))

theorem markRemoved_prov {g : _DynamicGraph} {h0 h : _Heap} (x : NodeID) (hp : Prov g h0 h) :
    Prov g h0 (h.map (markRemoved x)) := by
  intro e' he'
  obtain ⟨e, he, rfl⟩ := List.mem_map.1 he'
  rw [markRemoved_node, markRemoved_weight]
  rcases hp e he with hl | ⟨p, hp1, hp2, hp3⟩
  · exact Or.inl hl
  · refine Or.inr ⟨markRemoved x p, List.mem_map_of_mem _ hp1, ?_, by rw [markRemoved_node]; exact hp3⟩
    unfold markRemoved
    split
    · rfl
    · exact hp2

theorem dijkstraLoop_prov (g : _DynamicGraph) (h0 : _Heap) (maxDistance : Int) (numTargets : Nat)
    (maxNodes hopLimit : Int) :
    ∀ (fuel : Nat) (nodes : Int) (tf : Nat) (h : _Heap), Prov g h0 h →
      Prov g h0 (dijkstraLoop g maxDistance numTargets maxNodes hopLimit fuel nodes tf h) := by
  intro fuel
  induction fuel with
  | zero => intro nodes tf h hp; exact hp
  | succ fuel ih =>
    intro nodes tf h hp
    rw [dijkstraLoop]
    by_cases hs : h.Size > 0
    · obtain ⟨m, hm⟩ := Size_pos_minNode hs
      obtain ⟨hmem, _, _⟩ := minNode_some hm
      have hp1 := markRemoved_prov m.node hp
      have hpop : ∃ em ∈ h.map (markRemoved m.node), em.node = m.node ∧ em.inHeap = false :=
        ⟨_, List.mem_map_of_mem _ hmem, markRemoved_node _ _, markRemoved_inHeap_of_eq rfl⟩
      simp only [hs, if_true, DeleteMin_of_minNode hm]
      split_ifs <;>
        first
        | exact hp1
        | exact ih _ _ _ hp1
        | exact ih _ _ _ (relaxEdges_prov _ _ hp1 hpop (fun _ he => he))
    · simp only [hs, if_false]
      exact hp

theorem witnessSearch_prov (Simulate : Bool) (g : _DynamicGraph) (n : NodeID) (inEdge : _Edge) :
    Prov g (seedHeap g n inEdge).1 (witnessSearch Simulate g n inEdge) := by
  rw [witnessSearch_eq]
  unfold _Dijkstra
  apply dijkstraLoop_prov
  intro e he
  exact Or.inl ⟨e, he, rfl, rfl⟩

end Contractor

namespace Contractor

open BinaryHeap

theorem limit_adj_chain {x : Nat} (h5 : 5 ≤ x) (h : x < 2003) :
    limitGraph.adj x = [plainEdge (x - 1) 1, plainEdge (x + 1) 1] := by
  have e0 : x ≠ 0 := by omega
  have e1 : x ≠ 1 := by omega
  have e2 : x ≠ 2 := by omega
  have e3 : x ≠ 3 := by omega
  have e4 : x ≠ 4 := by omega
  simp [limitGraph, e0, e1, e2, e3, e4, h]

theorem limit_mem_adj {x : Nat} {e : _Edge} (he : e ∈ limitGraph.adj x) :
    (x = 0 ∧ (e = plainEdge 1 4000 ∨ e = plainEdge 3 2500 ∨ e = plainEdge 4 1))
    ∨ (x = 1 ∧ (e = plainEdge 0 4000 ∨ e = plainEdge 2 1000 ∨ e = plainEdge 3 1))
    ∨ (x = 2 ∧ e = plainEdge 1 1000)
    ∨ (x = 3 ∧ (e = plainEdge 0 2500 ∨ e = plainEdge 1 1))
    ∨ (x = 4 ∧ (e = plainEdge 0 1 ∨ e = plainEdge 5 1))
    ∨ (5 ≤ x ∧ x < 2003 ∧ (e = plainEdge (x - 1) 1 ∨ e = plainEdge (x + 1) 1))
    ∨ (x = 2003 ∧ e = plainEdge 2002 1) := by
  simp only [limitGraph] at he
  split_ifs at he with h0 h1 h2 h3 h4 h5 h6 <;>
    simp only [List.mem_cons, List.mem_singleton, List.not_mem_nil, or_false] at he
  · exact Or.inl ⟨h0, he⟩
  · exact Or.inr (Or.inl ⟨h1, he⟩)
  · exact Or.inr (Or.inr (Or.inl ⟨h2, he⟩))
  · exact Or.inr (Or.inr (Or.inr (Or.inl ⟨h3, he⟩)))
  · exact Or.inr (Or.inr (Or.inr (Or.inr (Or.inl ⟨h4, he⟩))))
  · exact Or.inr (Or.inr (Or.inr (Or.inr (Or.inr (Or.inl ⟨by omega, h5, he⟩)))))
  · exact Or.inr (Or.inr (Or.inr (Or.inr (Or.inr (Or.inr ⟨h6, he⟩)))))

theorem limit_edge_flags {x : Nat} {e : _Edge} (he : e ∈ limitGraph.adj x) :
    e.data.forward = true ∧ e.data.backward = true ∧ 0 < e.data.distance
      ∧ limitPotential e.target ≤ limitPotential x + e.data.distance
      ∧ (e.target = 2 → x = 1) := by
  rcases limit_mem_adj he with ⟨rfl, h⟩ | ⟨rfl, h⟩ | ⟨rfl, h⟩ | ⟨rfl, h⟩ | ⟨rfl, h⟩ | ⟨h5, h6, h⟩ | ⟨rfl, h⟩
  · rcases h with rfl | rfl | rfl <;> simp [plainEdge, limitPotential]
  · rcases h with rfl | rfl | rfl <;> simp [plainEdge, limitPotential]
  · subst h; simp [plainEdge, limitPotential]
  · rcases h with rfl | rfl <;> simp [plainEdge, limitPotential]
  · rcases h with rfl | rfl <;> simp [plainEdge, limitPotential]
  · rcases h with rfl | rfl
    · refine ⟨rfl, rfl, by simp [plainEdge], ?_, ?_⟩
      · simp only [plainEdge, limitPotential]
        split_ifs <;> omega
      · intro h; have h2 : (x - 1 : Nat) = 2 := h; omega
    · refine ⟨rfl, rfl, by simp [plainEdge], ?_, ?_⟩
      · simp only [plainEdge, limitPotential]
        split_ifs <;> omega
      · intro h; have h2 : (x + 1 : Nat) = 2 := h; omega
  · subst h; simp [plainEdge, limitPotential]

theorem limit_positive : PositiveWeights limitGraph :=
  fun _ _ he => (limit_edge_flags he).2.2.1

theorem limit_reverse {x : Nat} {e : _Edge} (he : e ∈ limitGraph.adj x) :
    plainEdge x e.data.distance ∈ limitGraph.adj e.target := by
  rcases limit_mem_adj he with ⟨rfl, h⟩ | ⟨rfl, h⟩ | ⟨rfl, h⟩ | ⟨rfl, h⟩ | ⟨rfl, h⟩ | ⟨h5, h6, h⟩ | ⟨rfl, h⟩
  · rcases h with rfl | rfl | rfl <;> simp [plainEdge, limitGraph]
  · rcases h with rfl | rfl | rfl <;> simp [plainEdge, limitGraph]
  · subst h; simp [plainEdge, limitGraph]
  · rcases h with rfl | rfl <;> simp [plainEdge, limitGraph]
  · rcases h with rfl | rfl <;> simp [plainEdge, limitGraph]
  · rcases h with rfl | rfl
    · show plainEdge x 1 ∈ limitGraph.adj (x - 1)
      by_cases hx : x = 5
      · subst hx; simp [plainEdge, limitGraph]
      · rw [@limit_adj_chain (x - 1) (by omega) (by omega)]
        have : x - 1 + 1 = x := by omega
        simp [this]
    · show plainEdge x 1 ∈ limitGraph.adj (x + 1)
      by_cases hx : x = 2002
      · subst hx; simp [plainEdge, limitGraph]
      · rw [@limit_adj_chain (x + 1) (by omega) (by omega)]
        simp
  · subst h
    show plainEdge 2003 1 ∈ limitGraph.adj 2002
    rw [@limit_adj_chain 2002 (by omega) (by omega)]
    simp

theorem limit_directionExplicit : DirectionExplicit limitGraph := by
  intro s t d
  constructor
  · rintro ⟨e, he, rfl, _, rfl⟩
    exact ⟨_, limit_reverse he, rfl, rfl, rfl⟩
  · rintro ⟨e, he, rfl, _, rfl⟩
    exact ⟨_, limit_reverse he, rfl, rfl, rfl⟩

theorem limit_potential_le {y : Nat} {W : Nat} (h : Walk limitGraph 0 y W) :
    limitPotential y ≤ W := by
  induction h with
  | nil => simp [limitPotential]
  | snoc _ hedge ih =>
    obtain ⟨e, he, rfl, _, rfl⟩ := hedge
    have := (limit_edge_flags he).2.2.2.1
    omega

theorem limit_chain_walk (k : Nat) (hk : k ≤ 1999) : Walk limitGraph 0 (k + 4) (k + 1) := by
  induction k with
  | zero =>
    exact Walk_single ⟨plainEdge 4 1, by simp [limitGraph], rfl, rfl, rfl⟩
  | succ k ih =>
    have hw := ih (by omega)
    have hedge : FwdEdge limitGraph (k + 4) (k + 1 + 4) 1 := by
      refine ⟨plainEdge (k + 4 + 1) 1, ?_, by simp [plainEdge], rfl, rfl⟩
      by_cases h0 : k = 0
      · subst h0; simp [limitGraph]
      · rw [@limit_adj_chain (k + 4) (by omega) (by omega)]
        simp
    exact Walk.snoc hw hedge

end Contractor

namespace Contractor

open BinaryHeap

theorem limit_seed :
    (seedHeap limitGraph 1 (plainEdge 0 4000)).1.map (fun e => (e.node, e.weight))
      = [(3, 4001), (2, 5000), (1, 4000), (0, 0)] := by
  decide

theorem limit_in_edge : FwdEdge limitGraph 0 1 4000 :=
  ⟨plainEdge 1 4000, by simp [limitGraph], rfl, rfl, rfl⟩

theorem limitSettled_nodup : limitSettled.Nodup := by
  unfold limitSettled
  refine List.nodup_cons.2 ⟨?_, List.nodup_cons.2 ⟨?_, ?_⟩⟩
  · simp
  · simp
  · exact (List.nodup_range 2000).map (fun a b h => by simpa using h)

theorem limitSettled_length : limitSettled.length = 2002 := by
  simp [limitSettled]

theorem removedCount_ge {h : _Heap} {T : List Nat}
    (hT : T.Nodup) (hsub : ∀ y ∈ T, ∃ e ∈ h, e.node = y ∧ e.inHeap = false) :
    T.length ≤ removedCount h := by
  have hR : ((h.filter (fun e => !e.inHeap)).map (fun e => e.node)).length = removedCount h := by
    rw [List.length_map, removedCount, List.countP_eq_length_filter]
  rw [← hR]
  apply List.Subperm.length_le
  apply List.subperm_of_subset hT
  intro y hy
  obtain ⟨e, he, rfl, hin⟩ := hsub y hy
  exact List.mem_map.2 ⟨e, List.mem_filter.2 ⟨he, by simp [hin]⟩, rfl⟩

theorem limit_key :
    (witnessSearch false limitGraph 1 (plainEdge 0 4000)).GetKey 2 = 5000 := by
  obtain ⟨⟨hinv, hcount, hout⟩, hev⟩ :=
    @witnessSearch_outcome false limitGraph 1 (plainEdge 0 4000)
      ⟨_, le_refl _, Walk_single limit_in_edge⟩
  have hprov := witnessSearch_prov false limitGraph 1 (plainEdge 0 4000)
  generalize hh : witnessSearch false limitGraph 1 (plainEdge 0 4000) = h' at hinv hcount hout hev hprov ⊢
  have hseed := limit_seed
  generalize hs : (seedHeap limitGraph 1 (plainEdge 0 4000)).1 = seed at hev hprov hseed
  -- the seed element of node 2
  have hmem2 : ((2 : Nat), (5000 : Int)) ∈ seed.map (fun e => (e.node, e.weight)) := by
    rw [hseed]; simp
  obtain ⟨s2, hs2, hs2eq⟩ := List.mem_map.1 hmem2
  have hs2n : s2.node = 2 := congrArg Prod.fst hs2eq
  obtain ⟨e2, he2, he2n, -, -⟩ := hev s2 hs2
  rw [hs2n] at he2n
  have hkey : h'.GetKey 2 = e2.weight := by
    rw [← he2n]; exact GetKey_of_mem hinv.nodup he2
  rw [hkey]
  rcases hprov e2 he2 with ⟨e0, he0, he0n, he0w⟩ | ⟨p, hp, hpin, ed, hed, hedf, hedt⟩
  · have hm : (e0.node, e0.weight) ∈ seed.map (fun e => (e.node, e.weight)) :=
      List.mem_map.2 ⟨e0, he0, rfl⟩
    rw [hseed, he0n, he2n, he0w] at hm
    simp at hm
    exact hm
  · exfalso
    have hp1 : p.node = 1 := (limit_edge_flags hed).2.2.2.2 (by rw [hedt, he2n])
    obtain ⟨Wp, hWp, hwalkp⟩ := hinv.sound p hp
    rw [hp1] at hwalkp
    have hpot := limit_potential_le hwalkp
    have hpw : (2501 : Int) ≤ p.weight := by
      refine le_trans ?_ hWp
      simp only [limitPotential] at hpot; norm_num at hpot; exact_mod_cast hpot
    -- everything below 2501 is settled
    have hsb : ∃ M : Int, 2501 ≤ M ∧ SettledBelow limitGraph h' M := by
      rcases hout with hall | ⟨P, hP, -, hsbP, hle, -⟩
      · exact ⟨2501, le_refl _, hall 2501⟩
      · exact ⟨P.weight, le_trans hpw (hle p hp hpin), hsbP⟩
    obtain ⟨M, hM, hsbM⟩ := hsb
    have hsettled : ∀ (y W : Nat), Walk limitGraph 0 y W → W ≤ 2000 →
        ∃ e ∈ h', e.node = y ∧ e.inHeap = false := by
      intro y W hw hW
      have hlt : (W : Int) < M := by
        have : (W : Int) ≤ 2000 := by exact_mod_cast hW
        omega
      obtain ⟨e, he, hen, hew⟩ := settled_complete hinv hsbM hw hlt
      exact ⟨e, he, hen, (hsbM e he (lt_of_le_of_lt hew hlt)).1⟩
    have hge : limitSettled.length ≤ removedCount h' := by
      apply removedCount_ge limitSettled_nodup
      intro y hy
      simp only [limitSettled, List.mem_cons, List.mem_map, List.mem_range] at hy
      rcases hy with rfl | rfl | ⟨k, hk, rfl⟩
      · exact ⟨p, hp, hp1, hpin⟩
      · exact hsettled 0 0 (Walk.nil 0) (by omega)
      · exact hsettled (k + 4) (k + 1) (limit_chain_walk k (by omega)) (by omega)
    rw [limitSettled_length] at hge
    have : ((removedCount h' : Nat) : Int) ≤ 2001 := by simpa using hcount
    omega

end Contractor

namespace Contractor

open BinaryHeap

theorem limit_required :
    shortcutRequired limitGraph 1 (plainEdge 0 4000) (plainEdge 2 1000) = true := by
  apply shortcutRequired_iff.2
  refine ⟨rfl, rfl, ?_⟩
  have h := limit_key
  have e : (plainEdge 2 1000).target = 2 := rfl
  rw [e, h]
  show (((4000 + 1000 : Nat) : Nat) : Int) ≤ 5000
  norm_num
theorem limit_buffer :
    ∃ e ∈ (_Contract false limitGraph [] 1 default).1,
      e.source = 0 ∧ e.target = 2 ∧ e.data.distance = 5000 ∧ e.data.forward = true := by
  obtain ⟨r, hr0, hr⟩ : ∃ r, r ∈ shortcutPair 1 (plainEdge 0 4000) (plainEdge 2 1000)
      ∧ r.source = 0 ∧ r.target = 2 ∧ r.data.distance = 5000 ∧ r.data.forward = true :=
    ⟨_, List.mem_cons_self _ _, rfl, rfl, rfl, rfl⟩
  have hmem : r ∈ pushedPairs limitGraph 1 :=
    mem_pushedPairs.2 ⟨plainEdge 0 4000, by simp [limitGraph], plainEdge 2 1000,
      by simp [limitGraph], limit_required, hr0⟩
  obtain ⟨e, he, c1, c2, c3, -, c5, -⟩ :=
    (Contract_false_spec limitGraph [] 1 default).2.2 r hmem
  rw [List.length_nil, List.drop_zero] at he
  exact ⟨e, he, c1.trans hr.1, c2.trans hr.2.1, c3.trans hr.2.2.1, c5 hr.2.2.2⟩

theorem limit_walks : Walk limitGraph 0 1 2501 ∧ Walk limitGraph 1 2 1000 := by
  have e1 : FwdEdge limitGraph 0 3 2500 := ⟨plainEdge 3 2500, by simp [limitGraph], rfl, rfl, rfl⟩
  have e2 : FwdEdge limitGraph 3 1 1 := ⟨plainEdge 1 1, by simp [limitGraph], rfl, rfl, rfl⟩
  have e3 : FwdEdge limitGraph 1 2 1000 := ⟨plainEdge 2 1000, by simp [limitGraph], rfl, rfl, rfl⟩
  exact ⟨Walk.snoc (Walk_single e1) e2, Walk_single e3⟩

end Contractor

namespace Contractor

theorem take_set_succ {α : Type} (l : List α) (k : Nat) (x : α) (h : k < l.length) :
    (l.set k x).take (k + 1) = l.take k ++ [x] := by
  induction l generalizing k with
  | nil => simp at h
  | cons a t ih =>
    cases k with
    | zero => simp
    | succ k => simp at h; simp [ih k h]

theorem drop_set_of_lt {α : Type} (l : List α) (k j : Nat) (x : α) (h : k < j) :
    (l.set k x).drop j = l.drop j := by
  induction l generalizing k j with
  | nil => simp
  | cons a t ih =>
    cases j with
    | zero => omega
    | succ j =>
      cases k with
      | zero => simp
      | succ k => simp [ih k j (by omega)]

theorem drop_eq_getD_cons (l : List _ImportEdge) (i : Nat) (h : i < l.length) :
    l.drop i = l.getD i default :: l.drop (i + 1) := by
  rw [List.drop_eq_getElem_cons h]
  simp [List.getD, List.getElem?_eq_getElem h]

theorem takeWhile_length_le {α : Type} (p : α → Bool) (l : List α) :
    (l.takeWhile p).length ≤ l.length :=
  (List.takeWhile_sublist p).length_le

theorem minDistance_single (flag : _ImportEdge → Bool) (e : _ImportEdge) :
    minDistance flag [e] = if flag e then min e.data.distance INT_MAX else INT_MAX := by
  simp [minDistance]

theorem emitRun_length_le (uninit : Bool) (first : _ImportEdge) (run : List _ImportEdge)
    (h1 : 1 ≤ run.length) : (emitRun uninit first run).length ≤ run.length := by
  by_cases h2 : 2 ≤ run.length
  · unfold emitRun
    simp only
    split_ifs <;> simp <;> omega
  · obtain ⟨e, rfl⟩ : ∃ e, run = [e] := by
      match run, h1, h2 with
      | [e], _, _ => exact ⟨e, rfl⟩
      | _ :: _ :: _, _, h2 => simp at h2
    unfold emitRun
    simp only [minDistance_single]
    by_cases hf : e.data.forward = true <;> by_cases hb : e.data.backward = true <;>
      simp [hf, hb] <;> split_ifs <;> simp_all

end Contractor
namespace Contractor

theorem writeRun_one (edges : List _ImportEdge) (edge j : Nat) (x : _ImportEdge)
    (h1 : edge < j) (h2 : j ≤ edges.length) (tail : List _ImportEdge) :
    (edges.set edge x).take (edge + 1) ++ tail = edges.take edge ++ ([x] ++ tail)
      ∧ (edges.set edge x).drop j = edges.drop j ∧ (edges.set edge x).length = edges.length := by
  refine ⟨?_, drop_set_of_lt _ _ _ _ h1, by simp⟩
  rw [take_set_succ _ _ _ (by omega), List.append_assoc]

theorem reduceEdges_eq (uninit : Bool) :
    ∀ (fuel : Nat) (edges : List _ImportEdge) (i edge : Nat), edge ≤ i → i ≤ edges.length →
      (reduceEdges uninit fuel edges i edge).1.take (reduceEdges uninit fuel edges i edge).2
        = edges.take edge ++ reduceList uninit fuel (edges.drop i) := by
  intro fuel
  induction fuel with
  | zero => intro edges i edge _ _; simp [reduceEdges, reduceList]
  | succ fuel ih =>
    intro edges i edge hle hi
    by_cases hlt : i < edges.length
    · have hdrop := drop_eq_getD_cons edges i hlt
      rw [reduceEdges, if_pos hlt, hdrop, reduceList]
      by_cases hself : ((edges.getD i default).source == (edges.getD i default).target) = true
      · simp only [hself, if_true]
        exact ih edges (i + 1) edge (by omega) (by omega)
      · have hself2 : ((edges.getD i default).source == (edges.getD i default).target) = false := by
          simpa using hself
        simp only [hself2, Bool.false_eq_true, if_false]
        rw [← hdrop]
        generalize hrun : (edges.drop i).takeWhile (fun e => e.source == (edges.getD i default).source
          && e.target == (edges.getD i default).target) = run
        have hrun1 : 1 ≤ run.length := by
          rw [← hrun, hdrop, List.takeWhile_cons]
          simp
        have hrun2 : i + run.length ≤ edges.length := by
          have := takeWhile_length_le (fun e => e.source == (edges.getD i default).source
            && e.target == (edges.getD i default).target) (edges.drop i)
          rw [hrun, List.length_drop] at this
          omega
        have hlen := emitRun_length_le uninit (edges.getD i default) run hrun1
        have hdd : (edges.drop i).drop run.length = edges.drop (i + run.length) := by
          rw [List.drop_drop, Nat.add_comm]
        rw [hdd]
        unfold emitRun at hlen ⊢
        simp only at hlen ⊢
        split_ifs at hlen ⊢ with c1 c2 c3 c4
        · -- one bidirectional edge
          simp only [List.length_singleton] at hlen
          rw [ih _ _ _ (by omega) (by simpa using hrun2)]
          rw [drop_set_of_lt _ _ _ _ (by omega), take_set_succ _ _ _ (by omega), List.append_assoc]
        · rw [ih _ _ _ (by omega) hrun2]; simp
        · simp only [List.length_append, List.length_singleton] at hlen
          simp only
          rw [ih _ _ _ (by omega) (by simpa using hrun2)]
          rw [drop_set_of_lt (edges.set edge _) (edge + 1) (i + run.length) _ (by omega),
            drop_set_of_lt edges edge (i + run.length) _ (by omega),
            take_set_succ (edges.set edge _) (edge + 1) _ (by simp; omega),
            take_set_succ edges edge _ (by omega)]
          simp
        · simp only [List.length_append, List.length_singleton, List.length_nil] at hlen
          simp only
          rw [ih _ _ _ (by omega) (by simpa using hrun2)]
          rw [drop_set_of_lt _ _ _ _ (by omega), take_set_succ _ _ _ (by omega)]
          simp
        · simp only
          rw [ih _ _ _ (by omega) (by simpa using hrun2)]
          rw [drop_set_of_lt _ _ _ _ (by omega), take_set_succ _ _ _ (by omega)]
          simp
        · simp only
          rw [ih _ _ _ (by omega) hrun2]; simp
    · have hi2 : i = edges.length := by omega
      rw [reduceEdges, if_neg hlt]
      rw [List.drop_eq_nil_of_le (by omega)]
      cases fuel <;> simp [reduceList]

theorem preparedEdges_eq (NDEBUG uninit : Bool) (inputEdges : List EdgeBasedEdge) :
    preparedEdges NDEBUG uninit inputEdges
      = reduceList uninit (sortEdges (directedCopies NDEBUG inputEdges)).length
          (sortEdges (directedCopies NDEBUG inputEdges)) := by
  unfold preparedEdges
  simp only
  rw [reduceEdges_eq uninit _ _ 0 0 (le_refl _) (Nat.zero_le _)]
  simp

end Contractor

namespace Contractor

open DynamicGraph

theorem reduceList_eq (uninit : Bool) :
    ∀ (fuel : Nat) (l : List _ImportEdge), reduceList uninit fuel l = groupEmit (emitRun uninit) fuel l := by
  intro fuel
  induction fuel with
  | zero => intro l; rfl
  | succ fuel ih =>
    intro l
    cases l with
    | nil => rfl
    | cons first rest =>
      simp only [reduceList, groupEmit, ih]

theorem prepareLoop_eq (INVALID_EDGE_WEIGHT : Int) (INVALID_PAYLOAD : Nat) :
    ∀ (fuel : Nat) (l : List partition.EdgeBasedEdge) (acc : List partition.EdgeBasedGraphEdge),
      partition.prepareLoop INVALID_EDGE_WEIGHT INVALID_PAYLOAD fuel l acc
        = acc ++ groupEmit (partition.emitLightest INVALID_EDGE_WEIGHT INVALID_PAYLOAD) fuel l := by
  intro fuel
  induction fuel with
  | zero => intro l acc; simp [partition.prepareLoop, groupEmit]
  | succ fuel ih =>
    intro l acc
    cases l with
    | nil => simp [partition.prepareLoop, groupEmit]
    | cons first rest =>
      rw [partition.prepareLoop, groupEmit]
      by_cases h : (first.source == first.target) = true
      · rw [if_pos h, if_pos h]
        exact ih _ _
      · rw [if_neg h, if_neg h]
        simp only [ih, partition.emitLightest, List.append_assoc]

theorem groupEmit_no_loop {D E : Type} (emit : InputEdge D → List (InputEdge D) → List (InputEdge E))
    (hemit : ∀ first run, ∀ e ∈ emit first run, e.source = first.source ∧ e.target = first.target) :
    ∀ (fuel : Nat) (l : List (InputEdge D)), ∀ e ∈ groupEmit emit fuel l, e.source ≠ e.target := by
  intro fuel
  induction fuel with
  | zero => intro l e he; simp [groupEmit] at he
  | succ fuel ih =>
    intro l e he
    cases l with
    | nil => simp [groupEmit] at he
    | cons first rest =>
      simp only [groupEmit] at he
      split_ifs at he with hself
      · exact ih _ e he
      · rcases List.mem_append.1 he with h | h
        · obtain ⟨h1, h2⟩ := hemit _ _ e h
          rw [h1, h2]
          simpa using hself
        · exact ih _ e h

theorem emitRun_key (uninit : Bool) (first : _ImportEdge) (run : List _ImportEdge) :
    ∀ e ∈ emitRun uninit first run, e.source = first.source ∧ e.target = first.target := by
  intro e he
  unfold emitRun at he
  simp only at he
  split_ifs at he <;> simp at he <;> (try rcases he with rfl | rfl) <;> exact ⟨rfl, rfl⟩

theorem lightest_key (flag : partition.EdgeBasedEdge → Bool) (run : List partition.EdgeBasedEdge) :
    ∀ (init : partition.EdgeBasedGraphEdge),
      (partition.lightest flag init run).source = init.source
      ∧ (partition.lightest flag init run).target = init.target
      ∧ (partition.lightest flag init run).data.forward = init.data.forward
      ∧ (partition.lightest flag init run).data.backward = init.data.backward
      ∧ (partition.lightest flag init run).data.edge_id = init.data.edge_id := by
  induction run with
  | nil => intro init; exact ⟨rfl, rfl, rfl, rfl, rfl⟩
  | cons a r ih =>
    intro init
    simp only [partition.lightest, List.foldl_cons]
    split_ifs
    · exact ih _
    · exact ih _
    · exact ih _

theorem emitLightest_key (INVALID_EDGE_WEIGHT : Int) (INVALID_PAYLOAD : Nat)
    (first : partition.EdgeBasedEdge) (run : List partition.EdgeBasedEdge) :
    ∀ e ∈ partition.emitLightest INVALID_EDGE_WEIGHT INVALID_PAYLOAD first run,
      e.source = first.source ∧ e.target = first.target := by
  intro e he
  unfold partition.emitLightest at he
  simp only at he
  split_ifs at he <;> simp at he <;> (try rcases he with rfl | rfl) <;>
    exact ⟨(lightest_key _ _ _).1, (lightest_key _ _ _).2.1⟩

end Contractor

namespace Contractor

open DynamicGraph

theorem sameKey_iff {D : Type} {s t : Nat} {e : InputEdge D} :
    sameKey s t e = true ↔ (e.source : Nat) = s ∧ (e.target : Nat) = t := by
  simp [sameKey]

theorem edgeLE_def {D : Type} (a b : InputEdge D) :
    edgeLE a b ↔ ((a.source : Nat) < b.source ∨ ((a.source : Nat) = b.source ∧ (a.target : Nat) ≤ b.target)) :=
  Iff.rfl

theorem dropWhile_key_ne {D : Type} (s t : Nat) :
    ∀ (l : List (InputEdge D)), l.Pairwise edgeLE →
      (∀ x ∈ l, s < x.source ∨ (s = x.source ∧ t ≤ x.target)) →
      ∀ x ∈ l.dropWhile (sameKey s t), sameKey s t x = false := by
  intro l
  induction l with
  | nil => intro _ _ x hx; simp at hx
  | cons a r ih =>
    intro hp hge x hx
    rw [List.pairwise_cons] at hp
    by_cases ha : sameKey s t a = true
    · rw [List.dropWhile_cons_of_pos ha] at hx
      exact ih hp.2 (fun y hy => hge y (List.mem_cons_of_mem _ hy)) x hx
    · rw [List.dropWhile_cons_of_neg ha] at hx
      have hga := hge a (List.mem_cons_self _ _)
      have hna : ¬ ((a.source : Nat) = s ∧ (a.target : Nat) = t) := fun h => ha (sameKey_iff.2 h)
      rcases List.mem_cons.1 hx with rfl | hxr
      · simpa using ha
      · have hax := hp.1 x hxr
        rw [edgeLE_def] at hax
        have : ¬ ((x.source : Nat) = s ∧ (x.target : Nat) = t) := by
          intro ⟨h1, h2⟩
          apply hna
          unfold NodeID at *
          omega
        cases h : sameKey s t x
        · rfl
        · exact absurd (sameKey_iff.1 h) this

theorem run_split {D : Type} (first : InputEdge D) (rest : List (InputEdge D))
    (hp : (first :: rest).Pairwise edgeLE) :
    (first :: rest).takeWhile (sameKey first.source first.target)
        ++ (first :: rest).drop ((first :: rest).takeWhile (sameKey first.source first.target)).length
        = first :: rest
    ∧ (∀ x ∈ (first :: rest).takeWhile (sameKey first.source first.target),
        sameKey first.source first.target x = true)
    ∧ (∀ x ∈ (first :: rest).drop ((first :: rest).takeWhile (sameKey first.source first.target)).length,
        sameKey first.source first.target x = false)
    ∧ ∃ tl, (first :: rest).takeWhile (sameKey first.source first.target) = first :: tl := by
  have hdrop : (first :: rest).drop ((first :: rest).takeWhile (sameKey first.source first.target)).length
      = (first :: rest).dropWhile (sameKey first.source first.target) := by
    have h := List.takeWhile_append_dropWhile (sameKey first.source first.target) (first :: rest)
    have h2 := List.drop_left ((first :: rest).takeWhile (sameKey first.source first.target))
      ((first :: rest).dropWhile (sameKey first.source first.target))
    rw [h] at h2
    exact h2
  refine ⟨?_, fun x hx => (List.mem_takeWhile_imp hx), ?_, ?_⟩
  · rw [hdrop]; exact List.takeWhile_append_dropWhile _ _
  · rw [hdrop]
    apply dropWhile_key_ne _ _ _ hp
    intro x hx
    rcases List.mem_cons.1 hx with rfl | hxr
    · exact Or.inr ⟨rfl, le_refl _⟩
    · have := (List.pairwise_cons.1 hp).1 x hxr
      rw [edgeLE_def] at this
      unfold NodeID at *
      omega
  · have : sameKey first.source first.target first = true := sameKey_iff.2 ⟨rfl, rfl⟩
    exact ⟨_, List.takeWhile_cons_of_pos this⟩

theorem filter_eq_self_of_all {α : Type} (p : α → Bool) (l : List α) (h : ∀ x ∈ l, p x = true) :
    l.filter p = l := List.filter_eq_self.2 h

theorem filter_eq_nil_of_none {α : Type} (p : α → Bool) (l : List α) (h : ∀ x ∈ l, p x = false) :
    l.filter p = [] := by
  apply List.filter_eq_nil_iff.2
  intro x hx
  simp [h x hx]

theorem groupEmit_filter {D E : Type} (emit : InputEdge D → List (InputEdge D) → List (InputEdge E))
    (hemit : ∀ first run, ∀ e ∈ emit first run, e.source = first.source ∧ e.target = first.target)
    (s t : Nat) (hst : s ≠ t) :
    ∀ (fuel : Nat) (l : List (InputEdge D)), l.length ≤ fuel → l.Pairwise edgeLE →
      (groupEmit emit fuel l).filter (sameKey s t) = emitGroup emit (l.filter (sameKey s t)) := by
  intro fuel
  induction fuel with
  | zero =>
    intro l hl _
    have : l = [] := List.length_eq_zero.1 (by omega)
    subst this
    rfl
  | succ fuel ih =>
    intro l hl hp
    cases l with
    | nil => rfl
    | cons first rest =>
      rw [groupEmit]
      by_cases hself : (first.source == first.target) = true
      · rw [if_pos hself]
        have hnk : sameKey s t first = false := by
          cases h : sameKey s t first
          · rfl
          · obtain ⟨h1, h2⟩ := sameKey_iff.1 h
            exact absurd (by simpa [h1, h2] using hself) hst
        rw [List.filter_cons_of_neg (by simp [hnk])]
        exact ih rest (by simpa using hl) (List.pairwise_cons.1 hp).2
      · rw [if_neg hself]
        obtain ⟨hsplit, hrun, hrest, tl, htl⟩ := run_split first rest hp
        have hfun : (fun e : InputEdge D => e.source == first.source && e.target == first.target)
            = sameKey first.source first.target := rfl
        simp only [hfun]
        generalize hR : (first :: rest).takeWhile (sameKey first.source first.target) = run at *
        generalize hD : (first :: rest).drop run.length = rest2 at *
        have hlen : rest2.length ≤ fuel := by
          have := congrArg List.length hsplit
          rw [List.length_append, htl] at this
          simp at this hl
          omega
        have hp2 : rest2.Pairwise edgeLE := by
          rw [← hsplit] at hp
          exact (List.pairwise_append.1 hp).2.1
        rw [List.filter_append, ih rest2 hlen hp2, ← hsplit, List.filter_append]
        by_cases hk : sameKey s t first = true
        · obtain ⟨h1, h2⟩ := sameKey_iff.1 hk
          subst h1; subst h2
          rw [filter_eq_self_of_all _ run hrun, filter_eq_nil_of_none _ rest2 hrest,
            filter_eq_self_of_all _ (emit first run)
              (fun e he => sameKey_iff.2 (hemit first run e he))]
          rw [htl]
          simp [emitGroup]
        · have hne : ¬ (first.source = s ∧ first.target = t) := fun h => hk (sameKey_iff.2 h)
          rw [filter_eq_nil_of_none _ run, filter_eq_nil_of_none _ (emit first run)]
          · simp
          · intro e he
            obtain ⟨h1, h2⟩ := hemit first run e he
            cases h : sameKey s t e
            · rfl
            · obtain ⟨h3, h4⟩ := sameKey_iff.1 h
              exact absurd ⟨h1 ▸ h3, h2 ▸ h4⟩ hne
          · intro x hx
            obtain ⟨h1, h2⟩ := sameKey_iff.1 (hrun x hx)
            cases h : sameKey s t x
            · rfl
            · obtain ⟨h3, h4⟩ := sameKey_iff.1 h
              exact absurd ⟨h1 ▸ h3, h2 ▸ h4⟩ hne

end Contractor

namespace Contractor

open DynamicGraph

theorem least_mem {α : Type} [LinearOrder α] :
    ∀ (l : List α) (m : α), least l = some m → m ∈ l := by
  intro l
  induction l with
  | nil => intro m h; simp [least] at h
  | cons x xs ih =>
    intro m h
    simp only [least] at h
    cases hx : least xs with
    | none => rw [hx] at h; simp at h; subst h; exact List.mem_cons_self _ _
    | some k =>
      rw [hx] at h
      simp only [Option.some.injEq] at h
      subst h
      rcases min_choice x k with h1 | h1
      · rw [h1]; exact List.mem_cons_self _ _
      · rw [h1]; exact List.mem_cons_of_mem _ (ih k hx)

theorem least_le {α : Type} [LinearOrder α] :
    ∀ (l : List α) (m : α), least l = some m → ∀ y ∈ l, m ≤ y := by
  intro l
  induction l with
  | nil => intro m h; simp [least] at h
  | cons x xs ih =>
    intro m h y hy
    simp only [least] at h
    cases hx : least xs with
    | none =>
      rw [hx] at h; simp at h; subst h
      have : xs = [] := by
        cases xs with
        | nil => rfl
        | cons a t =>
          simp only [least] at hx
          cases h2 : least t <;> rw [h2] at hx <;> simp at hx
      subst this
      simp at hy; subst hy; exact le_refl _
    | some k =>
      rw [hx] at h
      simp only [Option.some.injEq] at h
      subst h
      rcases List.mem_cons.1 hy with rfl | hy
      · exact min_le_left _ _
      · exact le_trans (min_le_right _ _) (ih k hx y hy)

theorem least_eq_none {α : Type} [LinearOrder α] (l : List α) : least l = none ↔ l = [] := by
  cases l with
  | nil => simp [least]
  | cons x xs =>
    simp only [least]
    cases least xs <;> simp

theorem minDistance_fold (flag : _ImportEdge → Bool) :
    ∀ (run : List _ImportEdge) (init : Nat),
      run.foldl (fun d e => if flag e then min e.data.distance d else d) init
        = match least ((run.filter flag).map (fun e => e.data.distance)) with
          | none => init
          | some m => min m init := by
  intro run
  induction run with
  | nil => intro init; simp [least]
  | cons a r ih =>
    intro init
    rw [List.foldl_cons, ih]
    by_cases hf : flag a = true
    · rw [List.filter_cons_of_pos hf, List.map_cons, if_pos hf]
      simp only [least]
      cases least ((r.filter flag).map (fun e => e.data.distance)) with
      | none => rfl
      | some m => simp only [min_assoc, min_comm, min_left_comm]
    · rw [List.filter_cons_of_neg hf, if_neg hf]

theorem minDistance_eq (flag : _ImportEdge → Bool) (run : List _ImportEdge)
    (hlt : ∀ e ∈ run, e.data.distance < INT_MAX) :
    minDistance flag run = match least ((run.filter flag).map (fun e => e.data.distance)) with
      | none => INT_MAX
      | some m => m := by
  rw [minDistance, minDistance_fold]
  cases h : least ((run.filter flag).map (fun e => e.data.distance)) with
  | none => rfl
  | some m =>
    obtain ⟨e, he, rfl⟩ := List.mem_map.1 (least_mem _ _ h)
    have := hlt e (List.mem_filter.1 he).1
    simp only
    exact min_eq_left (le_of_lt this)

theorem emitGroup_spec (uninit : Bool) (G : List _ImportEdge)
    (hlt : ∀ e ∈ G, e.data.distance < INT_MAX) :
    (emitGroup (emitRun uninit) G).map flagsAndDistance = reducedPair (G.map flagsAndDistance) := by
  have hF : ((G.map flagsAndDistance).filter (fun c => c.1)).map (fun c => c.2.2)
      = (G.filter (fun e => e.data.forward)).map (fun e => e.data.distance) := by
    rw [List.filter_map, List.map_map]; rfl
  have hB : ((G.map flagsAndDistance).filter (fun c => c.2.1)).map (fun c => c.2.2)
      = (G.filter (fun e => e.data.backward)).map (fun e => e.data.distance) := by
    rw [List.filter_map, List.map_map]; rfl
  unfold reducedPair
  rw [hF, hB]
  cases G with
  | nil => simp [emitGroup, least]
  | cons first rest =>
    have h1 := minDistance_eq (fun e => e.data.forward) (first :: rest) hlt
    have h2 := minDistance_eq (fun e => e.data.backward) (first :: rest) hlt
    simp only [emitGroup, emitRun, h1, h2]
    cases hf : least (((first :: rest).filter (fun e => e.data.forward)).map (fun e => e.data.distance)) with
    | none =>
      cases hb : least (((first :: rest).filter (fun e => e.data.backward)).map (fun e => e.data.distance)) with
      | none => simp
      | some b =>
        obtain ⟨e, he, rfl⟩ := List.mem_map.1 (least_mem _ _ hb)
        have := hlt e (List.mem_filter.1 he).1
        have hne : INT_MAX ≠ e.data.distance := by omega
        have hne2 : e.data.distance ≠ INT_MAX := by omega
        simp [hne, hne2, flagsAndDistance]
    | some a =>
      obtain ⟨e, he, rfl⟩ := List.mem_map.1 (least_mem _ _ hf)
      have := hlt e (List.mem_filter.1 he).1
      have hne2 : e.data.distance ≠ INT_MAX := by omega
      cases hb : least (((first :: rest).filter (fun e => e.data.backward)).map (fun e => e.data.distance)) with
      | none => simp [hne2, flagsAndDistance]
      | some b =>
        obtain ⟨e', he', rfl⟩ := List.mem_map.1 (least_mem _ _ hb)
        have := hlt e' (List.mem_filter.1 he').1
        have hne3 : e'.data.distance ≠ INT_MAX := by omega
        by_cases heq : e.data.distance = e'.data.distance
        · simp [heq, hne3, flagsAndDistance]
        · simp [heq, hne2, hne3, flagsAndDistance]

end Contractor

namespace Contractor

open DynamicGraph

theorem sortEdges_pairwise {D : Type} (l : List (InputEdge D)) : (sortEdges l).Pairwise edgeLE :=
  List.sorted_insertionSort edgeLE l

theorem sortEdges_filter {D : Type} (l : List (InputEdge D)) (s t : Nat) :
    (sortEdges l).filter (sameKey s t) = l.filter (sameKey s t) := by
  have hpw : (l.filter (sameKey s t)).Pairwise edgeLE := by
    rw [List.pairwise_iff_forall_sublist]
    intro a b hab
    have ha := hab.subset (List.mem_cons_self _ _)
    have hb := hab.subset (List.mem_cons_of_mem _ (List.mem_cons_self _ _))
    obtain ⟨h1, h2⟩ := sameKey_iff.1 (List.mem_filter.1 ha).2
    obtain ⟨h3, h4⟩ := sameKey_iff.1 (List.mem_filter.1 hb).2
    rw [edgeLE_def]
    unfold NodeID at *
    omega
  have hsub : List.Sublist (l.filter (sameKey s t)) (sortEdges l) :=
    List.sublist_insertionSort hpw (List.filter_sublist _)
  have hsub2 : List.Sublist (l.filter (sameKey s t)) ((sortEdges l).filter (sameKey s t)) := by
    have := hsub.filter (sameKey s t)
    rw [List.filter_filter] at this
    simpa using this
  have hperm : List.Perm ((sortEdges l).filter (sameKey s t)) (l.filter (sameKey s t)) :=
    (List.perm_insertionSort edgeLE l).filter _
  exact (hsub2.eq_of_length hperm.length_eq.symm).symm

theorem groupEmit_sorted_filter {D E : Type}
    (emit : InputEdge D → List (InputEdge D) → List (InputEdge E))
    (hemit : ∀ first run, ∀ e ∈ emit first run, e.source = first.source ∧ e.target = first.target)
    (s t : Nat) (hst : s ≠ t) (l : List (InputEdge D)) :
    (groupEmit emit (sortEdges l).length (sortEdges l)).filter (sameKey s t)
      = emitGroup emit (l.filter (sameKey s t)) := by
  rw [groupEmit_filter emit hemit s t hst _ _ (le_refl _) (sortEdges_pairwise l), sortEdges_filter]

/-- The two directed copies that the first loop of the constructor pushes for an input edge. -/
theorem directedCopies_eq (NDEBUG : Bool) (inputEdges : List EdgeBasedEdge) :
    directedCopies NDEBUG inputEdges = inputEdges.flatMap (fun c =>
      if NDEBUG && decide ((max c.weight 1).toNat > 24 * 60 * 60 * 10) then []
      else
        [ ⟨c.source, c.target, ⟨(max c.weight 1).toNat, 1, c.via, c.nameIDOfTurnTarget,
            c.turnInstruction, false, c.isForward, c.isBackward, false⟩⟩,
          ⟨c.target, c.source, ⟨(max c.weight 1).toNat, 1, c.via, c.nameIDOfTurnTarget,
            c.turnInstruction, false, c.isBackward, c.isForward, false⟩⟩ ]) := by
  unfold directedCopies
  suffices h : ∀ (l : List EdgeBasedEdge) (acc : List _ImportEdge),
      l.foldl (fun edges currentEdge =>
        let edge : _ImportEdge :=
          { source := currentEdge.source
            target := currentEdge.target
            data :=
              { distance := (max currentEdge.weight 1).toNat
                originalEdges := 1
                via := currentEdge.via
                nameID := currentEdge.nameIDOfTurnTarget
                turnInstruction := currentEdge.turnInstruction
                shortcut := false
                forward := currentEdge.isForward
                backward := currentEdge.isBackward
                originalViaNodeID := false } }
        if NDEBUG && decide (edge.data.distance > 24 * 60 * 60 * 10) then edges
        else
          edges ++ [edge, { source := edge.target, target := edge.source,
                            data := { edge.data with forward := currentEdge.isBackward,
                                                     backward := currentEdge.isForward } }]) acc
      = acc ++ l.flatMap (fun c =>
      if NDEBUG && decide ((max c.weight 1).toNat > 24 * 60 * 60 * 10) then []
      else
        [ ⟨c.source, c.target, ⟨(max c.weight 1).toNat, 1, c.via, c.nameIDOfTurnTarget,
            c.turnInstruction, false, c.isForward, c.isBackward, false⟩⟩,
          ⟨c.target, c.source, ⟨(max c.weight 1).toNat, 1, c.via, c.nameIDOfTurnTarget,
            c.turnInstruction, false, c.isBackward, c.isForward, false⟩⟩ ]) by
    simpa using h inputEdges []
  intro l
  induction l with
  | nil => intro acc; simp
  | cons c r ih =>
    intro acc
    rw [List.foldl_cons, ih, List.flatMap_cons]
    simp only
    split_ifs <;> simp

theorem directedCopies_distance {NDEBUG : Bool} {inputEdges : List EdgeBasedEdge} {e : _ImportEdge}
    (he : e ∈ directedCopies NDEBUG inputEdges) :
    ∃ c ∈ inputEdges, e.data.distance = (max c.weight 1).toNat
      ∧ (NDEBUG = true → e.data.distance ≤ 24 * 60 * 60 * 10) := by
  rw [directedCopies_eq, List.mem_flatMap] at he
  obtain ⟨c, hc, hmem⟩ := he
  refine ⟨c, hc, ?_⟩
  split_ifs at hmem with h
  · simp at hmem
  · simp only [List.mem_cons, List.mem_singleton, List.not_mem_nil, or_false] at hmem
    have hd : e.data.distance = (max c.weight 1).toNat := by
      rcases hmem with rfl | rfl <;> rfl
    refine ⟨hd, fun hN => ?_⟩
    rw [hd]
    simp only [hN, Bool.true_and, decide_eq_true_eq, not_lt] at h
    omega

end Contractor

namespace Contractor

open DynamicGraph

theorem lightest_weight (flag : partition.EdgeBasedEdge → Bool) :
    ∀ (run : List partition.EdgeBasedEdge) (init : partition.EdgeBasedGraphEdge),
      (partition.lightest flag init run).data.weight
        = match least ((run.filter flag).map (fun e => e.data.weight)) with
          | none => init.data.weight
          | some m => min m init.data.weight := by
  intro run
  induction run with
  | nil => intro init; simp [partition.lightest, least]
  | cons a r ih =>
    intro init
    have hstep : partition.lightest flag init (a :: r)
        = partition.lightest flag
            (if flag a then
              if a.data.weight < init.data.weight then
                { init with data := { init.data with weight := a.data.weight, payload := a.data.payload } }
              else init
            else init) r := by
      simp only [partition.lightest, List.foldl_cons]
    rw [hstep, ih]
    by_cases hf : flag a = true
    · rw [List.filter_cons_of_pos hf, List.map_cons]
      simp only [hf, if_true, least]
      by_cases hlt : a.data.weight < init.data.weight
      · simp only [hlt, if_true]
        cases least ((r.filter flag).map (fun e => e.data.weight)) with
        | none => simp [min_eq_left (le_of_lt hlt)]
        | some m =>
          show min m a.data.weight = min (min a.data.weight m) init.data.weight
          rw [min_eq_left (le_trans (min_le_left _ _) (le_of_lt hlt)), min_comm]
      · simp only [hlt, if_false]
        have hle : init.data.weight ≤ a.data.weight := not_lt.1 hlt
        cases least ((r.filter flag).map (fun e => e.data.weight)) with
        | none => simp [min_eq_right hle]
        | some m =>
          simp only
          rw [min_comm a.data.weight m, min_assoc, min_eq_right hle]
    · rw [List.filter_cons_of_neg hf]
      simp [hf]

theorem lightest_eq (flag : partition.EdgeBasedEdge → Bool) (run : List partition.EdgeBasedEdge)
    (init : partition.EdgeBasedGraphEdge) (hlt : ∀ e ∈ run, e.data.weight < init.data.weight) :
    (partition.lightest flag init run).data.weight
      = match least ((run.filter flag).map (fun e => e.data.weight)) with
        | none => init.data.weight
        | some m => m := by
  rw [lightest_weight]
  cases h : least ((run.filter flag).map (fun e => e.data.weight)) with
  | none => rfl
  | some m =>
    obtain ⟨e, he, rfl⟩ := List.mem_map.1 (least_mem _ _ h)
    have := hlt e (List.mem_filter.1 he).1
    simp only
    exact min_eq_left (le_of_lt this)

theorem emitLightest_spec (INVALID_EDGE_WEIGHT : Int) (INVALID_PAYLOAD : Nat)
    (G : List partition.EdgeBasedEdge) (hlt : ∀ e ∈ G, e.data.weight < INVALID_EDGE_WEIGHT) :
    (emitGroup (partition.emitLightest INVALID_EDGE_WEIGHT INVALID_PAYLOAD) G).map partition.flagsAndWeight
      = reducedPair (G.map partition.flagsAndWeight) := by
  have hF : ((G.map partition.flagsAndWeight).filter (fun c => c.1)).map (fun c => c.2.2)
      = (G.filter (fun e => e.data.forward)).map (fun e => e.data.weight) := by
    rw [List.filter_map, List.map_map]; rfl
  have hB : ((G.map partition.flagsAndWeight).filter (fun c => c.2.1)).map (fun c => c.2.2)
      = (G.filter (fun e => e.data.backward)).map (fun e => e.data.weight) := by
    rw [List.filter_map, List.map_map]; rfl
  unfold reducedPair
  rw [hF, hB]
  cases G with
  | nil => simp [emitGroup, least]
  | cons first rest =>
    have h1 := lightest_eq (fun e => e.data.forward) (first :: rest)
      ⟨first.source, first.target, ⟨first.data.edge_id, INVALID_EDGE_WEIGHT, INVALID_PAYLOAD, true, false⟩⟩ hlt
    have h2 := lightest_eq (fun e => e.data.backward) (first :: rest)
      ⟨first.source, first.target, ⟨first.data.edge_id, INVALID_EDGE_WEIGHT, INVALID_PAYLOAD, false, true⟩⟩ hlt
    have k1 := lightest_key (fun e => e.data.forward) (first :: rest)
      ⟨first.source, first.target, ⟨first.data.edge_id, INVALID_EDGE_WEIGHT, INVALID_PAYLOAD, true, false⟩⟩
    have k2 := lightest_key (fun e => e.data.backward) (first :: rest)
      ⟨first.source, first.target, ⟨first.data.edge_id, INVALID_EDGE_WEIGHT, INVALID_PAYLOAD, false, true⟩⟩
    simp only [emitGroup, partition.emitLightest, h1, h2]
    cases hf : least (((first :: rest).filter (fun e => e.data.forward)).map (fun e => e.data.weight)) with
    | none =>
      rw [hf] at h1
      cases hb : least (((first :: rest).filter (fun e => e.data.backward)).map (fun e => e.data.weight)) with
      | none => simp
      | some b =>
        rw [hb] at h2
        obtain ⟨e, he, rfl⟩ := List.mem_map.1 (least_mem _ _ hb)
        have := hlt e (List.mem_filter.1 he).1
        have hne : INVALID_EDGE_WEIGHT ≠ e.data.weight := by omega
        have hne2 : e.data.weight ≠ INVALID_EDGE_WEIGHT := by omega
        simp [hne, hne2, partition.flagsAndWeight, h2, k2.2.2.1, k2.2.2.2.1]
    | some a =>
      rw [hf] at h1
      obtain ⟨e, he, rfl⟩ := List.mem_map.1 (least_mem _ _ hf)
      have := hlt e (List.mem_filter.1 he).1
      have hne2 : e.data.weight ≠ INVALID_EDGE_WEIGHT := by omega
      cases hb : least (((first :: rest).filter (fun e => e.data.backward)).map (fun e => e.data.weight)) with
      | none => simp [hne2, partition.flagsAndWeight, h1, k1.2.2.1, k1.2.2.2.1]
      | some b =>
        rw [hb] at h2
        obtain ⟨e', he', rfl⟩ := List.mem_map.1 (least_mem _ _ hb)
        have := hlt e' (List.mem_filter.1 he').1
        have hne3 : e'.data.weight ≠ INVALID_EDGE_WEIGHT := by omega
        by_cases heq : e.data.weight = e'.data.weight
        · simp [heq, hne3, partition.flagsAndWeight, h1, h2, k1.2.2.1, k1.2.2.2.1]
        · simp [heq, hne2, hne3, partition.flagsAndWeight, h1, h2, k1.2.2.1, k1.2.2.2.1,
            k2.2.2.1, k2.2.2.2.1]

end Contractor

namespace Contractor

open DynamicGraph

theorem groupEmit_key {D E : Type} (emit : InputEdge D → List (InputEdge D) → List (InputEdge E))
    (hemit : ∀ first run, ∀ e ∈ emit first run, e.source = first.source ∧ e.target = first.target) :
    ∀ (fuel : Nat) (l : List (InputEdge D)), ∀ e ∈ groupEmit emit fuel l,
      ∃ y ∈ l, e.source = y.source ∧ e.target = y.target := by
  intro fuel
  induction fuel with
  | zero => intro l e he; simp [groupEmit] at he
  | succ fuel ih =>
    intro l e he
    cases l with
    | nil => simp [groupEmit] at he
    | cons first rest =>
      simp only [groupEmit] at he
      split_ifs at he with hself
      · obtain ⟨y, hy, h⟩ := ih _ e he
        exact ⟨y, List.mem_cons_of_mem _ hy, h⟩
      · rcases List.mem_append.1 he with h | h
        · exact ⟨first, List.mem_cons_self _ _, hemit _ _ e h⟩
        · obtain ⟨y, hy, h⟩ := ih _ e h
          exact ⟨y, List.mem_of_mem_drop hy, h⟩

theorem takeWhile_block {α : Type} (p : α → Bool) (B rest : List α)
    (hB : ∀ x ∈ B, p x = true) (hrest : ∀ x ∈ rest, p x = false) :
    (B ++ rest).takeWhile p = B := by
  induction B with
  | nil =>
    cases rest with
    | nil => rfl
    | cons a r =>
      have := hrest a (List.mem_cons_self _ _)
      simp [List.takeWhile_cons, this]
  | cons b B ih =>
    have hb := hB b (List.mem_cons_self _ _)
    rw [List.cons_append, List.takeWhile_cons_of_pos hb,
      ih (fun x hx => hB x (List.mem_cons_of_mem _ hx))]

theorem groupEmit_idem {D : Type} (emit : InputEdge D → List (InputEdge D) → List (InputEdge D))
    (hemit : ∀ first run, ∀ e ∈ emit first run, e.source = first.source ∧ e.target = first.target)
    (hblock : ∀ first run b B, emit first run = b :: B → emit b (b :: B) = b :: B) :
    ∀ (fuel : Nat) (l : List (InputEdge D)), l.length ≤ fuel → l.Pairwise edgeLE →
      (groupEmit emit fuel l).Pairwise edgeLE
      ∧ ∀ m, (groupEmit emit fuel l).length ≤ m →
          groupEmit emit m (groupEmit emit fuel l) = groupEmit emit fuel l := by
  intro fuel
  induction fuel with
  | zero =>
    intro l _ _
    refine ⟨by simp [groupEmit], fun m _ => ?_⟩
    cases m <;> simp [groupEmit]
  | succ fuel ih =>
    intro l hl hp
    cases l with
    | nil =>
      refine ⟨by simp [groupEmit], fun m _ => ?_⟩
      cases m <;> simp [groupEmit]
    | cons first rest =>
      rw [groupEmit]
      by_cases hself : (first.source == first.target) = true
      · rw [if_pos hself]
        exact ih rest (by simpa using hl) (List.pairwise_cons.1 hp).2
      · rw [if_neg hself]
        obtain ⟨hsplit, hrun, hrest, tl, htl⟩ := run_split first rest hp
        have hfun : (fun e : InputEdge D => e.source == first.source && e.target == first.target)
            = sameKey first.source first.target := rfl
        simp only [hfun]
        generalize hR : (first :: rest).takeWhile (sameKey first.source first.target) = run at *
        generalize hD : (first :: rest).drop run.length = rest2 at *
        have hlen : rest2.length ≤ fuel := by
          have := congrArg List.length hsplit
          rw [List.length_append, htl] at this
          simp at this hl
          omega
        have hp2 : rest2.Pairwise edgeLE := by
          rw [← hsplit] at hp
          exact (List.pairwise_append.1 hp).2.1
        obtain ⟨ihp, ihm⟩ := ih rest2 hlen hp2
        have hBkey : ∀ x ∈ emit first run, sameKey first.source first.target x = true :=
          fun x hx => sameKey_iff.2 (hemit first run x hx)
        have hOkey : ∀ x ∈ groupEmit emit fuel rest2, sameKey first.source first.target x = false := by
          intro x hx
          obtain ⟨y, hy, h1, h2⟩ := groupEmit_key emit hemit fuel rest2 x hx
          have hy2 := hrest y hy
          cases h : sameKey first.source first.target x
          · rfl
          · obtain ⟨h3, h4⟩ := sameKey_iff.1 h
            have : sameKey first.source first.target y = true :=
              sameKey_iff.2 ⟨h1 ▸ h3, h2 ▸ h4⟩
            rw [this] at hy2
            exact absurd hy2 (by simp)
        constructor
        · rw [List.pairwise_append]
          refine ⟨?_, ihp, ?_⟩
          · rw [List.pairwise_iff_forall_sublist]
            intro a b hab
            have ha := hab.subset (List.mem_cons_self _ _)
            have hb := hab.subset (List.mem_cons_of_mem _ (List.mem_cons_self _ _))
            obtain ⟨h1, h2⟩ := hemit first run a ha
            obtain ⟨h3, h4⟩ := hemit first run b hb
            rw [edgeLE_def]
            unfold NodeID at *
            omega
          · intro a ha b hb
            obtain ⟨h1, h2⟩ := hemit first run a ha
            obtain ⟨y, hy, h3, h4⟩ := groupEmit_key emit hemit fuel rest2 b hb
            have hy1 : y ∈ first :: rest := by rw [← hsplit]; exact List.mem_append_right _ hy
            have hfy : edgeLE first y := by
              rcases List.mem_cons.1 hy1 with rfl | hyr
              · rw [edgeLE_def]; unfold NodeID at *; omega
              · exact (List.pairwise_cons.1 hp).1 y hyr
            rw [edgeLE_def] at hfy ⊢
            unfold NodeID at *
            omega
        · intro m hm
          cases hBe : emit first run with
          | nil =>
            rw [hBe] at hm
            simpa using ihm m (by simpa using hm)
          | cons b B =>
            rw [hBe] at hm hBkey
            have hbk := sameKey_iff.1 (hBkey b (List.mem_cons_self _ _))
            have hbself : ¬ (b.source == b.target) = true := by
              rw [hbk.1, hbk.2]; exact hself
            cases m with
            | zero => simp at hm
            | succ m =>
              rw [List.cons_append, groupEmit, if_neg hbself]
              have hfun2 : (fun e : InputEdge D => e.source == b.source && e.target == b.target)
                  = sameKey first.source first.target := by
                funext e; simp [sameKey, hbk.1, hbk.2]
              simp only [hfun2]
              rw [← List.cons_append, takeWhile_block _ _ _ hBkey hOkey, List.drop_left,
                hblock first run b B hBe, ihm m (by simp at hm; omega)]

end Contractor

namespace Contractor

open DynamicGraph

theorem minDistance_le (flag : _ImportEdge → Bool) (run : List _ImportEdge) :
    minDistance flag run ≤ INT_MAX := by
  rw [minDistance, minDistance_fold]
  cases least ((run.filter flag).map (fun e => e.data.distance)) with
  | none => exact le_refl _
  | some m => exact min_le_right _ _

theorem emitRun_block (uninit : Bool) (first : _ImportEdge) (run : List _ImportEdge)
    (b : _ImportEdge) (B : List _ImportEdge) (h : emitRun uninit first run = b :: B) :
    emitRun uninit b (b :: B) = b :: B := by
  have h1 := minDistance_le (fun e => e.data.forward) run
  have h2 := minDistance_le (fun e => e.data.backward) run
  unfold emitRun at h
  simp only at h
  generalize minDistance (fun e => e.data.forward) run = d1 at h h1
  generalize minDistance (fun e => e.data.backward) run = d2 at h h2
  by_cases e12 : d1 = d2
  · subst e12
    by_cases e1 : d1 = INT_MAX
    · simp [e1] at h
    · simp [e1] at h
      obtain ⟨hb, hB⟩ := h
      subst hb; subst hB
      simp [emitRun, minDistance, min_eq_left h1, e1]
  · by_cases e1 : d1 = INT_MAX
    · by_cases e2 : d2 = INT_MAX
      · exact absurd (e1.trans e2.symm) e12
      · have e2' : INT_MAX ≠ d2 := fun h => e2 h.symm
        simp [e12, e1, e2, e2'] at h
        obtain ⟨hb, hB⟩ := h
        subst hb; subst hB
        simp [emitRun, minDistance, min_eq_left h2, e2, e2']
    · by_cases e2 : d2 = INT_MAX
      · simp [e12, e1, e2] at h
        obtain ⟨hb, hB⟩ := h
        subst hb; subst hB
        simp [emitRun, minDistance, min_eq_left h1, e1]
      · simp [e12, e1, e2] at h
        obtain ⟨hb, hB⟩ := h
        subst hb; subst hB
        simp [emitRun, minDistance, min_eq_left h1, min_eq_left h2, e1, e2, e12]

end Contractor

namespace Contractor

open DynamicGraph

theorem lightest_shape (flag : partition.EdgeBasedEdge → Bool) (run : List partition.EdgeBasedEdge)
    (s t id : Nat) (W : Int) (P : Nat) (f b : Bool) :
    ∃ (w : Int) (p : Nat), w ≤ W ∧
      partition.lightest flag ⟨s, t, ⟨id, W, P, f, b⟩⟩ run = ⟨s, t, ⟨id, w, p, f, b⟩⟩ := by
  have k := lightest_key flag run ⟨s, t, ⟨id, W, P, f, b⟩⟩
  have hw := lightest_weight flag run ⟨s, t, ⟨id, W, P, f, b⟩⟩
  refine ⟨(partition.lightest flag ⟨s, t, ⟨id, W, P, f, b⟩⟩ run).data.weight,
    (partition.lightest flag ⟨s, t, ⟨id, W, P, f, b⟩⟩ run).data.payload, ?_, ?_⟩
  · rw [hw]
    cases least ((run.filter flag).map (fun e => e.data.weight)) with
    | none => exact le_refl _
    | some m => exact min_le_right _ _
  · obtain ⟨k1, k2, k3, k4, k5⟩ := k
    cases hL : partition.lightest flag ⟨s, t, ⟨id, W, P, f, b⟩⟩ run with
    | mk s' t' d =>
      cases d with
      | mk id' w' p' f' b' =>
        rw [hL] at k1 k2 k3 k4 k5
        simp only at k1 k2 k3 k4 k5
        subst k1; subst k2; subst k3; subst k4; subst k5
        rfl

theorem emitLightest_block (INVALID_EDGE_WEIGHT : Int) (INVALID_PAYLOAD : Nat)
    (first : partition.EdgeBasedEdge) (run : List partition.EdgeBasedEdge)
    (b : partition.EdgeBasedEdge) (B : List partition.EdgeBasedEdge)
    (h : partition.emitLightest INVALID_EDGE_WEIGHT INVALID_PAYLOAD first run = b :: B) :
    partition.emitLightest INVALID_EDGE_WEIGHT INVALID_PAYLOAD b (b :: B) = b :: B := by
  obtain ⟨d1, p1, h1, hf⟩ := lightest_shape (fun e => e.data.forward) run first.source first.target
    first.data.edge_id INVALID_EDGE_WEIGHT INVALID_PAYLOAD true false
  obtain ⟨d2, p2, h2, hr⟩ := lightest_shape (fun e => e.data.backward) run first.source first.target
    first.data.edge_id INVALID_EDGE_WEIGHT INVALID_PAYLOAD false true
  unfold partition.emitLightest at h
  simp only [hf, hr] at h
  by_cases e12 : d1 = d2
  · subst e12
    by_cases e1 : d1 = INVALID_EDGE_WEIGHT
    · simp [e1] at h
    · have hlt : d1 < INVALID_EDGE_WEIGHT := lt_of_le_of_ne h1 e1
      simp [e1] at h
      obtain ⟨hb, hB⟩ := h
      subst hb; subst hB
      simp [partition.emitLightest, partition.lightest, hlt, e1]
  · by_cases e1 : d1 = INVALID_EDGE_WEIGHT
    · by_cases e2 : d2 = INVALID_EDGE_WEIGHT
      · exact absurd (e1.trans e2.symm) e12
      · have e2' : INVALID_EDGE_WEIGHT ≠ d2 := fun h => e2 h.symm
        have hlt : d2 < INVALID_EDGE_WEIGHT := lt_of_le_of_ne h2 e2
        simp [e12, e1, e2, e2'] at h
        obtain ⟨hb, hB⟩ := h
        subst hb; subst hB
        simp [partition.emitLightest, partition.lightest, hlt, e2, e2']
    · have hlt1 : d1 < INVALID_EDGE_WEIGHT := lt_of_le_of_ne h1 e1
      by_cases e2 : d2 = INVALID_EDGE_WEIGHT
      · simp [e12, e1, e2] at h
        obtain ⟨hb, hB⟩ := h
        subst hb; subst hB
        simp [partition.emitLightest, partition.lightest, hlt1, e1]
      · have hlt2 : d2 < INVALID_EDGE_WEIGHT := lt_of_le_of_ne h2 e2
        simp [e12, e1, e2] at h
        obtain ⟨hb, hB⟩ := h
        subst hb; subst hB
        simp [partition.emitLightest, partition.lightest, hlt1, hlt2, e1, e2, e12]

end Contractor

namespace Contractor

open DynamicGraph

theorem cleanup_eq (uninit : Bool) (edges : List _ImportEdge) :
    cleanup uninit edges
      = groupEmit (emitRun uninit) (sortEdges edges).length (sortEdges edges) := by
  unfold cleanup
  simp only
  rw [reduceEdges_eq uninit _ _ 0 0 (le_refl _) (Nat.zero_le _), reduceList_eq]
  simp

theorem sorted_groupEmit_idem {D : Type} (emit : InputEdge D → List (InputEdge D) → List (InputEdge D))
    (hemit : ∀ first run, ∀ e ∈ emit first run, e.source = first.source ∧ e.target = first.target)
    (hblock : ∀ first run b B, emit first run = b :: B → emit b (b :: B) = b :: B)
    (l : List (InputEdge D)) :
    groupEmit emit (sortEdges (groupEmit emit (sortEdges l).length (sortEdges l))).length
        (sortEdges (groupEmit emit (sortEdges l).length (sortEdges l)))
      = groupEmit emit (sortEdges l).length (sortEdges l) := by
  obtain ⟨hp, hm⟩ := groupEmit_idem emit hemit hblock _ _ (le_refl _) (sortEdges_pairwise l)
  have hs : sortEdges (groupEmit emit (sortEdges l).length (sortEdges l))
      = groupEmit emit (sortEdges l).length (sortEdges l) :=
    List.Sorted.insertionSort_eq hp
  rw [hs]
  exact hm _ (le_refl _)

end Contractor

namespace Contractor

open DynamicGraph

theorem groupEmit_mem {D E : Type} (emit : InputEdge D → List (InputEdge D) → List (InputEdge E)) :
    ∀ (fuel : Nat) (l : List (InputEdge D)), ∀ e ∈ groupEmit emit fuel l,
      ∃ first run, e ∈ emit first run ∧ ∀ x ∈ run, x ∈ l := by
  intro fuel
  induction fuel with
  | zero => intro l e he; simp [groupEmit] at he
  | succ fuel ih =>
    intro l e he
    cases l with
    | nil => simp [groupEmit] at he
    | cons first rest =>
      simp only [groupEmit] at he
      split_ifs at he with hself
      · obtain ⟨f, r, h1, h2⟩ := ih _ e he
        exact ⟨f, r, h1, fun x hx => List.mem_cons_of_mem _ (h2 x hx)⟩
      · rcases List.mem_append.1 he with h | h
        · exact ⟨first, _, h, fun x hx => (List.takeWhile_sublist _).subset hx⟩
        · obtain ⟨f, r, h1, h2⟩ := ih _ e h
          exact ⟨f, r, h1, fun x hx => List.mem_of_mem_drop (h2 x hx)⟩

theorem minDistance_mem (flag : _ImportEdge → Bool) (run : List _ImportEdge)
    (h : minDistance flag run ≠ INT_MAX) :
    ∃ c ∈ run, flag c = true ∧ minDistance flag run = c.data.distance := by
  rw [minDistance, minDistance_fold] at h ⊢
  cases hl : least ((run.filter flag).map (fun e => e.data.distance)) with
  | none => rw [hl] at h; exact absurd rfl h
  | some m =>
    rw [hl] at h
    obtain ⟨c, hc, rfl⟩ := List.mem_map.1 (least_mem _ _ hl)
    obtain ⟨hc1, hc2⟩ := List.mem_filter.1 hc
    refine ⟨c, hc1, hc2, ?_⟩
    simp only at h ⊢
    rcases min_choice c.data.distance INT_MAX with h1 | h1
    · exact h1
    · exact absurd h1 h

theorem emitRun_distance (uninit : Bool) (first : _ImportEdge) (run : List _ImportEdge)
    (e : _ImportEdge) (he : e ∈ emitRun uninit first run) :
    ∃ c ∈ run, e.data.distance = c.data.distance := by
  unfold emitRun at he
  simp only at he
  split_ifs at he with c1 c2 c3 c4 c5
  · simp only [List.mem_singleton] at he
    obtain ⟨c, hc, _, h⟩ := minDistance_mem (fun e => e.data.forward) run (by simpa using c2)
    exact ⟨c, hc, by rw [he]; exact h⟩
  · simp at he
  · simp only [List.singleton_append, List.mem_cons, List.mem_singleton, List.not_mem_nil, or_false] at he
    rcases he with rfl | rfl
    · obtain ⟨c, hc, _, h⟩ := minDistance_mem (fun e => e.data.forward) run (by simpa using c3)
      exact ⟨c, hc, h⟩
    · obtain ⟨c, hc, _, h⟩ := minDistance_mem (fun e => e.data.backward) run (by simpa using c4)
      exact ⟨c, hc, h⟩
  · simp only [List.append_nil, List.mem_singleton] at he
    obtain ⟨c, hc, _, h⟩ := minDistance_mem (fun e => e.data.forward) run (by simpa using c3)
    exact ⟨c, hc, by rw [he]; exact h⟩
  · simp only [List.nil_append, List.mem_singleton] at he
    obtain ⟨c, hc, _, h⟩ := minDistance_mem (fun e => e.data.backward) run (by simpa using c5)
    exact ⟨c, hc, by rw [he]; exact h⟩
  · simp at he

theorem preparedEdges_distance {NDEBUG uninit : Bool} {inputEdges : List EdgeBasedEdge}
    {e : _ImportEdge} (he : e ∈ preparedEdges NDEBUG uninit inputEdges) :
    ∃ c ∈ directedCopies NDEBUG inputEdges, e.data.distance = c.data.distance := by
  rw [preparedEdges_eq, reduceList_eq] at he
  obtain ⟨first, run, h1, h2⟩ := groupEmit_mem _ _ _ e he
  obtain ⟨c, hc, hd⟩ := emitRun_distance uninit first run e h1
  exact ⟨c, (List.mem_insertionSort _).1 (h2 c hc), hd⟩

end Contractor

namespace Contractor

theorem directedCopies_filter_heavy (inputEdges : List EdgeBasedEdge) :
    directedCopies true inputEdges
      = directedCopies true (inputEdges.filter (fun c => decide (c.weight ≤ 24 * 60 * 60 * 10))) := by
  rw [directedCopies_eq, directedCopies_eq]
  induction inputEdges with
  | nil => rfl
  | cons c r ih =>
    by_cases h : c.weight ≤ 24 * 60 * 60 * 10
    · rw [List.filter_cons_of_pos (by simpa using h), List.flatMap_cons, List.flatMap_cons, ih]
    · rw [List.filter_cons_of_neg (by simpa using h), List.flatMap_cons, ih]
      have : (max c.weight 1).toNat > 24 * 60 * 60 * 10 := by omega
      simp [this]

theorem directedCopies_clamp (NDEBUG : Bool) (inputEdges : List EdgeBasedEdge) :
    directedCopies NDEBUG inputEdges
      = directedCopies NDEBUG
          (inputEdges.map (fun c => if c.weight ≤ 0 then { c with weight := 1 } else c)) := by
  rw [directedCopies_eq, directedCopies_eq]
  induction inputEdges with
  | nil => rfl
  | cons c r ih =>
    rw [List.map_cons, List.flatMap_cons, List.flatMap_cons, ih]
    congr 1
    by_cases h : c.weight ≤ 0
    · have h1 : max c.weight 1 = 1 := max_eq_right (by omega)
      simp [h, h1]
    · simp [h]

end Contractor

namespace Contractor

open BinaryHeap

theorem foldl_invariant {α β : Type} (P : β → Prop) (f : β → α → β)
    (hstep : ∀ s a, P s → P (f s a)) : ∀ (l : List α) (init : β), P init → P (l.foldl f init) := by
  intro l
  induction l with
  | nil => intro init h; exact h
  | cons a r ih => intro init h; exact ih _ (hstep _ _ h)

theorem shortcutStep_stats (node source : NodeID) (inData : _EdgeBasedContractorEdgeData)
    (heap : _Heap) (st : List _ImportEdge × _ContractionInformation) (outEdge : _Edge)
    (h : StatsOK st.2) : StatsOK (shortcutStep true node source inData heap st outEdge).2 := by
  unfold shortcutStep
  simp only
  obtain ⟨h1, h2, h3, h4⟩ := h
  split_ifs
  · exact ⟨h1, h2, h3, h4⟩
  · refine ⟨h1, ?_, h3, ?_⟩
    · show 0 ≤ st.2.edgesAdded + 2
      omega
    · show 0 ≤ st.2.originalEdgesAdded + ((2 * (outEdge.data.originalEdges + inData.originalEdges) : Nat) : Int)
      omega
  · exact ⟨h1, h2, h3, h4⟩

theorem contractStep_stats (g : _DynamicGraph) (node : NodeID)
    (st : List _ImportEdge × _ContractionInformation) (inEdge : _Edge) (h : StatsOK st.2) :
    StatsOK (contractStep true g node st inEdge).2 := by
  unfold contractStep
  simp only [if_true]
  have h0 : StatsOK ({ st.2 with
        edgesDeleted := st.2.edgesDeleted + 1
        originalEdgesDeleted := st.2.originalEdgesDeleted + (inEdge.data.originalEdges : Int) } :
        _ContractionInformation) := by
    obtain ⟨h1, h2, h3, h4⟩ := h
    refine ⟨?_, h2, ?_, h4⟩
    · show 0 ≤ st.2.edgesDeleted + 1
      omega
    · show 0 ≤ st.2.originalEdgesDeleted + (inEdge.data.originalEdges : Int)
      omega
  split_ifs
  · exact h0
  · unfold addShortcuts
    exact foldl_invariant (fun s : List _ImportEdge × _ContractionInformation => StatsOK s.2) _
      (fun s a hs => shortcutStep_stats _ _ _ _ s a hs) _ (st.1, _) h0

theorem Contract_true_stats (g : _DynamicGraph) (buffer : List _ImportEdge) (node : NodeID)
    (stats : _ContractionInformation) (h : StatsOK stats) :
    StatsOK (_Contract true g buffer node stats).2 := by
  unfold _Contract contractLoop
  simp only [Bool.not_true, Bool.false_eq_true, if_false]
  exact foldl_invariant (fun s : List _ImportEdge × _ContractionInformation => StatsOK s.2) _
    (fun s a hs => contractStep_stats g node s a hs) _ (buffer, stats) h

theorem Evaluate_nonneg (g : _DynamicGraph) (nodeData : _PriorityData) (node : NodeID)
    (hd : 0 ≤ nodeData.depth) : 0 ≤ _Evaluate g nodeData node := by
  have hs := Contract_true_stats g [] node ⟨0, 0, 0, 0⟩ ⟨le_refl _, le_refl _, le_refl _, le_refl _⟩
  obtain ⟨h1, h2, h3, h4⟩ := hs
  unfold _Evaluate
  simp only
  have hdq : (0 : ℚ) ≤ (nodeData.depth : ℚ) := by exact_mod_cast hd
  split_ifs
  · linarith
  · have a1 : (0 : ℚ) ≤ ((_Contract true g [] node ⟨0, 0, 0, 0⟩).2.edgesAdded : ℚ) := by exact_mod_cast h2
    have a2 : (0 : ℚ) ≤ ((_Contract true g [] node ⟨0, 0, 0, 0⟩).2.edgesDeleted : ℚ) := by exact_mod_cast h1
    have a3 : (0 : ℚ) ≤ ((_Contract true g [] node ⟨0, 0, 0, 0⟩).2.originalEdgesAdded : ℚ) := by exact_mod_cast h4
    have a4 : (0 : ℚ) ≤ ((_Contract true g [] node ⟨0, 0, 0, 0⟩).2.originalEdgesDeleted : ℚ) := by exact_mod_cast h3
    have b1 := div_nonneg a1 a2
    have b2 := div_nonneg a3 a4
    linarith

end Contractor

namespace Contractor

theorem getD_set_eq {α : Type} (l : List α) (i : Nat) (a d : α) (h : i < l.length) :
    (l.set i a).getD i d = a := by
  simp [List.getD_eq_getElem?_getD, List.getElem?_set, h]

theorem getD_set_ne {α : Type} (l : List α) (i j : Nat) (a d : α) (h : i ≠ j) :
    (l.set i a).getD j d = l.getD j d := by
  simp [List.getD_eq_getElem?_getD, List.getElem?_set, h]

theorem getD_modify_eq {α : Type} (f : α → α) (l : List α) (i : Nat) (d : α) (h : i < l.length) :
    (l.modify f i).getD i d = f (l.getD i d) := by
  simp [List.getD_eq_getElem?_getD, List.getElem?_modify, h]

theorem getD_modify_ne {α : Type} (f : α → α) (l : List α) (i j : Nat) (d : α) (h : i ≠ j) :
    (l.modify f i).getD j d = l.getD j d := by
  simp [List.getD_eq_getElem?_getD, List.getElem?_modify, h]

theorem renumber_eq (np : List ℚ) (count : Nat)
    (st : List NodeID × List NodeID × List ℚ × List (NodeID × Bool)) :
    renumber np count st = (List.range count).foldl (renumberStep np) st := rfl

theorem renumInv_step (np : List ℚ) (rem0 : List (NodeID × Bool)) (new0 : List NodeID) (k : Nat)
    (st : List NodeID × List NodeID × List ℚ × List (NodeID × Bool)) (hk : k < rem0.length)
    (h : RenumInv np rem0 new0 k st) : RenumInv np rem0 new0 (k + 1) (renumberStep np st k) := by
  have hold : (st.2.2.2.getD k default).1 = (rem0.getD k default).1 := by rw [h.remHi k (le_refl _)]
  unfold renumberStep
  simp only [hold]
  refine ⟨by simp [h.len1], by simp [h.len2], by simp [h.len3], by simp [h.len4], ?_, ?_, ?_, ?_, ?_, ?_⟩
  · intro i hi
    by_cases hik : i = k
    · subst hik; rw [getD_set_eq _ _ _ _ (by rw [h.len1]; exact hk)]
    · rw [getD_set_ne _ _ _ _ _ (Ne.symm hik)]; exact h.old i (by omega)
  · intro i hi
    by_cases hik : i = k
    · subst hik; rw [getD_set_eq _ _ _ _ (by rw [h.len3]; exact hk)]
    · rw [getD_set_ne _ _ _ _ _ (Ne.symm hik)]; exact h.prio i (by omega)
  · intro i hi
    by_cases hik : i = k
    · subst hik
      rw [getD_modify_eq _ _ _ _ (by rw [h.len4]; exact hk), h.remHi i (le_refl _)]
    · rw [getD_modify_ne _ _ _ _ _ (Ne.symm hik)]; exact h.remLo i (by omega)
  · intro i hi
    rw [getD_modify_ne _ _ _ _ _ (by omega)]; exact h.remHi i (by omega)
  · intro i hi hlt hlast
    by_cases hik : i = k
    · subst hik
      rw [getD_set_eq _ _ _ _ (by rw [h.len2]; exact hlt)]
    · have hne := hlast k (by omega) (by omega)
      rw [getD_set_ne _ _ _ _ _ hne]
      exact h.newHit i (by omega) hlt (fun j hj hij => hlast j (by omega) hij)
  · intro o ho
    rw [getD_set_ne _ _ _ _ _ (ho k (by omega))]
    exact h.newMiss o (fun i hi => ho i (by omega))

theorem renumInv_fold (np : List ℚ) (rem0 : List (NodeID × Bool)) (new0 old0 : List NodeID)
    (prio0 : List ℚ) (h1 : old0.length = rem0.length) (h3 : prio0.length = rem0.length) :
    ∀ k, k ≤ rem0.length →
      RenumInv np rem0 new0 k ((List.range k).foldl (renumberStep np) (old0, new0, prio0, rem0)) := by
  intro k
  induction k with
  | zero =>
    intro _
    exact ⟨h1, rfl, h3, rfl, fun i hi => by omega, fun i hi => by omega, fun i hi => by omega,
      fun i _ => rfl, fun i hi => by omega, fun o _ => rfl⟩
  | succ k ih =>
    intro hk
    rw [List.range_succ, List.foldl_append, List.foldl_cons, List.foldl_nil]
    exact renumInv_step np rem0 new0 k _ (by omega) (ih (by omega))

end Contractor

namespace Contractor

theorem length_filter_not {α : Type} (p : α → Bool) (l : List α) :
    l.length - (l.filter (fun a => !p a)).length = (l.filter p).length := by
  induction l with
  | nil => rfl
  | cons a r ih =>
    have h1 := List.length_filter_le (fun a => !p a) r
    cases h : p a <;> simp [List.filter_cons, h] <;> omega

theorem flush_eq (numberOfNodes : Nat) (st : RunState) :
    flush numberOfNodes st =
      { st with
        graph := (moveEdges st.graph (flushMaps numberOfNodes st).2.1
          (DynamicGraph.empty st.remainingNodes.length, [])).1
        remainingNodes := (flushMaps numberOfNodes st).2.2.2
        nodePriority := (flushMaps numberOfNodes st).2.2.1
        flushedContractor := true
        oldNodeIDFromNewNodeIDMap := (flushMaps numberOfNodes st).1
        temporaryEdgeStorage := (moveEdges st.graph (flushMaps numberOfNodes st).2.1
          (DynamicGraph.empty st.remainingNodes.length, [])).2 } := rfl

theorem round_eq (numberOfNodes : Nat) (st0 : RunState) :
    round numberOfNodes st0 =
      { preRound numberOfNodes st0 with
        graph := roundGraph (preRound numberOfNodes st0)
        numberOfContractedNodes := (preRound numberOfNodes st0).numberOfContractedNodes
          + (independentSet (preRound numberOfNodes st0)).length
        remainingNodes := (markIndependent (preRound numberOfNodes st0)).filter (fun p => !p.2)
        nodePriority := (updateAll (preRound numberOfNodes st0)).1
        nodeData := (updateAll (preRound numberOfNodes st0)).2 } := by
  have hlen : (preRound numberOfNodes st0).remainingNodes.length
      - ((markIndependent (preRound numberOfNodes st0)).filter (fun p => !p.2)).length
      = (independentSet (preRound numberOfNodes st0)).length := by
    have := length_filter_not (fun p : NodeID × Bool => p.2) (markIndependent (preRound numberOfNodes st0))
    simp only [markIndependent, List.length_map, independentSet] at this ⊢
    exact this
  unfold round
  simp only [partitionNodes, List.drop_left, List.take_left]
  rw [show (if (!st0.flushedContractor
        && decide ((st0.numberOfContractedNodes : ℚ) > (numberOfNodes : ℚ) * (3 / 4))) = true
      then flush numberOfNodes st0 else st0) = preRound numberOfNodes st0 from rfl]
  rw [← hlen]
  rfl

end Contractor

namespace Contractor

theorem mem_remaining_after {st : RunState} {p : NodeID × Bool}
    (hp : p ∈ (markIndependent st).filter (fun p => !p.2)) :
    (∃ q ∈ st.remainingNodes, q.1 = p.1)
      ∧ _IsIndependent st.graph st.nodePriority st.nodeData p.1 = false := by
  obtain ⟨h1, h2⟩ := List.mem_filter.1 hp
  obtain ⟨q, hq, rfl⟩ := List.mem_map.1 h1
  exact ⟨⟨q, hq, rfl⟩, by simpa using h2⟩

theorem mem_independentSet {st : RunState} {x : NodeID} (hx : x ∈ independentSet st) :
    (∃ q ∈ st.remainingNodes, q.1 = x)
      ∧ _IsIndependent st.graph st.nodePriority st.nodeData x = true := by
  obtain ⟨p, hp, rfl⟩ := List.mem_map.1 hx
  obtain ⟨h1, h2⟩ := List.mem_filter.1 hp
  obtain ⟨q, hq, rfl⟩ := List.mem_map.1 h1
  exact ⟨⟨q, hq, rfl⟩, h2⟩

theorem contractAll_priority (st : RunState) (y : NodeID) (hy : y ∉ independentSet st) :
    (contractAll st).2.getD y 0 = st.nodePriority.getD y 0 := by
  unfold contractAll
  generalize independentSet st = l at hy
  suffices h : ∀ (l : List NodeID) (acc : List _ImportEdge × List ℚ), y ∉ l →
      (l.foldl (fun (acc : List _ImportEdge × List ℚ) x =>
        ((_Contract false st.graph acc.1 x default).1, acc.2.set x (-1))) acc).2.getD y 0
        = acc.2.getD y 0 from h l _ hy
  intro l
  induction l with
  | nil => intro acc _; rfl
  | cons a r ih =>
    intro acc hy
    rw [List.foldl_cons, ih _ (fun h => hy (List.mem_cons_of_mem _ h))]
    exact getD_set_ne _ _ _ _ _ (fun h => hy (h ▸ List.mem_cons_self _ _))

theorem UpdateNeighbours_ok (g : _DynamicGraph) (pr : List ℚ) (nd : List _PriorityData)
    (x y : NodeID) (hd : ∀ d ∈ nd, 0 ≤ d.depth) (hy : 0 ≤ pr.getD y 0) :
    (∀ d ∈ (_UpdateNeighbours g pr nd x).2, 0 ≤ d.depth)
      ∧ 0 ≤ (_UpdateNeighbours g pr nd x).1.getD y 0 := by
  have hgetD : ∀ (l : List _PriorityData), (∀ d ∈ l, 0 ≤ d.depth) → ∀ i, 0 ≤ (l.getD i default).depth := by
    intro l hl i
    rw [List.getD_eq_getElem?_getD]
    cases h : l[i]? with
    | none => exact le_refl _
    | some d => exact hl d (List.getElem?_mem h)
  have h1 : ∀ d ∈ (g.adj x).foldl (fun nodeData e =>
      if e.target == x then nodeData
      else nodeData.modify (fun d => { d with depth := max ((nodeData.getD x default).depth + 1) d.depth })
        e.target) nd, 0 ≤ d.depth := by
    apply foldl_invariant (fun l : List _PriorityData => ∀ d ∈ l, 0 ≤ d.depth) _ _ _ _ hd
    intro l e hl
    split_ifs
    · exact hl
    · intro d hdm
      rcases (mem_modify _ _ _ _).1 hdm with ⟨j, _, hj⟩ | ⟨d0, h0, rfl⟩
      · exact hl d (List.getElem?_mem hj)
      · exact le_trans (hl d0 (List.getElem?_mem h0)) (le_max_right _ _)
  unfold _UpdateNeighbours
  simp only
  refine ⟨h1, ?_⟩
  apply foldl_invariant (fun l : List ℚ => 0 ≤ l.getD y 0) _ _ _ _ hy
  intro l u hl
  by_cases huy : u = y
  · subst huy
    by_cases hlen : u < l.length
    · rw [getD_set_eq _ _ _ _ hlen]
      exact Evaluate_nonneg _ _ _ (hgetD _ h1 _)
    · rw [List.set_eq_of_length_le (not_lt.1 hlen)]; exact hl
  · rw [getD_set_ne _ _ _ _ _ huy]; exact hl

theorem updateAll_ok (st : RunState) (y : NodeID) (hd : ∀ d ∈ st.nodeData, 0 ≤ d.depth)
    (hy : 0 ≤ (contractAll st).2.getD y 0) :
    (∀ d ∈ (updateAll st).2, 0 ≤ d.depth) ∧ 0 ≤ (updateAll st).1.getD y 0 := by
  unfold updateAll
  apply foldl_invariant (fun acc : List ℚ × List _PriorityData =>
    (∀ d ∈ acc.2, 0 ≤ d.depth) ∧ 0 ≤ acc.1.getD y 0) _ _ _ ((contractAll st).2, st.nodeData) ⟨hd, hy⟩
  intro acc x h
  exact UpdateNeighbours_ok _ _ _ _ _ h.1 h.2

theorem flushMaps_inv (numberOfNodes : Nat) (st : RunState) :
    RenumInv st.nodePriority st.remainingNodes (List.replicate numberOfNodes UINT_MAX)
      st.remainingNodes.length (flushMaps numberOfNodes st) := by
  unfold flushMaps
  rw [renumber_eq]
  apply renumInv_fold _ _ _ _ _ _ _ _ (le_refl _)
  · simp only [List.length_append, List.length_take, List.length_replicate]
    omega
  · simp

theorem mem_getD_of_mem {α : Type} (l : List α) (d p : α) (hp : p ∈ l) :
    ∃ i, i < l.length ∧ l.getD i d = p := by
  obtain ⟨i, hi, h⟩ := List.mem_iff_getElem.1 hp
  exact ⟨i, hi, by simp [List.getD_eq_getElem?_getD, List.getElem?_eq_getElem hi, h]⟩

theorem getD_mem {α : Type} (l : List α) (d : α) (i : Nat) (hi : i < l.length) : l.getD i d ∈ l := by
  simp [List.getD_eq_getElem?_getD, List.getElem?_eq_getElem hi]

theorem flush_ok (numberOfNodes : Nat) (st : RunState) (h : PrioritiesOK st) :
    PrioritiesOK (flush numberOfNodes st) := by
  have inv := flushMaps_inv numberOfNodes st
  rw [flush_eq]
  refine ⟨?_, h.2⟩
  intro p hp
  simp only at hp ⊢
  obtain ⟨i, hi, rfl⟩ := mem_getD_of_mem _ default p hp
  rw [inv.len4] at hi
  rw [inv.remLo i hi]
  simp only
  rw [inv.prio i hi]
  exact h.1 _ (getD_mem _ _ _ hi)

theorem preRound_ok (numberOfNodes : Nat) (st : RunState) (h : PrioritiesOK st) :
    PrioritiesOK (preRound numberOfNodes st) := by
  unfold preRound
  split_ifs
  · exact flush_ok _ _ h
  · exact h

theorem round_ok (numberOfNodes : Nat) (st : RunState) (h : PrioritiesOK st) :
    PrioritiesOK (round numberOfNodes st) := by
  have hp := preRound_ok numberOfNodes st h
  rw [round_eq]
  generalize preRound numberOfNodes st = s at hp
  constructor
  · intro p hpm
    simp only at hpm ⊢
    obtain ⟨⟨q, hq, hqp⟩, hind⟩ := mem_remaining_after hpm
    have hnot : p.1 ∉ independentSet s := by
      intro hx
      have := (mem_independentSet hx).2
      rw [hind] at this
      exact absurd this (by simp)
    have h0 : 0 ≤ (contractAll s).2.getD p.1 0 := by
      rw [contractAll_priority s p.1 hnot, ← hqp]
      exact hp.1 q hq
    exact (updateAll_ok s p.1 hp.2 h0).2
  · intro d hd
    simp only at hd
    by_cases hne : ∃ y : NodeID, 0 ≤ (contractAll s).2.getD y 0
    · obtain ⟨y, hy⟩ := hne
      exact (updateAll_ok s y hp.2 hy).1 d hd
    · exfalso
      apply hne
      refine ⟨(contractAll s).2.length, ?_⟩
      rw [List.getD_eq_getElem?_getD, List.getElem?_eq_none (le_refl _)]
      exact le_refl _

end Contractor

namespace Contractor

theorem initialState_depth (g : _DynamicGraph) (shuffled : List NodeID) :
    ∀ d ∈ (initialState g shuffled).nodeData, 0 ≤ d.depth := by
  unfold initialState
  simp only
  apply foldl_invariant (fun l : List _PriorityData => ∀ d ∈ l, 0 ≤ d.depth)
  · intro l x hl d hd
    rcases (mem_modify _ _ _ _).1 hd with ⟨j, _, hj⟩ | ⟨d0, h0, rfl⟩
    · exact hl d (List.getElem?_mem hj)
    · exact hl d0 (List.getElem?_mem h0)
  · intro d hd
    rw [List.eq_of_mem_replicate hd]

theorem getD_nonneg (l : List ℚ) (h : ∀ q ∈ l, 0 ≤ q) (i : Nat) : 0 ≤ l.getD i 0 := by
  rw [List.getD_eq_getElem?_getD]
  cases hi : l[i]? with
  | none => exact le_refl _
  | some q => exact h q (List.getElem?_mem hi)

theorem getD_depth_nonneg (l : List _PriorityData) (hl : ∀ d ∈ l, 0 ≤ d.depth) (i : Nat) :
    0 ≤ (l.getD i default).depth := by
  rw [List.getD_eq_getElem?_getD]
  cases h : l[i]? with
  | none => exact le_refl _
  | some d => exact hl d (List.getElem?_mem h)

theorem initialState_ok (g : _DynamicGraph) (shuffled : List NodeID) :
    PrioritiesOK (initialState g shuffled) := by
  refine ⟨?_, initialState_depth g shuffled⟩
  intro p _
  apply getD_nonneg
  intro q hq
  have hd := initialState_depth g shuffled
  unfold initialState at hq hd
  simp only at hq hd
  obtain ⟨x, _, rfl⟩ := List.mem_map.1 hq
  exact Evaluate_nonneg _ _ _ (getD_depth_nonneg _ hd _)

theorem afterRounds_ok (g : _DynamicGraph) (shuffled : List NodeID) (k : Nat) :
    PrioritiesOK (afterRounds g shuffled k) := by
  induction k with
  | zero => exact initialState_ok g shuffled
  | succ k ih =>
    unfold afterRounds at ih ⊢
    rw [Function.iterate_succ_apply']
    exact round_ok _ _ ih

theorem runLoop_afterRounds (n : Nat) :
    ∀ (fuel : Nat) (st st' : RunState), runLoop n fuel st = some st' →
      ∃ k, st' = (round n)^[k] st := by
  intro fuel
  induction fuel with
  | zero =>
    intro st st' h
    simp only [runLoop] at h
    split_ifs at h
    exact ⟨0, by simpa using h.symm⟩
  | succ fuel ih =>
    intro st st' h
    simp only [runLoop] at h
    split_ifs at h
    · obtain ⟨k, hk⟩ := ih _ _ h
      exact ⟨k + 1, by rw [hk, Function.iterate_succ_apply]⟩
    · exact ⟨0, by simpa using h.symm⟩

end Contractor

namespace Contractor

theorem flushMaps_remaining (numberOfNodes : Nat) (st : RunState) :
    (flushMaps numberOfNodes st).2.2.2
      = (List.range st.remainingNodes.length).map
          (fun i => (i, (st.remainingNodes.getD i default).2)) := by
  have inv := flushMaps_inv numberOfNodes st
  apply List.ext_getElem
  · simp [inv.len4]
  · intro i h1 h2
    have hi : i < st.remainingNodes.length := by rw [← inv.len4]; exact h1
    have := inv.remLo i hi
    rw [List.getD_eq_getElem?_getD, List.getElem?_eq_getElem h1] at this
    simp only [Option.getD_some] at this
    rw [this]
    simp

theorem flush_idsOK (numberOfNodes : Nat) (st : RunState) (h : IdsOK numberOfNodes st)
    (hlen : st.remainingNodes.length ≤ numberOfNodes) :
    IdsOK numberOfNodes (flush numberOfNodes st) := by
  rw [flush_eq]
  unfold IdsOK
  simp only
  rw [flushMaps_remaining]
  constructor
  · rw [List.map_map]
    have : ((fun p : NodeID × Bool => p.1) ∘ fun i => (i, (st.remainingNodes.getD i default).2))
        = id := by funext i; rfl
    rw [this, List.map_id]
    exact List.nodup_range _
  · intro p hp
    obtain ⟨i, hi, rfl⟩ := List.mem_map.1 hp
    have := List.mem_range.1 hi
    show i < numberOfNodes
    omega

theorem round_idsOK (numberOfNodes : Nat) (st : RunState) (h : IdsOK numberOfNodes st)
    (hlen : st.remainingNodes.length ≤ numberOfNodes) :
    IdsOK numberOfNodes (round numberOfNodes st) := by
  have hp : IdsOK numberOfNodes (preRound numberOfNodes st) := by
    unfold preRound
    split_ifs
    · exact flush_idsOK _ _ h hlen
    · exact h
  rw [round_eq]
  generalize preRound numberOfNodes st = s at hp
  unfold IdsOK
  simp only
  constructor
  · have hsub : List.Sublist (((markIndependent s).filter (fun p => !p.2)).map (fun p => p.1))
        ((markIndependent s).map (fun p => p.1)) := (List.filter_sublist _).map _
    have hm : (markIndependent s).map (fun p => p.1) = s.remainingNodes.map (fun p => p.1) := by
      unfold markIndependent
      rw [List.map_map]
      rfl
    rw [hm] at hsub
    exact hp.1.sublist hsub
  · intro p hpm
    obtain ⟨⟨q, hq, hqp⟩, _⟩ := mem_remaining_after hpm
    rw [← hqp]
    exact hp.2 q hq

theorem round_length_le (numberOfNodes : Nat) (st : RunState) :
    (round numberOfNodes st).remainingNodes.length ≤ st.remainingNodes.length := by
  have hp : (preRound numberOfNodes st).remainingNodes.length = st.remainingNodes.length := by
    unfold preRound
    split_ifs
    · rw [flush_eq]
      simp only
      exact (flushMaps_inv numberOfNodes st).len4
    · rfl
  rw [round_eq, ← hp]
  simp only
  exact le_trans (List.length_filter_le _ _) (by simp [markIndependent])

theorem afterRounds_idsOK (g : _DynamicGraph) (shuffled : List NodeID)
    (hperm : shuffled.Perm (List.range g.GetNumberOfNodes)) (k : Nat) :
    IdsOK g.GetNumberOfNodes (afterRounds g shuffled k)
      ∧ (afterRounds g shuffled k).remainingNodes.length ≤ g.GetNumberOfNodes := by
  induction k with
  | zero =>
    have hmap : (shuffled.map (fun x => ((x, false) : NodeID × Bool))).map (fun p => p.1) = shuffled := by
      rw [List.map_map]
      exact List.map_id _
    refine ⟨⟨?_, ?_⟩, ?_⟩
    · show ((shuffled.map (fun x => ((x, false) : NodeID × Bool))).map (fun p => p.1)).Nodup
      rw [hmap]
      exact hperm.nodup_iff.2 (List.nodup_range _)
    · intro p hp
      have hp' : p ∈ shuffled.map (fun x => ((x, false) : NodeID × Bool)) := hp
      obtain ⟨x, hx, rfl⟩ := List.mem_map.1 hp'
      exact List.mem_range.1 (hperm.subset hx)
    · show (shuffled.map (fun x => ((x, false) : NodeID × Bool))).length ≤ g.GetNumberOfNodes
      rw [List.length_map, hperm.length_eq, List.length_range]
  | succ k ih =>
    unfold afterRounds at ih ⊢
    rw [Function.iterate_succ_apply']
    exact ⟨round_idsOK _ _ ih.1 ih.2, le_trans (round_length_le _ _) ih.2⟩

end Contractor

namespace Contractor

theorem getD_fst_inj (l : List (NodeID × Bool)) (hnd : (l.map (fun p => p.1)).Nodup)
    (i j : Nat) (hi : i < l.length) (hj : j < l.length)
    (h : (l.getD i default).1 = (l.getD j default).1) : i = j := by
  have hi' : i < (l.map (fun p => p.1)).length := by simpa using hi
  have hj' : j < (l.map (fun p => p.1)).length := by simpa using hj
  apply (@List.Nodup.getElem_inj_iff _ _ hnd i hi' j hj').1
  simp only [List.getElem_map]
  simpa [List.getD_eq_getElem?_getD, List.getElem?_eq_getElem hi, List.getElem?_eq_getElem hj] using h

theorem flushMaps_spec (numberOfNodes : Nat) (st : RunState) (hids : IdsOK numberOfNodes st) :
    (∀ i j, i < st.remainingNodes.length → j < st.remainingNodes.length →
        (flushMaps numberOfNodes st).1.getD i 0 = (flushMaps numberOfNodes st).1.getD j 0 → i = j)
      ∧ (∀ i, i < st.remainingNodes.length →
          (flushMaps numberOfNodes st).1.getD i 0 = (st.remainingNodes.getD i default).1
          ∧ (flushMaps numberOfNodes st).2.1.getD ((flushMaps numberOfNodes st).1.getD i 0) 0 = i
          ∧ (flushMaps numberOfNodes st).2.2.1.getD i 0
              = st.nodePriority.getD ((flushMaps numberOfNodes st).1.getD i 0) 0)
      ∧ (∀ o, o < numberOfNodes → (∀ p ∈ st.remainingNodes, p.1 ≠ o) →
          (flushMaps numberOfNodes st).2.1.getD o 0 = UINT_MAX)
      ∧ (flushMaps numberOfNodes st).2.2.2.map (fun p => p.1) = List.range st.remainingNodes.length := by
  have inv := flushMaps_inv numberOfNodes st
  refine ⟨?_, ?_, ?_, ?_⟩
  · intro i j hi hj h
    rw [inv.old i hi, inv.old j hj] at h
    exact getD_fst_inj _ hids.1 i j hi hj h
  · intro i hi
    refine ⟨inv.old i hi, ?_, ?_⟩
    · rw [inv.old i hi]
      apply inv.newHit i hi
      · rw [List.length_replicate]
        exact hids.2 _ (getD_mem _ _ _ hi)
      · intro j hj hij heq
        have := getD_fst_inj _ hids.1 j i hj hi heq
        omega
    · rw [inv.prio i hi, inv.old i hi]
  · intro o ho hno
    rw [inv.newMiss o (fun i hi => hno _ (getD_mem _ _ _ hi))]
    simp [List.getD_eq_getElem?_getD, List.getElem?_replicate, ho]
  · rw [flushMaps_remaining, List.map_map]
    exact List.map_id _

end Contractor

namespace Contractor

theorem independentOver_iff (priorities : List ℚ) (nodeData : List _PriorityData) (node : NodeID) :
    ∀ edges : List _Edge, independentOver priorities nodeData node edges = true
      ↔ ∀ e ∈ edges, Beats priorities nodeData node e.target := by
  intro edges
  induction edges with
  | nil => simp [independentOver]
  | cons e rest ih =>
    simp only [independentOver, List.mem_cons, forall_eq_or_imp]
    by_cases h1 : priorities.getD node 0 > priorities.getD e.target 0
    · simp only [h1, if_true, Bool.false_eq_true, false_iff]
      intro h
      exact h.1.1 h1
    · simp only [h1, if_false]
      by_cases h2 : (priorities.getD node 0 == priorities.getD e.target 0
          && decide ((nodeData.getD node default).bias < (nodeData.getD e.target default).bias)) = true
      · simp only [h2, if_true, Bool.false_eq_true, false_iff]
        intro h
        apply h.1.2
        simpa [biasOf] using h2
      · have h2' : (priorities.getD node 0 == priorities.getD e.target 0
            && decide ((nodeData.getD node default).bias < (nodeData.getD e.target default).bias)) = false := by
          simpa using h2
        simp only [h2', Bool.false_eq_true, if_false, ih]
        constructor
        · intro h
          refine ⟨⟨h1, ?_⟩, h⟩
          intro hb
          apply h2
          simpa [biasOf] using hb
        · intro h
          exact h.2

theorem IsIndependent_iff (g : _DynamicGraph) (priorities : List ℚ) (nodeData : List _PriorityData)
    (node : NodeID) :
    _IsIndependent g priorities nodeData node = true
      ↔ (∀ m, HasEdge g node m → Beats priorities nodeData node m)
        ∧ (∀ u m, HasEdge g node u → HasEdge g u m → Beats priorities nodeData node m) := by
  unfold _IsIndependent
  by_cases h1 : independentOver priorities nodeData node (g.adj node) = true
  · simp only [h1, Bool.not_true, Bool.false_eq_true, if_false, List.all_eq_true, mem_unique,
      List.mem_insertionSort, List.mem_map]
    rw [independentOver_iff] at h1
    constructor
    · intro h
      refine ⟨fun m ⟨e, he, hm⟩ => hm ▸ h1 e he, ?_⟩
      rintro u m ⟨e, he, rfl⟩ ⟨e2, he2, rfl⟩
      exact (independentOver_iff _ _ _ _).1 (h e.target ⟨e, he, rfl⟩) e2 he2
    · rintro ⟨_, h⟩ u ⟨e, he, rfl⟩
      rw [independentOver_iff]
      intro e2 he2
      exact h e.target e2.target ⟨e, he, rfl⟩ ⟨e2, he2, rfl⟩
  · simp only [h1, Bool.not_false, if_true, Bool.false_eq_true, false_iff]
    intro h
    apply h1
    rw [independentOver_iff]
    intro e he
    exact h.1 e.target ⟨e, he, rfl⟩

theorem beats_antisymm {priorities : List ℚ} {nodeData : List _PriorityData} {a b : NodeID}
    (h1 : Beats priorities nodeData a b) (h2 : Beats priorities nodeData b a) :
    biasOf nodeData a = biasOf nodeData b := by
  obtain ⟨p1, q1⟩ := h1
  obtain ⟨p2, q2⟩ := h2
  have heq : priorities.getD a 0 = priorities.getD b 0 := le_antisymm (not_lt.1 p1) (not_lt.1 p2)
  have r1 : ¬ biasOf nodeData a < biasOf nodeData b := fun h => q1 ⟨heq, h⟩
  have r2 : ¬ biasOf nodeData b < biasOf nodeData a := fun h => q2 ⟨heq.symm, h⟩
  omega

end Contractor

namespace Contractor

open BinaryHeap

theorem relaxStep_sz {s : NodeID} {h : _Heap} (d hop : Int) (ed : _Edge) (hs : SourceZero s h) :
    SourceZero s (relaxStep d hop h ed) := by
  obtain ⟨hnd, e, he, hes, hew⟩ := hs
  rcases relaxStep_cases d hop h ed with h0 | ⟨_, hnew, h1⟩ | ⟨_, _, hlt, h2⟩
  · rw [h0]; exact ⟨hnd, e, he, hes, hew⟩
  · rw [h1]
    refine ⟨?_, e, List.mem_cons_of_mem _ he, hes, hew⟩
    rw [List.map_cons, List.nodup_cons]
    refine ⟨?_, hnd⟩
    intro hmem
    obtain ⟨e', he', hn⟩ := List.mem_map.1 hmem
    exact hnew e' he' hn
  · rw [h2]
    refine ⟨by rw [map_node_lowerKey]; exact hnd, _, List.mem_map_of_mem _ he,
      by rw [lowerKey_node]; exact hes, ?_⟩
    by_cases hn : e.node = ed.target
    · rw [lowerKey_weight_of_eq hn]
      have hk : h.GetKey ed.target = e.weight := by rw [← hn]; exact GetKey_of_mem hnd he
      omega
    · rw [lowerKey_weight_of_ne hn]; exact hew

theorem relaxEdges_sz {s : NodeID} (d hop : Int) (edges : List _Edge) :
    ∀ h : _Heap, SourceZero s h → SourceZero s (relaxEdges d hop h edges) := by
  induction edges with
  | nil => intro h hs; exact hs
  | cons ed rest ih =>
    intro h hs
    exact ih _ (relaxStep_sz d hop ed hs)

theorem markRemoved_sz {s : NodeID} {h : _Heap} (x : NodeID) (hs : SourceZero s h) :
    SourceZero s (h.map (markRemoved x)) := by
  obtain ⟨hnd, e, he, hes, hew⟩ := hs
  exact ⟨by rw [map_node_markRemoved]; exact hnd, _, List.mem_map_of_mem _ he,
    by rw [markRemoved_node]; exact hes, by rw [markRemoved_weight]; exact hew⟩

theorem dijkstraLoop_sz (g : _DynamicGraph) (s : NodeID) (maxDistance : Int) (numTargets : Nat)
    (maxNodes hopLimit : Int) :
    ∀ (fuel : Nat) (nodes : Int) (tf : Nat) (h : _Heap), SourceZero s h →
      SourceZero s (dijkstraLoop g maxDistance numTargets maxNodes hopLimit fuel nodes tf h) := by
  intro fuel
  induction fuel with
  | zero => intro nodes tf h hp; exact hp
  | succ fuel ih =>
    intro nodes tf h hp
    rw [dijkstraLoop]
    by_cases hs : h.Size > 0
    · obtain ⟨m, hm⟩ := Size_pos_minNode hs
      have hp1 := markRemoved_sz m.node hp
      simp only [hs, if_true, DeleteMin_of_minNode hm]
      split_ifs <;>
        first
        | exact hp1
        | exact ih _ _ _ hp1
        | exact ih _ _ _ (relaxEdges_sz _ _ _ _ hp1)
    · simp only [hs, if_false]
      exact hp

theorem seedStep_sz {s : NodeID} (inData : _EdgeBasedContractorEdgeData) (st : _Heap × Int × Nat)
    (ed : _Edge) (hs : SourceZero s st.1) : SourceZero s (seedStep inData st ed).1 := by
  obtain ⟨hnd, e, he, hes, hew⟩ := hs
  rcases seedStep_cases inData st ed with ⟨_, h0⟩ | ⟨_, hnew, h1⟩ | ⟨_, _, h2⟩
  · rw [h0]; exact ⟨hnd, e, he, hes, hew⟩
  · rw [h1]
    refine ⟨?_, e, List.mem_cons_of_mem _ he, hes, hew⟩
    simp only [List.map_cons, List.nodup_cons]
    refine ⟨?_, hnd⟩
    intro hmem
    obtain ⟨e', he', hn⟩ := List.mem_map.1 hmem
    exact hnew e' he' hn
  · rw [h2]
    simp only
    split_ifs with hlt
    · refine ⟨by rw [map_node_setKey]; exact hnd, _, List.mem_map_of_mem _ he,
        by rw [setKey_node]; exact hes, ?_⟩
      by_cases hn : e.node = ed.target
      · rw [setKey_weight_of_eq hn]
        have hk : st.1.GetKey ed.target = e.weight := by rw [← hn]; exact GetKey_of_mem hnd he
        omega
      · rw [setKey_weight_of_ne hn]; exact hew
    · exact ⟨hnd, e, he, hes, hew⟩

theorem seedHeap_sz (g : _DynamicGraph) (node : NodeID) (inEdge : _Edge) :
    SourceZero inEdge.target (seedHeap g node inEdge).1 := by
  unfold seedHeap seedTargets
  simp only
  apply foldl_invariant (fun st : _Heap × Int × Nat => SourceZero inEdge.target st.1)
    (seedStep inEdge.data) (fun st ed hs => seedStep_sz inEdge.data st ed hs) (g.adj node)
  simp only
  split_ifs with hne
  · refine ⟨?_, ⟨inEdge.target, 0, _HeapData.init, true⟩, by simp [BinaryHeap.Insert, BinaryHeap.Clear],
      rfl, le_refl _⟩
    simp only [BinaryHeap.Insert, BinaryHeap.Clear, List.map_cons, List.map_nil, List.nodup_cons,
      List.mem_singleton, List.not_mem_nil, not_false_eq_true, List.nodup_nil, and_true]
    simpa using hne
  · exact ⟨by simp [BinaryHeap.Insert, BinaryHeap.Clear],
      ⟨inEdge.target, 0, _HeapData.init, true⟩, by simp [BinaryHeap.Insert, BinaryHeap.Clear],
      rfl, le_refl _⟩

theorem witnessSearch_sz (Simulate : Bool) (g : _DynamicGraph) (n : NodeID) (inEdge : _Edge) :
    SourceZero inEdge.target (witnessSearch Simulate g n inEdge) := by
  rw [witnessSearch_eq]
  unfold _Dijkstra
  exact dijkstraLoop_sz _ _ _ _ _ _ _ _ _ _ (seedHeap_sz g n inEdge)

theorem required_ne {g : _DynamicGraph} {n : NodeID} {inEdge outEdge : _Edge}
    (hreq : shortcutRequired g n inEdge outEdge = true)
    (hpos : 0 < inEdge.data.distance + outEdge.data.distance) :
    inEdge.target ≠ outEdge.target := by
  intro heq
  obtain ⟨_, _, hle⟩ := shortcutRequired_iff.1 hreq
  obtain ⟨hnd, e, he, hes, hew⟩ := witnessSearch_sz false g n inEdge
  have hk : (witnessSearch false g n inEdge).GetKey outEdge.target = e.weight := by
    rw [← heq, ← hes]; exact GetKey_of_mem hnd he
  rw [hk] at hle
  have : (0 : Int) < ((inEdge.data.distance + outEdge.data.distance : Nat) : Int) := by
    exact_mod_cast hpos
  omega

end Contractor

namespace Contractor

theorem Contract_buffer_step (g : _DynamicGraph) (P : NodeID → Prop) (buffer : List _ImportEdge)
    (x : NodeID) (stats : _ContractionInformation) (hx : P x) (hb : BufferOK g P buffer) :
    BufferOK g P (_Contract false g buffer x stats).1 := by
  obtain ⟨htake, hback, hcov⟩ := Contract_false_spec g buffer x stats
  generalize (_Contract false g buffer x stats).1 = B' at htake hback hcov
  have hsplit : ∀ e, e ∈ B' ↔ e ∈ buffer ∨ e ∈ B'.drop buffer.length := by
    intro e
    conv_lhs => rw [← List.take_append_drop buffer.length B']
    rw [List.mem_append, htake]
  have hreal : ∀ r ∈ pushedPairs g x, ∃ inEdge ∈ g.adj x, ∃ outEdge ∈ g.adj x,
      shortcutRequired g x inEdge outEdge = true
      ∧ ((r.source = inEdge.target ∧ r.target = outEdge.target)
          ∨ (r.source = outEdge.target ∧ r.target = inEdge.target))
      ∧ r.data.distance = inEdge.data.distance + outEdge.data.distance
      ∧ ∃ r' ∈ pushedPairs g x, r'.source = r.target ∧ r'.target = r.source := by
    intro r hr
    obtain ⟨i, hi, o, ho, hreq, hmem⟩ := mem_pushedPairs.1 hr
    refine ⟨i, hi, o, ho, hreq, ?_⟩
    obtain ⟨a, b, hab, a1, a2, b1, b2, a3, b3⟩ : ∃ a b : _ImportEdge, shortcutPair x i o = [a, b]
        ∧ a.source = i.target ∧ a.target = o.target ∧ b.source = o.target ∧ b.target = i.target
        ∧ a.data.distance = i.data.distance + o.data.distance
        ∧ b.data.distance = i.data.distance + o.data.distance :=
      ⟨_, _, rfl, rfl, rfl, rfl, rfl, rfl, rfl⟩
    rw [hab] at hmem
    have ha : a ∈ pushedPairs g x := mem_pushedPairs.2 ⟨i, hi, o, ho, hreq, by rw [hab]; simp⟩
    have hb' : b ∈ pushedPairs g x := mem_pushedPairs.2 ⟨i, hi, o, ho, hreq, by rw [hab]; simp⟩
    simp only [List.mem_cons, List.mem_singleton, List.not_mem_nil, or_false] at hmem
    rcases hmem with rfl | rfl
    · exact ⟨Or.inl ⟨a1, a2⟩, a3, b, hb', by rw [b1, a2], by rw [b2, a1]⟩
    · exact ⟨Or.inr ⟨b1, b2⟩, b3, a, ha, by rw [a1, b2], by rw [a2, b1]⟩
  constructor
  · intro e he
    rcases (hsplit e).1 he with h | h
    · exact hb.1 e h
    · obtain ⟨⟨r, hr, h1, h2, h3, _, _⟩, _, _⟩ := hback e h
      obtain ⟨i, hi, o, ho, hreq, hst, hd, _⟩ := hreal r hr
      exact ⟨x, hx, i, hi, o, ho, hreq, by rw [h1, h2]; exact hst, by rw [h3]; exact hd⟩
  · intro e he
    rcases (hsplit e).1 he with h | h
    · obtain ⟨e', he', h1⟩ := hb.2 e h
      exact ⟨e', (hsplit e').2 (Or.inl he'), h1⟩
    · obtain ⟨⟨r, hr, h1, h2, _, _, _⟩, _, _⟩ := hback e h
      obtain ⟨_, _, _, _, _, _, _, r', hr', hs', ht'⟩ := hreal r hr
      obtain ⟨e', he', c1, c2, _⟩ := hcov r' hr'
      exact ⟨e', (hsplit e').2 (Or.inr he'), by rw [c1, hs', h2], by rw [c2, ht', h1]⟩

theorem contractAll_buffer (st : RunState) :
    BufferOK st.graph (fun x => x ∈ independentSet st) (contractAll st).1 := by
  unfold contractAll
  suffices h : ∀ (l : List NodeID) (acc : List _ImportEdge × List ℚ),
      (∀ x ∈ l, x ∈ independentSet st) →
      BufferOK st.graph (fun x => x ∈ independentSet st) acc.1 →
      BufferOK st.graph (fun x => x ∈ independentSet st)
        (l.foldl (fun (acc : List _ImportEdge × List ℚ) x =>
          ((_Contract false st.graph acc.1 x default).1, acc.2.set x (-1))) acc).1 from
    h _ _ (fun x hx => hx) ⟨fun e he => absurd he (List.not_mem_nil _),
      fun e he => absurd he (List.not_mem_nil _)⟩
  intro l
  induction l with
  | nil => intro acc _ h; exact h
  | cons a r ih =>
    intro acc hl h
    rw [List.foldl_cons]
    apply ih _ (fun x hx => hl x (List.mem_cons_of_mem _ hx))
    exact Contract_buffer_step _ _ _ _ _ (hl a (List.mem_cons_self _ _)) h

end Contractor

namespace Contractor

theorem independent_apart {g : _DynamicGraph} {R : NodeID → Prop} {priorities : List ℚ}
    {nodeData : List _PriorityData} (hg : GraphOK g R)
    (hbias : ∀ a b, R a → R b → biasOf nodeData a = biasOf nodeData b → a = b)
    {a b : NodeID} (ha : R a)
    (hia : _IsIndependent g priorities nodeData a = true)
    (hib : _IsIndependent g priorities nodeData b = true) :
    (HasEdge g a b → a = b) ∧ (∀ u, HasEdge g a u → HasEdge g u b → a = b) := by
  rw [IsIndependent_iff] at hia hib
  constructor
  · rintro ⟨e, he, rfl⟩
    have hb : R e.target := hg.closed a ha e he
    exact hbias _ _ ha hb (beats_antisymm (hia.1 _ ⟨e, he, rfl⟩) (hib.1 _ (hg.symm a ha e he)))
  · rintro u ⟨e, he, rfl⟩ ⟨e2, he2, rfl⟩
    have hu : R e.target := hg.closed a ha e he
    have hb : R e2.target := hg.closed _ hu e2 he2
    have h1 := hia.2 _ _ ⟨e, he, rfl⟩ ⟨e2, he2, rfl⟩
    have h2 := hib.2 _ _ (hg.symm _ hu e2 he2) (hg.symm a ha e he)
    exact hbias _ _ ha hb (beats_antisymm h1 h2)

theorem deleteAll_sub (l : List NodeID) :
    ∀ (g : _DynamicGraph) (a : NodeID) (e : _Edge), e ∈ (l.foldl _DeleteIncomingEdges g).adj a →
      e ∈ g.adj a := by
  induction l with
  | nil => intro g a e he; exact he
  | cons x r ih =>
    intro g a e he
    rw [List.foldl_cons] at he
    exact ((DeleteIncomingEdges_adj g x a e).1 (ih _ a e he)).1

theorem deleteAll_keep (l : List NodeID) :
    ∀ (g : _DynamicGraph) (a : NodeID) (e : _Edge), e ∈ g.adj a → e.target ∉ l →
      e ∈ (l.foldl _DeleteIncomingEdges g).adj a := by
  induction l with
  | nil => intro g a e he _; exact he
  | cons x r ih =>
    intro g a e he hnot
    rw [List.foldl_cons]
    apply ih _ a e _ (fun h => hnot (List.mem_cons_of_mem _ h))
    exact (DeleteIncomingEdges_adj g x a e).2 ⟨he, fun _ h => hnot (h ▸ List.mem_cons_self _ _)⟩

theorem deleteAll_gone (l : List NodeID) :
    ∀ (g : _DynamicGraph) (x a : NodeID), x ∈ l →
      (∀ e ∈ g.adj x, e.target ∉ l) → HasEdge g x a → a ≠ x →
      ∀ e ∈ (l.foldl _DeleteIncomingEdges g).adj a, e.target ≠ x := by
  induction l with
  | nil => intro g x a hx; exact absurd hx (List.not_mem_nil _)
  | cons y r ih =>
    intro g x a hx hout hxa hne e he
    rw [List.foldl_cons] at he
    by_cases hxy : x = y
    · subst hxy
      have h1 := deleteAll_sub r _ a e he
      obtain ⟨_, h2⟩ := (DeleteIncomingEdges_adj g x a e).1 h1
      obtain ⟨e0, he0, ht0⟩ := hxa
      exact h2 ((mem_sortedNeighbours g x a).2 ⟨hne, e0, he0, ht0⟩)
    · have hxr : x ∈ r := by
        rcases List.mem_cons.1 hx with h | h
        · exact absurd h hxy
        · exact h
      have hadj : ∀ e', e' ∈ (_DeleteIncomingEdges g y).adj x ↔ e' ∈ g.adj x := by
        intro e'
        rw [DeleteIncomingEdges_adj]
        constructor
        · exact fun h => h.1
        · intro h
          exact ⟨h, fun _ ht => hout e' h (ht ▸ List.mem_cons_self _ _)⟩
      apply ih (_DeleteIncomingEdges g y) x a hxr _ _ hne e he
      · intro e' he'
        exact fun h => hout e' ((hadj e').1 he') (List.mem_cons_of_mem _ h)
      · obtain ⟨e0, he0, ht0⟩ := hxa
        exact ⟨e0, (hadj e0).2 he0, ht0⟩

end Contractor

namespace Contractor

theorem buffer_endpoints {s : RunState} (hg : GraphOK s.graph (Remaining s))
    (hbias : ∀ a b, Remaining s a → Remaining s b →
      biasOf s.nodeData a = biasOf s.nodeData b → a = b)
    {edge : _ImportEdge} (he : edge ∈ (contractAll s).1) :
    Remaining s edge.source ∧ edge.source ∉ independentSet s
      ∧ Remaining s edge.target ∧ edge.target ∉ independentSet s
      ∧ edge.source ≠ edge.target ∧ 0 < edge.data.distance := by
  obtain ⟨x, hx, i, hi, o, ho, hreq, hst, hd⟩ := (contractAll_buffer s).1 edge he
  obtain ⟨hRx, hix⟩ := mem_independentSet hx
  have hout : ∀ e ∈ s.graph.adj x, Remaining s e.target ∧ e.target ∉ independentSet s := by
    intro e he
    refine ⟨hg.closed x hRx e he, fun hy => ?_⟩
    have := (independent_apart hg hbias hRx hix (mem_independentSet hy).2).1 ⟨e, he, rfl⟩
    exact hg.noLoop x hRx e he this.symm
  have hne := required_ne hreq (by have := hg.pos x hRx i hi; omega)
  have hpos : 0 < edge.data.distance := by rw [hd]; have := hg.pos x hRx i hi; omega
  rcases hst with ⟨h1, h2⟩ | ⟨h1, h2⟩
  · rw [h1, h2]
    exact ⟨(hout i hi).1, (hout i hi).2, (hout o ho).1, (hout o ho).2, hne, hpos⟩
  · rw [h1, h2]
    exact ⟨(hout o ho).1, (hout o ho).2, (hout i hi).1, (hout i hi).2, hne.symm, hpos⟩

theorem roundGraph_ok (s : RunState) (hg : GraphOK s.graph (Remaining s))
    (hbias : ∀ a b, Remaining s a → Remaining s b →
      biasOf s.nodeData a = biasOf s.nodeData b → a = b) :
    GraphOK (roundGraph s) (fun x => Remaining s x ∧ x ∉ independentSet s) := by
  have hIout : ∀ x ∈ independentSet s, ∀ e ∈ s.graph.adj x, e.target ∉ independentSet s := by
    intro x hx e he hy
    obtain ⟨hRx, hix⟩ := mem_independentSet hx
    have := (independent_apart hg hbias hRx hix (mem_independentSet hy).2).1 ⟨e, he, rfl⟩
    exact hg.noLoop x hRx e he this.symm
  have hold : ∀ a, Remaining s a → a ∉ independentSet s →
      ∀ e ∈ ((independentSet s).foldl _DeleteIncomingEdges s.graph).adj a,
        e ∈ s.graph.adj a ∧ e.target ∉ independentSet s := by
    intro a ha hna e he
    have he0 := deleteAll_sub _ _ a e he
    refine ⟨he0, fun hy => ?_⟩
    have hne : a ≠ e.target := fun h => hna (h ▸ hy)
    exact deleteAll_gone _ s.graph e.target a hy (hIout _ hy) (hg.symm a ha e he0) hne e he rfl
  have hcase : ∀ a (e : _Edge), e ∈ (roundGraph s).adj a →
      e ∈ ((independentSet s).foldl _DeleteIncomingEdges s.graph).adj a
      ∨ ∃ edge ∈ (contractAll s).1, a = edge.source ∧ e.target = edge.target
          ∧ e.data.distance = edge.data.distance := by
    intro a e he
    rcases insertNewEdges_sound _ _ a e he with h | ⟨edge, hedge, h1, h2, _, _, h5⟩
    · exact Or.inl h
    · exact Or.inr ⟨edge, (List.mem_insertionSort _).1 hedge, h1, h2, h5⟩
  refine ⟨?_, ?_, ?_, ?_⟩
  · rintro a ⟨ha, hna⟩ e he
    rcases hcase a e he with h | ⟨edge, hedge, _, h2, _⟩
    · obtain ⟨h1, h2⟩ := hold a ha hna e h
      exact ⟨hg.closed a ha e h1, h2⟩
    · obtain ⟨_, _, h3, h4, _, _⟩ := buffer_endpoints hg hbias hedge
      rw [h2]; exact ⟨h3, h4⟩
  · rintro a ⟨ha, hna⟩ e he
    rcases hcase a e he with h | ⟨edge, hedge, h1, h2, _⟩
    · obtain ⟨h1, _⟩ := hold a ha hna e h
      obtain ⟨e2, he2, ht2⟩ := hg.symm a ha e h1
      have hk := deleteAll_keep (independentSet s) s.graph e.target e2 he2 (by rw [ht2]; exact hna)
      obtain ⟨e', he', ht', _⟩ := insertNewEdges_mono (sortEdges (contractAll s).1) _ _ e2 hk
      exact ⟨e', he', by rw [ht', ht2]⟩
    · obtain ⟨edge', hedge', hs', ht'⟩ := (contractAll_buffer s).2 edge hedge
      obtain ⟨e', he', hte', _⟩ := insertNewEdges_present (sortEdges (contractAll s).1)
        ((independentSet s).foldl _DeleteIncomingEdges s.graph) edge'
        ((List.mem_insertionSort _).2 hedge')
      rw [hs', ← h2] at he'
      exact ⟨e', he', by rw [hte', ht', h1]⟩
  · rintro a ⟨ha, hna⟩ e he
    rcases hcase a e he with h | ⟨edge, hedge, h1, h2, _⟩
    · exact hg.noLoop a ha e (hold a ha hna e h).1
    · obtain ⟨_, _, _, _, h5, _⟩ := buffer_endpoints hg hbias hedge
      rw [h1, h2]; exact fun h => h5 h.symm
  · rintro a ⟨ha, hna⟩ e he
    rcases hcase a e he with h | ⟨edge, hedge, _, _, h3⟩
    · exact hg.pos a ha e (hold a ha hna e h).1
    · obtain ⟨_, _, _, _, _, h6⟩ := buffer_endpoints hg hbias hedge
      rw [h3]; exact h6

end Contractor

namespace Contractor

theorem moveEdges_eq (g : _DynamicGraph) (m : List NodeID) (st : _DynamicGraph × List _ImportEdge) :
    moveEdges g m st
      = (List.range g.GetNumberOfNodes).foldl (fun st i => (g.adj i).foldl (moveStep m i) st) st := rfl

theorem mem_InsertEdge_adj (g : _DynamicGraph) (src dst : NodeID) (data : _EdgeBasedContractorEdgeData)
    (j : NodeID) (e : _Edge) :
    e ∈ (g.InsertEdge src dst data).adj j ↔ e ∈ g.adj j ∨ (j = src ∧ e = ⟨dst, data⟩) := by
  unfold DynamicGraph.InsertEdge
  simp only
  by_cases h : j = src
  · subst h
    simp [Function.update_same]
  · rw [Function.update_noteq h]
    simp [h]

theorem moveInner (m : List NodeID) (i : NodeID) (L : List _Edge) :
    ∀ (st : _DynamicGraph × List _ImportEdge),
      (∀ j e', e' ∈ (L.foldl (moveStep m i) st).1.adj j ↔
          e' ∈ st.1.adj j ∨ (m.getD i 0 ≠ UINT_MAX ∧ m.getD i 0 = j
            ∧ ∃ e ∈ L, e' = renumberedEdge m e))
      ∧ (∀ x, x ∈ (L.foldl (moveStep m i) st).2 ↔
          x ∈ st.2 ∨ (m.getD i 0 = UINT_MAX ∧ ∃ e ∈ L, x = ⟨i, e.target, e.data⟩)) := by
  induction L with
  | nil => intro st; simp
  | cons a r ih =>
    intro st
    rw [List.foldl_cons]
    obtain ⟨h1, h2⟩ := ih (moveStep m i st a)
    by_cases hu : m.getD i 0 = UINT_MAX
    · have hs : moveStep m i st a = (st.1, st.2 ++ [⟨i, a.target, a.data⟩]) := by
        unfold moveStep
        rw [hu]
        simp
      rw [hs] at h1 h2 ⊢
      constructor
      · intro j e'
        rw [h1]
        constructor
        · rintro (h | ⟨c, _⟩)
          · exact Or.inl h
          · exact absurd hu c
        · rintro (h | ⟨c, _⟩)
          · exact Or.inl h
          · exact absurd hu c
      · intro x
        rw [h2]
        constructor
        · rintro (h | ⟨_, e, he, rfl⟩)
          · rcases List.mem_append.1 h with h | h
            · exact Or.inl h
            · exact Or.inr ⟨hu, a, List.mem_cons_self _ _, List.mem_singleton.1 h⟩
          · exact Or.inr ⟨hu, e, List.mem_cons_of_mem _ he, rfl⟩
        · rintro (h | ⟨_, e, he, rfl⟩)
          · exact Or.inl (List.mem_append_left _ h)
          · rcases List.mem_cons.1 he with rfl | he
            · exact Or.inl (List.mem_append_right _ (List.mem_singleton.2 rfl))
            · exact Or.inr ⟨hu, e, he, rfl⟩
    · have hu' : ¬ UINT_MAX = m.getD i 0 := fun h => hu h.symm
      have hs : moveStep m i st a = (st.1.InsertEdge (m.getD i 0) (m.getD a.target 0)
          { a.data with originalViaNodeID := true }, st.2) := by
        unfold moveStep
        rw [if_neg (by simpa using hu')]
      rw [hs] at h1 h2 ⊢
      constructor
      · intro j e'
        rw [h1, mem_InsertEdge_adj]
        constructor
        · rintro ((h | ⟨hj, rfl⟩) | ⟨c1, c2, e, he, rfl⟩)
          · exact Or.inl h
          · exact Or.inr ⟨hu, hj.symm, a, List.mem_cons_self _ _, rfl⟩
          · exact Or.inr ⟨c1, c2, e, List.mem_cons_of_mem _ he, rfl⟩
        · rintro (h | ⟨c1, c2, e, he, rfl⟩)
          · exact Or.inl (Or.inl h)
          · rcases List.mem_cons.1 he with rfl | he
            · exact Or.inl (Or.inr ⟨c2.symm, rfl⟩)
            · exact Or.inr ⟨c1, c2, e, he, rfl⟩
      · intro x
        rw [h2]
        constructor
        · rintro (h | ⟨c, _⟩)
          · exact Or.inl h
          · exact absurd c hu
        · rintro (h | ⟨c, _⟩)
          · exact Or.inl h
          · exact absurd c hu

theorem moveOuter (g : _DynamicGraph) (m : List NodeID) (N : List NodeID) :
    ∀ (st : _DynamicGraph × List _ImportEdge),
      (∀ j e', e' ∈ (N.foldl (fun st i => (g.adj i).foldl (moveStep m i) st) st).1.adj j ↔
          e' ∈ st.1.adj j ∨ ∃ i ∈ N, m.getD i 0 ≠ UINT_MAX ∧ m.getD i 0 = j
            ∧ ∃ e ∈ g.adj i, e' = renumberedEdge m e)
      ∧ (∀ x, x ∈ (N.foldl (fun st i => (g.adj i).foldl (moveStep m i) st) st).2 ↔
          x ∈ st.2 ∨ ∃ i ∈ N, m.getD i 0 = UINT_MAX ∧ ∃ e ∈ g.adj i, x = ⟨i, e.target, e.data⟩) := by
  induction N with
  | nil => intro st; simp
  | cons a r ih =>
    intro st
    rw [List.foldl_cons]
    obtain ⟨h1, h2⟩ := ih ((g.adj a).foldl (moveStep m a) st)
    obtain ⟨k1, k2⟩ := moveInner m a (g.adj a) st
    constructor
    · intro j e'
      rw [h1, k1]
      simp only [List.mem_cons]
      constructor
      · rintro ((h | ⟨c1, c2, c3⟩) | ⟨i, hi, c⟩)
        · exact Or.inl h
        · exact Or.inr ⟨a, Or.inl rfl, c1, c2, c3⟩
        · exact Or.inr ⟨i, Or.inr hi, c⟩
      · rintro (h | ⟨i, hi | hi, c⟩)
        · exact Or.inl (Or.inl h)
        · subst hi; exact Or.inl (Or.inr c)
        · exact Or.inr ⟨i, hi, c⟩
    · intro x
      rw [h2, k2]
      simp only [List.mem_cons]
      constructor
      · rintro ((h | ⟨c1, c2⟩) | ⟨i, hi, c⟩)
        · exact Or.inl h
        · exact Or.inr ⟨a, Or.inl rfl, c1, c2⟩
        · exact Or.inr ⟨i, Or.inr hi, c⟩
      · rintro (h | ⟨i, hi | hi, c⟩)
        · exact Or.inl (Or.inl h)
        · subst hi; exact Or.inl (Or.inr c)
        · exact Or.inr ⟨i, hi, c⟩

theorem moveEdges_spec (g : _DynamicGraph) (m : List NodeID) (count : Nat) :
    (∀ j e', e' ∈ (moveEdges g m (DynamicGraph.empty count, [])).1.adj j ↔
        ∃ i, i < g.GetNumberOfNodes ∧ m.getD i 0 ≠ UINT_MAX ∧ m.getD i 0 = j
          ∧ ∃ e ∈ g.adj i, e' = renumberedEdge m e)
    ∧ (∀ x, x ∈ (moveEdges g m (DynamicGraph.empty count, [])).2 ↔
        ∃ i, i < g.GetNumberOfNodes ∧ m.getD i 0 = UINT_MAX
          ∧ ∃ e ∈ g.adj i, x = ⟨i, e.target, e.data⟩) := by
  rw [moveEdges_eq]
  obtain ⟨h1, h2⟩ := moveOuter g m (List.range g.GetNumberOfNodes) (DynamicGraph.empty count, [])
  constructor
  · intro j e'
    rw [h1]
    simp [DynamicGraph.empty, List.mem_range]
  · intro x
    rw [h2]
    simp [List.mem_range]

end Contractor

namespace Contractor

theorem remaining_flush_iff (n : Nat) (st : RunState) (j : NodeID) :
    Remaining (flush n st) j ↔ j < st.remainingNodes.length := by
  unfold Remaining
  rw [flush_eq]
  simp only
  rw [flushMaps_remaining]
  constructor
  · rintro ⟨p, hp, rfl⟩
    obtain ⟨i, hi, rfl⟩ := List.mem_map.1 hp
    exact List.mem_range.1 hi
  · intro h
    exact ⟨(j, (st.remainingNodes.getD j default).2),
      List.mem_map.2 ⟨j, List.mem_range.2 h, rfl⟩, rfl⟩

theorem moveEdges_numNodes (g : _DynamicGraph) (m : List NodeID) (count : Nat) :
    (moveEdges g m (DynamicGraph.empty count, [])).1.GetNumberOfNodes = count := by
  rw [moveEdges_eq]
  apply foldl_invariant (fun st : _DynamicGraph × List _ImportEdge => st.1.GetNumberOfNodes = count)
  · intro st i h
    apply foldl_invariant (fun st : _DynamicGraph × List _ImportEdge => st.1.GetNumberOfNodes = count)
    · intro st e h
      unfold moveStep
      split_ifs
      · exact h
      · exact h
    · exact h
  · rfl

theorem flush_runInv (n : Nat) (hn : n ≤ UINT_MAX) (st : RunState) (h : RunInv n st) :
    RunInv n (flush n st) := by
  have hspec := flushMaps_spec n st h.ids
  obtain ⟨_, hmap, hmiss, _⟩ := hspec
  have hmv := moveEdges_spec st.graph (flushMaps n st).2.1 st.remainingNodes.length
  have hlen4 := (flushMaps_inv n st).len4
  -- every remaining node is the old id of a new id
  have hR : ∀ o, Remaining st o → ∃ i, i < st.remainingNodes.length
      ∧ (flushMaps n st).1.getD i 0 = o ∧ (flushMaps n st).2.1.getD o 0 = i := by
    rintro o ⟨p, hp, rfl⟩
    obtain ⟨i, hi, hpi⟩ := mem_getD_of_mem _ default p hp
    obtain ⟨h1, h2, _⟩ := hmap i hi
    refine ⟨i, hi, by rw [h1, hpi], ?_⟩
    rw [← hpi, ← h1]; exact h2
  have hRof : ∀ o, o < n → (flushMaps n st).2.1.getD o 0 ≠ UINT_MAX → Remaining st o := by
    intro o ho hne
    by_contra hnot
    exact hne (hmiss o ho (fun p hp hpo => hnot ⟨p, hp, hpo⟩))
  have hgraph : GraphOK (flush n st).graph (Remaining (flush n st)) := by
    have hadj : ∀ j e', e' ∈ (flush n st).graph.adj j ↔
        ∃ i, i < st.graph.GetNumberOfNodes ∧ (flushMaps n st).2.1.getD i 0 ≠ UINT_MAX
          ∧ (flushMaps n st).2.1.getD i 0 = j
          ∧ ∃ e ∈ st.graph.adj i, e' = renumberedEdge (flushMaps n st).2.1 e := by
      intro j e'
      rw [flush_eq]
      exact hmv.1 j e'
    refine ⟨?_, ?_, ?_, ?_⟩
    · intro j _ e' he'
      obtain ⟨i, hi, hne, _, e, he, rfl⟩ := (hadj j e').1 he'
      have hRi := hRof i (lt_of_lt_of_le hi h.nodesLe) hne
      obtain ⟨i', hi', _, hnew⟩ := hR _ (h.graph.closed i hRi e he)
      rw [remaining_flush_iff]
      show (flushMaps n st).2.1.getD e.target 0 < st.remainingNodes.length
      rw [hnew]; exact hi'
    · intro j _ e' he'
      obtain ⟨i, hi, hne, hij, e, he, rfl⟩ := (hadj j e').1 he'
      have hRi := hRof i (lt_of_lt_of_le hi h.nodesLe) hne
      have hRt := h.graph.closed i hRi e he
      obtain ⟨e2, he2, ht2⟩ := h.graph.symm i hRi e he
      obtain ⟨i', hi', _, hnew⟩ := hR _ hRt
      refine ⟨renumberedEdge (flushMaps n st).2.1 e2, ?_, ?_⟩
      · apply (hadj _ _).2
        refine ⟨e.target, h.inGraph _ hRt, ?_, rfl, e2, he2, rfl⟩
        rw [hnew]
        have : i' < UINT_MAX := lt_of_lt_of_le (lt_of_lt_of_le hi' h.len) hn
        exact ne_of_lt this
      · show (flushMaps n st).2.1.getD e2.target 0 = j
        rw [ht2, hij]
    · intro j _ e' he'
      obtain ⟨i, hi, hne, hij, e, he, rfl⟩ := (hadj j e').1 he'
      have hRi := hRof i (lt_of_lt_of_le hi h.nodesLe) hne
      have hRt := h.graph.closed i hRi e he
      obtain ⟨a, _, ha1, ha2⟩ := hR _ hRi
      obtain ⟨b, _, hb1, hb2⟩ := hR _ hRt
      show (flushMaps n st).2.1.getD e.target 0 ≠ j
      rw [← hij, ha2, hb2]
      intro hab
      apply h.graph.noLoop i hRi e he
      rw [← hb1, ← ha1, hab]
    · intro j _ e' he'
      obtain ⟨i, hi, hne, hij, e, he, rfl⟩ := (hadj j e').1 he'
      have hRi := hRof i (lt_of_lt_of_le hi h.nodesLe) hne
      exact h.graph.pos i hRi e he
  have hnum : (flush n st).graph.GetNumberOfNodes = st.remainingNodes.length := by
    rw [flush_eq]
    exact moveEdges_numNodes _ _ _
  refine ⟨flush_idsOK n st h.ids h.len, ?_, hgraph, ?_, ?_, ?_, ?_⟩
  · rw [flush_eq]; simp only; rw [hlen4]; exact h.len
  · rw [flush_eq]; exact h.bias
  · rw [flush_eq]; simp only; rw [hlen4]; exact h.count
  · rw [hnum]; exact h.len
  · intro x hx
    rw [hnum]
    exact (remaining_flush_iff n st x).1 hx

end Contractor

namespace Contractor

theorem remaining_round_iff (s : RunState) (x : NodeID) :
    (∃ p ∈ (markIndependent s).filter (fun p => !p.2), p.1 = x)
      ↔ Remaining s x ∧ x ∉ independentSet s := by
  constructor
  · rintro ⟨p, hp, rfl⟩
    obtain ⟨hR, hind⟩ := mem_remaining_after hp
    refine ⟨hR, fun hx => ?_⟩
    have := (mem_independentSet hx).2
    rw [hind] at this
    exact absurd this (by simp)
  · rintro ⟨⟨q, hq, rfl⟩, hnot⟩
    refine ⟨(q.1, _IsIndependent s.graph s.nodePriority s.nodeData q.1), ?_, rfl⟩
    apply List.mem_filter.2
    refine ⟨List.mem_map.2 ⟨q, hq, rfl⟩, ?_⟩
    simp only [Bool.not_eq_true', ]
    by_contra hne
    have hind : _IsIndependent s.graph s.nodePriority s.nodeData q.1 = true := by
      simpa using hne
    apply hnot
    exact List.mem_map.2 ⟨(q.1, _IsIndependent s.graph s.nodePriority s.nodeData q.1),
      List.mem_filter.2 ⟨List.mem_map.2 ⟨q, hq, rfl⟩, hind⟩, rfl⟩

theorem GraphOK_congr {g : _DynamicGraph} {R R' : NodeID → Prop} (h : ∀ x, R' x ↔ R x)
    (hg : GraphOK g R) : GraphOK g R' :=
  ⟨fun a ha e he => (h _).2 (hg.closed a ((h a).1 ha) e he),
    fun a ha e he => hg.symm a ((h a).1 ha) e he,
    fun a ha e he => hg.noLoop a ((h a).1 ha) e he,
    fun a ha e he => hg.pos a ((h a).1 ha) e he⟩

theorem insertEdgeStep_numNodes (g : _DynamicGraph) (edge : _ImportEdge) :
    (insertEdgeStep g edge).GetNumberOfNodes = g.GetNumberOfNodes := by
  rcases insertEdgeStep_cases g edge with ⟨h, _⟩ | ⟨_, _, _, _, _, _, _, h⟩ | h <;> rw [h] <;> rfl

theorem insertNewEdges_numNodes (edges : List _ImportEdge) (g : _DynamicGraph) :
    (insertNewEdges g edges).GetNumberOfNodes = g.GetNumberOfNodes := by
  unfold insertNewEdges
  apply foldl_invariant (fun g' : _DynamicGraph => g'.GetNumberOfNodes = g.GetNumberOfNodes)
  · intro g' e h
    rw [insertEdgeStep_numNodes]; exact h
  · rfl

theorem DeleteIncomingEdges_numNodes (g : _DynamicGraph) (x : NodeID) :
    (_DeleteIncomingEdges g x).GetNumberOfNodes = g.GetNumberOfNodes := by
  unfold _DeleteIncomingEdges
  apply foldl_invariant (fun g' : _DynamicGraph => g'.GetNumberOfNodes = g.GetNumberOfNodes)
  · intro g' u h
    exact h
  · rfl

theorem roundGraph_numNodes (s : RunState) :
    (roundGraph s).GetNumberOfNodes = s.graph.GetNumberOfNodes := by
  unfold roundGraph
  rw [insertNewEdges_numNodes]
  apply foldl_invariant (fun g' : _DynamicGraph => g'.GetNumberOfNodes = s.graph.GetNumberOfNodes)
  · intro g' x h
    rw [DeleteIncomingEdges_numNodes]; exact h
  · rfl

theorem UpdateNeighbours_bias (g : _DynamicGraph) (pr : List ℚ) (nd : List _PriorityData)
    (x y : NodeID) : biasOf (_UpdateNeighbours g pr nd x).2 y = biasOf nd y := by
  unfold _UpdateNeighbours
  simp only
  apply foldl_invariant (fun l : List _PriorityData => biasOf l y = biasOf nd y)
  · intro l e h
    split_ifs
    · exact h
    · rw [← h]
      unfold biasOf
      by_cases hy : e.target = y
      · subst hy
        by_cases hlen : e.target < l.length
        · rw [getD_modify_eq _ _ _ _ hlen]
        · rw [List.getD_eq_getElem?_getD, List.getD_eq_getElem?_getD, List.getElem?_modify]
          simp [List.getElem?_eq_none (not_lt.1 hlen)]
      · rw [getD_modify_ne _ _ _ _ _ hy]
  · rfl

theorem updateAll_bias (s : RunState) (y : NodeID) :
    biasOf (updateAll s).2 y = biasOf s.nodeData y := by
  unfold updateAll
  apply foldl_invariant (fun acc : List ℚ × List _PriorityData => biasOf acc.2 y = biasOf s.nodeData y)
    _ _ _ ((contractAll s).2, s.nodeData) rfl
  intro acc x h
  rw [UpdateNeighbours_bias]; exact h

theorem length_filter_add {α : Type} (p : α → Bool) (l : List α) :
    (l.filter p).length + (l.filter (fun a => !p a)).length = l.length := by
  induction l with
  | nil => rfl
  | cons a r ih =>
    cases h : p a <;> simp [List.filter_cons, h] <;> omega

theorem postRound_runInv (n : Nat) (s : RunState) (h : RunInv n s) :
    RunInv n { s with
      graph := roundGraph s
      numberOfContractedNodes := s.numberOfContractedNodes + (independentSet s).length
      remainingNodes := (markIndependent s).filter (fun p => !p.2)
      nodePriority := (updateAll s).1
      nodeData := (updateAll s).2 } := by
  have hbias : ∀ a b, Remaining s a → Remaining s b →
      biasOf s.nodeData a = biasOf s.nodeData b → a = b := by
    rintro a b ⟨p, hp, rfl⟩ ⟨q, hq, rfl⟩ hab
    exact h.bias _ _ (h.ids.2 p hp) (h.ids.2 q hq) hab
  have hlenm : (markIndependent s).length = s.remainingNodes.length := by
    simp [markIndependent]
  refine ⟨?_, ?_, ?_, ?_, ?_, ?_, ?_⟩
  · constructor
    · have hsub : List.Sublist (((markIndependent s).filter (fun p => !p.2)).map (fun p => p.1))
          ((markIndependent s).map (fun p => p.1)) := (List.filter_sublist _).map _
      have hm : (markIndependent s).map (fun p => p.1) = s.remainingNodes.map (fun p => p.1) := by
        unfold markIndependent
        rw [List.map_map]
        rfl
      rw [hm] at hsub
      exact h.ids.1.sublist hsub
    · intro p hpm
      obtain ⟨⟨q, hq, hqp⟩, _⟩ := mem_remaining_after hpm
      rw [← hqp]
      exact h.ids.2 q hq
  · show ((markIndependent s).filter (fun p => !p.2)).length ≤ n
    exact le_trans (List.length_filter_le _ _) (by rw [hlenm]; exact h.len)
  · exact GraphOK_congr (remaining_round_iff s) (roundGraph_ok s h.graph hbias)
  · intro a b ha hb hab
    simp only at hab
    rw [updateAll_bias, updateAll_bias] at hab
    exact h.bias a b ha hb hab
  · show s.numberOfContractedNodes + (independentSet s).length
        + ((markIndependent s).filter (fun p => !p.2)).length = n
    have h1 := length_filter_add (fun p : NodeID × Bool => p.2) (markIndependent s)
    have h2 : (independentSet s).length = ((markIndependent s).filter (fun p => p.2)).length := by
      simp [independentSet]
    have h3 := h.count
    omega
  · show (roundGraph s).GetNumberOfNodes ≤ n
    rw [roundGraph_numNodes]; exact h.nodesLe
  · intro x hx
    show x < (roundGraph s).GetNumberOfNodes
    rw [roundGraph_numNodes]
    exact h.inGraph x ((remaining_round_iff s x).1 hx).1

theorem preRound_runInv (n : Nat) (hn : n ≤ UINT_MAX) (st : RunState) (h : RunInv n st) :
    RunInv n (preRound n st) := by
  unfold preRound
  split_ifs
  · exact flush_runInv n hn st h
  · exact h

theorem round_runInv (n : Nat) (hn : n ≤ UINT_MAX) (st : RunState) (h : RunInv n st) :
    RunInv n (round n st) := by
  rw [round_eq]
  exact postRound_runInv n _ (preRound_runInv n hn st h)

end Contractor

namespace Contractor

theorem getD_nat_inj (l : List NodeID) (hnd : l.Nodup) (i j : Nat) (hi : i < l.length)
    (hj : j < l.length) (h : l.getD i 0 = l.getD j 0) : i = j := by
  apply (@List.Nodup.getElem_inj_iff _ _ hnd i hi j hj).1
  simpa [List.getD_eq_getElem?_getD, List.getElem?_eq_getElem hi, List.getElem?_eq_getElem hj] using h

theorem biasFold_inv (shuffled : List NodeID) (n : Nat) (hnd : shuffled.Nodup)
    (hlen : shuffled.length = n) (hlt : ∀ x ∈ shuffled, x < n) :
    ∀ k, k ≤ n →
      ((List.range k).foldl (fun (nodeData : List _PriorityData) x =>
          nodeData.modify (fun d => { d with bias := x }) (shuffled.getD x 0))
        (List.replicate n ⟨0, 0⟩)).length = n
      ∧ ∀ x, x < k →
          biasOf ((List.range k).foldl (fun (nodeData : List _PriorityData) x =>
            nodeData.modify (fun d => { d with bias := x }) (shuffled.getD x 0))
            (List.replicate n ⟨0, 0⟩)) (shuffled.getD x 0) = x := by
  intro k
  induction k with
  | zero => intro _; exact ⟨by simp, fun x hx => by omega⟩
  | succ k ih =>
    intro hk
    obtain ⟨h1, h2⟩ := ih (by omega)
    rw [List.range_succ, List.foldl_append, List.foldl_cons, List.foldl_nil]
    refine ⟨by rw [List.length_modify]; exact h1, ?_⟩
    intro x hx
    unfold biasOf
    by_cases hxk : x = k
    · subst hxk
      rw [getD_modify_eq _ _ _ _ (by rw [h1]; exact hlt _ (getD_mem _ _ _ (by omega)))]
    · have hne : shuffled.getD k 0 ≠ shuffled.getD x 0 := by
        intro heq
        exact hxk (getD_nat_inj shuffled hnd x k (by omega) (by omega) heq.symm)
      rw [getD_modify_ne _ _ _ _ _ hne]
      exact h2 x (by omega)

theorem initialState_bias (g : _DynamicGraph) (shuffled : List NodeID)
    (hperm : shuffled.Perm (List.range g.GetNumberOfNodes)) :
    ∀ a b, a < g.GetNumberOfNodes → b < g.GetNumberOfNodes →
      biasOf (initialState g shuffled).nodeData a = biasOf (initialState g shuffled).nodeData b →
      a = b := by
  have hnd : shuffled.Nodup := hperm.nodup_iff.2 (List.nodup_range _)
  have hlen : shuffled.length = g.GetNumberOfNodes := by rw [hperm.length_eq, List.length_range]
  have hlt : ∀ x ∈ shuffled, x < g.GetNumberOfNodes := fun x hx => List.mem_range.1 (hperm.subset hx)
  have hdata : (initialState g shuffled).nodeData
      = (List.range g.GetNumberOfNodes).foldl (fun (nodeData : List _PriorityData) x =>
          nodeData.modify (fun d => { d with bias := x }) (shuffled.getD x 0))
        (List.replicate g.GetNumberOfNodes ⟨0, 0⟩) := by
    unfold initialState
    simp only
    congr 1
    funext nodeData x
    congr 1
    simp only [List.getD_eq_getElem?_getD, List.getElem?_map]
    cases shuffled[x]? <;> rfl
  rw [hdata]
  obtain ⟨_, hb⟩ := biasFold_inv shuffled _ hnd hlen hlt _ (le_refl _)
  intro a b ha hb' hab
  obtain ⟨i, hi, hia⟩ := mem_getD_of_mem shuffled 0 a (hperm.symm.subset (List.mem_range.2 ha))
  obtain ⟨j, hj, hjb⟩ := mem_getD_of_mem shuffled 0 b (hperm.symm.subset (List.mem_range.2 hb'))
  rw [← hia, ← hjb] at hab ⊢
  rw [hb i (by omega), hb j (by omega)] at hab
  rw [hab]

theorem remaining_initial_iff (g : _DynamicGraph) (shuffled : List NodeID)
    (hperm : shuffled.Perm (List.range g.GetNumberOfNodes)) (x : NodeID) :
    Remaining (initialState g shuffled) x ↔ x < g.GetNumberOfNodes := by
  have hrem : (initialState g shuffled).remainingNodes
      = shuffled.map (fun x => ((x, false) : NodeID × Bool)) := rfl
  unfold Remaining
  rw [hrem]
  constructor
  · rintro ⟨p, hp, rfl⟩
    obtain ⟨y, hy, rfl⟩ := List.mem_map.1 hp
    exact List.mem_range.1 (hperm.subset hy)
  · intro h
    exact ⟨(x, false), List.mem_map.2 ⟨x, hperm.symm.subset (List.mem_range.2 h), rfl⟩, rfl⟩

theorem initialState_runInv (g : _DynamicGraph) (shuffled : List NodeID)
    (hperm : shuffled.Perm (List.range g.GetNumberOfNodes))
    (hg : GraphOK g (fun x => x < g.GetNumberOfNodes)) :
    RunInv g.GetNumberOfNodes (initialState g shuffled) := by
  have h0 := afterRounds_idsOK g shuffled hperm 0
  refine ⟨h0.1, h0.2, GraphOK_congr (remaining_initial_iff g shuffled hperm) hg,
    initialState_bias g shuffled hperm, ?_, le_refl _, ?_⟩
  · show 0 + (shuffled.map (fun x => ((x, false) : NodeID × Bool))).length = g.GetNumberOfNodes
    rw [List.length_map, hperm.length_eq, List.length_range, Nat.zero_add]
  · intro x hx
    exact (remaining_initial_iff g shuffled hperm x).1 hx

theorem afterRounds_runInv (g : _DynamicGraph) (shuffled : List NodeID)
    (hperm : shuffled.Perm (List.range g.GetNumberOfNodes))
    (hg : GraphOK g (fun x => x < g.GetNumberOfNodes)) (hn : g.GetNumberOfNodes ≤ UINT_MAX)
    (k : Nat) : RunInv g.GetNumberOfNodes (afterRounds g shuffled k) := by
  induction k with
  | zero => exact initialState_runInv g shuffled hperm hg
  | succ k ih =>
    unfold afterRounds at ih ⊢
    rw [Function.iterate_succ_apply']
    exact round_runInv _ hn _ ih

end Contractor

namespace Contractor

open DynamicGraph

theorem preparedEdges_no_loop (NDEBUG uninit : Bool) (inputEdges : List EdgeBasedEdge) :
    ∀ e ∈ preparedEdges NDEBUG uninit inputEdges, e.source ≠ e.target := by
  rw [preparedEdges_eq, reduceList_eq]
  exact groupEmit_no_loop _ (emitRun_key uninit) _ _

theorem minDistance_ne_iff (flag : _ImportEdge → Bool) (run : List _ImportEdge) :
    minDistance flag run ≠ INT_MAX ↔ ∃ c ∈ run, flag c = true ∧ c.data.distance < INT_MAX := by
  constructor
  · intro h
    obtain ⟨c, hc, hf, hd⟩ := minDistance_mem flag run h
    have := minDistance_le flag run
    exact ⟨c, hc, hf, by rw [← hd]; exact lt_of_le_of_ne this h⟩
  · rintro ⟨c, hc, hf, hd⟩
    rw [minDistance, minDistance_fold]
    cases hl : least ((run.filter flag).map (fun e => e.data.distance)) with
    | none =>
      exfalso
      have := (least_eq_none _).1 hl
      have hm : c.data.distance ∈ (run.filter flag).map (fun e => e.data.distance) :=
        List.mem_map.2 ⟨c, List.mem_filter.2 ⟨hc, hf⟩, rfl⟩
      rw [this] at hm
      exact absurd hm (List.not_mem_nil _)
    | some m =>
      have hm : c.data.distance ∈ (run.filter flag).map (fun e => e.data.distance) :=
        List.mem_map.2 ⟨c, List.mem_filter.2 ⟨hc, hf⟩, rfl⟩
      have hle := least_le _ m hl _ hm
      show min m INT_MAX ≠ INT_MAX
      have h1 : min m INT_MAX ≤ m := min_le_left _ _
      exact ne_of_lt (lt_of_le_of_lt (le_trans h1 hle) hd)

theorem emitRun_nonempty_iff (uninit : Bool) (first : _ImportEdge) (run : List _ImportEdge) :
    emitRun uninit first run ≠ []
      ↔ (minDistance (fun e => e.data.forward) run ≠ INT_MAX
          ∨ minDistance (fun e => e.data.backward) run ≠ INT_MAX) := by
  unfold emitRun
  simp only
  generalize minDistance (fun e => e.data.forward) run = d1
  generalize minDistance (fun e => e.data.backward) run = d2
  by_cases e12 : d1 = d2
  · subst e12
    by_cases e1 : d1 = INT_MAX <;> simp [e1]
  · have e12' : ¬ d2 = d1 := fun h => e12 h.symm
    by_cases e1 : d1 = INT_MAX
    · subst e1
      by_cases e2 : d2 = INT_MAX
      · exact absurd e2.symm e12
      · simp [e12, e12', e2]
    · by_cases e2 : d2 = INT_MAX
      · subst e2; simp [e12, e1]
      · simp [e12, e1, e2]

theorem copies_mirror {NDEBUG : Bool} {inputEdges : List EdgeBasedEdge} {c : _ImportEdge}
    (hc : c ∈ directedCopies NDEBUG inputEdges) :
    ∃ c' ∈ directedCopies NDEBUG inputEdges, c'.source = c.target ∧ c'.target = c.source
      ∧ c'.data.forward = c.data.backward ∧ c'.data.backward = c.data.forward
      ∧ c'.data.distance = c.data.distance := by
  rw [directedCopies_eq] at hc ⊢
  rw [List.mem_flatMap] at hc
  obtain ⟨i, hi, hmem⟩ := hc
  split_ifs at hmem with hcond
  · simp at hmem
  · simp only [List.mem_cons, List.mem_singleton, List.not_mem_nil, or_false] at hmem
    rcases hmem with rfl | rfl
    · refine ⟨⟨i.target, i.source, ⟨(max i.weight 1).toNat, 1, i.via, i.nameIDOfTurnTarget,
        i.turnInstruction, false, i.isBackward, i.isForward, false⟩⟩,
        List.mem_flatMap.2 ⟨i, hi, ?_⟩, rfl, rfl, rfl, rfl, rfl⟩
      rw [if_neg hcond]
      exact List.mem_cons_of_mem _ (List.mem_cons_self _ _)
    · refine ⟨⟨i.source, i.target, ⟨(max i.weight 1).toNat, 1, i.via, i.nameIDOfTurnTarget,
        i.turnInstruction, false, i.isForward, i.isBackward, false⟩⟩,
        List.mem_flatMap.2 ⟨i, hi, ?_⟩, rfl, rfl, rfl, rfl, rfl⟩
      rw [if_neg hcond]
      exact List.mem_cons_self _ _

theorem hasEdge_prepared_iff (NDEBUG uninit : Bool) (inputEdges : List EdgeBasedEdge) (a b : Nat)
    (hab : a ≠ b) :
    (∃ e ∈ preparedEdges NDEBUG uninit inputEdges, (e.source : Nat) = a ∧ (e.target : Nat) = b)
      ↔ ∃ c ∈ directedCopies NDEBUG inputEdges, (c.source : Nat) = a ∧ (c.target : Nat) = b
          ∧ (c.data.forward = true ∨ c.data.backward = true) ∧ c.data.distance < INT_MAX := by
  have hfil : (preparedEdges NDEBUG uninit inputEdges).filter (sameKey a b)
      = emitGroup (emitRun uninit) ((directedCopies NDEBUG inputEdges).filter (sameKey a b)) := by
    rw [preparedEdges_eq, reduceList_eq, groupEmit_sorted_filter _ (emitRun_key uninit) a b hab]
  have hleft : (∃ e ∈ preparedEdges NDEBUG uninit inputEdges, (e.source : Nat) = a ∧ (e.target : Nat) = b)
      ↔ (preparedEdges NDEBUG uninit inputEdges).filter (sameKey a b) ≠ [] := by
    rw [Ne, List.filter_eq_nil_iff]
    constructor
    · rintro ⟨e, he, h1, h2⟩ hall
      exact hall e he (sameKey_iff.2 ⟨h1, h2⟩)
    · intro h
      by_contra hne
      apply h
      intro e he hk
      exact hne ⟨e, he, sameKey_iff.1 hk⟩
  rw [hleft, hfil]
  generalize hG : (directedCopies NDEBUG inputEdges).filter (sameKey a b) = G
  have hGmem : ∀ c, c ∈ G ↔ c ∈ directedCopies NDEBUG inputEdges ∧ (c.source : Nat) = a
      ∧ (c.target : Nat) = b := by
    intro c
    rw [← hG, List.mem_filter, sameKey_iff]
  cases G with
  | nil =>
    simp only [emitGroup, ne_eq, not_true_eq_false, false_iff]
    rintro ⟨c, hc, h1, h2, _⟩
    exact List.not_mem_nil c ((hGmem c).2 ⟨hc, h1, h2⟩)
  | cons first rest =>
    simp only [emitGroup]
    rw [emitRun_nonempty_iff, minDistance_ne_iff, minDistance_ne_iff]
    constructor
    · rintro (⟨c, hc, hf, hd⟩ | ⟨c, hc, hf, hd⟩)
      · obtain ⟨h1, h2, h3⟩ := (hGmem c).1 hc
        exact ⟨c, h1, h2, h3, Or.inl hf, hd⟩
      · obtain ⟨h1, h2, h3⟩ := (hGmem c).1 hc
        exact ⟨c, h1, h2, h3, Or.inr hf, hd⟩
    · rintro ⟨c, hc, h1, h2, hf | hf, hd⟩
      · exact Or.inl ⟨c, (hGmem c).2 ⟨hc, h1, h2⟩, hf, hd⟩
      · exact Or.inr ⟨c, (hGmem c).2 ⟨hc, h1, h2⟩, hf, hd⟩

theorem directedCopies_endpoints {NDEBUG : Bool} {inputEdges : List EdgeBasedEdge} {c : _ImportEdge}
    (hc : c ∈ directedCopies NDEBUG inputEdges) :
    ∃ i ∈ inputEdges, (c.source = i.source ∧ c.target = i.target)
      ∨ (c.source = i.target ∧ c.target = i.source) := by
  rw [directedCopies_eq, List.mem_flatMap] at hc
  obtain ⟨i, hi, hmem⟩ := hc
  refine ⟨i, hi, ?_⟩
  split_ifs at hmem
  · simp at hmem
  · simp only [List.mem_cons, List.mem_singleton, List.not_mem_nil, or_false] at hmem
    rcases hmem with rfl | rfl
    · exact Or.inl ⟨rfl, rfl⟩
    · exact Or.inr ⟨rfl, rfl⟩

theorem preparedEdges_real {NDEBUG uninit : Bool} {inputEdges : List EdgeBasedEdge}
    {e : _ImportEdge} (he : e ∈ preparedEdges NDEBUG uninit inputEdges) :
    ∃ c ∈ directedCopies NDEBUG inputEdges, e.source = c.source ∧ e.target = c.target := by
  rw [preparedEdges_eq, reduceList_eq] at he
  obtain ⟨y, hy, h1, h2⟩ := groupEmit_key _ (emitRun_key uninit) _ _ e he
  exact ⟨y, (List.mem_insertionSort _).1 hy, h1, h2⟩

theorem Contractor_graphOK (NDEBUG uninit : Bool) (nodes : Nat) (inputEdges : List EdgeBasedEdge)
    (hin : ∀ i ∈ inputEdges, i.source < nodes ∧ i.target < nodes) :
    GraphOK (Contractor NDEBUG uninit nodes inputEdges)
      (fun x => x < (Contractor NDEBUG uninit nodes inputEdges).GetNumberOfNodes) := by
  have hnum : (Contractor NDEBUG uninit nodes inputEdges).GetNumberOfNodes = nodes := rfl
  have hloop := (preparedEdges_no_loop NDEBUG uninit inputEdges)
  refine ⟨?_, ?_, ?_, ?_⟩
  · intro a _ e he
    rw [hnum]
    obtain ⟨c, hc, _, h2⟩ := preparedEdges_real (mem_adj_ofEdges.1 he)
    obtain ⟨i, hi, h | h⟩ := directedCopies_endpoints hc
    · simp only at h2; rw [h2, h.2]; exact (hin i hi).2
    · simp only at h2; rw [h2, h.2]; exact (hin i hi).1
  · intro a _ e he
    have hmem := mem_adj_ofEdges.1 he
    have hne : a ≠ e.target := hloop _ hmem
    obtain ⟨c, hc, h1, h2, hf, hd⟩ :=
      (hasEdge_prepared_iff NDEBUG uninit inputEdges a e.target hne).1 ⟨_, hmem, rfl, rfl⟩
    obtain ⟨c', hc', k1, k2, k3, k4, k5⟩ := copies_mirror hc
    obtain ⟨e', he', s1, s2⟩ :=
      (hasEdge_prepared_iff NDEBUG uninit inputEdges e.target a (Ne.symm hne)).2
        ⟨c', hc', by rw [k1, h2], by rw [k2, h1], by rw [k3, k4]; exact hf.symm, by rw [k5]; exact hd⟩
    refine ⟨⟨e'.target, e'.data⟩, mem_adj_ofEdges.2 ?_, s2⟩
    have : (⟨e.target, e'.target, e'.data⟩ : _ImportEdge) = e' := by
      cases e'
      simp only at s1
      subst s1
      rfl
    rw [this]; exact he'
  · intro a _ e he
    exact fun h => hloop _ (mem_adj_ofEdges.1 he) h.symm
  · intro a _ e he
    obtain ⟨c, hc, hd⟩ := preparedEdges_distance (mem_adj_ofEdges.1 he)
    obtain ⟨i, _, hi, _⟩ := directedCopies_distance hc
    simp only at hd
    rw [hd, hi]
    omega

end Contractor

namespace Contractor

theorem exists_min_on {α β : Type} [LinearOrder β] (f : α → β) :
    ∀ (l : List α), l ≠ [] → ∃ a ∈ l, ∀ b ∈ l, f a ≤ f b := by
  intro l
  induction l with
  | nil => intro h; exact absurd rfl h
  | cons x r ih =>
    intro _
    by_cases hr : r = []
    · subst hr
      exact ⟨x, List.mem_cons_self _ _, fun b hb => by simp at hb; rw [hb]⟩
    · obtain ⟨a, ha, hmin⟩ := ih hr
      by_cases hxa : f x ≤ f a
      · refine ⟨x, List.mem_cons_self _ _, fun b hb => ?_⟩
        rcases List.mem_cons.1 hb with rfl | hb
        · exact le_refl _
        · exact le_trans hxa (hmin b hb)
      · refine ⟨a, List.mem_cons_of_mem _ ha, fun b hb => ?_⟩
        rcases List.mem_cons.1 hb with rfl | hb
        · exact le_of_lt (not_le.1 hxa)
        · exact hmin b hb

theorem exists_winner (priorities : List ℚ) (nodeData : List _PriorityData) (l : List NodeID)
    (hl : l ≠ []) : ∃ m ∈ l, ∀ b ∈ l, Beats priorities nodeData m b := by
  obtain ⟨a, ha, hmin⟩ := exists_min_on (fun x => priorities.getD x 0) l hl
  have hne : l.filter (fun x => decide (priorities.getD x 0 = priorities.getD a 0)) ≠ [] := by
    intro h
    have : a ∈ l.filter (fun x => decide (priorities.getD x 0 = priorities.getD a 0)) :=
      List.mem_filter.2 ⟨ha, by simp⟩
    rw [h] at this
    exact absurd this (List.not_mem_nil _)
  obtain ⟨m, hm, hmax⟩ := exists_min_on (fun x => -(biasOf nodeData x : Int)) _ hne
  obtain ⟨hm1, hm2⟩ := List.mem_filter.1 hm
  have hpm : priorities.getD m 0 = priorities.getD a 0 := by simpa using hm2
  refine ⟨m, hm1, fun b hb => ⟨?_, ?_⟩⟩
  · rw [hpm]; exact not_lt.2 (hmin b hb)
  · rintro ⟨heq, hlt⟩
    have hb2 : b ∈ l.filter (fun x => decide (priorities.getD x 0 = priorities.getD a 0)) :=
      List.mem_filter.2 ⟨hb, decide_eq_true (by rw [← heq, hpm])⟩
    have := hmax b hb2
    simp only at this
    omega

theorem progress (n : Nat) (s : RunState) (h : RunInv n s) (hne : s.remainingNodes ≠ []) :
    independentSet s ≠ [] := by
  have hl : s.remainingNodes.map (fun p => p.1) ≠ [] := by
    intro h0
    exact hne (List.map_eq_nil_iff.1 h0)
  obtain ⟨m, hm, hwin⟩ := exists_winner s.nodePriority s.nodeData _ hl
  obtain ⟨p, hp, rfl⟩ := List.mem_map.1 hm
  have hR : ∀ b, Remaining s b → Beats s.nodePriority s.nodeData p.1 b := by
    rintro b ⟨q, hq, rfl⟩
    exact hwin q.1 (List.mem_map.2 ⟨q, hq, rfl⟩)
  have hind : _IsIndependent s.graph s.nodePriority s.nodeData p.1 = true := by
    rw [IsIndependent_iff]
    constructor
    · rintro b ⟨e, he, rfl⟩
      exact hR _ (h.graph.closed p.1 ⟨p, hp, rfl⟩ e he)
    · rintro u b ⟨e, he, rfl⟩ ⟨e2, he2, rfl⟩
      exact hR _ (h.graph.closed _ (h.graph.closed p.1 ⟨p, hp, rfl⟩ e he) e2 he2)
  intro hnil
  have : p.1 ∈ independentSet s :=
    List.mem_map.2 ⟨(p.1, _IsIndependent s.graph s.nodePriority s.nodeData p.1),
      List.mem_filter.2 ⟨List.mem_map.2 ⟨p, hp, rfl⟩, hind⟩, rfl⟩
  rw [hnil] at this
  exact absurd this (List.not_mem_nil _)

theorem preRound_counts (n : Nat) (st : RunState) :
    (preRound n st).numberOfContractedNodes = st.numberOfContractedNodes
      ∧ (preRound n st).remainingNodes.length = st.remainingNodes.length := by
  unfold preRound
  split_ifs
  · rw [flush_eq]
    exact ⟨rfl, (flushMaps_inv n st).len4⟩
  · exact ⟨rfl, rfl⟩

theorem round_progress (n : Nat) (hn : n ≤ UINT_MAX) (st : RunState) (h : RunInv n st)
    (hlt : st.numberOfContractedNodes < n) :
    st.numberOfContractedNodes < (round n st).numberOfContractedNodes := by
  have hp := preRound_runInv n hn st h
  obtain ⟨c1, c2⟩ := preRound_counts n st
  have hne : (preRound n st).remainingNodes ≠ [] := by
    intro h0
    have := h.count
    rw [h0] at c2
    simp at c2
    omega
  have hpos : 0 < (independentSet (preRound n st)).length :=
    List.length_pos.2 (progress n _ hp hne)
  rw [round_eq]
  show st.numberOfContractedNodes
    < (preRound n st).numberOfContractedNodes + (independentSet (preRound n st)).length
  omega

theorem runLoop_terminates (n : Nat) (hn : n ≤ UINT_MAX) :
    ∀ (fuel : Nat) (st : RunState), RunInv n st → n - st.numberOfContractedNodes ≤ fuel →
      ∃ st', runLoop n fuel st = some st' ∧ st'.numberOfContractedNodes = n
        ∧ st'.remainingNodes = [] := by
  intro fuel
  induction fuel with
  | zero =>
    intro st h hf
    have hc := h.count
    have : ¬ st.numberOfContractedNodes < n := by omega
    refine ⟨st, by simp [runLoop, this], by omega, ?_⟩
    exact List.length_eq_zero.1 (by omega)
  | succ fuel ih =>
    intro st h hf
    by_cases hlt : st.numberOfContractedNodes < n
    · have hp := round_progress n hn st h hlt
      obtain ⟨st', h1, h2⟩ := ih (round n st) (round_runInv n hn st h) (by omega)
      exact ⟨st', by simp [runLoop, hlt, h1], h2⟩
    · have hc := h.count
      refine ⟨st, by simp [runLoop, hlt], by omega, ?_⟩
      exact List.length_eq_zero.1 (by omega)

end Contractor

namespace Contractor

theorem flushMaps_remaining_iff (n : Nat) (hn : n ≤ UINT_MAX) (st : RunState) (h : RunInv n st)
    (o : NodeID) (ho : o < n) :
    (Remaining st o ↔ (flushMaps n st).2.1.getD o 0 ≠ UINT_MAX)
      ∧ (Remaining st o → (flushMaps n st).2.1.getD o 0 < st.remainingNodes.length) := by
  obtain ⟨_, hmap, hmiss, _⟩ := flushMaps_spec n st h.ids
  have hR : ∀ o, Remaining st o → (flushMaps n st).2.1.getD o 0 < st.remainingNodes.length := by
    rintro o ⟨p, hp, rfl⟩
    obtain ⟨i, hi, hpi⟩ := mem_getD_of_mem _ default p hp
    obtain ⟨h1, h2, _⟩ := hmap i hi
    rw [← hpi, ← h1, h2]; exact hi
  refine ⟨⟨fun hr => ?_, fun hne => ?_⟩, hR o⟩
  · have h1 := hR o hr
    have h2 := h.len
    exact ne_of_lt (lt_of_lt_of_le (lt_of_lt_of_le h1 h2) hn)
  · by_contra hnot
    exact hne (hmiss o ho (fun p hp hpo => hnot ⟨p, hp, hpo⟩))

theorem flush_partition (n : Nat) (hn : n ≤ UINT_MAX) (st : RunState) (h : RunInv n st) :
    (∀ i, i < st.graph.GetNumberOfNodes → ∀ e ∈ st.graph.adj i,
      ((Remaining st i ∧ Remaining st e.target) →
          renumberedEdge (flushMaps n st).2.1 e
              ∈ (flush n st).graph.adj ((flushMaps n st).2.1.getD i 0)
          ∧ (flushMaps n st).2.1.getD i 0 ≠ UINT_MAX
          ∧ (renumberedEdge (flushMaps n st).2.1 e).target ≠ UINT_MAX
          ∧ (⟨i, e.target, e.data⟩ : _ImportEdge) ∉ (flush n st).temporaryEdgeStorage)
      ∧ (¬ (Remaining st i ∧ Remaining st e.target) →
          (⟨i, e.target, e.data⟩ : _ImportEdge) ∈ (flush n st).temporaryEdgeStorage
          ∧ (flushMaps n st).2.1.getD i 0 = UINT_MAX))
    ∧ (∀ j e', e' ∈ (flush n st).graph.adj j ↔
        ∃ i, i < st.graph.GetNumberOfNodes ∧ Remaining st i ∧ (flushMaps n st).2.1.getD i 0 = j
          ∧ ∃ e ∈ st.graph.adj i, Remaining st e.target
            ∧ e' = renumberedEdge (flushMaps n st).2.1 e)
    ∧ (∀ x, x ∈ (flush n st).temporaryEdgeStorage ↔
        ∃ i, i < st.graph.GetNumberOfNodes ∧ ¬ Remaining st i
          ∧ ∃ e ∈ st.graph.adj i, x = ⟨i, e.target, e.data⟩) := by
  obtain ⟨hadj, hspill⟩ := moveEdges_spec st.graph (flushMaps n st).2.1 st.remainingNodes.length
  have hiff := fun o ho => (flushMaps_remaining_iff n hn st h o ho).1
  have hlt : ∀ i, i < st.graph.GetNumberOfNodes → i < n := fun i hi => lt_of_lt_of_le hi h.nodesLe
  refine ⟨?_, ?_, ?_⟩
  · intro i hi e he
    constructor
    · rintro ⟨hRi, hRt⟩
      have hne := (hiff i (hlt i hi)).1 hRi
      refine ⟨?_, hne, ?_, ?_⟩
      · rw [flush_eq]
        exact (hadj _ _).2 ⟨i, hi, hne, rfl, e, he, rfl⟩
      · exact (hiff _ (hlt _ (h.inGraph _ hRt))).1 hRt
      · rw [flush_eq]
        intro hx
        obtain ⟨i', _, hmax, e2, _, heq⟩ := (hspill _).1 hx
        have : i = i' := congrArg DynamicGraph.InputEdge.source heq
        rw [← this] at hmax
        exact hne hmax
    · intro hnot
      have hRi : ¬ Remaining st i := fun hRi => hnot ⟨hRi, h.graph.closed i hRi e he⟩
      have hmax : (flushMaps n st).2.1.getD i 0 = UINT_MAX := by
        by_contra hne
        exact hRi ((hiff i (hlt i hi)).2 hne)
      refine ⟨?_, hmax⟩
      rw [flush_eq]
      exact (hspill _).2 ⟨i, hi, hmax, e, he, rfl⟩
  · intro j e'
    rw [flush_eq]
    rw [hadj]
    constructor
    · rintro ⟨i, hi, hne, hij, e, he, rfl⟩
      have hRi := (hiff i (hlt i hi)).2 hne
      exact ⟨i, hi, hRi, hij, e, he, h.graph.closed i hRi e he, rfl⟩
    · rintro ⟨i, hi, hRi, hij, e, he, _, rfl⟩
      exact ⟨i, hi, (hiff i (hlt i hi)).1 hRi, hij, e, he, rfl⟩
  · intro x
    rw [flush_eq]
    simp only
    rw [hspill]
    constructor
    · rintro ⟨i, hi, hmax, e, he, rfl⟩
      refine ⟨i, hi, fun hRi => (hiff i (hlt i hi)).1 hRi hmax, e, he, rfl⟩
    · rintro ⟨i, hi, hRi, e, he, rfl⟩
      refine ⟨i, hi, ?_, e, he, rfl⟩
      by_contra hne
      exact hRi ((hiff i (hlt i hi)).2 hne)

end Contractor

namespace Contractor

open DynamicGraph

theorem insertEdgeStep_edgesIn (g : _DynamicGraph) (edge : _ImportEdge) (N : Nat)
    (hg : EdgesIn g N) (ht : edge.target < N) (hv : edge.data.via < N) :
    EdgesIn (insertEdgeStep g edge) N := by
  intro x e he
  rcases insertEdgeStep_cases g edge with ⟨h0, _⟩ | ⟨idx, cur, hcur, _, _, _, _, hset⟩ | hins
  · rw [h0] at he; exact hg x e he
  · rw [hset] at he
    simp only [SetEdgeData] at he
    by_cases hx : x = edge.source
    · subst hx
      simp only [Function.update_same] at he
      rcases (mem_modify _ _ _ _).1 he with ⟨j, _, hj⟩ | ⟨c, hc, rfl⟩
      · exact hg _ e (List.mem_iff_getElem?.2 ⟨j, hj⟩)
      · exact hg _ c (List.mem_iff_getElem?.2 ⟨idx, hc⟩)
    · simp only [Function.update_noteq hx] at he
      exact hg x e he
  · rw [hins] at he
    rcases (mem_InsertEdge_adj _ _ _ _ _ _).1 he with he | ⟨_, rfl⟩
    · exact hg x e he
    · exact ⟨ht, fun _ => hv⟩

theorem insertNewEdges_edgesIn (N : Nat) (edges : List _ImportEdge) :
    ∀ (g : _DynamicGraph), EdgesIn g N →
      (∀ edge ∈ edges, edge.target < N ∧ edge.data.via < N) →
      EdgesIn (insertNewEdges g edges) N := by
  unfold insertNewEdges
  induction edges with
  | nil => intro g hg _; exact hg
  | cons a r ih =>
    intro g hg h
    rw [List.foldl_cons]
    apply ih
    · exact insertEdgeStep_edgesIn g a N hg (h a (List.mem_cons_self _ _)).1
        (h a (List.mem_cons_self _ _)).2
    · exact fun edge he => h edge (List.mem_cons_of_mem _ he)

theorem Contract_via_step (g : _DynamicGraph) (P : NodeID → Prop) (buffer : List _ImportEdge)
    (x : NodeID) (stats : _ContractionInformation) (hx : P x)
    (hb : ∀ e ∈ buffer, P e.data.via) :
    ∀ e ∈ (_Contract false g buffer x stats).1, P e.data.via := by
  obtain ⟨htake, hback, _⟩ := Contract_false_spec g buffer x stats
  generalize (_Contract false g buffer x stats).1 = B' at htake hback
  intro e he
  rw [← List.take_append_drop buffer.length B', List.mem_append, htake] at he
  rcases he with h | h
  · exact hb e h
  · obtain ⟨⟨r, hr, _, _, _, _, hvia⟩, _, _⟩ := hback e h
    obtain ⟨i, _, o, _, _, hmem⟩ := mem_pushedPairs.1 hr
    simp only [shortcutPair, List.mem_cons, List.mem_singleton, List.not_mem_nil, or_false] at hmem
    rw [hvia]
    rcases hmem with rfl | rfl <;> exact hx

theorem contractAll_via (st : RunState) :
    ∀ e ∈ (contractAll st).1, e.data.via ∈ independentSet st := by
  unfold contractAll
  suffices h : ∀ (l : List NodeID) (acc : List _ImportEdge × List ℚ),
      (∀ x ∈ l, x ∈ independentSet st) →
      (∀ e ∈ acc.1, e.data.via ∈ independentSet st) →
      ∀ e ∈ (l.foldl (fun (acc : List _ImportEdge × List ℚ) x =>
          ((_Contract false st.graph acc.1 x default).1, acc.2.set x (-1))) acc).1,
        e.data.via ∈ independentSet st from
    h _ _ (fun x hx => hx) (fun e he => absurd he (List.not_mem_nil _))
  intro l
  induction l with
  | nil => intro acc _ h; exact h
  | cons a r ih =>
    intro acc hl h
    rw [List.foldl_cons]
    apply ih _ (fun x hx => hl x (List.mem_cons_of_mem _ hx))
    exact Contract_via_step _ (fun x => x ∈ independentSet st) _ _ _
      (hl a (List.mem_cons_self _ _)) h

theorem roundGraph_edgesIn (n : Nat) (s : RunState) (h : RunInv n s)
    (hin : EdgesIn s.graph s.graph.GetNumberOfNodes) :
    EdgesIn (roundGraph s) s.graph.GetNumberOfNodes := by
  have hbias : ∀ a b, Remaining s a → Remaining s b →
      biasOf s.nodeData a = biasOf s.nodeData b → a = b := by
    rintro a b ⟨p, hp, rfl⟩ ⟨q, hq, rfl⟩ hab
    exact h.bias _ _ (h.ids.2 p hp) (h.ids.2 q hq) hab
  unfold roundGraph
  apply insertNewEdges_edgesIn
  · intro i e he
    exact hin i e (deleteAll_sub _ _ _ _ he)
  · intro edge he
    have he2 : edge ∈ (contractAll s).1 := by
      unfold sortEdges at he
      exact (List.perm_insertionSort _ _).mem_iff.1 he
    obtain ⟨_, _, hRt, _⟩ := buffer_endpoints h.graph hbias he2
    exact ⟨h.inGraph _ hRt, h.inGraph _ (mem_independentSet (contractAll_via s _ he2)).1⟩

theorem flush_edgesIn (n : Nat) (hn : n ≤ UINT_MAX) (st : RunState) (h : RunInv n st) :
    EdgesIn (flush n st).graph (flush n st).graph.GetNumberOfNodes := by
  have hnum : (flush n st).graph.GetNumberOfNodes = st.remainingNodes.length := by
    rw [flush_eq]
    exact moveEdges_numNodes _ _ _
  rw [hnum]
  intro j e' he'
  obtain ⟨i, _, _, _, e, _, hRt, rfl⟩ := ((flush_partition n hn st h).2.1 j e').1 he'
  refine ⟨?_, fun hf => ?_⟩
  · exact (flushMaps_remaining_iff n hn st h _ (lt_of_lt_of_le (h.inGraph _ hRt) h.nodesLe)).2 hRt
  · simp [renumberedEdge] at hf

/-- After the compaction the map has one entry per node of the graph, and the edges of
the graph stay within this id space. -/
theorem afterRounds_flushed (g : _DynamicGraph) (shuffled : List NodeID)
    (hperm : shuffled.Perm (List.range g.GetNumberOfNodes))
    (hg : GraphOK g (fun x => x < g.GetNumberOfNodes)) (hn : g.GetNumberOfNodes ≤ UINT_MAX) :
    ∀ k, (afterRounds g shuffled k).flushedContractor = true →
      (afterRounds g shuffled k).oldNodeIDFromNewNodeIDMap.length
          = (afterRounds g shuffled k).graph.GetNumberOfNodes
        ∧ EdgesIn (afterRounds g shuffled k).graph (afterRounds g shuffled k).graph.GetNumberOfNodes
        ∧ ∃ r, r < k ∧ (afterRounds g shuffled r).flushedContractor = false
            ∧ (afterRounds g shuffled k).oldNodeIDFromNewNodeIDMap
                = (flushMaps g.GetNumberOfNodes (afterRounds g shuffled r)).1
            ∧ (afterRounds g shuffled k).graph.GetNumberOfNodes
                = (afterRounds g shuffled r).remainingNodes.length := by
  intro k
  induction k with
  | zero => intro h; exact absurd h (by simp [afterRounds, initialState])
  | succ k ih =>
    intro hf
    have hinv := afterRounds_runInv g shuffled hperm hg hn k
    have hstep : afterRounds g shuffled (k + 1)
        = round g.GetNumberOfNodes (afterRounds g shuffled k) := by
      unfold afterRounds
      rw [Function.iterate_succ_apply']
    have hpre := preRound_runInv _ hn _ hinv
    rw [hstep, round_eq]
    simp only
    rw [roundGraph_numNodes]
    by_cases hfk : (afterRounds g shuffled k).flushedContractor = true
    · obtain ⟨h1, h2, r, hr, h3, h4, h5⟩ := ih hfk
      have hp : preRound g.GetNumberOfNodes (afterRounds g shuffled k) = afterRounds g shuffled k := by
        unfold preRound
        simp [hfk]
      rw [hp]
      exact ⟨h1, roundGraph_edgesIn _ _ hinv h2, r, by omega, h3, h4, h5⟩
    · have hfk2 : (afterRounds g shuffled k).flushedContractor = false := by
        simpa using hfk
      have hp : preRound g.GetNumberOfNodes (afterRounds g shuffled k)
          = flush g.GetNumberOfNodes (afterRounds g shuffled k) := by
        unfold preRound
        split_ifs with hc
        · rfl
        · exfalso
          rw [hstep, round_eq] at hf
          simp only at hf
          unfold preRound at hf
          rw [if_neg hc] at hf
          rw [hfk2] at hf
          exact absurd hf (by simp)
      rw [hp]
      have hnum : (flush g.GetNumberOfNodes (afterRounds g shuffled k)).graph.GetNumberOfNodes
          = (afterRounds g shuffled k).remainingNodes.length := by
        rw [flush_eq]
        exact moveEdges_numNodes _ _ _
      refine ⟨?_, ?_, k, by omega, hfk2, ?_, hnum⟩
      · rw [hnum, flush_eq]
        exact (flushMaps_inv _ _).len1
      · rw [← hp]
        apply roundGraph_edgesIn _ _ hpre
        rw [hp]
        exact flush_edgesIn _ hn _ hinv
      · rw [flush_eq]

theorem collect_map_some {α β : Type} (f : α → Option β) (g : α → β) :
    ∀ (l : List α), (∀ x ∈ l, f x = some (g x)) → collect (l.map f) = some (l.map g) := by
  intro l
  induction l with
  | nil => intro _; rfl
  | cons a r ih =>
    intro h
    rw [List.map_cons, h a (List.mem_cons_self _ _)]
    simp only [collect, ih (fun x hx => h x (List.mem_cons_of_mem _ hx)), Option.map_some',
      List.map_cons]

theorem mem_graphEdges {g : _DynamicGraph} {p : NodeID × _Edge} :
    p ∈ graphEdges g ↔ p.1 < g.GetNumberOfNodes ∧ p.2 ∈ g.adj p.1 := by
  unfold graphEdges
  simp only [List.mem_flatMap, List.mem_range, List.mem_map]
  constructor
  · rintro ⟨i, hi, e, he, rfl⟩
    exact ⟨hi, he⟩
  · rintro ⟨h1, h2⟩
    exact ⟨p.1, h1, p.2, h2, rfl⟩

theorem outputEdge_some (m : List NodeID) (node : NodeID) (e : _Edge)
    (h1 : node < m.length) (h2 : e.target < m.length)
    (h3 : e.data.originalViaNodeID = false → e.data.via < m.length) :
    outputEdge m node e = some (translatedEdge m node e) := by
  unfold outputEdge translatedEdge
  rw [List.getElem?_eq_getElem h1, List.getElem?_eq_getElem h2]
  cases hv : e.data.originalViaNodeID
  · have h4 := h3 hv
    simp [List.getElem?_eq_getElem h4, List.getD_eq_getElem?_getD, List.getElem?_eq_getElem h1,
      List.getElem?_eq_getElem h2]
  · simp [List.getD_eq_getElem?_getD, List.getElem?_eq_getElem h1, List.getElem?_eq_getElem h2]

theorem GetEdges_eq (st : RunState)
    (hlen : st.oldNodeIDFromNewNodeIDMap.length = st.graph.GetNumberOfNodes)
    (hin : EdgesIn st.graph st.graph.GetNumberOfNodes) :
    GetEdges st = some ((graphEdges st.graph).map
        (fun p => translatedEdge st.oldNodeIDFromNewNodeIDMap p.1 p.2)
      ++ st.temporaryEdgeStorage.map storedEdge) := by
  unfold GetEdges
  rw [collect_map_some _ (fun p => translatedEdge st.oldNodeIDFromNewNodeIDMap p.1 p.2)]
  · rfl
  · intro p hp
    obtain ⟨h1, h2⟩ := mem_graphEdges.1 hp
    obtain ⟨h3, h4⟩ := hin p.1 p.2 h2
    exact outputEdge_some _ _ _ (by rw [hlen]; exact h1) (by rw [hlen]; exact h3)
      (fun hf => by rw [hlen]; exact h4 hf)

end Contractor

namespace EdgeBasedGraphFactory

theorem FindEdge_some {D : Type} [Inhabited D] (g : DynamicGraph D) (a b : NodeID)
    (h : ∃ e ∈ g.adj a, e.target = b) :
    ∃ i, g.FindEdge a b = some i ∧ (g.adj a).getD i default ∈ g.adj a
      ∧ ((g.adj a).getD i default).target = b := by
  unfold DynamicGraph.FindEdge
  cases hf : (g.adj a).findIdx? (fun e => e.target == b) with
  | none =>
    obtain ⟨e, he, het⟩ := h
    have := List.findIdx?_eq_none_iff.1 hf e he
    simp [het] at this
  | some i =>
    obtain ⟨hlt, hp, _⟩ := List.findIdx?_eq_some_iff_getElem.1 hf
    have hd : (g.adj a).getD i default = (g.adj a)[i] := by
      rw [List.getD_eq_getElem?_getD, List.getElem?_eq_getElem hlt]; rfl
    refine ⟨i, rfl, ?_, ?_⟩
    · rw [hd]; exact List.getElem_mem hlt
    · rw [hd]; simpa using hp

theorem AnalyzeTurn_isSome (g : _NodeBasedDynamicGraph) (D : ℚ → Int) (angle : ℚ) (u v w : NodeID)
    (h1 : ∃ e ∈ g.adj u, e.target = v) (h2 : ∃ e ∈ g.adj v, e.target = w) :
    ∃ t, AnalyzeTurn g D angle u v w = some t := by
  obtain ⟨i, hi, _, _⟩ := FindEdge_some g u v h1
  obtain ⟨j, hj, _, _⟩ := FindEdge_some g v w h2
  unfold AnalyzeTurn
  rw [hi, hj]
  simp only
  split_ifs <;> exact ⟨_, rfl⟩

end EdgeBasedGraphFactory

namespace EdgeBasedGraphFactory

theorem foldlOpt_append2 {σ α β γ : Type} (f : σ → α → Option σ) (M1 : σ → List β)
    (M2 : σ → List γ) (h1 : α → List β) (h2 : α → List γ) :
    ∀ (l : List α) (s r : σ),
      (∀ s a s', a ∈ l → f s a = some s' → M1 s' = M1 s ++ h1 a ∧ M2 s' = M2 s ++ h2 a) →
      foldlOpt f l s = some r →
      M1 r = M1 s ++ l.flatMap h1 ∧ M2 r = M2 s ++ l.flatMap h2 := by
  intro l
  induction l with
  | nil =>
    intro s r _ h
    simp only [foldlOpt, Option.some.injEq] at h
    subst h
    simp
  | cons a rest ih =>
    intro s r hstep h
    simp only [foldlOpt] at h
    cases hf : f s a with
    | none => rw [hf] at h; exact absurd h (by simp)
    | some s' =>
      rw [hf] at h
      obtain ⟨e1, e2⟩ := hstep s a s' (List.mem_cons_self _ _) hf
      obtain ⟨i1, i2⟩ := ih s' r (fun s a s' ha => hstep s a s' (List.mem_cons_of_mem _ ha)) h
      rw [i1, i2, e1, e2]
      simp [List.append_assoc]

theorem foldlOpt_total {σ α : Type} (f : σ → α → Option σ) :
    ∀ (l : List α) (s : σ), (∀ s, ∀ a ∈ l, ∃ s', f s a = some s') →
      ∃ r, foldlOpt f l s = some r := by
  intro l
  induction l with
  | nil => intro s _; exact ⟨s, rfl⟩
  | cons a rest ih =>
    intro s h
    obtain ⟨s', hs'⟩ := h s a (List.mem_cons_self _ _)
    obtain ⟨r, hr⟩ := ih s' (fun s a ha => h s a (List.mem_cons_of_mem _ ha))
    exact ⟨r, by simp only [foldlOpt, hs']; exact hr⟩

theorem foldlOpt_concat {σ α : Type} (f : σ → α → Option σ) (a : α) :
    ∀ (l : List α) (s : σ),
      foldlOpt f (l ++ [a]) s = (foldlOpt f l s).bind (fun s' => f s' a) := by
  intro l
  induction l with
  | nil =>
    intro s
    simp only [List.nil_append, foldlOpt, Option.some_bind]
    cases f s a <;> rfl
  | cons b rest ih =>
    intro s
    simp only [List.cons_append, foldlOpt]
    cases f s b with
    | none => rfl
    | some s' => exact ih s'

theorem dropWhile_dropWhile {α : Type} (p q : α → Bool) (hpq : ∀ x, q x = true → p x = true) :
    ∀ (l : List α), (l.dropWhile q).dropWhile p = l.dropWhile p := by
  intro l
  induction l with
  | nil => rfl
  | cons x rest ih =>
    by_cases hq : q x = true
    · rw [List.dropWhile_cons_of_pos hq, List.dropWhile_cons_of_pos (hpq x hq)]
      exact ih
    · rw [List.dropWhile_cons_of_neg hq]

theorem scanBlock_eq {σ : Type} (u : NodeID) (f : σ → _Restriction → σ) :
    ∀ (it : List _Restriction) (s : σ), (∀ r ∈ it.head?, r.fromNode = u) → it ≠ [] →
      scanBlock u f it s
        = if (it.dropWhile (fun r => r.fromNode == u)).isEmpty then none
          else some ((it.takeWhile (fun r => r.fromNode == u)).foldl f s) := by
  intro it
  induction it with
  | nil => intro s _ h; exact absurd rfl h
  | cons r rest ih =>
    intro s hhead _
    have hr : r.fromNode = u := hhead r (by simp)
    have hr2 : (r.fromNode == u) = true := by simp [hr]
    simp only [List.dropWhile_cons, List.takeWhile_cons, hr2, if_true, List.foldl_cons]
    cases rest with
    | nil => simp [scanBlock]
    | cons r' rest' =>
      by_cases h' : u = r'.fromNode
      · have : scanBlock u f (r :: r' :: rest') s = scanBlock u f (r' :: rest') (f s r) := by
          simp [scanBlock, h']
        rw [this]
        exact ih (f s r) (fun x hx => by simp at hx; rw [← hx]; exact h'.symm) (by simp)
      · have h2 : ¬ ((r'.fromNode == u) = true) := by
          simp only [beq_iff_eq]
          exact fun h => h' h.symm
        have : scanBlock u f (r :: r' :: rest') s = some (f s r) := by
          simp [scanBlock, h']
        rw [this]
        simp only [List.dropWhile_cons, List.takeWhile_cons, h2, if_false]
        simp

theorem iteratorAt_head (rs : List _Restriction) (u : NodeID) :
    ∀ r ∈ (iteratorAt rs u).head?, ¬ r.fromNode < u := by
  intro r hr
  unfold iteratorAt at hr
  have := List.head?_dropWhile_not (fun r : _Restriction => decide (r.fromNode < u)) rs
  rw [Option.mem_def] at hr
  rw [hr] at this
  simpa using this

theorem scanIfFrom_eq {σ : Type} (rs : List _Restriction) (u : NodeID)
    (f : σ → _Restriction → σ) (s : σ) :
    scanIfFrom u f (iteratorAt rs u) s
      = if overrun rs u then none else some ((block rs u).foldl f s) := by
  unfold overrun block
  cases hit : iteratorAt rs u with
  | nil => simp [scanIfFrom]
  | cons r rest =>
    by_cases hr : u = r.fromNode
    · have h1 : scanIfFrom u f (r :: rest) s = scanBlock u f (r :: rest) s := by
        simp [scanIfFrom, hr]
      rw [h1, scanBlock_eq u f (r :: rest) s (fun x hx => by simp at hx; rw [← hx]; exact hr.symm)
        (by simp)]
      have hr2 : (r.fromNode == u) = true := by simp [hr]
      simp [List.takeWhile_cons, hr2]
    · have h1 : scanIfFrom u f (r :: rest) s = some s := by
        simp [scanIfFrom, hr]
      have h2 : ¬ ((r.fromNode == u) = true) := by
        simp only [beq_iff_eq]
        exact fun h => hr h.symm
      rw [h1]
      simp only [List.takeWhile_cons, h2, if_false]
      simp

theorem onlyStep_fold (v o : NodeID) :
    ∀ (rs : List _Restriction) (acc : Option NodeID) (s : Bool × NodeID),
      s = (match acc with | some t => (true, t) | none => (false, o)) →
      rs.foldl (onlyStep v) s
        = (match rs.foldl (fun acc r => if v == r.viaNode && r.isOnly then some r.toNode else acc) acc with
            | some t => (true, t) | none => (false, o)) := by
  intro rs
  induction rs with
  | nil => intro acc s h; exact h
  | cons r rest ih =>
    intro acc s h
    rw [List.foldl_cons, List.foldl_cons]
    apply ih
    unfold onlyStep
    by_cases hc : (v == r.viaNode && r.isOnly) = true
    · simp only [hc, if_true]
    · simp only [hc, Bool.false_eq_true, if_false]
      exact h

theorem onlyStep_eq (rs : List _Restriction) (v o : NodeID) :
    rs.foldl (onlyStep v) (false, o)
      = (match onlyOf rs v with | some t => (true, t) | none => (false, o)) :=
  onlyStep_fold v o rs none (false, o) rfl

theorem restrictedStep_fold (v w : NodeID) :
    ∀ (rs : List _Restriction) (b : Bool),
      rs.foldl (restrictedStep v w) b = (b || rs.any (fun r => v == r.viaNode && w == r.toNode)) := by
  intro rs
  induction rs with
  | nil => intro b; simp
  | cons r rest ih =>
    intro b
    rw [List.foldl_cons, ih]
    unfold restrictedStep
    by_cases hc : (v == r.viaNode && w == r.toNode) = true
    · simp [hc]
    · simp only [hc, Bool.false_eq_true, if_false, List.any_cons, Bool.false_or]

theorem restrictedStep_eq (rs : List _Restriction) (v w : NodeID) :
    rs.foldl (restrictedStep v w) false = restrictedOf rs v w := by
  rw [restrictedStep_fold]
  simp [restrictedOf]

end EdgeBasedGraphFactory

namespace EdgeBasedGraphFactory

theorem turnStep_char (F : Factory) (A : NodeInfo → NodeInfo → NodeInfo → ℚ) (D : ℚ → Int)
    (u o : NodeID) (e1 e2 : _Edge)
    (out out' : List Contractor.EdgeBasedEdge × List EdgeBasedNode)
    (h : turnStep F A D (iteratorAt F.inputRestrictions u) u e1
        (match onlyOf (block F.inputRestrictions u) e1.target with
          | some t => (true, t) | none => (false, o)).1
        (match onlyOf (block F.inputRestrictions u) e1.target with
          | some t => (true, t) | none => (false, o)).2 out e2 = some out') :
    out'.1 = out.1 ++ (if emit F.inputRestrictions u e1.target e2.target then
        [turnEdge F A D u e1 e2] else [])
      ∧ out'.2 = out.2 ++ (if emit F.inputRestrictions u e1.target e2.target
          && e1.data.type != 14 then [currentNode F u e1] else []) := by
  unfold turnStep at h
  dsimp only at h
  rw [scanIfFrom_eq, restrictedStep_eq] at h
  unfold emit turnEdge
  cases honly : onlyOf (block F.inputRestrictions u) e1.target with
  | none =>
    rw [honly] at h
    simp only [Bool.false_and, Bool.false_eq_true, if_false, Bool.or_false] at h
    by_cases huw : u = e2.target
    · simp only [huw, bne_self_eq_false, Bool.false_eq_true, if_false, Option.some.injEq] at h
      subst h
      simp [huw]
    · have huw2 : (u != e2.target) = true := by simp [huw]
      simp only [huw2, if_true] at h
      by_cases hov : overrun F.inputRestrictions u = true
      · simp [hov] at h
      · simp only [hov, Bool.false_eq_true, if_false] at h
        by_cases hres : restrictedOf (block F.inputRestrictions u) e1.target e2.target = true
        · simp only [hres, Bool.not_true, Bool.false_eq_true, if_false, Option.some.injEq] at h
          subst h
          simp [hres]
        · have hres2 : restrictedOf (block F.inputRestrictions u) e1.target e2.target = false := by
            simpa using hres
          simp only [hres2, Bool.not_false, if_true] at h
          cases hat : AnalyzeTurn F._nodeBasedGraph D
              (A (F.inputNodeInfoList.getD u default) (F.inputNodeInfoList.getD e1.target default)
                (F.inputNodeInfoList.getD e2.target default)) u e1.target e2.target with
          | none => rw [hat] at h; exact absurd h (by simp)
          | some t =>
            rw [hat] at h
            simp only [Option.some.injEq] at h
            subst h
            simp only [huw2, hres2, Bool.not_false, Bool.and_self, if_true, Option.getD_some,
              Bool.true_and, true_and]
            by_cases ht : (e1.data.type != 14) = true
            · simp [ht]
            · simp [ht]
  | some t =>
    rw [honly] at h
    simp only [Bool.true_and] at h
    by_cases hwt : e2.target = t
    · have hwt2 : (e2.target != t) = false := by simp [hwt]
      have hwt3 : (e2.target == t) = true := by simp [hwt]
      simp only [hwt2, Bool.false_eq_true, if_false, hwt3, Bool.or_true, if_true] at h
      by_cases huw : u = e2.target
      · simp only [huw, bne_self_eq_false, Bool.false_eq_true, if_false, Option.some.injEq] at h
        subst h
        simp [huw]
      · have huw2 : (u != e2.target) = true := by simp [huw]
        simp only [huw2, if_true] at h
        by_cases hov : overrun F.inputRestrictions u = true
        · simp [hov] at h
        · simp only [hov, Bool.false_eq_true, if_false] at h
          cases hat : AnalyzeTurn F._nodeBasedGraph D
              (A (F.inputNodeInfoList.getD u default) (F.inputNodeInfoList.getD e1.target default)
                (F.inputNodeInfoList.getD e2.target default)) u e1.target e2.target with
          | none => rw [hat] at h; exact absurd h (by simp)
          | some ti =>
            rw [hat] at h
            simp only [Option.some.injEq] at h
            subst h
            simp only [huw2, hwt3, Bool.and_self, if_true, Option.getD_some, Bool.true_and,
              true_and]
            by_cases ht : (e1.data.type != 14) = true
            · simp [ht]
            · simp [ht]
    · have hwt2 : (e2.target != t) = true := by simp [hwt]
      have hwt3 : (e2.target == t) = false := by simp [hwt]
      simp only [hwt2, if_true, Option.some.injEq] at h
      subst h
      simp [hwt3]

theorem edgeStep_char (F : Factory) (A : NodeInfo → NodeInfo → NodeInfo → ℚ) (D : ℚ → Int)
    (u : NodeID) (e1 : _Edge)
    (st st' : NodeID × List Contractor.EdgeBasedEdge × List EdgeBasedNode)
    (h : edgeStep F A D (iteratorAt F.inputRestrictions u) u st e1 = some st') :
    st'.2.1 = st.2.1 ++ edgesOfEdge F A D u e1 ∧ st'.2.2 = st.2.2 ++ nodesOfEdge F u e1 := by
  unfold edgeStep at h
  dsimp only at h
  rw [scanIfFrom_eq, onlyStep_eq] at h
  by_cases hov : overrun F.inputRestrictions u = true
  · simp [hov] at h
  · simp only [hov, Bool.false_eq_true, if_false] at h
    split at h
    · exact absurd h (by simp)
    · rename_i out hfold
      simp only [Option.some.injEq] at h
      subst h
      obtain ⟨a1, a2⟩ := foldlOpt_append2 _ (fun p : List Contractor.EdgeBasedEdge × List EdgeBasedNode => p.1)
        (fun p => p.2) _ _ _ _ _
        (fun s a s' _ hs => turnStep_char F A D u st.1 e1 a s s' hs) hfold
      simp only at a1 a2
      refine ⟨a1, ?_⟩
      show out.2 = _
      rw [a2]
      unfold nodesOfEdge
      split_ifs <;> simp [List.append_assoc]

theorem nodeStep_char (F : Factory) (A : NodeInfo → NodeInfo → NodeInfo → ℚ) (D : ℚ → Int)
    (u : NodeID)
    (st st' : List _Restriction × NodeID × List Contractor.EdgeBasedEdge × List EdgeBasedNode)
    (hit : st.1.dropWhile (fun r => decide (r.fromNode < u)) = iteratorAt F.inputRestrictions u)
    (h : nodeStep F A D st u = some st') :
    st'.1 = iteratorAt F.inputRestrictions u
      ∧ st'.2.2.1 = st.2.2.1 ++ (F._nodeBasedGraph.adj u).flatMap (edgesOfEdge F A D u)
      ∧ st'.2.2.2 = st.2.2.2 ++ (F._nodeBasedGraph.adj u).flatMap (nodesOfEdge F u) := by
  unfold nodeStep at h
  simp only at h
  rw [hit] at h
  cases hfold : foldlOpt (edgeStep F A D (iteratorAt F.inputRestrictions u) u)
      (F._nodeBasedGraph.adj u) st.2 with
  | none => rw [hfold] at h; exact absurd h (by simp)
  | some r =>
    rw [hfold] at h
    simp only [Option.some.injEq] at h
    subst h
    obtain ⟨a1, a2⟩ := foldlOpt_append2 _
      (fun p : NodeID × List Contractor.EdgeBasedEdge × List EdgeBasedNode => p.2.1)
      (fun p => p.2.2) _ _ _ _ _
      (fun s a s' _ hs => edgeStep_char F A D u a s s' hs) hfold
    exact ⟨rfl, a1, a2⟩

theorem sweep_char (F : Factory) (A : NodeInfo → NodeInfo → NodeInfo → ℚ) (D : ℚ → Int) :
    ∀ (k : Nat) (st : List _Restriction × NodeID × List Contractor.EdgeBasedEdge × List EdgeBasedNode),
      foldlOpt (nodeStep F A D) (List.range k) (F.inputRestrictions, 0, [], []) = some st →
      st.1.dropWhile (fun r => decide (r.fromNode < k)) = iteratorAt F.inputRestrictions k
        ∧ st.2.2.1 = (List.range k).flatMap (fun u =>
            (F._nodeBasedGraph.adj u).flatMap (edgesOfEdge F A D u))
        ∧ st.2.2.2 = (List.range k).flatMap (fun u =>
            (F._nodeBasedGraph.adj u).flatMap (nodesOfEdge F u)) := by
  intro k
  induction k with
  | zero =>
    intro st h
    simp only [List.range_zero, foldlOpt, Option.some.injEq] at h
    subst h
    exact ⟨rfl, rfl, rfl⟩
  | succ k ih =>
    intro st h
    rw [List.range_succ, foldlOpt_concat] at h
    cases hk : foldlOpt (nodeStep F A D) (List.range k) (F.inputRestrictions, 0, [], []) with
    | none => rw [hk] at h; exact absurd h (by simp)
    | some s =>
      rw [hk] at h
      simp only [Option.some_bind] at h
      obtain ⟨i1, i2, i3⟩ := ih s hk
      obtain ⟨a1, a2, a3⟩ := nodeStep_char F A D k s st i1 h
      refine ⟨?_, ?_, ?_⟩
      · rw [a1]
        unfold iteratorAt
        apply dropWhile_dropWhile
        intro x hx
        simp only [decide_eq_true_eq] at hx ⊢
        exact Nat.lt_succ_of_lt hx
      · rw [a2, i2, List.range_succ]
        simp
      · rw [a3, i3, List.range_succ]
        simp

/-- The output of `Run`, when it returns, in closed form. -/
theorem Run_char (F : Factory) (A : NodeInfo → NodeInfo → NodeInfo → ℚ) (D : ℚ → Int)
    (out : Output) (h : Run F A D = some out) :
    out.edgeBasedEdges = (List.range F._nodeBasedGraph.GetNumberOfNodes).flatMap (fun u =>
        (F._nodeBasedGraph.adj u).flatMap (edgesOfEdge F A D u))
      ∧ out.edgeBasedNodes = uniqueNodes (sortNodes
          ((List.range F._nodeBasedGraph.GetNumberOfNodes).flatMap (fun u =>
            (F._nodeBasedGraph.adj u).flatMap (nodesOfEdge F u)))) := by
  unfold Run at h
  cases hk : foldlOpt (nodeStep F A D) (List.range F._nodeBasedGraph.GetNumberOfNodes)
      (F.inputRestrictions, 0, [], []) with
  | none => rw [hk] at h; exact absurd h (by simp)
  | some st =>
    rw [hk] at h
    simp only [Option.some.injEq] at h
    subst h
    obtain ⟨_, i2, i3⟩ := sweep_char F A D _ st hk
    exact ⟨i2, by rw [i3]⟩

end EdgeBasedGraphFactory

namespace EdgeBasedGraphFactory

theorem flatMap_ite {α β : Type} (p : α → Bool) (f : α → β) (l : List α) :
    l.flatMap (fun a => if p a then [f a] else []) = (l.filter p).map f := by
  induction l with
  | nil => rfl
  | cons a rest ih =>
    rw [List.flatMap_cons, ih]
    by_cases h : p a = true
    · simp [h]
    · simp [h]

theorem foldlOpt_total_inv {σ α : Type} (f : σ → α → Option σ) (I : σ → Prop) :
    ∀ (l : List α) (s : σ), I s → (∀ s, I s → ∀ a ∈ l, ∃ s', f s a = some s' ∧ I s') →
      ∃ r, foldlOpt f l s = some r := by
  intro l
  induction l with
  | nil => intro s _ _; exact ⟨s, rfl⟩
  | cons a rest ih =>
    intro s hs h
    obtain ⟨s', hs', hi⟩ := h s hs a (List.mem_cons_self _ _)
    obtain ⟨r, hr⟩ := ih s' hi (fun s hs a ha => h s hs a (List.mem_cons_of_mem _ ha))
    exact ⟨r, by simp only [foldlOpt, hs']; exact hr⟩

theorem emit_nil (u v w : NodeID) : emit [] u v w = (u != w) := by
  simp [emit, block, iteratorAt, onlyOf, restrictedOf]

theorem turnStep_nil (nI : List NodeInfo) (g : _NodeBasedDynamicGraph)
    (A : NodeInfo → NodeInfo → NodeInfo → ℚ) (D : ℚ → Int) (u o : NodeID) (e1 e2 : _Edge)
    (h1 : e1 ∈ g.adj u) (h2 : e2 ∈ g.adj e1.target)
    (out : List Contractor.EdgeBasedEdge × List EdgeBasedNode) :
    ∃ out', turnStep ⟨[], nI, g⟩ A D [] u e1 false o out e2 = some out' := by
  unfold turnStep
  dsimp only
  simp only [Bool.false_and, Bool.false_eq_true, if_false, scanIfFrom, Bool.not_false,
    Bool.or_false, if_true]
  by_cases huw : (u != e2.target) = true
  · simp only [huw, if_true]
    obtain ⟨t, ht⟩ := AnalyzeTurn_isSome g D
      (A (nI.getD u default) (nI.getD e1.target default) (nI.getD e2.target default))
      u e1.target e2.target ⟨e1, h1, rfl⟩ ⟨e2, h2, rfl⟩
    rw [ht]
    exact ⟨_, rfl⟩
  · simp only [huw, Bool.false_eq_true, if_false]
    exact ⟨_, rfl⟩

theorem edgeStep_nil (nI : List NodeInfo) (g : _NodeBasedDynamicGraph)
    (A : NodeInfo → NodeInfo → NodeInfo → ℚ) (D : ℚ → Int) (u : NodeID) (e1 : _Edge)
    (h1 : e1 ∈ g.adj u) (st : NodeID × List Contractor.EdgeBasedEdge × List EdgeBasedNode) :
    ∃ st', edgeStep ⟨[], nI, g⟩ A D [] u st e1 = some st' := by
  unfold edgeStep
  dsimp only
  simp only [scanIfFrom]
  obtain ⟨r, hr⟩ := foldlOpt_total (turnStep ⟨[], nI, g⟩ A D [] u e1 false st.1) (g.adj e1.target)
    (st.2.1, if ((g.adj e1.target).length == 1 && e1.data.type != 14) = true
      then st.2.2 ++ [currentNode ⟨[], nI, g⟩ u e1] else st.2.2)
    (fun s a ha => turnStep_nil nI g A D u st.1 e1 a h1 ha s)
  rw [hr]
  exact ⟨_, rfl⟩

theorem nodeStep_nil (nI : List NodeInfo) (g : _NodeBasedDynamicGraph)
    (A : NodeInfo → NodeInfo → NodeInfo → ℚ) (D : ℚ → Int) (u : NodeID)
    (st : List _Restriction × NodeID × List Contractor.EdgeBasedEdge × List EdgeBasedNode)
    (hst : st.1 = []) :
    ∃ st', nodeStep ⟨[], nI, g⟩ A D st u = some st' ∧ st'.1 = [] := by
  unfold nodeStep
  dsimp only
  rw [hst]
  simp only [List.dropWhile_nil]
  obtain ⟨r, hr⟩ := foldlOpt_total (edgeStep ⟨[], nI, g⟩ A D [] u) (g.adj u) st.2
    (fun s a ha => edgeStep_nil nI g A D u a ha s)
  rw [hr]
  exact ⟨_, rfl, rfl⟩

/-- Without restrictions `Run` returns. -/
theorem Run_nil_isSome (nI : List NodeInfo) (g : _NodeBasedDynamicGraph)
    (A : NodeInfo → NodeInfo → NodeInfo → ℚ) (D : ℚ → Int) :
    ∃ out, Run ⟨[], nI, g⟩ A D = some out := by
  unfold Run
  obtain ⟨r, hr⟩ := foldlOpt_total_inv (nodeStep ⟨[], nI, g⟩ A D) (fun st => st.1 = [])
    (List.range g.GetNumberOfNodes) ([], 0, [], []) rfl
    (fun s hs a _ => nodeStep_nil nI g A D a s hs)
  simp only
  rw [hr]
  exact ⟨_, rfl⟩

theorem mem_edges_of_run (F : Factory) (A : NodeInfo → NodeInfo → NodeInfo → ℚ) (D : ℚ → Int)
    (out : Output) (h : Run F A D = some out) (x : Contractor.EdgeBasedEdge) :
    x ∈ out.edgeBasedEdges ↔
      ∃ u, u < F._nodeBasedGraph.GetNumberOfNodes ∧ ∃ e1 ∈ F._nodeBasedGraph.adj u,
        ∃ e2 ∈ F._nodeBasedGraph.adj e1.target,
          emit F.inputRestrictions u e1.target e2.target = true ∧ x = turnEdge F A D u e1 e2 := by
  rw [(Run_char F A D out h).1]
  simp only [List.mem_flatMap, List.mem_range, edgesOfEdge]
  constructor
  · rintro ⟨u, hu, e1, he1, e2, he2, hx⟩
    by_cases hem : emit F.inputRestrictions u e1.target e2.target = true
    · simp only [hem, if_true, List.mem_singleton] at hx
      exact ⟨u, hu, e1, he1, e2, he2, hem, hx⟩
    · simp [hem] at hx
  · rintro ⟨u, hu, e1, he1, e2, he2, hem, hx⟩
    exact ⟨u, hu, e1, he1, e2, he2, by simp [hem, hx]⟩

end EdgeBasedGraphFactory

namespace EdgeBasedGraphFactory

theorem edgeStep_overrun (F : Factory) (A : NodeInfo → NodeInfo → NodeInfo → ℚ) (D : ℚ → Int)
    (u : NodeID) (e1 : _Edge) (st : NodeID × List Contractor.EdgeBasedEdge × List EdgeBasedNode)
    (hov : overrun F.inputRestrictions u = true) :
    edgeStep F A D (iteratorAt F.inputRestrictions u) u st e1 = none := by
  unfold edgeStep
  dsimp only
  rw [scanIfFrom_eq]
  simp [hov]

theorem nodeStep_overrun (F : Factory) (A : NodeInfo → NodeInfo → NodeInfo → ℚ) (D : ℚ → Int)
    (u : NodeID)
    (st : List _Restriction × NodeID × List Contractor.EdgeBasedEdge × List EdgeBasedNode)
    (hit : st.1.dropWhile (fun r => decide (r.fromNode < u)) = iteratorAt F.inputRestrictions u)
    (hadj : F._nodeBasedGraph.adj u ≠ []) (hov : overrun F.inputRestrictions u = true) :
    nodeStep F A D st u = none := by
  unfold nodeStep
  dsimp only
  rw [hit]
  cases hl : F._nodeBasedGraph.adj u with
  | nil => exact absurd hl hadj
  | cons e1 rest =>
    simp only [foldlOpt, edgeStep_overrun F A D u e1 st.2 hov]

theorem sweep_no_overrun (F : Factory) (A : NodeInfo → NodeInfo → NodeInfo → ℚ) (D : ℚ → Int) :
    ∀ (k : Nat) (st : List _Restriction × NodeID × List Contractor.EdgeBasedEdge × List EdgeBasedNode),
      foldlOpt (nodeStep F A D) (List.range k) (F.inputRestrictions, 0, [], []) = some st →
      ∀ u, u < k → F._nodeBasedGraph.adj u ≠ [] → overrun F.inputRestrictions u = false := by
  intro k
  induction k with
  | zero => intro st _ u hu; exact absurd hu (Nat.not_lt_zero _)
  | succ k ih =>
    intro st h u hu hadj
    rw [List.range_succ, foldlOpt_concat] at h
    cases hk : foldlOpt (nodeStep F A D) (List.range k) (F.inputRestrictions, 0, [], []) with
    | none => rw [hk] at h; exact absurd h (by simp)
    | some s =>
      rw [hk] at h
      simp only [Option.some_bind] at h
      by_cases huk : u < k
      · exact ih s hk u huk hadj
      · have : u = k := by omega
        subst this
        by_contra hov
        have hov2 : overrun F.inputRestrictions u = true := by simpa using hov
        rw [nodeStep_overrun F A D u s (sweep_char F A D u s hk).1 hadj hov2] at h
        exact absurd h (by simp)

/-- When the restrictions of a node with an edge are the last of the vector, the loop
over the restrictions reads past its end. -/
theorem Run_overrun (F : Factory) (A : NodeInfo → NodeInfo → NodeInfo → ℚ) (D : ℚ → Int)
    (u : NodeID) (hu : u < F._nodeBasedGraph.GetNumberOfNodes)
    (hadj : F._nodeBasedGraph.adj u ≠ []) (hov : overrun F.inputRestrictions u = true) :
    Run F A D = none := by
  unfold Run
  cases hk : foldlOpt (nodeStep F A D) (List.range F._nodeBasedGraph.GetNumberOfNodes)
      (F.inputRestrictions, 0, [], []) with
  | none => rfl
  | some st =>
    have := sweep_no_overrun F A D _ st hk u hu hadj
    rw [hov] at this
    exact absurd this (by simp)

end EdgeBasedGraphFactory

namespace EdgeBasedGraphFactory

theorem mem_takeWhile_of_ge {α : Type} (key : α → Nat) (u : Nat) :
    ∀ (l : List α), l.Pairwise (fun a b => key a ≤ key b) → (∀ a ∈ l, u ≤ key a) →
      ∀ x ∈ l, key x = u → x ∈ l.takeWhile (fun r => key r == u) := by
  intro l
  induction l with
  | nil => intro _ _ x hx; exact absurd hx (List.not_mem_nil _)
  | cons a rest ih =>
    intro hs hge x hx hk
    obtain ⟨ha, hrest⟩ := List.pairwise_cons.1 hs
    by_cases hau : key a = u
    · have hau2 : (key a == u) = true := by simp [hau]
      simp only [List.takeWhile_cons, hau2, if_true]
      rcases List.mem_cons.1 hx with rfl | hx
      · exact List.mem_cons_self _ _
      · exact List.mem_cons_of_mem _ (ih hrest (fun b hb => by rw [← hau]; exact ha b hb) x hx hk)
    · exfalso
      have h1 := hge a (List.mem_cons_self _ _)
      rcases List.mem_cons.1 hx with rfl | hx
      · exact hau hk
      · have := ha x hx
        omega

theorem mem_block_of_sorted (rs : List _Restriction)
    (hs : rs.Pairwise (fun a b => a.fromNode ≤ b.fromNode)) (u : NodeID) :
    ∀ x ∈ rs, x.fromNode = u → x ∈ block rs u := by
  unfold block iteratorAt
  induction rs with
  | nil => intro x hx; exact absurd hx (List.not_mem_nil _)
  | cons a rest ih =>
    intro x hx hk
    obtain ⟨ha, hrest⟩ := List.pairwise_cons.1 hs
    by_cases hau : a.fromNode < u
    · have hau2 : decide (a.fromNode < u) = true := by simpa using hau
      simp only [List.dropWhile_cons, hau2, if_true]
      rcases List.mem_cons.1 hx with rfl | hx
      · exact absurd hk (Nat.ne_of_lt hau)
      · exact ih hrest x hx hk
    · have hau2 : ¬ (decide (a.fromNode < u) = true) := by simpa using hau
      simp only [List.dropWhile_cons, hau2, if_false]
      apply mem_takeWhile_of_ge (fun r : _Restriction => r.fromNode) u _ hs _ x hx hk
      intro b hb
      rcases List.mem_cons.1 hb with rfl | hb
      · exact Nat.le_of_not_lt hau
      · exact le_trans (Nat.le_of_not_lt hau) (ha b hb)

theorem block_subset (rs : List _Restriction) (u : NodeID) :
    ∀ x ∈ block rs u, x ∈ rs ∧ x.fromNode = u := by
  intro x hx
  unfold block iteratorAt at hx
  refine ⟨?_, ?_⟩
  · exact (List.dropWhile_sublist _).subset ((List.takeWhile_sublist _).subset hx)
  · have := List.mem_takeWhile_imp hx
    simpa using this

theorem onlyOf_fold_none (v : NodeID) :
    ∀ (rs : List _Restriction), (∀ r ∈ rs, ¬ (r.viaNode = v ∧ r.isOnly = true)) →
      rs.foldl (fun acc r => if v == r.viaNode && r.isOnly then some r.toNode else acc) none
        = none := by
  intro rs
  induction rs with
  | nil => intro _; rfl
  | cons r rest ih =>
    intro h
    rw [List.foldl_cons]
    have hr := h r (List.mem_cons_self _ _)
    have : (v == r.viaNode && r.isOnly) = false := by
      cases hb : (v == r.viaNode && r.isOnly)
      · rfl
      · simp only [Bool.and_eq_true, beq_iff_eq] at hb
        exact absurd ⟨hb.1.symm, hb.2⟩ hr
    simp only [this, Bool.false_eq_true, if_false]
    exact ih (fun r hr => h r (List.mem_cons_of_mem _ hr))

theorem sortRestrictions_sorted (irs : List _Restriction) :
    (sortRestrictions irs).Pairwise (fun a b => a.fromNode ≤ b.fromNode) := by
  unfold sortRestrictions
  have hT : IsTotal _Restriction (fun a b => a.fromNode ≤ b.fromNode) :=
    ⟨fun a b => Nat.le_total _ _⟩
  have hR : IsTrans _Restriction (fun a b => a.fromNode ≤ b.fromNode) :=
    ⟨fun a b c h1 h2 => Nat.le_trans h1 h2⟩
  exact List.sorted_insertionSort _ irs

theorem mem_sortRestrictions (irs : List _Restriction) (x : _Restriction) :
    x ∈ sortRestrictions irs ↔ x ∈ irs := by
  unfold sortRestrictions
  exact (List.perm_insertionSort _ _).mem_iff

/-- The ids of the edges that the constructor pushes are their positions. -/
theorem pushEdges_ids (inputEdges : List NodeBasedEdge) :
    (inputEdges.foldl pushEdges []).map (fun e => e.data.edgeBasedNodeID)
      = List.range (inputEdges.foldl pushEdges []).length := by
  apply Contractor.foldl_invariant
    (fun L : List _NodeBasedEdge => L.map (fun e => e.data.edgeBasedNodeID) = List.range L.length)
  · intro L i h
    unfold pushEdges
    by_cases hloop : (i.source == i.target) = true
    · simp only [hloop, if_true]
      exact h
    · simp only [hloop, Bool.false_eq_true, if_false]
      by_cases hb : i.isBackward = true
      · simp only [hb, if_true, List.map_append, List.map_cons, List.map_nil, List.length_append,
          List.length_cons, List.length_nil, h, List.range_succ]
      · simp only [hb, Bool.false_eq_true, if_false, List.map_append, List.map_cons, List.map_nil,
          List.length_append, List.length_cons, List.length_nil, h, List.range_succ]
  · rfl

/-- In the graph of the constructor the edge ids are pairwise distinct. -/
theorem ids_distinct (nodes : Nat) (inputEdges : List NodeBasedEdge) (irs : List _Restriction)
    (nI : List NodeInfo) (u u' : NodeID) (e e' : _Edge)
    (he : e ∈ (EdgeBasedGraphFactory nodes inputEdges irs nI)._nodeBasedGraph.adj u)
    (he' : e' ∈ (EdgeBasedGraphFactory nodes inputEdges irs nI)._nodeBasedGraph.adj u')
    (hid : e.data.edgeBasedNodeID = e'.data.edgeBasedNodeID) : u = u' ∧ e = e' := by
  have mem : ∀ (x : NodeID) (a : _Edge),
      a ∈ (EdgeBasedGraphFactory nodes inputEdges irs nI)._nodeBasedGraph.adj x →
      (⟨x, a.target, a.data⟩ : _NodeBasedEdge) ∈ inputEdges.foldl pushEdges [] := by
    intro x a ha
    simp only [EdgeBasedGraphFactory, DynamicGraph.ofEdges, List.mem_map, List.mem_filter,
      beq_iff_eq] at ha
    obtain ⟨b, ⟨hb, rfl⟩, rfl⟩ := ha
    unfold Contractor.sortEdges at hb
    exact (List.perm_insertionSort _ _).mem_iff.1 hb
  have hnd : ((inputEdges.foldl pushEdges []).map (fun e => e.data.edgeBasedNodeID)).Nodup := by
    rw [pushEdges_ids]
    exact List.nodup_range _
  have := List.inj_on_of_nodup_map hnd (mem u e he) (mem u' e' he') hid
  simp only [DynamicGraph.InputEdge.mk.injEq] at this
  obtain ⟨h1, h2, h3⟩ := this
  refine ⟨h1, ?_⟩
  cases e
  cases e'
  simp only at h2 h3
  rw [h2, h3]

theorem mem_uniqueNodes (l : List EdgeBasedNode) : ∀ y ∈ uniqueNodes l, y ∈ l := by
  induction l with
  | nil => intro y hy; exact absurd hy (by simp [uniqueNodes])
  | cons a rest ih =>
    intro y hy
    simp only [uniqueNodes, List.mem_cons] at hy
    rcases hy with rfl | hy
    · exact List.mem_cons_self _ _
    · exact List.mem_cons_of_mem _ (ih y ((List.dropWhile_sublist _).subset hy))

theorem uniqueNodes_id (l : List EdgeBasedNode) :
    ∀ x ∈ l, ∃ y ∈ uniqueNodes l, y.id = x.id := by
  induction l with
  | nil => intro x hx; exact absurd hx (List.not_mem_nil _)
  | cons a rest ih =>
    intro x hx
    rcases List.mem_cons.1 hx with rfl | hx
    · exact ⟨x, by simp [uniqueNodes], rfl⟩
    · obtain ⟨y, hy, hyx⟩ := ih x hx
      rw [← List.takeWhile_append_dropWhile (fun b : EdgeBasedNode => b.id == a.id)
        (uniqueNodes rest), List.mem_append] at hy
      rcases hy with hy | hy
      · have := List.mem_takeWhile_imp hy
        simp only [beq_iff_eq] at this
        exact ⟨a, by simp [uniqueNodes], by rw [← this, hyx]⟩
      · exact ⟨y, by simp only [uniqueNodes, List.mem_cons]; exact Or.inr hy, hyx⟩

theorem mem_sortNodes (l : List EdgeBasedNode) (x : EdgeBasedNode) :
    x ∈ sortNodes l ↔ x ∈ l := by
  unfold sortNodes
  exact (List.perm_insertionSort _ _).mem_iff

end EdgeBasedGraphFactory

namespace EdgeBasedGraphFactory

theorem mem_nodesOfEdge (F : Factory) (u : NodeID) (e1 : _Edge) (y : EdgeBasedNode)
    (hy : y ∈ nodesOfEdge F u e1) : y = currentNode F u e1 := by
  unfold nodesOfEdge at hy
  rcases List.mem_append.1 hy with h | h
  · split_ifs at h
    · simpa using h
    · exact absurd h (List.not_mem_nil _)
  · obtain ⟨e2, _, h2⟩ := List.mem_flatMap.1 h
    split_ifs at h2
    · simpa using h2
    · exact absurd h2 (List.not_mem_nil _)

theorem mem_nodes_of_run (F : Factory) (A : NodeInfo → NodeInfo → NodeInfo → ℚ) (D : ℚ → Int)
    (out : Output) (h : Run F A D = some out) :
    (∀ y ∈ out.edgeBasedNodes, ∃ u, u < F._nodeBasedGraph.GetNumberOfNodes
        ∧ ∃ e1 ∈ F._nodeBasedGraph.adj u, y = currentNode F u e1)
      ∧ ∀ u, u < F._nodeBasedGraph.GetNumberOfNodes → ∀ e1 ∈ F._nodeBasedGraph.adj u,
          e1.data.type ≠ 14 →
          ((F._nodeBasedGraph.adj e1.target).length = 1
            ∨ ∃ e2 ∈ F._nodeBasedGraph.adj e1.target,
                emit F.inputRestrictions u e1.target e2.target = true) →
          ∃ y ∈ out.edgeBasedNodes, y.id = (currentNode F u e1).id := by
  rw [(Run_char F A D out h).2]
  constructor
  · intro y hy
    have hy2 := (mem_sortNodes _ y).1 (mem_uniqueNodes _ y hy)
    obtain ⟨u, hu, hy3⟩ := List.mem_flatMap.1 hy2
    obtain ⟨e1, he1, hy4⟩ := List.mem_flatMap.1 hy3
    exact ⟨u, List.mem_range.1 hu, e1, he1, mem_nodesOfEdge F u e1 y hy4⟩
  · intro u hu e1 he1 ht hcase
    apply uniqueNodes_id
    rw [mem_sortNodes]
    apply List.mem_flatMap.2
    refine ⟨u, List.mem_range.2 hu, List.mem_flatMap.2 ⟨e1, he1, ?_⟩⟩
    have ht2 : (e1.data.type != 14) = true := by simpa using ht
    unfold nodesOfEdge
    rcases hcase with hlen | ⟨e2, he2, hemit⟩
    · apply List.mem_append_left
      simp [hlen, ht2]
    · apply List.mem_append_right
      apply List.mem_flatMap.2
      exact ⟨e2, he2, by simp [hemit, ht2]⟩

end EdgeBasedGraphFactory

namespace StaticGraph

variable {EdgeDataT : Type} [Inhabited EdgeDataT]

theorem findStep_inv (S : Nat) (INV : Int) (g : StaticGraph EdgeDataT) (distance : EdgeDataT → Int)
    (dst : NodeID) (pre : List Nat) (st : Nat × Int) (a : Nat)
    (h : FindInv S INV g distance dst pre st) :
    FindInv S INV g distance dst (pre ++ [a]) (findStep g distance dst st a) := by
  unfold findStep
  dsimp only
  rcases h with ⟨hst, hnone⟩ | ⟨l1, l2, hpre, hc, hw, hl1, hl2⟩
  · subst hst
    by_cases hcond : (g.GetTarget a == dst && decide (distance (g.GetEdgeData a) < INV)) = true
    · simp only [hcond, if_true]
      simp only [Bool.and_eq_true, beq_iff_eq, decide_eq_true_eq] at hcond
      right
      refine ⟨pre, [], rfl, hcond, rfl, ?_, ?_⟩
      · intro e he hce
        exact absurd hce (hnone e he)
      · intro e he
        exact absurd he (List.not_mem_nil _)
    · simp only [hcond, Bool.false_eq_true, if_false]
      left
      refine ⟨rfl, ?_⟩
      intro e he
      rcases List.mem_append.1 he with he | he
      · exact hnone e he
      · simp only [List.mem_singleton] at he
        subst he
        intro hce
        apply hcond
        simp only [Bool.and_eq_true, beq_iff_eq, decide_eq_true_eq]
        exact hce
  · by_cases hcond : (g.GetTarget a == dst && decide (distance (g.GetEdgeData a) < st.2)) = true
    · simp only [hcond, if_true]
      simp only [Bool.and_eq_true, beq_iff_eq, decide_eq_true_eq] at hcond
      right
      refine ⟨l1 ++ st.1 :: l2, [], by rw [hpre], ⟨hcond.1, ?_⟩, rfl, ?_, ?_⟩
      · have := hc.2
        rw [← hw] at this
        exact lt_trans hcond.2 this
      · intro e he hce
        show distance (g.GetEdgeData a) < distance (g.GetEdgeData e)
        rcases List.mem_append.1 he with he | he
        · exact lt_trans hcond.2 (hl1 e he hce)
        · rcases List.mem_cons.1 he with rfl | he
          · rw [← hw]; exact hcond.2
          · exact lt_of_lt_of_le hcond.2 (hl2 e he hce)
      · intro e he
        exact absurd he (List.not_mem_nil _)
    · simp only [hcond, Bool.false_eq_true, if_false]
      right
      refine ⟨l1, l2 ++ [a], by rw [hpre]; simp, hc, hw, hl1, ?_⟩
      intro e he hce
      rcases List.mem_append.1 he with he | he
      · exact hl2 e he hce
      · simp only [List.mem_singleton] at he
        subst he
        by_contra hlt
        apply hcond
        simp only [Bool.and_eq_true, beq_iff_eq, decide_eq_true_eq]
        exact ⟨hce.1, not_le.1 hlt⟩

theorem findFold_inv (S : Nat) (INV : Int) (g : StaticGraph EdgeDataT) (distance : EdgeDataT → Int)
    (dst : NodeID) :
    ∀ (l pre : List Nat) (st : Nat × Int), FindInv S INV g distance dst pre st →
      FindInv S INV g distance dst (pre ++ l) (l.foldl (findStep g distance dst) st) := by
  intro l
  induction l with
  | nil => intro pre st h; simpa using h
  | cons a rest ih =>
    intro pre st h
    rw [List.foldl_cons]
    have := ih (pre ++ [a]) _ (findStep_inv S INV g distance dst pre st a h)
    simpa using this

/-- What `FindEdge` returns. -/
theorem FindEdge_spec (S : Nat) (INV : Int) (g : StaticGraph EdgeDataT) (distance : EdgeDataT → Int)
    (u v : NodeID) :
    ((∀ e ∈ g.GetAdjacentEdgeRange u, ¬ Candidate INV g distance v e) →
        FindEdge S INV g distance u v = S)
      ∧ ((∃ e ∈ g.GetAdjacentEdgeRange u, Candidate INV g distance v e) →
        ∃ l1 l2, g.GetAdjacentEdgeRange u = l1 ++ FindEdge S INV g distance u v :: l2
          ∧ Candidate INV g distance v (FindEdge S INV g distance u v)
          ∧ (∀ e ∈ l1, Candidate INV g distance v e →
              distance (g.GetEdgeData (FindEdge S INV g distance u v)) < distance (g.GetEdgeData e))
          ∧ (∀ e ∈ l2, Candidate INV g distance v e →
              distance (g.GetEdgeData (FindEdge S INV g distance u v)) ≤ distance (g.GetEdgeData e))) := by
  have h := findFold_inv S INV g distance v (g.GetAdjacentEdgeRange u) [] (S, INV)
    (Or.inl ⟨rfl, fun e he => absurd he (List.not_mem_nil _)⟩)
  rw [List.nil_append] at h
  unfold FindEdge
  generalize (g.GetAdjacentEdgeRange u).foldl (findStep g distance v) (S, INV) = r at h
  constructor
  · intro hnone
    rcases h with ⟨hst, _⟩ | ⟨l1, l2, hpre, hc, _⟩
    · rw [hst]
    · exfalso
      exact hnone _ (by rw [hpre]; simp) hc
  · rintro ⟨e, he, hce⟩
    rcases h with ⟨_, hnone⟩ | ⟨l1, l2, hpre, hc, hw, hl1, hl2⟩
    · exact absurd hce (hnone e he)
    · refine ⟨l1, l2, hpre, hc, ?_, ?_⟩
      · intro e he hce; rw [← hw]; exact hl1 e he hce
      · intro e he hce; rw [← hw]; exact hl2 e he hce

end StaticGraph

namespace alternative_path

theorem castToInt_le (x : ℚ) (hx : 0 ≤ x) : (castToInt x : ℚ) ≤ x := by
  unfold castToInt
  rw [if_pos hx]
  exact Int.floor_le x

theorem mem_rankFold (compute : NodeID → Int × Int) (ub : Int) (c : RankedCandidateNode) :
    ∀ (l : List NodeID) (acc : List RankedCandidateNode),
      c ∈ l.foldl (rankStep compute ub) acc →
      c ∈ acc ∨ (c.node ∈ l ∧ c.length = (compute c.node).1 ∧ c.sharing = (compute c.node).2
        ∧ c.sharing ≤ castToInt ((ub : ℚ) * VIAPATH_GAMMA)
        ∧ (c.length : ℚ) ≤ (ub : ℚ) * (1 + VIAPATH_EPSILON)) := by
  intro l
  induction l with
  | nil => intro acc h; exact Or.inl h
  | cons a rest ih =>
    intro acc h
    rw [List.foldl_cons] at h
    rcases ih _ h with h1 | ⟨h1, h2⟩
    · unfold rankStep at h1
      dsimp only at h1
      split_ifs at h1 with hc
      · rcases List.mem_append.1 h1 with h1 | h1
        · exact Or.inl h1
        · simp only [List.mem_singleton] at h1
          subst h1
          exact Or.inr ⟨List.mem_cons_self _ _, rfl, rfl, hc.1, hc.2⟩
      · exact Or.inl h1
    · exact Or.inr ⟨List.mem_cons_of_mem _ h1, h2⟩

theorem selectViaNode_mem (S : NodeID) (passes : RankedCandidateNode → Bool) :
    ∀ (l : List RankedCandidateNode), selectViaNode S passes l ≠ S →
      ∃ c ∈ l, passes c = true ∧ c.node = selectViaNode S passes l := by
  intro l
  induction l with
  | nil => intro h; exact absurd rfl h
  | cons c rest ih =>
    intro h
    unfold selectViaNode at h ⊢
    by_cases hp : passes c = true
    · simp only [hp, if_true]
      exact ⟨c, List.mem_cons_self _ _, hp, rfl⟩
    · simp only [hp, Bool.false_eq_true, if_false] at h ⊢
      obtain ⟨d, hd, h1, h2⟩ := ih h
      exact ⟨d, List.mem_cons_of_mem _ hd, h1, h2⟩

end alternative_path

namespace QueryHeap

theorem argmin_mem (key : NodeID → Int) (d : NodeID) :
    ∀ l : List NodeID, l ≠ [] → argmin key d l ∈ l := by
  intro l
  induction l with
  | nil => intro h; exact absurd rfl h
  | cons a rest ih =>
    intro _
    cases rest with
    | nil => simp [argmin]
    | cons b rest2 =>
      have ih2 := ih (by simp)
      unfold argmin
      split_ifs
      · exact List.mem_cons_of_mem _ ih2
      · exact List.mem_cons_self _ _

theorem argmin_le (key : NodeID → Int) (d : NodeID) :
    ∀ (l : List NodeID) (x : NodeID), x ∈ l → key (argmin key d l) ≤ key x := by
  intro l
  induction l with
  | nil => intro x hx; cases hx
  | cons a rest ih =>
    intro x hx
    cases rest with
    | nil =>
      simp only [List.mem_singleton] at hx
      subst hx
      simp [argmin]
    | cons b rest2 =>
      unfold argmin
      rcases List.mem_cons.1 hx with rfl | hx2
      · split_ifs with hlt
        · exact le_of_lt hlt
        · exact le_refl _
      · have := ih x hx2
        split_ifs with hlt
        · exact this
        · push_neg at hlt
          exact le_trans hlt this

theorem deleteMin_queued (h : QueryHeap) (hs : 0 < h.Size) :
    h.DeleteMin.1 ∈ h.inserted ∧ h.inHeap h.DeleteMin.1 = true := by
  have hne : h.queued ≠ [] := by
    intro he
    unfold Size at hs
    rw [he] at hs
    exact absurd hs (by decide)
  have hm := argmin_mem h.key 0 h.queued hne
  unfold queued at hm
  have := List.mem_filter.1 hm
  exact this

theorem deleteMin_le (h : QueryHeap) (q : NodeID) (hq : q ∈ h.inserted)
    (hq2 : h.inHeap q = true) : h.key h.DeleteMin.1 ≤ h.key q := by
  have hm : q ∈ h.queued := List.mem_filter.2 ⟨hq, hq2⟩
  exact argmin_le h.key 0 h.queued q hm

theorem size_pos_of_queued (h : QueryHeap) (q : NodeID) (hq : q ∈ h.inserted)
    (hq2 : h.inHeap q = true) : 0 < h.Size := by
  have hm : q ∈ h.queued := List.mem_filter.2 ⟨hq, hq2⟩
  unfold Size
  exact List.length_pos_of_mem hm

theorem size_zero_iff (h : QueryHeap) :
    h.Size = 0 ↔ ∀ q ∈ h.inserted, h.inHeap q = false := by
  unfold Size queued
  rw [List.length_eq_zero, List.filter_eq_nil_iff]
  constructor
  · intro hh q hq
    have := hh q hq
    simpa using this
  · intro hh q hq
    simp [hh q hq]

end QueryHeap

namespace alternative_path

theorem arc_pos {facade : StaticGraph EdgeData} {DIRECTION : Bool} {u v : NodeID} {c : Int}
    (hpos : ∀ u, ∀ e ∈ facade.GetAdjacentEdgeRange u, 0 < (facade.GetEdgeData e).weight)
    (h : Arc facade DIRECTION u v c) : 0 < c := by
  obtain ⟨e, he, _, _, hw⟩ := h
  rw [← hw]
  exact hpos u e he

theorem upPath_nonneg {facade : StaticGraph EdgeData} {DIRECTION : Bool} {x0 v : NodeID} {a : Int}
    (hpos : ∀ u, ∀ e ∈ facade.GetAdjacentEdgeRange u, 0 < (facade.GetEdgeData e).weight)
    (h : UpPath facade DIRECTION x0 v a) : 0 ≤ a := by
  induction h with
  | nil => exact le_refl _
  | snoc _ harc ih =>
    have := arc_pos hpos harc
    omega

theorem prune_bound (ub k off : Int) (hub : 0 ≤ ub) (hoff : off ≤ 0)
    (h : castToInt (((k + off : Int) : ℚ) / (1 + VIAPATH_EPSILON)) > ub) : ub < k := by
  unfold castToInt VIAPATH_EPSILON at h
  split_ifs at h with h0
  · have h1 : ((ub : Int) : ℚ) < ⌊((k + off : Int) : ℚ) / (1 + 15 / 100)⌋ := by exact_mod_cast h
    have h2 := Int.floor_le (((k + off : Int) : ℚ) / (1 + 15 / 100))
    have h3 : (ub : ℚ) < ((k + off : Int) : ℚ) / (1 + 15 / 100) := lt_of_lt_of_le h1 h2
    have h4 : (ub : ℚ) * (1 + 15 / 100) < ((k + off : Int) : ℚ) := by
      rwa [lt_div_iff₀ (by norm_num)] at h3
    have h5 : (0 : ℚ) ≤ (ub : ℚ) := by exact_mod_cast hub
    have h6 : (ub : ℚ) < ((k + off : Int) : ℚ) := by nlinarith
    have h7 : ub < k + off := by exact_mod_cast h6
    omega
  · push_neg at h0
    have h1 : ⌈((k + off : Int) : ℚ) / (1 + 15 / 100)⌉ ≤ 0 := by
      apply Int.ceil_le.2
      push_cast
      exact le_of_lt (by simpa using h0)
    omega

theorem getTarget_mem_reachable (facade : StaticGraph EdgeData) (x0 : NodeID) (e : Nat) :
    facade.GetTarget e ∈ reachable facade x0 := by
  unfold reachable StaticGraph.GetTarget
  by_cases he : e < facade.edge_array.length
  · refine List.mem_cons_of_mem _ (List.mem_cons_of_mem _ ?_)
    rw [List.getD_eq_getElem _ _ he]
    exact List.mem_map.2 ⟨_, List.getElem_mem _, rfl⟩
  · refine List.mem_cons_of_mem _ (List.mem_cons.2 (Or.inl ?_))
    rw [List.getD_eq_default _ _ (by omega)]
    rfl

end alternative_path

namespace alternative_path

theorem relax_update {facade : StaticGraph EdgeData} {DIRECTION : Bool} {x0 n : NodeID} {k : Int}
    {key0 : NodeID → Int} {done : List Nat} {h h' : QueryHeap} {P : List NodeID}
    (hi : RelaxInv facade DIRECTION x0 n k key0 done h P) (e : Nat)
    (hc : 0 < (facade.GetEdgeData e).weight)
    (harc : Arc facade DIRECTION n (facade.GetTarget e) (facade.GetEdgeData e).weight)
    (hkey' : h'.key = Function.update h.key (facade.GetTarget e)
      (k + (facade.GetEdgeData e).weight))
    (hins' : ∀ v, v ∈ h'.inserted ↔ v = facade.GetTarget e ∨ v ∈ h.inserted)
    (hnodup' : h'.inserted.Nodup)
    (hheap' : ∀ v, h'.inHeap v = true ↔ (v = facade.GetTarget e ∨ h.inHeap v = true))
    (hkey : facade.GetTarget e ∈ h.inserted →
      k + (facade.GetEdgeData e).weight ≤ h.key (facade.GetTarget e))
    (hP : facade.GetTarget e ∉ P) :
    RelaxInv facade DIRECTION x0 n k key0 (done ++ [e]) h' P := by
  have hn : n ∈ h.inserted := (hi.procIns n hi.nmem).1
  have hpath : UpPath facade DIRECTION x0 (facade.GetTarget e)
      (k + (facade.GetEdgeData e).weight) := by
    have := hi.sound n hn
    rw [hi.keyn] at this
    exact UpPath.snoc this harc
  set tgt := facade.GetTarget e with htgt
  set c := (facade.GetEdgeData e).weight with hcdef
  have hkP : ∀ u ∈ P, h'.key u = h.key u := by
    intro u hu
    rw [hkey']
    exact Function.update_noteq (fun (hh : u = tgt) => hP (by rw [← hh]; exact hu)) _ _
  have hkne : ∀ v, v ≠ tgt → h'.key v = h.key v := by
    intro v hv
    rw [hkey']
    exact Function.update_noteq hv _ _
  have hkt : h'.key tgt = k + c := by
    rw [hkey']
    exact Function.update_same _ _ _
  have hkle : ∀ v ∈ h.inserted, h'.key v ≤ h.key v := by
    intro v hv
    by_cases hvt : v = tgt
    · rw [hvt, hkt]
      exact hkey (by rw [← hvt]; exact hv)
    · rw [hkne v hvt]
  refine ⟨hnodup', (hins' x0).2 (Or.inr hi.src), ?_, ?_, ?_, ?_, ?_, hi.nmem, ?_, ?_, ?_, ?_, ?_,
    fun u hu => (hkP u hu).trans (hi.frozen u hu), le_trans (hkle x0 hi.src) hi.src0⟩
  · intro v hv
    by_cases hvt : v = tgt
    · rw [hvt, hkt]
      exact hpath
    · rw [hkne v hvt]
      rcases (hins' v).1 hv with h1 | h1
      · exact absurd h1 hvt
      · exact hi.sound v h1
  · intro v hv
    rcases (hheap' v).1 hv with h1 | h1
    · exact (hins' v).2 (Or.inl h1)
    · exact (hins' v).2 (Or.inr (hi.queuedIns v h1))
  · intro v hv
    rcases (hins' v).1 hv with h1 | h1
    · exact Or.inr ((hheap' v).2 (Or.inl h1))
    · rcases hi.part0 v h1 with h2 | h2
      · exact Or.inl h2
      · exact Or.inr ((hheap' v).2 (Or.inr h2))
  · intro v hv
    have h1 := hi.procIns v hv
    refine ⟨(hins' v).2 (Or.inr h1.1), ?_⟩
    cases hb : h'.inHeap v with
    | false => rfl
    | true =>
      rcases (hheap' v).1 hb with h2 | h2
      · exact absurd (by rw [← h2]; exact hv) hP
      · rw [h1.2] at h2
        exact absurd h2 (by decide)
  · rw [hkP n hi.nmem]
    exact hi.keyn
  · intro u hu
    rw [hkP u hu]
    exact hi.below u hu
  · intro u hu hun v c' ha
    have h1 := hi.closedOld u hu hun v c' ha
    refine ⟨(hins' v).2 (Or.inr h1.1), ?_⟩
    rw [hkP u hu]
    exact le_trans (hkle v h1.1) h1.2
  · intro e' he' hf'
    rcases List.mem_append.1 he' with h1 | h1
    · have h2 := hi.closedNew e' h1 hf'
      exact ⟨(hins' _).2 (Or.inr h2.1), le_trans (hkle _ h2.1) h2.2⟩
    · have h2 : e' = e := by simpa using h1
      subst h2
      refine ⟨(hins' _).2 (Or.inl rfl), ?_⟩
      rw [← htgt, hkt]
  · intro u hu q hq
    rw [hkP u hu]
    by_cases hqt : q = tgt
    · rw [hqt, hkt]
      have := hi.below u hu
      omega
    · rw [hkne q hqt]
      rcases (hheap' q).1 hq with h1 | h1
      · exact absurd h1 hqt
      · exact hi.mono u hu q h1
  · intro v hv
    rcases (hins' v).1 hv with h1 | h1
    · rw [h1]
      exact getTarget_mem_reachable facade x0 e
    · exact hi.sub v h1

theorem relax_skip {facade : StaticGraph EdgeData} {DIRECTION : Bool} {x0 n : NodeID} {k : Int}
    {key0 : NodeID → Int} {done : List Nat} {h : QueryHeap} {P : List NodeID}
    (hi : RelaxInv facade DIRECTION x0 n k key0 done h P) (e : Nat)
    (hnew : flag DIRECTION (facade.GetEdgeData e) = true →
      facade.GetTarget e ∈ h.inserted
        ∧ h.key (facade.GetTarget e) ≤ k + (facade.GetEdgeData e).weight) :
    RelaxInv facade DIRECTION x0 n k key0 (done ++ [e]) h P := by
  refine ⟨hi.nodup, hi.src, hi.sound, hi.queuedIns, hi.part0, hi.procIns, hi.keyn, hi.nmem,
    hi.below, hi.closedOld, ?_, hi.mono, hi.sub, hi.frozen, hi.src0⟩
  intro e' he' hf'
  rcases List.mem_append.1 he' with h1 | h1
  · exact hi.closedNew e' h1 hf'
  · have h2 : e' = e := by simpa using h1
    subst h2
    exact hnew hf'

theorem relaxEdge_inv {facade : StaticGraph EdgeData} {DIRECTION : Bool} {x0 n : NodeID} {k : Int}
    {key0 : NodeID → Int} {done : List Nat} {h : QueryHeap} {P : List NodeID}
    (hpos : ∀ u, ∀ e ∈ facade.GetAdjacentEdgeRange u, 0 < (facade.GetEdgeData e).weight)
    (hi : RelaxInv facade DIRECTION x0 n k key0 done h P) (e : Nat)
    (he : e ∈ facade.GetAdjacentEdgeRange n) :
    RelaxInv facade DIRECTION x0 n k key0 (done ++ [e]) (relaxEdge facade DIRECTION n k h e) P := by
  unfold relaxEdge
  dsimp only
  by_cases hf : flag DIRECTION (facade.GetEdgeData e) = true
  · have hf2 : (if DIRECTION then (facade.GetEdgeData e).forward
        else (facade.GetEdgeData e).backward) = true := hf
    rw [if_pos hf2]
    have harc : Arc facade DIRECTION n (facade.GetTarget e) (facade.GetEdgeData e).weight :=
      ⟨e, he, hf, rfl, rfl⟩
    have hc := hpos n e he
    by_cases hins : facade.GetTarget e ∈ h.inserted
    · have hw : (!h.WasInserted (facade.GetTarget e)) = false := by
        simp [QueryHeap.WasInserted, hins]
      rw [hw]
      simp only [Bool.false_eq_true, if_false]
      by_cases hlt : k + (facade.GetEdgeData e).weight < h.GetKey (facade.GetTarget e)
      · rw [if_pos hlt]
        have hP : facade.GetTarget e ∉ P := by
          intro hp
          have := hi.below _ hp
          unfold QueryHeap.GetKey at hlt
          omega
        have hq : h.inHeap (facade.GetTarget e) = true := by
          rcases hi.part0 _ hins with h1 | h1
          · exact absurd h1 hP
          · exact h1
        refine relax_update hi e hc harc rfl ?_ hi.nodup ?_ (fun _ => le_of_lt hlt) hP
        · intro v
          constructor
          · intro hv; exact Or.inr hv
          · intro hv
            rcases hv with h1 | h1
            · rw [h1]; exact hins
            · exact h1
        · intro v
          constructor
          · intro hv; exact Or.inr hv
          · intro hv
            rcases hv with h1 | h1
            · rw [h1]; exact hq
            · exact h1
      · rw [if_neg hlt]
        refine relax_skip hi e (fun _ => ⟨hins, ?_⟩)
        unfold QueryHeap.GetKey at hlt
        omega
    · have hw : (!h.WasInserted (facade.GetTarget e)) = true := by
        simp [QueryHeap.WasInserted, hins]
      rw [hw]
      simp only [if_true]
      have hP : facade.GetTarget e ∉ P := fun hp => hins (hi.procIns _ hp).1
      refine relax_update hi e hc harc rfl ?_ (List.nodup_cons.2 ⟨hins, hi.nodup⟩) ?_
        (fun hh => absurd hh hins) hP
      · intro v
        exact List.mem_cons
      · intro v
        show Function.update h.inHeap (facade.GetTarget e) true v = true ↔ _
        by_cases hv : v = facade.GetTarget e
        · rw [hv, Function.update_same]
          simp
        · rw [Function.update_noteq hv]
          simp [hv]
  · have hf2 : ¬ (if DIRECTION then (facade.GetEdgeData e).forward
        else (facade.GetEdgeData e).backward) = true := hf
    rw [if_neg hf2]
    exact relax_skip hi e (fun hh => absurd hh hf)

theorem relaxFold_inv {facade : StaticGraph EdgeData} {DIRECTION : Bool} {x0 n : NodeID} {k : Int}
    {key0 : NodeID → Int} {P : List NodeID}
    (hpos : ∀ u, ∀ e ∈ facade.GetAdjacentEdgeRange u, 0 < (facade.GetEdgeData e).weight) :
    ∀ (l : List Nat) (done : List Nat) (h : QueryHeap),
      (∀ e ∈ l, e ∈ facade.GetAdjacentEdgeRange n) →
      RelaxInv facade DIRECTION x0 n k key0 done h P →
      RelaxInv facade DIRECTION x0 n k key0 (done ++ l)
        (l.foldl (relaxEdge facade DIRECTION n k) h) P := by
  intro l
  induction l with
  | nil => intro done h _ hi; simpa using hi
  | cons e rest ih =>
    intro done h hl hi
    have h1 := relaxEdge_inv hpos hi e (hl e (List.mem_cons_self _ _))
    have h2 := ih (done ++ [e]) _ (fun e' he' => hl e' (List.mem_cons_of_mem _ he')) h1
    simpa using h2

end alternative_path

namespace alternative_path

theorem deleteMin_relaxInv {INVALID_EDGE_WEIGHT : Int} {facade : StaticGraph EdgeData}
    {DIRECTION : Bool} {x0 : NodeID} {h : QueryHeap} {P : List NodeID} {ub : Int}
    (hi : DirInv INVALID_EDGE_WEIGHT facade DIRECTION x0 h P ub) (hs : 0 < h.Size) :
    RelaxInv facade DIRECTION x0 h.DeleteMin.1 (h.DeleteMin.2.GetKey h.DeleteMin.1) h.key []
      h.DeleteMin.2 (P ++ [h.DeleteMin.1]) := by
  obtain ⟨hn, hnq⟩ := QueryHeap.deleteMin_queued h hs
  set n := h.DeleteMin.1 with hndef
  have hheap : h.DeleteMin.2.inHeap = Function.update h.inHeap n false := rfl
  have hkey : h.DeleteMin.2.key = h.key := rfl
  have hinsd : h.DeleteMin.2.inserted = h.inserted := rfl
  have hpart : ∀ v ∈ h.inserted, v ∈ P ∨ h.inHeap v = true := by
    intro v hv
    rcases hi.part v hv with h1 | h1 | h1
    · exact Or.inl h1
    · exact Or.inr h1
    · rw [h1.1 n] at hnq
      exact absurd hnq (by decide)
  have hh1 : ∀ v, h.DeleteMin.2.inHeap v = true → v ≠ n ∧ h.inHeap v = true := by
    intro v hv
    rw [hheap] at hv
    by_cases hvn : v = n
    · rw [hvn, Function.update_same] at hv
      exact absurd hv (by decide)
    · rw [Function.update_noteq hvn] at hv
      exact ⟨hvn, hv⟩
  refine ⟨hi.nodup, hi.src, hi.sound, fun v hv => hi.queuedIns v (hh1 v hv).2, ?_, ?_, rfl,
    List.mem_append_right _ (List.mem_singleton_self _), ?_, ?_, ?_, ?_, hi.sub, fun _ _ => rfl,
    hi.src0⟩
  · intro v hv
    by_cases hvn : v = n
    · left
      rw [hvn]
      exact List.mem_append_right _ (List.mem_singleton_self _)
    · rcases hpart v hv with h1 | h1
      · exact Or.inl (List.mem_append_left _ h1)
      · right
        rw [hheap, Function.update_noteq hvn]
        exact h1
  · intro v hv
    rcases List.mem_append.1 hv with h1 | h1
    · have h2 := hi.procIns v h1
      refine ⟨h2.1, ?_⟩
      rw [hheap]
      by_cases hvn : v = n
      · rw [hvn, Function.update_same]
      · rw [Function.update_noteq hvn]
        exact h2.2
    · have h2 : v = n := by simpa using h1
      rw [h2]
      refine ⟨hn, ?_⟩
      rw [hheap, Function.update_same]
  · intro u hu
    show h.key u ≤ h.key n
    rcases List.mem_append.1 hu with h1 | h1
    · exact hi.mono u h1 n hnq
    · have h2 : u = n := by simpa using h1
      rw [h2]
  · intro u hu hun v c ha
    rcases List.mem_append.1 hu with h1 | h1
    · exact hi.closed u h1 v c ha
    · have h2 : u = n := by simpa using h1
      exact absurd h2 hun
  · intro e he
    cases he
  · intro u hu q hq
    obtain ⟨_, hq2⟩ := hh1 q hq
    show h.key u ≤ h.key q
    rcases List.mem_append.1 hu with h1 | h1
    · exact hi.mono u h1 q hq2
    · have h2 : u = n := by simpa using h1
      rw [h2]
      exact QueryHeap.deleteMin_le h q (hi.queuedIns q hq2) hq2

theorem relaxInv_dirInv {INVALID_EDGE_WEIGHT : Int} {facade : StaticGraph EdgeData}
    {DIRECTION : Bool} {x0 n : NodeID} {k : Int} {key0 : NodeID → Int} {h : QueryHeap}
    {P : List NodeID} (ub : Int)
    (hi : RelaxInv facade DIRECTION x0 n k key0 (facade.GetAdjacentEdgeRange n) h P) :
    DirInv INVALID_EDGE_WEIGHT facade DIRECTION x0 h P ub := by
  refine ⟨hi.nodup, hi.src, hi.sound, hi.queuedIns, ?_, hi.procIns, ?_, hi.mono, hi.sub,
    hi.src0⟩
  · intro v hv
    rcases hi.part0 v hv with h1 | h1
    · exact Or.inl h1
    · exact Or.inr (Or.inl h1)
  · intro u hu v c ha
    by_cases hun : u = n
    · subst hun
      obtain ⟨e, he, hf, ht, hw⟩ := ha
      have := hi.closedNew e he hf
      rw [ht, hw] at this
      rw [hi.keyn]
      exact this
    · exact hi.closedOld u hu hun v c ha

/-- A step that relaxes the edges of the removed node keeps the invariant of its
direction, for every upper bound. -/
theorem dirStep {INVALID_EDGE_WEIGHT : Int} {facade : StaticGraph EdgeData}
    {DIRECTION : Bool} {x0 : NodeID} {h : QueryHeap} {P : List NodeID} {ub : Int}
    (hpos : ∀ u, ∀ e ∈ facade.GetAdjacentEdgeRange u, 0 < (facade.GetEdgeData e).weight)
    (hi : DirInv INVALID_EDGE_WEIGHT facade DIRECTION x0 h P ub) (hs : 0 < h.Size) (ub' : Int) :
    DirInv INVALID_EDGE_WEIGHT facade DIRECTION x0
        ((facade.GetAdjacentEdgeRange h.DeleteMin.1).foldl
          (relaxEdge facade DIRECTION h.DeleteMin.1 (h.DeleteMin.2.GetKey h.DeleteMin.1))
          h.DeleteMin.2)
        (P ++ [h.DeleteMin.1]) ub'
      ∧ ∀ u ∈ P ++ [h.DeleteMin.1],
        ((facade.GetAdjacentEdgeRange h.DeleteMin.1).foldl
          (relaxEdge facade DIRECTION h.DeleteMin.1 (h.DeleteMin.2.GetKey h.DeleteMin.1))
          h.DeleteMin.2).key u = h.key u := by
  have h1 := deleteMin_relaxInv hi hs
  have h2 := relaxFold_inv hpos (facade.GetAdjacentEdgeRange h.DeleteMin.1) [] _
    (fun e he => he) h1
  rw [List.nil_append] at h2
  exact ⟨relaxInv_dirInv ub' h2, h2.frozen⟩

/-- A step that prunes the heap keeps the invariant of its direction. -/
theorem dirPrune {INVALID_EDGE_WEIGHT : Int} {facade : StaticGraph EdgeData}
    {DIRECTION : Bool} {x0 : NodeID} {h : QueryHeap} {P : List NodeID} {ub : Int}
    (hi : DirInv INVALID_EDGE_WEIGHT facade DIRECTION x0 h P ub) (hs : 0 < h.Size)
    (hub : ub < INVALID_EDGE_WEIGHT) (hk : ub < h.key h.DeleteMin.1) :
    DirInv INVALID_EDGE_WEIGHT facade DIRECTION x0 h.DeleteMin.2.DeleteAll P ub := by
  obtain ⟨hn, hnq⟩ := QueryHeap.deleteMin_queued h hs
  refine ⟨hi.nodup, hi.src, hi.sound, ?_, ?_, ?_, hi.closed, ?_, hi.sub, hi.src0⟩
  · intro v hv
    exact absurd hv (by simp [QueryHeap.DeleteAll])
  · intro v hv
    rcases hi.part v hv with h1 | h1 | h1
    · exact Or.inl h1
    · right; right
      refine ⟨fun _ => rfl, hub, ?_⟩
      have := QueryHeap.deleteMin_le h v hv h1
      show ub < h.key v
      omega
    · rw [h1.1 _] at hnq
      exact absurd hnq (by decide)
  · intro v hv
    exact ⟨(hi.procIns v hv).1, rfl⟩
  · intro u _ q hq
    exact absurd hq (by simp [QueryHeap.DeleteAll])

/-- The invariant of a direction allows a smaller upper bound. -/
theorem dirMono {INVALID_EDGE_WEIGHT : Int} {facade : StaticGraph EdgeData}
    {DIRECTION : Bool} {x0 : NodeID} {h : QueryHeap} {P : List NodeID} {ub : Int}
    (hi : DirInv INVALID_EDGE_WEIGHT facade DIRECTION x0 h P ub) (ub' : Int) (hle : ub' ≤ ub) :
    DirInv INVALID_EDGE_WEIGHT facade DIRECTION x0 h P ub' := by
  refine ⟨hi.nodup, hi.src, hi.sound, hi.queuedIns, ?_, hi.procIns, hi.closed, hi.mono, hi.sub,
    hi.src0⟩
  intro v hv
  rcases hi.part v hv with h1 | h1 | h1
  · exact Or.inl h1
  · exact Or.inr (Or.inl h1)
  · exact Or.inr (Or.inr ⟨h1.1, by omega, by omega⟩)

end alternative_path

namespace alternative_path

theorem updateUpperBound_snd (INVALID_EDGE_WEIGHT : Int) (getLoopWeight : NodeID → Int)
    (n mid : NodeID) (nw ub : Int) (hnw : 0 ≤ nw) :
    (updateUpperBound INVALID_EDGE_WEIGHT getLoopWeight n nw (mid, ub)).2
      = if nw < ub then nw else ub := by
  unfold updateUpperBound
  dsimp only
  by_cases h1 : nw < ub
  · rw [if_pos h1, if_pos h1, if_pos (show nw ≥ 0 from hnw)]
  · rw [if_neg h1, if_neg h1]

/-- The upper bound after a step that does not prune. -/
theorem bound_core {INVALID_EDGE_WEIGHT : Int} {facade : StaticGraph EdgeData}
    {DIRECTION : Bool} {x0 y0 : NodeID} {hx hy : QueryHeap} {PX PY : List NodeID} {ub : Int}
    (getLoopWeight : NodeID → Int) (mid : NodeID)
    (hpos : ∀ u, ∀ e ∈ facade.GetAdjacentEdgeRange u, 0 < (facade.GetEdgeData e).weight)
    (hX : DirInv INVALID_EDGE_WEIGHT facade DIRECTION x0 hx PX ub)
    (hY : DirInv INVALID_EDGE_WEIGHT facade (!DIRECTION) y0 hy PY ub)
    (hub : ub = INVALID_EDGE_WEIGHT ∨ (0 ≤ ub ∧ ub < INVALID_EDGE_WEIGHT
      ∧ ∃ m a b, UpPath facade DIRECTION x0 m a ∧ UpPath facade (!DIRECTION) y0 m b
        ∧ ub = a + b))
    (n : NodeID) (hn : n ∈ hx.inserted) (ub' : Int)
    (hub' : ub' = (if hy.WasInserted n then
        updateUpperBound INVALID_EDGE_WEIGHT getLoopWeight n (hy.GetKey n + hx.key n) (mid, ub)
      else (mid, ub)).2) :
    ub' ≤ ub
      ∧ (ub' = INVALID_EDGE_WEIGHT ∨ (0 ≤ ub' ∧ ub' < INVALID_EDGE_WEIGHT
        ∧ ∃ m a b, UpPath facade DIRECTION x0 m a ∧ UpPath facade (!DIRECTION) y0 m b
          ∧ ub' = a + b))
      ∧ (n ∈ PY → ub' ≤ hx.key n + hy.key n) := by
  have hkx := hX.sound n hn
  have hkx0 := upPath_nonneg hpos hkx
  by_cases hw : n ∈ hy.inserted
  · have hky := hY.sound n hw
    have hky0 := upPath_nonneg hpos hky
    have hw2 : hy.WasInserted n = true := by simp [QueryHeap.WasInserted, hw]
    rw [hw2, if_pos rfl, updateUpperBound_snd _ _ _ _ _ _
      (show 0 ≤ hy.GetKey n + hx.key n from add_nonneg hky0 hkx0)] at hub'
    by_cases hlt : hy.GetKey n + hx.key n < ub
    · rw [if_pos hlt] at hub'
      have hk : hy.GetKey n = hy.key n := rfl
      rw [hk] at hub' hlt
      refine ⟨by omega, Or.inr ⟨by omega, ?_, n, hx.key n, hy.key n, hkx, hky, by omega⟩,
        fun _ => by omega⟩
      rcases hub with h1 | h1
      · omega
      · omega
    · rw [if_neg hlt] at hub'
      have hk : hy.GetKey n = hy.key n := rfl
      rw [hk] at hlt
      rw [hub']
      exact ⟨le_refl _, hub, fun _ => by omega⟩
  · have hw2 : hy.WasInserted n = false := by simp [QueryHeap.WasInserted, hw]
    rw [hw2] at hub'
    simp only [Bool.false_eq_true, if_false] at hub'
    rw [hub']
    exact ⟨le_refl _, hub, fun hp => absurd (hY.procIns n hp).1 hw⟩

/-- The direction-independent content of a step that relaxes the edges of the removed
node. -/
theorem relax_core {INVALID_EDGE_WEIGHT : Int} {facade : StaticGraph EdgeData}
    {DIRECTION : Bool} {x0 y0 : NodeID} {hx hy : QueryHeap} {PX PY : List NodeID} {ub : Int}
    (getLoopWeight : NodeID → Int) (mid : NodeID)
    (hpos : ∀ u, ∀ e ∈ facade.GetAdjacentEdgeRange u, 0 < (facade.GetEdgeData e).weight)
    (hX : DirInv INVALID_EDGE_WEIGHT facade DIRECTION x0 hx PX ub)
    (hY : DirInv INVALID_EDGE_WEIGHT facade (!DIRECTION) y0 hy PY ub)
    (hub : ub = INVALID_EDGE_WEIGHT ∨ (0 ≤ ub ∧ ub < INVALID_EDGE_WEIGHT
      ∧ ∃ m a b, UpPath facade DIRECTION x0 m a ∧ UpPath facade (!DIRECTION) y0 m b
        ∧ ub = a + b))
    (hmeet : ∀ v, v ∈ PX → v ∈ PY → ub ≤ hx.key v + hy.key v) (hs : 0 < hx.Size)
    (hx' : QueryHeap) (ub' : Int)
    (hhx' : hx' = (facade.GetAdjacentEdgeRange hx.DeleteMin.1).foldl
          (relaxEdge facade DIRECTION hx.DeleteMin.1 (hx.DeleteMin.2.GetKey hx.DeleteMin.1))
          hx.DeleteMin.2)
    (hub' : ub' = (if hy.WasInserted hx.DeleteMin.1 then
        updateUpperBound INVALID_EDGE_WEIGHT getLoopWeight hx.DeleteMin.1
          (hy.GetKey hx.DeleteMin.1 + hx.DeleteMin.2.GetKey hx.DeleteMin.1) (mid, ub)
      else (mid, ub)).2) :
    DirInv INVALID_EDGE_WEIGHT facade DIRECTION x0 hx' (PX ++ [hx.DeleteMin.1]) ub'
      ∧ DirInv INVALID_EDGE_WEIGHT facade (!DIRECTION) y0 hy PY ub'
      ∧ (ub' = INVALID_EDGE_WEIGHT ∨ (0 ≤ ub' ∧ ub' < INVALID_EDGE_WEIGHT
        ∧ ∃ m a b, UpPath facade DIRECTION x0 m a ∧ UpPath facade (!DIRECTION) y0 m b
          ∧ ub' = a + b))
      ∧ (∀ v, v ∈ PX ++ [hx.DeleteMin.1] → v ∈ PY → ub' ≤ hx'.key v + hy.key v) := by
  obtain ⟨hn, _⟩ := QueryHeap.deleteMin_queued hx hs
  obtain ⟨h1, h2, h3⟩ := bound_core getLoopWeight mid hpos hX hY hub hx.DeleteMin.1 hn ub' hub'
  obtain ⟨h4, h5⟩ := dirStep hpos hX hs ub'
  rw [← hhx'] at h4 h5
  refine ⟨h4, dirMono hY ub' h1, h2, ?_⟩
  intro v hv hvy
  rw [h5 v hv]
  rcases List.mem_append.1 hv with h6 | h6
  · exact le_trans h1 (hmeet v h6 hvy)
  · have h7 : v = hx.DeleteMin.1 := by simpa using h6
    rw [h7] at hvy ⊢
    exact h3 hvy

/-- The direction-independent content of a step that prunes. -/
theorem prune_core {INVALID_EDGE_WEIGHT : Int} {facade : StaticGraph EdgeData}
    {DIRECTION : Bool} {x0 : NodeID} {hx : QueryHeap} {PX : List NodeID} {ub : Int}
    {y0 : NodeID} {off : Int} (hoff : off ≤ 0)
    (hX : DirInv INVALID_EDGE_WEIGHT facade DIRECTION x0 hx PX ub)
    (hub : ub = INVALID_EDGE_WEIGHT ∨ (0 ≤ ub ∧ ub < INVALID_EDGE_WEIGHT
      ∧ ∃ m a b, UpPath facade DIRECTION x0 m a ∧ UpPath facade (!DIRECTION) y0 m b
        ∧ ub = a + b))
    (hs : 0 < hx.Size)
    (hp : (INVALID_EDGE_WEIGHT != ub
      && decide (castToInt (((hx.DeleteMin.2.GetKey hx.DeleteMin.1 + off : Int) : ℚ)
        / (1 + VIAPATH_EPSILON)) > ub)) = true) :
    DirInv INVALID_EDGE_WEIGHT facade DIRECTION x0 hx.DeleteMin.2.DeleteAll PX ub := by
  rw [Bool.and_eq_true] at hp
  obtain ⟨hp1, hp2⟩ := hp
  have hp1' : INVALID_EDGE_WEIGHT ≠ ub := by simpa using hp1
  have hp2' := of_decide_eq_true hp2
  rcases hub with h1 | h1
  · exact absurd h1.symm hp1'
  · exact dirPrune hX hs h1.2.1 (prune_bound ub _ off h1.1 hoff hp2')

end alternative_path

namespace alternative_path

theorem ite_elim {α : Type} {P : α → Prop} {c : Prop} [Decidable c] {a b : α}
    (ha : c → P a) (hb : ¬ c → P b) : P (if c then a else b) := by
  split_ifs with h
  · exact ha h
  · exact hb h

theorem ubOk_swap {INVALID_EDGE_WEIGHT : Int} {facade : StaticGraph EdgeData} {s t : NodeID}
    {ub : Int} :
    UbOk INVALID_EDGE_WEIGHT facade s t ub ↔
      (ub = INVALID_EDGE_WEIGHT ∨ (0 ≤ ub ∧ ub < INVALID_EDGE_WEIGHT
        ∧ ∃ m a b, UpPath facade false t m a ∧ UpPath facade (!false) s m b ∧ ub = a + b)) := by
  unfold UbOk
  constructor
  · rintro (h | ⟨h1, h2, m, a, b, ha, hb, hab⟩)
    · exact Or.inl h
    · exact Or.inr ⟨h1, h2, m, b, a, hb, ha, by omega⟩
  · rintro (h | ⟨h1, h2, m, a, b, ha, hb, hab⟩)
    · exact Or.inl h
    · exact Or.inr ⟨h1, h2, m, b, a, hb, ha, by omega⟩

/-- A forward step keeps the invariant of the search. -/
theorem step_inv_forward {INVALID_EDGE_WEIGHT : Int} {facade : StaticGraph EdgeData}
    {s t : NodeID} {st : SearchState} (getLoopWeight : NodeID → Int) {off : Int}
    (hoff : off ≤ 0)
    (hpos : ∀ u, ∀ e ∈ facade.GetAdjacentEdgeRange u, 0 < (facade.GetEdgeData e).weight)
    (hi : SearchInv INVALID_EDGE_WEIGHT facade s t st) (hs : 0 < st.forward_heap1.Size) :
    SearchInv INVALID_EDGE_WEIGHT facade s t
      (alternativeRoutingStep INVALID_EDGE_WEIGHT getLoopWeight facade off true st) := by
  unfold alternativeRoutingStep
  simp only [if_true]
  refine ite_elim (fun hp => ?_) (fun hp => ?_)
  · exact ⟨prune_core hoff hi.fwd hi.ub hs hp, hi.rev, hi.ub, hi.meet⟩
  · obtain ⟨h1, h2, h3, h4⟩ := relax_core getLoopWeight st.middle_node hpos hi.fwd hi.rev hi.ub
      hi.meet hs _ _ rfl rfl
    have hP : processedOf true st ++ [st.forward_heap1.DeleteMin.1]
        = List.map (fun p => p.2) (st.forward_search_space
          ++ [(st.forward_heap1.DeleteMin.2.parent st.forward_heap1.DeleteMin.1,
            st.forward_heap1.DeleteMin.1)]) := by
      simp [processedOf]
    refine ⟨?_, h2, h3, ?_⟩
    · rw [hP] at h1
      exact h1
    · intro v hv hv2
      have hv' : v ∈ processedOf true st ++ [st.forward_heap1.DeleteMin.1] := by
        rw [hP]; exact hv
      exact h4 v hv' hv2

/-- A reverse step keeps the invariant of the search. -/
theorem step_inv_reverse {INVALID_EDGE_WEIGHT : Int} {facade : StaticGraph EdgeData}
    {s t : NodeID} {st : SearchState} (getLoopWeight : NodeID → Int) {off : Int}
    (hoff : off ≤ 0)
    (hpos : ∀ u, ∀ e ∈ facade.GetAdjacentEdgeRange u, 0 < (facade.GetEdgeData e).weight)
    (hi : SearchInv INVALID_EDGE_WEIGHT facade s t st) (hs : 0 < st.reverse_heap1.Size) :
    SearchInv INVALID_EDGE_WEIGHT facade s t
      (alternativeRoutingStep INVALID_EDGE_WEIGHT getLoopWeight facade off false st) := by
  unfold alternativeRoutingStep
  simp only [Bool.false_eq_true, if_false]
  have hub := ubOk_swap.1 hi.ub
  have hmeet : ∀ v, v ∈ processedOf false st → v ∈ processedOf true st →
      st.upper_bound_to_shortest_path_weight ≤ st.reverse_heap1.key v + st.forward_heap1.key v := by
    intro v h1 h2
    have := hi.meet v h2 h1
    omega
  refine ite_elim (fun hp => ?_) (fun hp => ?_)
  · exact ⟨hi.fwd, prune_core hoff hi.rev hub hs hp, hi.ub, hi.meet⟩
  · obtain ⟨h1, h2, h3, h4⟩ := @relax_core INVALID_EDGE_WEIGHT facade false t s _ _ _ _ _
      getLoopWeight st.middle_node hpos hi.rev hi.fwd hub hmeet hs _ _ rfl rfl
    have hP : processedOf false st ++ [st.reverse_heap1.DeleteMin.1]
        = List.map (fun p => p.2) (st.reverse_search_space
          ++ [(st.reverse_heap1.DeleteMin.2.parent st.reverse_heap1.DeleteMin.1,
            st.reverse_heap1.DeleteMin.1)]) := by
      simp [processedOf]
    refine ⟨h2, ?_, ubOk_swap.2 h3, ?_⟩
    · rw [hP] at h1
      exact h1
    · intro v hv hv2
      have hv' : v ∈ processedOf false st ++ [st.reverse_heap1.DeleteMin.1] := by
        rw [hP]; exact hv2
      exact le_of_le_of_eq (h4 v hv' hv) (add_comm _ _)

end alternative_path

namespace alternative_path

theorem removed_insert (h : QueryHeap) (tgt : NodeID) (w : Int) (p : NodeID)
    (hins : tgt ∉ h.inserted) : removedCount (h.Insert tgt w p) = removedCount h := by
  unfold removedCount QueryHeap.Insert
  dsimp only
  rw [List.filter_cons]
  rw [if_neg (by simp)]
  congr 1
  apply List.filter_congr
  intro v hv
  have hne : v ≠ tgt := fun hh => hins (hh ▸ hv)
  rw [Function.update_noteq hne]

theorem removed_relaxEdge (facade : StaticGraph EdgeData) (DIRECTION : Bool) (n : NodeID)
    (k : Int) (h : QueryHeap) (e : Nat) :
    removedCount (relaxEdge facade DIRECTION n k h e) = removedCount h := by
  unfold relaxEdge
  dsimp only
  generalize (if DIRECTION then (facade.GetEdgeData e).forward
    else (facade.GetEdgeData e).backward) = b
  split_ifs with h1 h2 h3
  · have hins : facade.GetTarget e ∉ h.inserted := by
      simpa [QueryHeap.WasInserted] using h2
    exact removed_insert h _ _ _ hins
  · rfl
  · rfl
  · rfl

theorem removed_relaxFold (facade : StaticGraph EdgeData) (DIRECTION : Bool) (n : NodeID)
    (k : Int) : ∀ (l : List Nat) (h : QueryHeap),
      removedCount (l.foldl (relaxEdge facade DIRECTION n k) h) = removedCount h := by
  intro l
  induction l with
  | nil => intro h; rfl
  | cons e rest ih =>
    intro h
    rw [List.foldl_cons, ih, removed_relaxEdge]

theorem filter_update_length (f : NodeID → Bool) (n : NodeID) (hf : f n = true) :
    ∀ l : List NodeID, l.Nodup → n ∈ l →
      (l.filter (fun v => !(Function.update f n false) v)).length
        = (l.filter (fun v => !f v)).length + 1 := by
  intro l
  induction l with
  | nil => intro _ h; cases h
  | cons a rest ih =>
    intro hnd hm
    obtain ⟨ha, hrest⟩ := List.nodup_cons.1 hnd
    by_cases han : a = n
    · subst han
      have h1 : rest.filter (fun v => !(Function.update f a false) v)
          = rest.filter (fun v => !f v) := by
        apply List.filter_congr
        intro v hv
        have hne : v ≠ a := fun hh => ha (hh ▸ hv)
        rw [Function.update_noteq hne]
      rw [List.filter_cons, if_pos (by simp), List.filter_cons, if_neg (by simp [hf]), h1]
      rfl
    · have hm2 : n ∈ rest := by
        rcases List.mem_cons.1 hm with h1 | h1
        · exact absurd h1.symm han
        · exact h1
      have h2 := ih hrest hm2
      rw [List.filter_cons, List.filter_cons, Function.update_noteq han]
      by_cases hfa : f a = true
      · rw [if_neg (by simp [hfa]), if_neg (by simp [hfa])]
        exact h2
      · rw [if_pos (by simpa using hfa), if_pos (by simpa using hfa)]
        simp only [List.length_cons]
        omega

theorem removed_deleteMin (h : QueryHeap) (hnd : h.inserted.Nodup) (hs : 0 < h.Size) :
    removedCount h.DeleteMin.2 = removedCount h + 1 := by
  obtain ⟨hn, hq⟩ := QueryHeap.deleteMin_queued h hs
  exact filter_update_length h.inHeap _ hq h.inserted hnd hn

theorem removed_deleteAll (h : QueryHeap) : removedCount h ≤ removedCount h.DeleteAll := by
  unfold removedCount QueryHeap.DeleteAll
  dsimp only
  have h1 : (h.inserted.filter (fun _ => !false)) = h.inserted := by
    simp
  rw [h1]
  exact List.length_filter_le _ _

theorem removed_le {INVALID_EDGE_WEIGHT : Int} {facade : StaticGraph EdgeData}
    {DIRECTION : Bool} {x0 : NodeID} {h : QueryHeap} {P : List NodeID} {ub : Int}
    (hi : DirInv INVALID_EDGE_WEIGHT facade DIRECTION x0 h P ub) :
    removedCount h ≤ facade.edge_array.length + 2 := by
  have h1 : removedCount h ≤ h.inserted.length := List.length_filter_le _ _
  have h2 : h.inserted.length ≤ (reachable facade x0).length :=
    (List.Nodup.subperm hi.nodup hi.sub).length_le
  have h3 : (reachable facade x0).length = facade.edge_array.length + 2 := by
    simp [reachable]
  omega

/-- A forward step removes a node from the forward heap for good and leaves the
reverse heap alone. -/
theorem step_removed_forward {INVALID_EDGE_WEIGHT : Int} {facade : StaticGraph EdgeData}
    {s t : NodeID} {st : SearchState} (getLoopWeight : NodeID → Int) (off : Int)
    (hi : SearchInv INVALID_EDGE_WEIGHT facade s t st) (hs : 0 < st.forward_heap1.Size) :
    removedCount st.forward_heap1 + 1 ≤ removedCount
        (alternativeRoutingStep INVALID_EDGE_WEIGHT getLoopWeight facade off true st).forward_heap1
      ∧ (alternativeRoutingStep INVALID_EDGE_WEIGHT getLoopWeight facade off true st).reverse_heap1
        = st.reverse_heap1 := by
  have h1 := removed_deleteMin st.forward_heap1 hi.fwd.nodup hs
  unfold alternativeRoutingStep
  simp only [if_true]
  refine @ite_elim SearchState (fun x : SearchState => removedCount st.forward_heap1 + 1 ≤ removedCount x.forward_heap1
    ∧ x.reverse_heap1 = st.reverse_heap1) _ _ _ _ (fun hp => ?_) (fun hp => ?_)
  · refine ⟨?_, rfl⟩
    have := removed_deleteAll st.forward_heap1.DeleteMin.2
    show _ ≤ removedCount st.forward_heap1.DeleteMin.2.DeleteAll
    omega
  · refine ⟨?_, rfl⟩
    show _ ≤ removedCount (List.foldl _ _ _)
    rw [removed_relaxFold, h1]

/-- A reverse step removes a node from the reverse heap for good and leaves the
forward heap alone. -/
theorem step_removed_reverse {INVALID_EDGE_WEIGHT : Int} {facade : StaticGraph EdgeData}
    {s t : NodeID} {st : SearchState} (getLoopWeight : NodeID → Int) (off : Int)
    (hi : SearchInv INVALID_EDGE_WEIGHT facade s t st) (hs : 0 < st.reverse_heap1.Size) :
    removedCount st.reverse_heap1 + 1 ≤ removedCount
        (alternativeRoutingStep INVALID_EDGE_WEIGHT getLoopWeight facade off false st).reverse_heap1
      ∧ (alternativeRoutingStep INVALID_EDGE_WEIGHT getLoopWeight facade off false st).forward_heap1
        = st.forward_heap1 := by
  have h1 := removed_deleteMin st.reverse_heap1 hi.rev.nodup hs
  unfold alternativeRoutingStep
  simp only [Bool.false_eq_true, if_false]
  refine @ite_elim SearchState (fun x : SearchState => removedCount st.reverse_heap1 + 1 ≤ removedCount x.reverse_heap1
    ∧ x.forward_heap1 = st.forward_heap1) _ _ _ _ (fun hp => ?_) (fun hp => ?_)
  · refine ⟨?_, rfl⟩
    have := removed_deleteAll st.reverse_heap1.DeleteMin.2
    show _ ≤ removedCount st.reverse_heap1.DeleteMin.2.DeleteAll
    omega
  · refine ⟨?_, rfl⟩
    show _ ≤ removedCount (List.foldl _ _ _)
    rw [removed_relaxFold, h1]

end alternative_path

namespace alternative_path

theorem half_forward {INVALID_EDGE_WEIGHT : Int} {facade : StaticGraph EdgeData}
    {s t : NodeID} {st : SearchState} (getLoopWeight : NodeID → Int) {off : Int}
    (hoff : off ≤ 0)
    (hpos : ∀ u, ∀ e ∈ facade.GetAdjacentEdgeRange u, 0 < (facade.GetEdgeData e).weight)
    (hi : SearchInv INVALID_EDGE_WEIGHT facade s t st) (st1 : SearchState)
    (hst1 : st1 = if 0 < st.forward_heap1.Size then
        alternativeRoutingStep INVALID_EDGE_WEIGHT getLoopWeight facade off true st
      else st) :
    SearchInv INVALID_EDGE_WEIGHT facade s t st1 ∧ st1.reverse_heap1 = st.reverse_heap1
      ∧ removedCount st.forward_heap1 + (if 0 < st.forward_heap1.Size then 1 else 0)
        ≤ removedCount st1.forward_heap1 := by
  by_cases hs : 0 < st.forward_heap1.Size
  · rw [if_pos hs] at hst1
    rw [if_pos hs, hst1]
    obtain ⟨h1, h2⟩ := step_removed_forward getLoopWeight off hi hs
    exact ⟨step_inv_forward getLoopWeight hoff hpos hi hs, h2, h1⟩
  · rw [if_neg hs] at hst1
    rw [if_neg hs, hst1]
    exact ⟨hi, rfl, le_refl _⟩

theorem half_reverse {INVALID_EDGE_WEIGHT : Int} {facade : StaticGraph EdgeData}
    {s t : NodeID} {st : SearchState} (getLoopWeight : NodeID → Int) {off : Int}
    (hoff : off ≤ 0)
    (hpos : ∀ u, ∀ e ∈ facade.GetAdjacentEdgeRange u, 0 < (facade.GetEdgeData e).weight)
    (hi : SearchInv INVALID_EDGE_WEIGHT facade s t st) (st1 : SearchState)
    (hst1 : st1 = if 0 < st.reverse_heap1.Size then
        alternativeRoutingStep INVALID_EDGE_WEIGHT getLoopWeight facade off false st
      else st) :
    SearchInv INVALID_EDGE_WEIGHT facade s t st1 ∧ st1.forward_heap1 = st.forward_heap1
      ∧ removedCount st.reverse_heap1 + (if 0 < st.reverse_heap1.Size then 1 else 0)
        ≤ removedCount st1.reverse_heap1 := by
  by_cases hs : 0 < st.reverse_heap1.Size
  · rw [if_pos hs] at hst1
    rw [if_pos hs, hst1]
    obtain ⟨h1, h2⟩ := step_removed_reverse getLoopWeight off hi hs
    exact ⟨step_inv_reverse getLoopWeight hoff hpos hi hs, h2, h1⟩
  · rw [if_neg hs] at hst1
    rw [if_neg hs, hst1]
    exact ⟨hi, rfl, le_refl _⟩

/-- A round of the loop keeps the invariant and, while a heap is not empty, removes a
node from a heap for good. -/
theorem round_inv {INVALID_EDGE_WEIGHT : Int} {facade : StaticGraph EdgeData}
    {s t : NodeID} {st : SearchState} (getLoopWeight : NodeID → Int) {off : Int}
    (hoff : off ≤ 0)
    (hpos : ∀ u, ∀ e ∈ facade.GetAdjacentEdgeRange u, 0 < (facade.GetEdgeData e).weight)
    (hi : SearchInv INVALID_EDGE_WEIGHT facade s t st)
    (hs : 0 < st.forward_heap1.Size + st.reverse_heap1.Size) :
    SearchInv INVALID_EDGE_WEIGHT facade s t
        (searchRound INVALID_EDGE_WEIGHT getLoopWeight facade off st)
      ∧ (facade.edge_array.length + 2 - removedCount
            (searchRound INVALID_EDGE_WEIGHT getLoopWeight facade off st).forward_heap1)
          + (facade.edge_array.length + 2 - removedCount
            (searchRound INVALID_EDGE_WEIGHT getLoopWeight facade off st).reverse_heap1)
        < (facade.edge_array.length + 2 - removedCount st.forward_heap1)
          + (facade.edge_array.length + 2 - removedCount st.reverse_heap1) := by
  obtain ⟨st1, hst1⟩ : ∃ st1, st1 = if 0 < st.forward_heap1.Size then
      alternativeRoutingStep INVALID_EDGE_WEIGHT getLoopWeight facade off true st else st :=
    ⟨_, rfl⟩
  obtain ⟨st2, hst2⟩ : ∃ st2, st2 = if 0 < st1.reverse_heap1.Size then
      alternativeRoutingStep INVALID_EDGE_WEIGHT getLoopWeight facade off false st1 else st1 :=
    ⟨_, rfl⟩
  have hr : searchRound INVALID_EDGE_WEIGHT getLoopWeight facade off st = st2 := by
    rw [hst2, hst1]
    rfl
  obtain ⟨h1, h2, h3⟩ := half_forward getLoopWeight hoff hpos hi st1 hst1
  obtain ⟨h4, h5, h6⟩ := half_reverse getLoopWeight hoff hpos h1 st2 hst2
  rw [hr]
  refine ⟨h4, ?_⟩
  have b1 := removed_le h4.fwd
  have b2 := removed_le h4.rev
  rw [h5] at b1 ⊢
  rw [h2] at h6
  by_cases hf : 0 < st.forward_heap1.Size
  · rw [if_pos hf] at h3
    split_ifs at h6 <;> omega
  · have hrv : 0 < st.reverse_heap1.Size := by omega
    rw [if_neg hf] at h3
    rw [if_pos hrv] at h6
    omega

/-- The loop ends: with enough rounds it returns a state in which the invariant holds
and both heaps are empty. -/
theorem searchLoop_terminates {INVALID_EDGE_WEIGHT : Int} {facade : StaticGraph EdgeData}
    {s t : NodeID} (getLoopWeight : NodeID → Int) {off : Int} (hoff : off ≤ 0)
    (hpos : ∀ u, ∀ e ∈ facade.GetAdjacentEdgeRange u, 0 < (facade.GetEdgeData e).weight) :
    ∀ (fuel : Nat) (st : SearchState), SearchInv INVALID_EDGE_WEIGHT facade s t st →
      (facade.edge_array.length + 2 - removedCount st.forward_heap1)
          + (facade.edge_array.length + 2 - removedCount st.reverse_heap1) ≤ fuel →
      ∃ st', searchLoop INVALID_EDGE_WEIGHT getLoopWeight facade off fuel st = some st'
        ∧ SearchInv INVALID_EDGE_WEIGHT facade s t st'
        ∧ st'.forward_heap1.Size = 0 ∧ st'.reverse_heap1.Size = 0 := by
  intro fuel
  induction fuel with
  | zero =>
    intro st hi hm
    by_cases hs : 0 < st.forward_heap1.Size + st.reverse_heap1.Size
    · have := (round_inv getLoopWeight hoff hpos hi hs).2
      omega
    · refine ⟨st, ?_, hi, by omega, by omega⟩
      unfold searchLoop
      rw [if_neg hs]
  | succ fuel ih =>
    intro st hi hm
    by_cases hs : 0 < st.forward_heap1.Size + st.reverse_heap1.Size
    · obtain ⟨h1, h2⟩ := round_inv getLoopWeight hoff hpos hi hs
      obtain ⟨st', h3, h4⟩ := ih _ h1 (by omega)
      refine ⟨st', ?_, h4⟩
      rw [searchLoop, if_pos hs]
      exact h3
    · refine ⟨st, ?_, hi, by omega, by omega⟩
      rw [searchLoop, if_neg hs]

theorem insert_dirInv (INVALID_EDGE_WEIGHT : Int) (facade : StaticGraph EdgeData)
    (DIRECTION : Bool) (x0 : NodeID) (ub : Int) :
    DirInv INVALID_EDGE_WEIGHT facade DIRECTION x0 (QueryHeap.empty.Insert x0 0 x0) [] ub := by
  have hk : (QueryHeap.empty.Insert x0 0 x0).key x0 = 0 := by
    simp [QueryHeap.Insert]
  refine ⟨by simp [QueryHeap.Insert, QueryHeap.empty], by simp [QueryHeap.Insert], ?_, ?_, ?_,
    ?_, ?_, ?_, ?_, le_of_eq hk⟩
  · intro v hv
    have hv2 : v = x0 := by simpa [QueryHeap.Insert, QueryHeap.empty] using hv
    rw [hv2, hk]
    exact UpPath.nil
  · intro v hv
    by_cases hvx : v = x0
    · rw [hvx]; simp [QueryHeap.Insert]
    · have : (QueryHeap.empty.Insert x0 0 x0).inHeap v = false := by
        simp [QueryHeap.Insert, QueryHeap.empty, Function.update_noteq hvx]
      rw [this] at hv
      exact absurd hv (by decide)
  · intro v hv
    have hv2 : v = x0 := by simpa [QueryHeap.Insert, QueryHeap.empty] using hv
    right; left
    rw [hv2]
    simp [QueryHeap.Insert]
  · intro v hv
    cases hv
  · intro u hu
    cases hu
  · intro u hu
    cases hu
  · intro v hv
    have hv2 : v = x0 := by simpa [QueryHeap.Insert, QueryHeap.empty] using hv
    rw [hv2]
    exact List.mem_cons_self _ _

theorem initial_inv (INVALID_EDGE_WEIGHT : Int) (SPECIAL_NODEID : NodeID)
    (facade : StaticGraph EdgeData) (s t : NodeID) :
    SearchInv INVALID_EDGE_WEIGHT facade s t (zeroKeySearch INVALID_EDGE_WEIGHT SPECIAL_NODEID s t) :=
  ⟨insert_dirInv _ _ _ _ _, insert_dirInv _ _ _ _ _, Or.inl rfl, fun _ hv _ => by cases hv⟩

/-- With an empty heap, every path of the direction ends in a processed node whose key
is at most the weight of the path, or is heavier than the upper bound. -/
theorem dir_complete {INVALID_EDGE_WEIGHT : Int} {facade : StaticGraph EdgeData}
    {DIRECTION : Bool} {x0 : NodeID} {h : QueryHeap} {P : List NodeID} {ub : Int}
    (hpos : ∀ u, ∀ e ∈ facade.GetAdjacentEdgeRange u, 0 < (facade.GetEdgeData e).weight)
    (hi : DirInv INVALID_EDGE_WEIGHT facade DIRECTION x0 h P ub) (hs : h.Size = 0)
    {v : NodeID} {a : Int} (hp : UpPath facade DIRECTION x0 v a) :
    (v ∈ P ∧ h.key v ≤ a) ∨ (ub < INVALID_EDGE_WEIGHT ∧ ub < a) := by
  have hz := (QueryHeap.size_zero_iff h).1 hs
  have hcase : ∀ v, v ∈ h.inserted → ∀ a, h.key v ≤ a →
      (v ∈ P ∧ h.key v ≤ a) ∨ (ub < INVALID_EDGE_WEIGHT ∧ ub < a) := by
    intro v hv a hka
    rcases hi.part v hv with h1 | h1 | h1
    · exact Or.inl ⟨h1, hka⟩
    · rw [hz v hv] at h1
      exact absurd h1 (by decide)
    · exact Or.inr ⟨h1.2.1, by omega⟩
  induction hp with
  | nil => exact hcase x0 hi.src 0 hi.src0
  | snoc hpu harc ih =>
    rename_i u v a c
    have hc := arc_pos hpos harc
    rcases ih with h1 | h1
    · obtain ⟨h2, h3⟩ := hi.closed u h1.1 v c harc
      exact hcase v h2 _ (by omega)
    · exact Or.inr ⟨h1.1, by omega⟩

/-- When both heaps are empty, the upper bound is at most the weight of every pair of a
forward path from the source and a reverse path from the target to a common node. -/
theorem search_result {INVALID_EDGE_WEIGHT : Int} {facade : StaticGraph EdgeData}
    {s t : NodeID} {st : SearchState}
    (hpos : ∀ u, ∀ e ∈ facade.GetAdjacentEdgeRange u, 0 < (facade.GetEdgeData e).weight)
    (hi : SearchInv INVALID_EDGE_WEIGHT facade s t st)
    (hF : st.forward_heap1.Size = 0) (hR : st.reverse_heap1.Size = 0)
    {m : NodeID} {a b : Int} (ha : UpPath facade true s m a) (hb : UpPath facade false t m b) :
    st.upper_bound_to_shortest_path_weight ≤ a + b := by
  have ha0 := upPath_nonneg hpos ha
  have hb0 := upPath_nonneg hpos hb
  rcases dir_complete hpos hi.fwd hF ha with h1 | h1
  · rcases dir_complete hpos hi.rev hR hb with h2 | h2
    · have := hi.meet m h1.1 h2.1
      omega
    · omega
  · omega

end alternative_path

namespace alternative_path

theorem lineHierarchy_range (u : NodeID) :
    lineHierarchy.GetAdjacentEdgeRange u = if u = 0 then [0] else [] := by
  unfold StaticGraph.GetAdjacentEdgeRange lineHierarchy
  match u with
  | 0 => rfl
  | 1 => rfl
  | 2 => rfl
  | n + 3 => simp

theorem lineHierarchy_pos :
    ∀ u, ∀ e ∈ lineHierarchy.GetAdjacentEdgeRange u, 0 < (lineHierarchy.GetEdgeData e).weight := by
  intro u e he
  rw [lineHierarchy_range] at he
  split_ifs at he with h
  · have : e = 0 := by simpa using he
    subst this
    decide
  · cases he

theorem lineHierarchy_arc {DIRECTION : Bool} {u v : NodeID} {c : Int}
    (h : Arc lineHierarchy DIRECTION u v c) : DIRECTION = true ∧ u = 0 ∧ v = 1 ∧ c = 3 := by
  obtain ⟨e, he, hf, ht, hw⟩ := h
  rw [lineHierarchy_range] at he
  split_ifs at he with h0
  · have : e = 0 := by simpa using he
    subst this
    refine ⟨?_, h0, ht.symm, hw.symm⟩
    cases DIRECTION with
    | true => rfl
    | false => exact absurd hf (by decide)
  · cases he

theorem lineHierarchy_forward {v : NodeID} {a : Int} (h : UpPath lineHierarchy true 0 v a) :
    (v = 0 ∧ a = 0) ∨ (v = 1 ∧ a = 3) := by
  induction h with
  | nil => exact Or.inl ⟨rfl, rfl⟩
  | snoc _ harc ih =>
    obtain ⟨_, h1, h2, h3⟩ := lineHierarchy_arc harc
    rcases ih with h4 | h4
    · right
      exact ⟨h2, by rw [h4.2, h3]; rfl⟩
    · rw [h4.1] at h1
      exact absurd h1 (by decide)

theorem lineHierarchy_reverse {v : NodeID} {b : Int} (h : UpPath lineHierarchy false 1 v b) :
    v = 1 ∧ b = 0 := by
  induction h with
  | nil => exact ⟨rfl, rfl⟩
  | snoc _ harc _ =>
    exact absurd (lineHierarchy_arc harc).1 (by decide)

theorem lineGraph_route {v : NodeID} {w : Int} (h : Route lineGraph 0 v w) :
    (v = 0 ∧ w = 0) ∨ (v = 1 ∧ w = 3) := by
  induction h with
  | nil => exact Or.inl ⟨rfl, rfl⟩
  | snoc _ hedge ih =>
    have h1 := hedge
    simp only [lineGraph, List.mem_singleton, Prod.mk.injEq] at h1
    obtain ⟨h2, h3, h4⟩ := h1
    rcases ih with h5 | h5
    · right
      exact ⟨h3, by rw [h5.2, h4]; rfl⟩
    · rw [h5.1] at h2
      exact absurd h2 (by decide)

theorem lineHierarchy_valid : ValidHierarchy lineGraph lineHierarchy 0 1 := by
  have harc : Arc lineHierarchy true 0 1 3 := ⟨0, by decide, by decide, by decide, by decide⟩
  have hup : UpPath lineHierarchy true 0 1 (0 + 3) := UpPath.snoc UpPath.nil harc
  have hroute : Route lineGraph 0 1 (0 + 3) := Route.snoc Route.nil (by decide)
  constructor
  · intro w hw
    rcases lineGraph_route hw with h1 | h1
    · exact absurd h1.1 (by decide)
    · exact ⟨1, 0 + 3, 0, hup, UpPath.nil, by rw [h1.2]; decide⟩
  · intro m a b ha hb
    obtain ⟨h1, h2⟩ := lineHierarchy_reverse hb
    rcases lineHierarchy_forward ha with h3 | h3
    · rw [h1] at h3
      exact absurd h3.1 (by decide)
    · exact ⟨0 + 3, hroute, by rw [h3.2, h2]; decide⟩

end alternative_path

namespace alternative_path

theorem selectViaNode_first (S : NodeID) (passes : RankedCandidateNode → Bool)
    (c : RankedCandidateNode) (back : List RankedCandidateNode) (hc : passes c = true) :
    ∀ (front : List RankedCandidateNode), (∀ x ∈ front, passes x = false) →
      selectViaNode S passes (front ++ c :: back) = c.node := by
  intro front
  induction front with
  | nil =>
    intro _
    simp only [List.nil_append, selectViaNode, hc, if_true]
  | cons a rest ih =>
    intro h
    have ha : passes a = false := h a (List.mem_cons_self _ _)
    simp only [List.cons_append, selectViaNode, ha, Bool.false_eq_true, if_false]
    exact ih (fun x hx => h x (List.mem_cons_of_mem _ hx))

theorem selectViaNode_none (S : NodeID) (passes : RankedCandidateNode → Bool) :
    ∀ (l : List RankedCandidateNode), (∀ x ∈ l, passes x = false) →
      selectViaNode S passes l = S := by
  intro l
  induction l with
  | nil => intro _; rfl
  | cons a rest ih =>
    intro h
    have ha : passes a = false := h a (List.mem_cons_self _ _)
    simp only [selectViaNode, ha, Bool.false_eq_true, if_false]
    exact ih (fun x hx => h x (List.mem_cons_of_mem _ hx))

theorem sortCandidates_sorted (l : List RankedCandidateNode) :
    (sortCandidates l).Pairwise (fun a b => a.key ≤ b.key) := by
  unfold sortCandidates
  have hT : IsTotal RankedCandidateNode (fun a b => ¬ (b.key < a.key)) :=
    ⟨fun a b => by
      rcases Int.le_total a.key b.key with h | h
      · exact Or.inl (not_lt.2 h)
      · exact Or.inr (not_lt.2 h)⟩
  have hR : IsTrans RankedCandidateNode (fun a b => ¬ (b.key < a.key)) :=
    ⟨fun a b c h1 h2 => not_lt.2 (Int.le_trans (not_lt.1 h1) (not_lt.1 h2))⟩
  exact (List.sorted_insertionSort (fun a b => ¬ (b.key < a.key)) l).imp (fun h => not_lt.1 h)

theorem sortCandidates_perm (l : List RankedCandidateNode) : (sortCandidates l).Perm l :=
  List.perm_insertionSort _ l

theorem toInt32_of_range (x : Int) (h1 : -2147483648 ≤ x) (h2 : x ≤ 2147483647) :
    toInt32 x = x := by
  unfold toInt32
  omega

theorem initialSearch_plain (INVALID_EDGE_WEIGHT : Int) (SPECIAL_NODEID : NodeID) (s t : NodeID) :
    initialSearch INVALID_EDGE_WEIGHT SPECIAL_NODEID (plainPhantoms s t)
      = zeroKeySearch INVALID_EDGE_WEIGHT SPECIAL_NODEID s t := by
  simp [initialSearch, plainPhantoms, zeroKeySearch]

theorem min_edge_offset_plain (s t : NodeID) : min_edge_offset (plainPhantoms s t) = 0 := by
  simp [min_edge_offset, plainPhantoms]

end alternative_path

namespace EdgeBasedGraphFactory

theorem pushEdges_forward (inputEdges : List NodeBasedEdge)
    (hfwd : ∀ i ∈ inputEdges, i.isForward = true) :
    ∀ e ∈ inputEdges.foldl pushEdges [], e.data.forward = true := by
  have key : ∀ (l : List NodeBasedEdge) (acc : List _NodeBasedEdge),
      (∀ i ∈ l, i.isForward = true) → (∀ e ∈ acc, e.data.forward = true) →
      ∀ e ∈ l.foldl pushEdges acc, e.data.forward = true := by
    intro l
    induction l with
    | nil => intro acc _ hacc; exact hacc
    | cons i rest ih =>
      intro acc hl hacc
      rw [List.foldl_cons]
      apply ih _ (fun j hj => hl j (List.mem_cons_of_mem _ hj))
      have hi := hl i (List.mem_cons_self _ _)
      unfold pushEdges
      by_cases hloop : (i.source == i.target) = true
      · simp only [hloop, if_true]
        exact hacc
      · simp only [hloop, Bool.false_eq_true, if_false]
        by_cases hb : i.isBackward = true
        · simp only [hb, if_true]
          intro e he
          rcases List.mem_append.1 he with h1 | h1
          · rcases List.mem_append.1 h1 with h2 | h2
            · exact hacc e h2
            · have : e = _ := List.mem_singleton.1 h2
              rw [this]
              exact hi
          · have : e = _ := List.mem_singleton.1 h1
            rw [this]
        · simp only [hb, Bool.false_eq_true, if_false]
          intro e he
          rcases List.mem_append.1 he with h2 | h2
          · exact hacc e h2
          · have : e = _ := List.mem_singleton.1 h2
            rw [this]
            exact hi
  exact key inputEdges [] hfwd (fun e he => absurd he (List.not_mem_nil _))

theorem adj_forward (nodes : Nat) (inputEdges : List NodeBasedEdge) (irs : List _Restriction)
    (nI : List NodeInfo) (hfwd : ∀ i ∈ inputEdges, i.isForward = true) (u : NodeID) (e : _Edge)
    (he : e ∈ (EdgeBasedGraphFactory nodes inputEdges irs nI)._nodeBasedGraph.adj u) :
    e.data.forward = true := by
  simp only [EdgeBasedGraphFactory, DynamicGraph.ofEdges, List.mem_map, List.mem_filter,
    beq_iff_eq] at he
  obtain ⟨b, ⟨hb, _⟩, rfl⟩ := he
  unfold Contractor.sortEdges at hb
  exact pushEdges_forward inputEdges hfwd b ((List.perm_insertionSort _ _).mem_iff.1 hb)

end EdgeBasedGraphFactory

namespace Contractor

open DynamicGraph

theorem minDistance_char (flag : _ImportEdge → Bool) (run : List _ImportEdge) (d : Nat) :
    (minDistance flag run = d ∧ d ≠ INT_MAX)
      ↔ d < INT_MAX ∧ (∃ c ∈ run, flag c = true ∧ c.data.distance = d)
          ∧ ∀ c ∈ run, flag c = true → d ≤ c.data.distance := by
  have hfold : minDistance flag run
      = match least ((run.filter flag).map (fun e => e.data.distance)) with
        | none => INT_MAX
        | some m => min m INT_MAX := minDistance_fold flag run INT_MAX
  constructor
  · rintro ⟨h1, h2⟩
    rw [hfold] at h1
    cases hl : least ((run.filter flag).map (fun e => e.data.distance)) with
    | none =>
      rw [hl] at h1
      exact absurd h1.symm h2
    | some m =>
      rw [hl] at h1
      simp only at h1
      have hm : m = d ∧ d < INT_MAX := by
        rcases Nat.le_total m INT_MAX with h | h
        · rw [Nat.min_eq_left h] at h1
          exact ⟨h1, by omega⟩
        · rw [Nat.min_eq_right h] at h1
          exact absurd h1.symm h2
      obtain ⟨rfl, hlt⟩ := hm
      have hmem := least_mem _ _ hl
      obtain ⟨c, hc, hcd⟩ := List.mem_map.1 hmem
      obtain ⟨hc1, hc2⟩ := List.mem_filter.1 hc
      refine ⟨hlt, ⟨c, hc1, hc2, hcd⟩, ?_⟩
      intro c' hc' hf'
      exact least_le _ _ hl _ (List.mem_map.2 ⟨c', List.mem_filter.2 ⟨hc', hf'⟩, rfl⟩)
  · rintro ⟨hlt, ⟨c, hc, hf, hcd⟩, hmin⟩
    have hdmem : d ∈ (run.filter flag).map (fun e => e.data.distance) :=
      List.mem_map.2 ⟨c, List.mem_filter.2 ⟨hc, hf⟩, hcd⟩
    refine ⟨?_, by omega⟩
    rw [hfold]
    cases hl : least ((run.filter flag).map (fun e => e.data.distance)) with
    | none =>
      rw [(least_eq_none _).1 hl] at hdmem
      exact absurd hdmem (List.not_mem_nil _)
    | some m =>
      simp only
      have h1 : m ≤ d := least_le _ _ hl d hdmem
      obtain ⟨c', hc', hcd'⟩ := List.mem_map.1 (least_mem _ _ hl)
      obtain ⟨hc1, hc2⟩ := List.mem_filter.1 hc'
      have h2 : d ≤ m := by
        rw [← hcd']
        exact hmin c' hc1 hc2
      have : m = d := by omega
      rw [this]
      exact Nat.min_eq_left (by omega)

theorem emitRun_forward_iff (uninit : Bool) (first : _ImportEdge) (run : List _ImportEdge)
    (d : Nat) :
    (∃ e ∈ emitRun uninit first run, e.data.forward = true ∧ e.data.distance = d)
      ↔ (minDistance (fun e => e.data.forward) run = d ∧ d ≠ INT_MAX) := by
  unfold emitRun
  simp only
  generalize minDistance (fun e => e.data.forward) run = fd
  generalize minDistance (fun e => e.data.backward) run = bd
  constructor
  · rintro ⟨e, he, hf, hd⟩
    by_cases c1 : (fd == bd) = true
    · rw [if_pos c1] at he
      by_cases c2 : (fd != INT_MAX) = true
      · rw [if_pos c2] at he
        have he2 : e = _ := List.mem_singleton.1 he
        rw [he2] at hd
        simp only at hd
        exact ⟨hd, by rw [← hd]; simpa using c2⟩
      · rw [if_neg c2] at he
        exact absurd he (List.not_mem_nil _)
    · rw [if_neg c1] at he
      rcases List.mem_append.1 he with h | h
      · by_cases c3 : (fd != INT_MAX) = true
        · rw [if_pos c3] at h
          have he2 : e = _ := List.mem_singleton.1 h
          rw [he2] at hd
          simp only at hd
          exact ⟨hd, by rw [← hd]; simpa using c3⟩
        · rw [if_neg c3] at h
          exact absurd h (List.not_mem_nil _)
      · by_cases c3 : (bd != INT_MAX) = true
        · rw [if_pos c3] at h
          have he2 : e = _ := List.mem_singleton.1 h
          rw [he2] at hf
          simp at hf
        · rw [if_neg c3] at h
          exact absurd h (List.not_mem_nil _)
  · rintro ⟨h1, h2⟩
    subst h1
    have hne : (fd != INT_MAX) = true := by simpa using h2
    by_cases c1 : (fd == bd) = true
    · rw [if_pos c1, if_pos hne]
      exact ⟨_, List.mem_singleton_self _, rfl, rfl⟩
    · rw [if_neg c1, if_pos hne]
      exact ⟨_, List.mem_append_left _ (List.mem_singleton_self _), rfl, rfl⟩

theorem emitRun_backward_iff (uninit : Bool) (first : _ImportEdge) (run : List _ImportEdge)
    (d : Nat) :
    (∃ e ∈ emitRun uninit first run, e.data.backward = true ∧ e.data.distance = d)
      ↔ (minDistance (fun e => e.data.backward) run = d ∧ d ≠ INT_MAX) := by
  unfold emitRun
  simp only
  generalize minDistance (fun e => e.data.forward) run = fd
  generalize minDistance (fun e => e.data.backward) run = bd
  constructor
  · rintro ⟨e, he, hf, hd⟩
    by_cases c1 : (fd == bd) = true
    · rw [if_pos c1] at he
      by_cases c2 : (fd != INT_MAX) = true
      · rw [if_pos c2] at he
        have he2 : e = _ := List.mem_singleton.1 he
        rw [he2] at hd
        simp only at hd
        have hfb : fd = bd := by simpa using c1
        exact ⟨by rw [← hfb]; exact hd, by rw [← hd]; simpa using c2⟩
      · rw [if_neg c2] at he
        exact absurd he (List.not_mem_nil _)
    · rw [if_neg c1] at he
      rcases List.mem_append.1 he with h | h
      · by_cases c3 : (fd != INT_MAX) = true
        · rw [if_pos c3] at h
          have he2 : e = _ := List.mem_singleton.1 h
          rw [he2] at hf
          simp at hf
        · rw [if_neg c3] at h
          exact absurd h (List.not_mem_nil _)
      · by_cases c3 : (bd != INT_MAX) = true
        · rw [if_pos c3] at h
          have he2 : e = _ := List.mem_singleton.1 h
          rw [he2] at hd
          simp only at hd
          exact ⟨hd, by rw [← hd]; simpa using c3⟩
        · rw [if_neg c3] at h
          exact absurd h (List.not_mem_nil _)
  · rintro ⟨h1, h2⟩
    subst h1
    have hne : (bd != INT_MAX) = true := by simpa using h2
    by_cases c1 : (fd == bd) = true
    · have hfb : fd = bd := by simpa using c1
      subst hfb
      rw [if_pos c1, if_pos hne]
      exact ⟨_, List.mem_singleton_self _, rfl, rfl⟩
    · rw [if_neg c1, if_pos hne]
      exact ⟨_, List.mem_append_right _ (List.mem_singleton_self _), rfl, rfl⟩

end Contractor

namespace Contractor

open DynamicGraph

/-- The edges from `s` to `t` with a flag in the graph of the constructor, through the
directed copies of the input edges. -/
theorem flagEdge_iff (NDEBUG uninit : Bool) (nodes : Nat) (inputEdges : List EdgeBasedEdge)
    (flag : _EdgeBasedContractorEdgeData → Bool)
    (hemit : ∀ first run d,
      (∃ e ∈ emitRun uninit first run, flag e.data = true ∧ e.data.distance = d)
        ↔ (minDistance (fun e => flag e.data) run = d ∧ d ≠ INT_MAX))
    (s t : NodeID) (d : Nat) (hst : s ≠ t) :
    (∃ e ∈ (Contractor NDEBUG uninit nodes inputEdges).adj s,
        e.target = t ∧ flag e.data = true ∧ e.data.distance = d)
      ↔ d < INT_MAX
        ∧ (∃ c ∈ directedCopies NDEBUG inputEdges, c.source = s ∧ c.target = t
            ∧ flag c.data = true ∧ c.data.distance = d)
        ∧ ∀ c ∈ directedCopies NDEBUG inputEdges, c.source = s → c.target = t →
            flag c.data = true → d ≤ c.data.distance := by
  have hfil : (preparedEdges NDEBUG uninit inputEdges).filter (sameKey s t)
      = emitGroup (emitRun uninit) ((directedCopies NDEBUG inputEdges).filter (sameKey s t)) := by
    rw [preparedEdges_eq, reduceList_eq, groupEmit_sorted_filter _ (emitRun_key uninit) s t hst]
  have hleft : (∃ e ∈ (Contractor NDEBUG uninit nodes inputEdges).adj s,
        e.target = t ∧ flag e.data = true ∧ e.data.distance = d)
      ↔ ∃ e ∈ (preparedEdges NDEBUG uninit inputEdges).filter (sameKey s t),
          flag e.data = true ∧ e.data.distance = d := by
    constructor
    · rintro ⟨e, he, h1, h2, h3⟩
      have := mem_adj_ofEdges.1 he
      exact ⟨_, List.mem_filter.2 ⟨this, sameKey_iff.2 ⟨rfl, h1⟩⟩, h2, h3⟩
    · rintro ⟨e, he, h2, h3⟩
      obtain ⟨h4, h5⟩ := List.mem_filter.1 he
      obtain ⟨h6, h7⟩ := sameKey_iff.1 h5
      refine ⟨⟨e.target, e.data⟩, mem_adj_ofEdges.2 ?_, h7, h2, h3⟩
      have : (⟨s, e.target, e.data⟩ : _ImportEdge) = e := by
        cases e
        simp only at h6
        subst h6
        rfl
      rw [this]
      exact h4
  rw [hleft, hfil]
  generalize hG : (directedCopies NDEBUG inputEdges).filter (sameKey s t) = G
  have hGmem : ∀ c, c ∈ G ↔ c ∈ directedCopies NDEBUG inputEdges ∧ (c.source : Nat) = s
      ∧ (c.target : Nat) = t := by
    intro c
    rw [← hG, List.mem_filter, sameKey_iff]
  cases G with
  | nil =>
    simp only [emitGroup, List.not_mem_nil, false_and, exists_false, false_iff]
    rintro ⟨_, ⟨c, hc, h1, h2, _⟩, _⟩
    exact List.not_mem_nil c ((hGmem c).2 ⟨hc, h1, h2⟩)
  | cons first rest =>
    simp only [emitGroup]
    rw [hemit, minDistance_char]
    constructor
    · rintro ⟨h1, ⟨c, hc, hf, hd⟩, hmin⟩
      obtain ⟨h2, h3, h4⟩ := (hGmem c).1 hc
      exact ⟨h1, ⟨c, h2, h3, h4, hf, hd⟩,
        fun c' hc' hs' ht' hf' => hmin c' ((hGmem c').2 ⟨hc', hs', ht'⟩) hf'⟩
    · rintro ⟨h1, ⟨c, hc, h3, h4, hf, hd⟩, hmin⟩
      refine ⟨h1, ⟨c, (hGmem c).2 ⟨hc, h3, h4⟩, hf, hd⟩, ?_⟩
      intro c' hc' hf'
      obtain ⟨h5, h6, h7⟩ := (hGmem c').1 hc'
      exact hmin c' h5 h6 h7 hf'

end Contractor

namespace Contractor

theorem take_set_of_le {α : Type} (l : List α) (k j : Nat) (x : α) (h : j ≤ k) :
    (l.set k x).take j = l.take j := by
  induction l generalizing k j with
  | nil => simp
  | cons a t ih =>
    cases j with
    | zero => simp
    | succ j =>
      cases k with
      | zero => omega
      | succ k => simp [ih k j (by omega)]

/-- The loop `reduceEdges` runs `reduceBody` once per unit of its bound. -/
theorem reduceEdges_iterate (uninit : Bool) :
    ∀ (fuel : Nat) (edges : List _ImportEdge) (i edge : Nat),
      reduceEdges uninit fuel edges i edge
        = (((reduceBody uninit)^[fuel] (edges, i, edge)).1,
            ((reduceBody uninit)^[fuel] (edges, i, edge)).2.2) := by
  intro fuel
  induction fuel with
  | zero => intro edges i edge; rfl
  | succ fuel ih =>
    intro edges i edge
    rw [Function.iterate_succ_apply]
    by_cases hlt : i < edges.length
    · rw [reduceEdges, if_pos hlt]
      unfold reduceBody
      simp only [hlt, if_true]
      split_ifs <;> exact ih _ _ _
    · rw [reduceEdges, if_neg hlt]
      have hfix : reduceBody uninit (edges, i, edge) = (edges, i, edge) := by
        unfold reduceBody
        simp only [hlt, if_false]
      have hall : ∀ k, (reduceBody uninit)^[k] (edges, i, edge) = (edges, i, edge) := by
        intro k
        induction k with
        | zero => rfl
        | succ k ihk => rw [Function.iterate_succ_apply, hfix, ihk]
      rw [hfix, hall]

/-- One iteration of the reduction loop: the write index does not pass the read index,
and only the positions from the old write index up to the new one change. -/
theorem reduceBody_step (uninit : Bool) (st : List _ImportEdge × Nat × Nat)
    (h1 : st.2.2 ≤ st.2.1) (h2 : st.2.1 ≤ st.1.length) :
    (reduceBody uninit st).2.2 ≤ (reduceBody uninit st).2.1
      ∧ (reduceBody uninit st).2.1 ≤ st.1.length
      ∧ (reduceBody uninit st).1.length = st.1.length
      ∧ st.2.1 ≤ (reduceBody uninit st).2.1
      ∧ st.2.2 ≤ (reduceBody uninit st).2.2
      ∧ (reduceBody uninit st).1.drop (reduceBody uninit st).2.2
          = st.1.drop (reduceBody uninit st).2.2
      ∧ (reduceBody uninit st).1.take st.2.2 = st.1.take st.2.2 := by
  obtain ⟨edges, i, edge⟩ := st
  simp only at h1 h2
  by_cases hlt : i < edges.length
  · have hdrop := drop_eq_getD_cons edges i hlt
    unfold reduceBody
    simp only [hlt, if_true]
    by_cases hself : ((edges.getD i default).source == (edges.getD i default).target) = true
    · simp only [hself, if_true]
      refine ⟨?_, ?_, ?_, ?_, ?_, ?_, ?_⟩ <;> dsimp only <;> omega
    · have hself2 : ((edges.getD i default).source == (edges.getD i default).target) = false := by
        simpa using hself
      simp only [hself2, Bool.false_eq_true, if_false]
      generalize hrun : (edges.drop i).takeWhile (fun e => e.source == (edges.getD i default).source
        && e.target == (edges.getD i default).target) = run
      have hrun1 : 1 ≤ run.length := by
        rw [← hrun, hdrop, List.takeWhile_cons]
        simp
      have hrun2 : i + run.length ≤ edges.length := by
        have := takeWhile_length_le (fun e => e.source == (edges.getD i default).source
          && e.target == (edges.getD i default).target) (edges.drop i)
        rw [hrun, List.length_drop] at this
        omega
      have hlen := emitRun_length_le uninit (edges.getD i default) run hrun1
      unfold emitRun at hlen
      simp only at hlen
      split_ifs at hlen ⊢ with c1 c2 c3 c4
      · simp only [List.length_singleton] at hlen
        refine ⟨?_, ?_, ?_, ?_, ?_, ?_, ?_⟩ <;> dsimp only
        · omega
        · exact hrun2
        · simp
        · omega
        · omega
        · exact drop_set_of_lt _ _ _ _ (by omega)
        · rw [take_set_of_le _ _ _ _ (le_refl _)]
      · refine ⟨?_, ?_, ?_, ?_, ?_, ?_, ?_⟩ <;> dsimp only <;> omega
      · simp only [List.length_append, List.length_singleton] at hlen
        refine ⟨?_, ?_, ?_, ?_, ?_, ?_, ?_⟩ <;> dsimp only
        · omega
        · exact hrun2
        · simp
        · omega
        · omega
        · rw [drop_set_of_lt _ _ _ _ (by omega), drop_set_of_lt _ _ _ _ (by omega)]
        · rw [take_set_of_le _ _ _ _ (by omega), take_set_of_le _ _ _ _ (le_refl _)]
      · refine ⟨?_, ?_, ?_, ?_, ?_, ?_, ?_⟩ <;> dsimp only
        · omega
        · exact hrun2
        · simp
        · omega
        · omega
        · exact drop_set_of_lt _ _ _ _ (by omega)
        · rw [take_set_of_le _ _ _ _ (le_refl _)]
      · refine ⟨?_, ?_, ?_, ?_, ?_, ?_, ?_⟩ <;> dsimp only
        · omega
        · exact hrun2
        · simp
        · omega
        · omega
        · exact drop_set_of_lt _ _ _ _ (by omega)
        · rw [take_set_of_le _ _ _ _ (le_refl _)]
      · refine ⟨?_, ?_, ?_, ?_, ?_, ?_, ?_⟩ <;> dsimp only <;> omega
  · have hfix : reduceBody uninit (edges, i, edge) = (edges, i, edge) := by
      unfold reduceBody
      simp only [hlt, if_false]
    rw [hfix]
    exact ⟨h1, h2, rfl, le_refl _, le_refl _, rfl, rfl⟩

theorem drop_eq_of_le {α : Type} (l1 l2 : List α) (a b : Nat) (h : l1.drop a = l2.drop a)
    (hab : a ≤ b) : l1.drop b = l2.drop b := by
  have hb : b = a + (b - a) := by omega
  rw [hb, ← List.drop_drop, ← List.drop_drop, h]

/-- Invariant of the reduction loop after any number of iterations: the write index is
not beyond the read index, the vector keeps its length, and the part from the read
index on is still the input. -/
theorem reduce_inv (uninit : Bool) (edges : List _ImportEdge) :
    ∀ k, ((reduceBody uninit)^[k] (edges, 0, 0)).2.2 ≤ ((reduceBody uninit)^[k] (edges, 0, 0)).2.1
      ∧ ((reduceBody uninit)^[k] (edges, 0, 0)).2.1 ≤ edges.length
      ∧ ((reduceBody uninit)^[k] (edges, 0, 0)).1.length = edges.length
      ∧ ((reduceBody uninit)^[k] (edges, 0, 0)).1.drop ((reduceBody uninit)^[k] (edges, 0, 0)).2.1
          = edges.drop ((reduceBody uninit)^[k] (edges, 0, 0)).2.1 := by
  intro k
  induction k with
  | zero => exact ⟨le_refl _, Nat.zero_le _, rfl, rfl⟩
  | succ k ih =>
    rw [Function.iterate_succ_apply']
    obtain ⟨i1, i2, i3, i4⟩ := ih
    obtain ⟨s1, s2, s3, s4, s5, s6, _⟩ := reduceBody_step uninit _ i1 (by rw [i3]; exact i2)
    refine ⟨s1, by rw [← i3]; exact s2, by rw [s3, i3], ?_⟩
    rw [drop_eq_of_le _ _ _ _ s6 s1]
    exact drop_eq_of_le _ _ _ _ i4 s4

end Contractor

namespace Contractor

open BinaryHeap

theorem dijkstraLoop_body (g : _DynamicGraph) (maxDistance : Int) (numTargets : Nat)
    (maxNodes hopLimit : Int) (fuel : Nat) (nodes : Int) (targetsFound : Nat) (heap : _Heap) :
    dijkstraLoop g maxDistance numTargets maxNodes hopLimit (fuel + 1) nodes targetsFound heap
      = match dijkstraBody g maxDistance numTargets maxNodes hopLimit (nodes, targetsFound, heap) with
        | Except.error h => h
        | Except.ok st =>
          dijkstraLoop g maxDistance numTargets maxNodes hopLimit fuel st.1 st.2.1 st.2.2 := by
  rw [dijkstraLoop]
  unfold dijkstraBody
  simp only
  split_ifs <;> rfl

end Contractor

namespace alternative_path

theorem pathWeight_append (L1 L2 : List PathEdge) :
    pathWeight (L1 ++ L2) = pathWeight L1 + pathWeight L2 := by
  simp [pathWeight]

theorem pathWeight_cons (e : PathEdge) (L : List PathEdge) :
    pathWeight (e :: L) = e.2.2 + pathWeight L := by
  simp [pathWeight]

theorem pathWeight_nil : pathWeight [] = 0 := rfl

theorem unpacked_data {SPECIAL_EDGEID : Nat} {find : NodeID → NodeID → Nat}
    {facade : StaticGraph EdgeData} {a b : NodeID} {L : List PathEdge}
    (h : Unpacked SPECIAL_EDGEID find facade a b L) :
    ∃ d, find a b ≠ SPECIAL_EDGEID ∧ edgeDataAt facade (find a b) = some d
      ∧ d.weight = pathWeight L ∧ L ≠ [] ∧ startOf L a = a ∧ endOf L b = b := by
  induction h with
  | plain h1 h2 _ =>
    exact ⟨_, h1, h2, by simp [pathWeight], by simp, rfl, rfl⟩
  | @shortcut a b d d1 d2 L1 L2 h1 h2 _ h4 h5 h6 _ _ ih1 ih2 =>
    obtain ⟨e1, _, g1, w1, n1, s1, _⟩ := ih1
    obtain ⟨e2, _, g2, w2, n2, _, t2⟩ := ih2
    rw [h4] at g1
    rw [h5] at g2
    simp only [Option.some.injEq] at g1 g2
    subst g1 g2
    refine ⟨d, h1, h2, by rw [h6, w1, w2, pathWeight_append], by simp [n1], ?_, ?_⟩
    · cases L1 with
      | nil => exact absurd rfl n1
      | cons x rest => exact s1
    · unfold endOf at t2 ⊢
      rw [List.getLast?_append_of_ne_nil _ n2]
      cases hl : L2.getLast? with
      | none => exact absurd (List.getLast?_eq_none_iff.1 hl) n2
      | some x =>
        rw [hl] at t2
        exact t2

theorem unpacked_nonneg {SPECIAL_EDGEID : Nat} {find : NodeID → NodeID → Nat}
    {facade : StaticGraph EdgeData} (hnn : ∀ e d, edgeDataAt facade e = some d → 0 ≤ d.weight)
    {a b : NodeID} {L : List PathEdge} (h : Unpacked SPECIAL_EDGEID find facade a b L) :
    ∀ x ∈ L, 0 ≤ x.2.2 := by
  induction h with
  | plain _ h2 _ =>
    intro x hx
    have : x = _ := List.mem_singleton.1 hx
    rw [this]
    exact hnn _ _ h2
  | shortcut _ _ _ _ _ _ _ _ ih1 ih2 =>
    intro x hx
    rcases List.mem_append.1 hx with h | h
    · exact ih1 x h
    · exact ih2 x h

theorem pathWeight_nonneg (L : List PathEdge) (h : ∀ x ∈ L, 0 ≤ x.2.2) : 0 ≤ pathWeight L := by
  induction L with
  | nil => exact le_refl _
  | cons x rest ih =>
    rw [pathWeight_cons]
    have := h x (List.mem_cons_self _ _)
    have := ih (fun y hy => h y (List.mem_cons_of_mem _ hy))
    omega

/-- The loop that unpacks in reverse, on the stack with the single edge from `a` to `b`:
it adds the weight of an end piece `S` of the unpacked edges and leaves the start of `S`
in `s_P`; `S` is the shortest end piece, not empty, with which the weight reaches the
threshold, or all edges. -/
theorem unpackSV_spec {SPECIAL_EDGEID : Nat} {find : NodeID → NodeID → Nat}
    {facade : StaticGraph EdgeData} (T : Int) {a b : NodeID} {L : List PathEdge}
    (h : Unpacked SPECIAL_EDGEID find facade a b L) :
    ∀ (w : Int) (sP : NodeID) (fuel : Nat), L.length ≤ fuel →
      ∃ S front, L = front ++ S ∧ S ≠ []
        ∧ unpackSV SPECIAL_EDGEID find facade T fuel w sP [(a, b)]
            = some (some (w + pathWeight S, startOf S sP))
        ∧ (S.tail ≠ [] → w + pathWeight S.tail < T)
        ∧ (front ≠ [] → T ≤ w + pathWeight S) := by
  induction h with
  | @plain a b d h1 h2 h3 =>
    intro w sP fuel hf
    obtain ⟨f, rfl⟩ : ∃ f, fuel = f + 1 := ⟨fuel - 1, by simp at hf; omega⟩
    refine ⟨[(a, b, d.weight)], [], rfl, by simp, ?_, by simp, by simp⟩
    have hne : (SPECIAL_EDGEID == find a b) = false := by
      simpa using fun hh => h1 hh.symm
    simp only [unpackSV, hne, h2, h3, Bool.false_eq_true, if_false]
    cases f <;> simp [unpackSV, pathWeight, startOf]
  | @shortcut a b d d1 d2 L1 L2 h1 h2 h3 h4 h5 h6 u1 u2 ih1 ih2 =>
    intro w sP fuel hf
    obtain ⟨e1, _, g1, w1, n1, _, _⟩ := unpacked_data u1
    obtain ⟨e2, _, g2, w2, n2, _, _⟩ := unpacked_data u2
    rw [h4] at g1
    rw [h5] at g2
    simp only [Option.some.injEq] at g1 g2
    subst g1 g2
    have l1 : 1 ≤ L1.length := List.length_pos.2 n1
    have l2 : 1 ≤ L2.length := List.length_pos.2 n2
    rw [List.length_append] at hf
    obtain ⟨f, rfl⟩ : ∃ f, fuel = f + 1 := ⟨fuel - 1, by omega⟩
    have hne : (SPECIAL_EDGEID == find a b) = false := by
      simpa using fun hh => h1 hh.symm
    by_cases hc : w + d2.weight ≥ T
    · obtain ⟨S, front, e1, e2, e3, e4, e5⟩ := ih2 w sP f (by omega)
      refine ⟨S, L1 ++ front, by rw [e1, List.append_assoc], e2, ?_, e4, ?_⟩
      · simp only [unpackSV, hne, h2, h3, h5, hc, Bool.false_eq_true, if_false, if_true]
        exact e3
      · intro _
        by_cases hfr : front = []
        · rw [hfr, List.nil_append] at e1
          rw [← e1, ← w2]
          exact hc
        · exact e5 hfr
    · obtain ⟨S, front, e1, e2, e3, e4, e5⟩ := ih1 (w + d2.weight) sP f (by omega)
      refine ⟨S ++ L2, front, by rw [e1, List.append_assoc], by simp [e2], ?_, ?_, ?_⟩
      · simp only [unpackSV, hne, h2, h3, h5, hc, Bool.false_eq_true, if_false, if_true]
        rw [e3, pathWeight_append, ← w2]
        have hs : startOf (S ++ L2) sP = startOf S sP := by
          cases S with
          | nil => exact absurd rfl e2
          | cons x rest => rfl
        rw [hs]
        congr 3
        omega
      · intro _
        cases S with
        | nil => exact absurd rfl e2
        | cons x rest =>
          simp only [List.cons_append, List.tail_cons] at e4 ⊢
          rw [pathWeight_append, ← w2]
          by_cases hr : rest = []
          · rw [hr, pathWeight_nil]
            omega
          · have := e4 hr
            omega
      · intro hfr
        have := e5 hfr
        rw [pathWeight_append, ← w2]
        omega

end alternative_path

namespace alternative_path

theorem endOf_append (L1 : List PathEdge) {P : List PathEdge} (hP : P ≠ []) (v v' : NodeID) :
    endOf (L1 ++ P) v = endOf P v' := by
  unfold endOf
  rw [List.getLast?_append_of_ne_nil _ hP]
  cases hl : P.getLast? with
  | none => exact absurd (List.getLast?_eq_none_iff.1 hl) hP
  | some x => rfl

theorem startOf_append {S : List PathEdge} (hS : S ≠ []) (L2 : List PathEdge) (v v' : NodeID) :
    startOf (S ++ L2) v = startOf S v' := by
  cases S with
  | nil => exact absurd rfl hS
  | cons x rest => rfl

/-- The loop that unpacks forward, on the stack with the single edge from `a` to `b`: it
adds the weight of a front piece `P` of the unpacked edges and leaves the end of `P` in
`t_P`. -/
theorem unpackVT_spec {SPECIAL_EDGEID : Nat} {find : NodeID → NodeID → Nat}
    {facade : StaticGraph EdgeData} (T : Int) {a b : NodeID} {L : List PathEdge}
    (h : Unpacked SPECIAL_EDGEID find facade a b L) :
    ∀ (w : Int) (tP : NodeID) (fuel : Nat), L.length ≤ fuel →
      ∃ P back, L = P ++ back ∧ P ≠ []
        ∧ unpackVT SPECIAL_EDGEID find facade T fuel w tP [(a, b)]
            = some (some (w + pathWeight P, endOf P tP))
        ∧ (P.dropLast ≠ [] → w + pathWeight P.dropLast < T)
        ∧ (back ≠ [] → T ≤ w + pathWeight P) := by
  induction h with
  | @plain a b d h1 h2 h3 =>
    intro w tP fuel hf
    obtain ⟨f, rfl⟩ : ∃ f, fuel = f + 1 := ⟨fuel - 1, by simp at hf; omega⟩
    refine ⟨[(a, b, d.weight)], [], rfl, by simp, ?_, by simp, by simp⟩
    have hne : (SPECIAL_EDGEID == find a b) = false := by
      simpa using fun hh => h1 hh.symm
    simp only [unpackVT, hne, h2, h3, Bool.false_eq_true, if_false]
    cases f <;> simp [unpackVT, pathWeight, endOf]
  | @shortcut a b d d1 d2 L1 L2 h1 h2 h3 h4 h5 h6 u1 u2 ih1 ih2 =>
    intro w tP fuel hf
    obtain ⟨e1, _, g1, w1, n1, _, _⟩ := unpacked_data u1
    obtain ⟨e2, _, g2, w2, n2, _, _⟩ := unpacked_data u2
    rw [h4] at g1
    rw [h5] at g2
    simp only [Option.some.injEq] at g1 g2
    subst g1 g2
    have l1 : 1 ≤ L1.length := List.length_pos.2 n1
    have l2 : 1 ≤ L2.length := List.length_pos.2 n2
    rw [List.length_append] at hf
    obtain ⟨f, rfl⟩ : ∃ f, fuel = f + 1 := ⟨fuel - 1, by omega⟩
    have hne : (SPECIAL_EDGEID == find a b) = false := by
      simpa using fun hh => h1 hh.symm
    by_cases hc : w + d1.weight ≥ T
    · obtain ⟨P, back, e1, e2, e3, e4, e5⟩ := ih1 w tP f (by omega)
      refine ⟨P, back ++ L2, by rw [e1, List.append_assoc], e2, ?_, e4, ?_⟩
      · simp only [unpackVT, hne, h2, h3, h4, hc, Bool.false_eq_true, if_false, if_true]
        exact e3
      · intro _
        by_cases hb : back = []
        · rw [hb, List.append_nil] at e1
          rw [← e1, ← w1]
          exact hc
        · exact e5 hb
    · obtain ⟨P, back, e1, e2, e3, e4, e5⟩ := ih2 (w + d1.weight) tP f (by omega)
      refine ⟨L1 ++ P, back, by rw [e1, List.append_assoc], by simp [e2], ?_, ?_, ?_⟩
      · simp only [unpackVT, hne, h2, h3, h4, hc, Bool.false_eq_true, if_false, if_true]
        rw [e3, pathWeight_append, ← w1, endOf_append L1 e2 tP tP]
        congr 3
        omega
      · intro _
        rw [List.dropLast_append_of_ne_nil _ e2, pathWeight_append, ← w1]
        by_cases hr : P.dropLast = []
        · rw [hr, pathWeight_nil]
          omega
        · have := e4 hr
          omega
      · intro hb
        have := e5 hb
        rw [pathWeight_append, ← w1]
        omega

theorem unpackedBetween_self (Ls : Nat → List PathEdge) (m : Nat) :
    unpackedBetween Ls m m = [] := by
  simp [unpackedBetween]

theorem unpackedBetween_succ (Ls : Nat → List PathEdge) {m hi : Nat} (h : m + 1 ≤ hi) :
    unpackedBetween Ls m hi = Ls (m + 1) ++ unpackedBetween Ls (m + 1) hi := by
  unfold unpackedBetween
  obtain ⟨k, rfl⟩ : ∃ k, hi = m + 1 + k := ⟨hi - (m + 1), by omega⟩
  have h1 : m + 1 + k - m = k + 1 := by omega
  have h2 : m + 1 + k - (m + 1) = k := by omega
  rw [h1, h2, List.range'_succ]
  simp

theorem unpackedBetween_split (Ls : Nat → List PathEdge) {lo mid hi : Nat} (h1 : lo ≤ mid)
    (h2 : mid ≤ hi) :
    unpackedBetween Ls lo hi = unpackedBetween Ls lo mid ++ unpackedBetween Ls mid hi := by
  unfold unpackedBetween
  rw [← List.flatMap_append]
  congr 1
  have := @List.range'_append (lo + 1) (mid - lo) (hi - mid) 1
  rw [Nat.one_mul] at this
  have e1 : lo + 1 + (mid - lo) = mid + 1 := by omega
  have e2 : hi - mid + (mid - lo) = hi - lo := by omega
  rw [e1, e2] at this
  exact this.symm

theorem unpackedBetween_last (Ls : Nat → List PathEdge) (m : Nat) :
    unpackedBetween Ls m (m + 1) = Ls (m + 1) := by
  rw [unpackedBetween_succ Ls (le_refl _), unpackedBetween_self, List.append_nil]

theorem traverseSV_noop (find : NodeID → NodeID → Nat) (facade : StaticGraph EdgeData)
    (T : Int) (p : List NodeID) (w : Int) (sP : NodeID) (e : SearchSpaceEdge)
    (stk : List SearchSpaceEdge) (l : List Nat) :
    EdgeBasedGraphFactory.foldlOpt (traverseStepSV find facade T p) l (w, sP, e :: stk)
      = some (w, sP, e :: stk) := by
  induction l with
  | nil => rfl
  | cons i rest ih =>
    simp only [EdgeBasedGraphFactory.foldlOpt, traverseStepSV, List.isEmpty_cons,
      Bool.false_eq_true, if_false]
    exact ih

theorem traverseVT_noop (find : NodeID → NodeID → Nat) (facade : StaticGraph EdgeData)
    (T : Int) (p : List NodeID) (w : Int) (tP : NodeID) (e : SearchSpaceEdge)
    (stk : List SearchSpaceEdge) (l : List Nat) :
    EdgeBasedGraphFactory.foldlOpt (traverseStepVT find facade T p) l (w, tP, e :: stk)
      = some (w, tP, e :: stk) := by
  induction l with
  | nil => rfl
  | cons i rest ih =>
    simp only [EdgeBasedGraphFactory.foldlOpt, traverseStepVT, List.isEmpty_cons,
      Bool.false_eq_true, if_false]
    exact ih

/-- The loop "Traverse path s-->v" from the index `m` down: either no packed edge is put
on the stack, or the packed edge that ends at an index `j` is, with the weight of the
packed edges behind it added before. -/
theorem traverseSV_spec {SPECIAL_EDGEID : Nat} {find : NodeID → NodeID → Nat}
    {facade : StaticGraph EdgeData} (T : Int) (p : List NodeID) (Ls : Nat → List PathEdge)
    (sm : NodeID)
    (hU : ∀ i, 1 ≤ i → i < p.length →
      Unpacked SPECIAL_EDGEID find facade (p.getD (i - 1) default) (p.getD i default) (Ls i)) :
    ∀ m, m < p.length →
      (m < p.length - 1 → pathWeight (unpackedBetween Ls m (p.length - 1)) < T) →
      (EdgeBasedGraphFactory.foldlOpt (traverseStepSV find facade T p) (List.range' 1 m).reverse
          (pathWeight (unpackedBetween Ls m (p.length - 1)),
            (if m = p.length - 1 then sm else p.getD m default), [])
        = some (pathWeight (unpackedBetween Ls 0 (p.length - 1)),
            (if 0 = p.length - 1 then sm else p.getD 0 default), [])
        ∧ (0 < p.length - 1 → pathWeight (unpackedBetween Ls 0 (p.length - 1)) < T))
      ∨ ∃ j, 1 ≤ j ∧ j ≤ m
        ∧ EdgeBasedGraphFactory.foldlOpt (traverseStepSV find facade T p)
            (List.range' 1 m).reverse
            (pathWeight (unpackedBetween Ls m (p.length - 1)),
              (if m = p.length - 1 then sm else p.getD m default), [])
          = some (pathWeight (unpackedBetween Ls j (p.length - 1)),
              (if j = p.length - 1 then sm else p.getD j default),
              [(p.getD (j - 1) default, p.getD j default)])
        ∧ (j < p.length - 1 → pathWeight (unpackedBetween Ls j (p.length - 1)) < T)
        ∧ T ≤ pathWeight (Ls j) + pathWeight (unpackedBetween Ls j (p.length - 1)) := by
  intro m
  induction m with
  | zero =>
    intro _ h2
    left
    exact ⟨rfl, h2⟩
  | succ m ih =>
    intro h1 h2
    obtain ⟨d, _, g1, g2, _⟩ := unpacked_data (hU (m + 1) (by omega) h1)
    have hl : (List.range' 1 (m + 1)).reverse = (m + 1) :: (List.range' 1 m).reverse := by
      rw [List.range'_concat, List.reverse_append]
      simp [Nat.add_comm]
    rw [hl]
    simp only [Nat.add_sub_cancel] at g1
    by_cases hc : d.weight + pathWeight (unpackedBetween Ls (m + 1) (p.length - 1)) ≥ T
    · right
      refine ⟨m + 1, by omega, le_refl _, ?_, h2, by rw [← g2]; exact hc⟩
      simp only [EdgeBasedGraphFactory.foldlOpt, traverseStepSV, List.isEmpty_nil, if_true,
        Nat.add_sub_cancel, g1, hc]
      exact traverseSV_noop _ _ _ _ _ _ _ _ _
    · have hm : m < p.length - 1 := by omega
      have hw : pathWeight (unpackedBetween Ls (m + 1) (p.length - 1)) + d.weight
          = pathWeight (unpackedBetween Ls m (p.length - 1)) := by
        rw [unpackedBetween_succ Ls (show m + 1 ≤ p.length - 1 by omega), pathWeight_append,
          ← g2]
        omega
      have hlt : pathWeight (unpackedBetween Ls m (p.length - 1)) < T := by
        rw [← hw]
        omega
      have hstep : EdgeBasedGraphFactory.foldlOpt (traverseStepSV find facade T p)
          ((m + 1) :: (List.range' 1 m).reverse)
          (pathWeight (unpackedBetween Ls (m + 1) (p.length - 1)),
            (if m + 1 = p.length - 1 then sm else p.getD (m + 1) default), [])
          = EdgeBasedGraphFactory.foldlOpt (traverseStepSV find facade T p)
            (List.range' 1 m).reverse
            (pathWeight (unpackedBetween Ls m (p.length - 1)),
              (if m = p.length - 1 then sm else p.getD m default), []) := by
        simp only [EdgeBasedGraphFactory.foldlOpt, traverseStepSV, List.isEmpty_nil, if_true,
          Nat.add_sub_cancel, g1, hc, if_false, hw]
        rw [if_neg (show ¬ m = p.length - 1 by omega)]
      rw [hstep]
      rcases ih (by omega) (fun _ => hlt) with h | ⟨j, j1, j2, j3⟩
      · left
        exact h
      · right
        exact ⟨j, j1, by omega, j3⟩

/-- The second loop over a packed path from the index `m` up. -/
theorem traverseVT_spec {SPECIAL_EDGEID : Nat} {find : NodeID → NodeID → Nat}
    {facade : StaticGraph EdgeData} (T : Int) (p : List NodeID) (Lt : Nat → List PathEdge)
    (tm : NodeID)
    (hU : ∀ i, 1 ≤ i → i < p.length →
      Unpacked SPECIAL_EDGEID find facade (p.getD (i - 1) default) (p.getD i default) (Lt i)) :
    ∀ r m, m + r = p.length - 1 →
      (0 < m → pathWeight (unpackedBetween Lt 0 m) < T) →
      (EdgeBasedGraphFactory.foldlOpt (traverseStepVT find facade T p) (List.range' m r)
          (pathWeight (unpackedBetween Lt 0 m), (if m = 0 then tm else p.getD m default), [])
        = some (pathWeight (unpackedBetween Lt 0 (p.length - 1)),
            (if p.length - 1 = 0 then tm else p.getD (p.length - 1) default), [])
        ∧ (0 < p.length - 1 → pathWeight (unpackedBetween Lt 0 (p.length - 1)) < T))
      ∨ ∃ j, m ≤ j ∧ j < p.length - 1
        ∧ EdgeBasedGraphFactory.foldlOpt (traverseStepVT find facade T p) (List.range' m r)
            (pathWeight (unpackedBetween Lt 0 m), (if m = 0 then tm else p.getD m default), [])
          = some (pathWeight (unpackedBetween Lt 0 j),
              (if j = 0 then tm else p.getD j default),
              [(p.getD j default, p.getD (j + 1) default)])
        ∧ (0 < j → pathWeight (unpackedBetween Lt 0 j) < T)
        ∧ T ≤ pathWeight (Lt (j + 1)) + pathWeight (unpackedBetween Lt 0 j) := by
  intro r
  induction r with
  | zero =>
    intro m h1 h2
    left
    have hm : m = p.length - 1 := by omega
    subst hm
    exact ⟨rfl, h2⟩
  | succ r ih =>
    intro m h1 h2
    obtain ⟨d, _, g1, g2, _⟩ := unpacked_data (hU (m + 1) (by omega) (by omega))
    simp only [Nat.add_sub_cancel] at g1
    rw [List.range'_succ]
    by_cases hc : d.weight + pathWeight (unpackedBetween Lt 0 m) ≥ T
    · right
      refine ⟨m, le_refl _, by omega, ?_, h2, by rw [← g2]; exact hc⟩
      simp only [EdgeBasedGraphFactory.foldlOpt, traverseStepVT, List.isEmpty_nil, if_true,
        g1, hc]
      exact traverseVT_noop _ _ _ _ _ _ _ _ _
    · have hw : pathWeight (unpackedBetween Lt 0 m) + d.weight
          = pathWeight (unpackedBetween Lt 0 (m + 1)) := by
        rw [unpackedBetween_split Lt (Nat.zero_le m) (Nat.le_succ m), unpackedBetween_last,
          pathWeight_append, ← g2]
      have hlt : pathWeight (unpackedBetween Lt 0 (m + 1)) < T := by
        rw [← hw]
        omega
      have hstep : EdgeBasedGraphFactory.foldlOpt (traverseStepVT find facade T p)
          (m :: List.range' (m + 1) r)
          (pathWeight (unpackedBetween Lt 0 m), (if m = 0 then tm else p.getD m default), [])
          = EdgeBasedGraphFactory.foldlOpt (traverseStepVT find facade T p)
            (List.range' (m + 1) r)
            (pathWeight (unpackedBetween Lt 0 (m + 1)),
              (if m + 1 = 0 then tm else p.getD (m + 1) default), []) := by
        simp only [EdgeBasedGraphFactory.foldlOpt, traverseStepVT, List.isEmpty_nil, if_true,
          g1, hc, if_false, hw]
        rw [if_neg (show ¬ m + 1 = 0 by omega)]
      rw [hstep]
      rcases ih (m + 1) (by omega) (fun _ => hlt) with h | ⟨j, j1, j2, j3⟩
      · left
        exact h
      · right
        exact ⟨j, by omega, j2, j3⟩

end alternative_path

namespace alternative_path

theorem between_nonneg {SPECIAL_EDGEID : Nat} {find : NodeID → NodeID → Nat}
    {facade : StaticGraph EdgeData} (hnn : ∀ e d, edgeDataAt facade e = some d → 0 ≤ d.weight)
    (p : List NodeID) (Ls : Nat → List PathEdge)
    (hU : ∀ i, 1 ≤ i → i < p.length →
      Unpacked SPECIAL_EDGEID find facade (p.getD (i - 1) default) (p.getD i default) (Ls i))
    (lo hi : Nat) (hhi : hi ≤ p.length - 1) :
    ∀ x ∈ unpackedBetween Ls lo hi, 0 ≤ x.2.2 := by
  intro x hx
  unfold unpackedBetween at hx
  obtain ⟨i, hi1, hi2⟩ := List.mem_flatMap.1 hx
  rw [List.mem_range'_1] at hi1
  exact unpacked_nonneg hnn (hU i (by omega) (by omega)) x hi2

theorem tail_weight_le (S : List PathEdge) (h : ∀ x ∈ S, 0 ≤ x.2.2) :
    pathWeight S.tail ≤ pathWeight S := by
  cases S with
  | nil => exact le_refl _
  | cons x rest =>
    rw [List.tail_cons, pathWeight_cons]
    have := h x (List.mem_cons_self _ _)
    omega

theorem dropLast_weight_le (P : List PathEdge) (h : ∀ x ∈ P, 0 ≤ x.2.2) :
    pathWeight P.dropLast ≤ pathWeight P := by
  by_cases hP : P = []
  · rw [hP]
    exact le_refl _
  · have h1 : pathWeight P = pathWeight P.dropLast + pathWeight [P.getLast hP] := by
      rw [← pathWeight_append, List.dropLast_append_getLast]
    have h2 := h (P.getLast hP) (List.getLast_mem hP)
    rw [h1, pathWeight_cons, pathWeight_nil]
    omega

theorem unpackSV_empty (SPECIAL_EDGEID : Nat) (find : NodeID → NodeID → Nat)
    (facade : StaticGraph EdgeData) (T : Int) (fuel : Nat) (w : Int) (sP : NodeID) :
    unpackSV SPECIAL_EDGEID find facade T fuel w sP [] = some (some (w, sP)) := by
  cases fuel <;> rfl

theorem unpackVT_empty (SPECIAL_EDGEID : Nat) (find : NodeID → NodeID → Nat)
    (facade : StaticGraph EdgeData) (T : Int) (fuel : Nat) (w : Int) (tP : NodeID) :
    unpackVT SPECIAL_EDGEID find facade T fuel w tP [] = some (some (w, tP)) := by
  cases fuel <;> rfl

/-- The two loops of the half path from `s` to `v` together. -/
theorem sv_side {SPECIAL_EDGEID : Nat} {find : NodeID → NodeID → Nat}
    {facade : StaticGraph EdgeData} (T : Int) (p : List NodeID) (Ls : Nat → List PathEdge)
    (sm : NodeID) (hnn : ∀ e d, edgeDataAt facade e = some d → 0 ≤ d.weight) (hp : p ≠ [])
    (hU : ∀ i, 1 ≤ i → i < p.length →
      Unpacked SPECIAL_EDGEID find facade (p.getD (i - 1) default) (p.getD i default) (Ls i))
    (fuel : Nat) (hf : (unpackedBetween Ls 0 (p.length - 1)).length ≤ fuel) :
    ∃ st S front,
      EdgeBasedGraphFactory.foldlOpt (traverseStepSV find facade T p)
          (List.range' 1 (p.length - 1)).reverse (0, sm, []) = some st
      ∧ unpackedBetween Ls 0 (p.length - 1) = front ++ S
      ∧ unpackSV SPECIAL_EDGEID find facade T fuel st.1 st.2.1 st.2.2
          = some (some (pathWeight S, startOf S sm))
      ∧ (front ≠ [] → S ≠ [])
      ∧ (S.tail ≠ [] → pathWeight S.tail < T)
      ∧ (front ≠ [] → T ≤ pathWeight S)
      ∧ (∀ x ∈ S, 0 ≤ x.2.2) := by
  have hlen : 0 < p.length := List.length_pos.2 hp
  have hall := between_nonneg hnn p Ls hU 0 (p.length - 1) (le_refl _)
  have h0 := traverseSV_spec T p Ls sm hU (p.length - 1) (by omega)
    (fun h => absurd h (lt_irrefl _))
  simp only [unpackedBetween_self, pathWeight_nil, eq_self_iff_true, if_true] at h0
  rcases h0 with ⟨h1, h2⟩ | ⟨j, j1, j2, j3, j4, j5⟩
  · refine ⟨_, unpackedBetween Ls 0 (p.length - 1), [], h1, rfl, ?_, fun h => absurd rfl h,
      ?_, fun h => absurd rfl h, hall⟩
    · rw [unpackSV_empty]
      congr 3
      by_cases hn : 0 = p.length - 1
      · rw [if_pos hn, ← hn, unpackedBetween_self]
        rfl
      · rw [if_neg hn, unpackedBetween_succ Ls (show 0 + 1 ≤ p.length - 1 by omega)]
        obtain ⟨d, _, _, _, g4, g5, _⟩ := unpacked_data (hU 1 (le_refl _) (by omega))
        rw [startOf_append g4 _ sm (p.getD (1 - 1) default), g5]
    · intro ht
      have hn : 0 < p.length - 1 := by
        by_contra hn
        have hz : p.length - 1 = 0 := by omega
        rw [hz, unpackedBetween_self] at ht
        exact ht rfl
      exact lt_of_le_of_lt (tail_weight_le _ hall) (h2 hn)
  · obtain ⟨k, rfl⟩ : ∃ k, j = k + 1 := ⟨j - 1, by omega⟩
    have hsplit : unpackedBetween Ls 0 (p.length - 1)
        = unpackedBetween Ls 0 k ++ (Ls (k + 1) ++ unpackedBetween Ls (k + 1) (p.length - 1)) := by
      rw [unpackedBetween_split Ls (Nat.zero_le k) (show k ≤ p.length - 1 by omega),
        unpackedBetween_succ Ls (show k + 1 ≤ p.length - 1 by omega)]
    have hk : (Ls (k + 1)).length ≤ fuel := by
      rw [hsplit] at hf
      simp only [List.length_append] at hf
      omega
    obtain ⟨S, front, e1, e2, e3, e4, e5⟩ := unpackSV_spec T (hU (k + 1) j1 (by omega))
      (pathWeight (unpackedBetween Ls (k + 1) (p.length - 1)))
      (if k + 1 = p.length - 1 then sm else p.getD (k + 1) default) fuel hk
    have hS : unpackedBetween Ls 0 (p.length - 1)
        = (unpackedBetween Ls 0 k ++ front) ++ (S ++ unpackedBetween Ls (k + 1) (p.length - 1)) := by
      rw [hsplit, e1]
      simp only [List.append_assoc]
    refine ⟨_, S ++ unpackedBetween Ls (k + 1) (p.length - 1), unpackedBetween Ls 0 k ++ front,
      j3, hS, ?_, fun _ => by simp [e2], ?_, ?_, ?_⟩
    · show unpackSV SPECIAL_EDGEID find facade T fuel _ _
        [(p.getD (k + 1 - 1) default, p.getD (k + 1) default)] = _
      rw [e3, pathWeight_append, startOf_append e2 _ sm
        (if k + 1 = p.length - 1 then sm else p.getD (k + 1) default)]
      congr 3
      omega
    · intro ht
      cases S with
      | nil => exact absurd rfl e2
      | cons x rest =>
        simp only [List.cons_append, List.tail_cons] at e4 ht ⊢
        rw [pathWeight_append]
        by_cases hr : rest = []
        · rw [hr, pathWeight_nil, zero_add]
          apply j4
          by_contra hn
          have hz : k + 1 = p.length - 1 := by omega
          rw [hr, List.nil_append, hz, unpackedBetween_self] at ht
          exact ht rfl
        · have := e4 hr
          omega
    · intro _
      rw [pathWeight_append]
      by_cases hfr : front = []
      · rw [hfr, List.nil_append] at e1
        rw [← e1]
        exact j5
      · have := e5 hfr
        omega
    · intro x hx
      rw [hS] at hall
      exact hall x (List.mem_append_right _ hx)

/-- The two loops of the half path from `v` to `t` together. -/
theorem vt_side {SPECIAL_EDGEID : Nat} {find : NodeID → NodeID → Nat}
    {facade : StaticGraph EdgeData} (T : Int) (p : List NodeID) (Lt : Nat → List PathEdge)
    (tm : NodeID) (hnn : ∀ e d, edgeDataAt facade e = some d → 0 ≤ d.weight) (hp : p ≠ [])
    (hU : ∀ i, 1 ≤ i → i < p.length →
      Unpacked SPECIAL_EDGEID find facade (p.getD (i - 1) default) (p.getD i default) (Lt i))
    (fuel : Nat) (hf : (unpackedBetween Lt 0 (p.length - 1)).length ≤ fuel) :
    ∃ st P back,
      EdgeBasedGraphFactory.foldlOpt (traverseStepVT find facade T p)
          (List.range (p.length - 1)) (0, tm, []) = some st
      ∧ unpackedBetween Lt 0 (p.length - 1) = P ++ back
      ∧ unpackVT SPECIAL_EDGEID find facade T fuel st.1 st.2.1 st.2.2
          = some (some (pathWeight P, endOf P tm))
      ∧ (back ≠ [] → P ≠ [])
      ∧ (P.dropLast ≠ [] → pathWeight P.dropLast < T)
      ∧ (back ≠ [] → T ≤ pathWeight P)
      ∧ (∀ x ∈ P, 0 ≤ x.2.2) := by
  have hlen : 0 < p.length := List.length_pos.2 hp
  have hall := between_nonneg hnn p Lt hU 0 (p.length - 1) (le_refl _)
  have h0 := traverseVT_spec T p Lt tm hU (p.length - 1) 0 (by omega)
    (fun h => absurd h (lt_irrefl _))
  simp only [unpackedBetween_self, pathWeight_nil, eq_self_iff_true, if_true,
    ← List.range_eq_range'] at h0
  rcases h0 with ⟨h1, h2⟩ | ⟨j, _, j2, j3, j4, j5⟩
  · refine ⟨_, unpackedBetween Lt 0 (p.length - 1), [], h1, (List.append_nil _).symm, ?_,
      fun h => absurd rfl h, ?_, fun h => absurd rfl h, hall⟩
    · rw [unpackVT_empty]
      congr 3
      by_cases hn : p.length - 1 = 0
      · rw [if_pos hn, hn, unpackedBetween_self]
        rfl
      · rw [if_neg hn]
        obtain ⟨k, hk⟩ : ∃ k, p.length - 1 = k + 1 := ⟨p.length - 1 - 1, by omega⟩
        rw [hk, unpackedBetween_split Lt (Nat.zero_le k) (Nat.le_succ k), unpackedBetween_last]
        obtain ⟨d, _, _, _, g4, _, g6⟩ := unpacked_data (hU (k + 1) (by omega) (by omega))
        rw [endOf_append _ g4 tm (p.getD (k + 1) default), g6]
    · intro ht
      have hn : 0 < p.length - 1 := by
        by_contra hn
        have hz : p.length - 1 = 0 := by omega
        rw [hz, unpackedBetween_self] at ht
        exact ht rfl
      exact lt_of_le_of_lt (dropLast_weight_le _ hall) (h2 hn)
  · have hsplit : unpackedBetween Lt 0 (p.length - 1)
        = unpackedBetween Lt 0 j ++ (Lt (j + 1) ++ unpackedBetween Lt (j + 1) (p.length - 1)) := by
      rw [unpackedBetween_split Lt (Nat.zero_le j) (show j ≤ p.length - 1 by omega),
        unpackedBetween_succ Lt (show j + 1 ≤ p.length - 1 by omega)]
    have hk : (Lt (j + 1)).length ≤ fuel := by
      rw [hsplit] at hf
      simp only [List.length_append] at hf
      omega
    have hu := hU (j + 1) (by omega) (by omega)
    simp only [Nat.add_sub_cancel] at hu
    obtain ⟨P, back, e1, e2, e3, e4, e5⟩ := unpackVT_spec T hu
      (pathWeight (unpackedBetween Lt 0 j))
      (if j = 0 then tm else p.getD j default) fuel hk
    have hS : unpackedBetween Lt 0 (p.length - 1)
        = (unpackedBetween Lt 0 j ++ P) ++ (back ++ unpackedBetween Lt (j + 1) (p.length - 1)) := by
      rw [hsplit, e1]
      simp only [List.append_assoc]
    refine ⟨_, unpackedBetween Lt 0 j ++ P, back ++ unpackedBetween Lt (j + 1) (p.length - 1),
      j3, hS, ?_, fun _ => by simp [e2], ?_, ?_, ?_⟩
    · show unpackVT SPECIAL_EDGEID find facade T fuel _ _
        [(p.getD j default, p.getD (j + 1) default)] = _
      rw [e3, pathWeight_append, endOf_append _ e2 tm (if j = 0 then tm else p.getD j default)]
    · intro ht
      rw [List.dropLast_append_of_ne_nil _ e2] at ht ⊢
      rw [pathWeight_append]
      by_cases hr : P.dropLast = []
      · rw [hr, pathWeight_nil, add_zero]
        apply j4
        by_contra hn
        have hz : j = 0 := by omega
        rw [hr, List.append_nil, hz, unpackedBetween_self] at ht
        exact ht rfl
      · exact e4 hr
    · intro _
      rw [pathWeight_append]
      by_cases hb : back = []
      · rw [hb, List.append_nil] at e1
        rw [← e1]
        omega
      · exact e5 hb
    · intro x hx
      rw [hS] at hall
      exact hall x (List.mem_append_left _ hx)

/-- The threshold that the conversion to `int` gives and the floor: the end piece that
the one determines is the one that the other determines. -/
theorem threshold_floor (x : ℚ) (w1 w2 : Int) (h1 : 0 ≤ w1) (c1 c2 : Prop)
    (ha : c1 → w1 < castToInt x) (hb : c2 → castToInt x ≤ w2) (h2 : 0 ≤ w2) :
    (c1 → w1 < ⌊x⌋) ∧ (c2 → ⌊x⌋ ≤ w2) := by
  unfold castToInt at ha hb
  by_cases hx : 0 ≤ x
  · rw [if_pos hx] at ha hb
    exact ⟨ha, hb⟩
  · rw [if_neg hx] at ha hb
    have hc : ⌈x⌉ ≤ 0 := Int.ceil_le.2 (by push_cast; exact le_of_lt (not_le.1 hx))
    have hfl : ⌊x⌋ ≤ ⌈x⌉ := Int.floor_le_ceil x
    refine ⟨fun h => ?_, fun _ => by omega⟩
    have := ha h
    omega

end alternative_path

namespace alternative_path

theorem chainHierarchy_nonneg :
    ∀ e d, edgeDataAt chainHierarchy e = some d → 0 ≤ d.weight := by
  intro e d h
  unfold edgeDataAt at h
  cases hx : chainHierarchy.edge_array[e]? with
  | none => rw [hx] at h; simp at h
  | some x =>
    rw [hx] at h
    simp only [Option.map_some', Option.some.injEq] at h
    have hm := List.mem_iff_getElem?.2 ⟨e, hx⟩
    subst h
    simp only [chainHierarchy, List.mem_cons, List.mem_singleton, List.not_mem_nil,
      or_false] at hm
    rcases hm with rfl | rfl | rfl | rfl | rfl <;> decide

theorem chainHierarchy_unpacked_0_2 :
    Unpacked 4294967295 chainFind chainHierarchy 0 2 [(0, 1, 2), (1, 2, 3)] :=
  @Unpacked.shortcut 4294967295 chainFind chainHierarchy 0 2 ⟨5, true, false, true, 1⟩
    ⟨2, true, false, false, 0⟩ ⟨3, true, false, false, 0⟩ [(0, 1, 2)] [(1, 2, 3)]
    (by decide) (by decide) rfl (by decide) (by decide) (by decide)
    (@Unpacked.plain 4294967295 chainFind chainHierarchy 0 1 ⟨2, true, false, false, 0⟩
      (by decide) (by decide) rfl)
    (@Unpacked.plain 4294967295 chainFind chainHierarchy 1 2 ⟨3, true, false, false, 0⟩
      (by decide) (by decide) rfl)

theorem chainHierarchy_unpacked_2_3 :
    Unpacked 4294967295 chainFind chainHierarchy 2 3 [(2, 3, 4)] :=
  @Unpacked.plain 4294967295 chainFind chainHierarchy 2 3 ⟨4, true, false, false, 0⟩
    (by decide) (by decide) rfl

end alternative_path

namespace alternative_path

/-- The search of `alternativePathSearch` for a source and a target without offsets.
Over a hierarchy with positive edge weights that is valid for a graph `G` and the pair
`(s, t)`, the loop that alternates `alternativeRoutingStep` forwards and in reverse,
entered with `s` and `t` at key 0, returns: it ends with both heaps empty, and the
value that it leaves in
`upper_bound_to_shortest_path_weight`, which becomes `shortest_path_length`, is at most
the weight of every path from `s` to `t` in `G`, is the weight of such a path when it
is not `INVALID_EDGE_WEIGHT`, and is `INVALID_EDGE_WEIGHT` exactly when no path from `s`
to `t` is lighter than `INVALID_EDGE_WEIGHT`. -/
theorem search_correct_zero_keys (INVALID_EDGE_WEIGHT : Int) (SPECIAL_NODEID : NodeID)
    (getLoopWeight : NodeID → Int) (G : List (NodeID × NodeID × Int))
    (facade : StaticGraph EdgeData) (s t : NodeID)
    (hpos : ∀ u, ∀ e ∈ facade.GetAdjacentEdgeRange u, 0 < (facade.GetEdgeData e).weight)
    (hvalid : ValidHierarchy G facade s t) :
    ∃ fuel st, shortestPathSearch INVALID_EDGE_WEIGHT SPECIAL_NODEID getLoopWeight facade
          (plainPhantoms s t) fuel = some st
      ∧ st.forward_heap1.Size = 0 ∧ st.reverse_heap1.Size = 0
      ∧ (∀ w, Route G s t w → st.upper_bound_to_shortest_path_weight ≤ w)
      ∧ (st.upper_bound_to_shortest_path_weight ≠ INVALID_EDGE_WEIGHT →
          Route G s t st.upper_bound_to_shortest_path_weight)
      ∧ (st.upper_bound_to_shortest_path_weight = INVALID_EDGE_WEIGHT ↔
          ∀ w, Route G s t w → INVALID_EDGE_WEIGHT ≤ w) := by
  unfold shortestPathSearch
  rw [initialSearch_plain, min_edge_offset_plain]
  obtain ⟨st, h1, h2, h3, h4⟩ := searchLoop_terminates getLoopWeight (le_refl (0 : Int)) hpos _ _
    (initial_inv INVALID_EDGE_WEIGHT SPECIAL_NODEID facade s t) (le_refl _)
  have hmin : ∀ w, Route G s t w → st.upper_bound_to_shortest_path_weight ≤ w := by
    intro w hw
    obtain ⟨m, a, b, ha, hb, hab⟩ := hvalid.1 w hw
    exact le_trans (search_result hpos h2 h3 h4 ha hb) hab
  have hatt : st.upper_bound_to_shortest_path_weight ≠ INVALID_EDGE_WEIGHT →
      st.upper_bound_to_shortest_path_weight < INVALID_EDGE_WEIGHT
        ∧ Route G s t st.upper_bound_to_shortest_path_weight := by
    intro hne
    rcases h2.ub with h5 | ⟨_, h6, m, a, b, ha, hb, hab⟩
    · exact absurd h5 hne
    · obtain ⟨w, hw, hle⟩ := hvalid.2 m a b ha hb
      have := hmin w hw
      have hw2 : w = st.upper_bound_to_shortest_path_weight := by omega
      rw [← hw2]
      exact ⟨by omega, hw⟩
  refine ⟨_, st, h1, h3, h4, hmin, fun hne => (hatt hne).2, ?_, ?_⟩
  · intro heq w hw
    rw [← heq]
    exact hmin w hw
  · intro hall
    by_contra hne
    obtain ⟨h5, h6⟩ := hatt hne
    have := hall _ h6
    omega

/-- The search for a source and a target without offsets at the hierarchy of the graph
with the single edge from 0 to 1. -/
theorem search_correct_zero_keys_line :
    (∀ u, ∀ e ∈ lineHierarchy.GetAdjacentEdgeRange u,
          0 < (lineHierarchy.GetEdgeData e).weight)
      ∧ ValidHierarchy lineGraph lineHierarchy 0 1
      ∧ ∃ fuel st, shortestPathSearch 2147483647 4294967295 (fun _ => 2147483647) lineHierarchy
            (plainPhantoms 0 1) fuel = some st
        ∧ st.forward_heap1.Size = 0 ∧ st.reverse_heap1.Size = 0
        ∧ (∀ w, Route lineGraph 0 1 w → st.upper_bound_to_shortest_path_weight ≤ w)
        ∧ (st.upper_bound_to_shortest_path_weight ≠ 2147483647 →
            Route lineGraph 0 1 st.upper_bound_to_shortest_path_weight)
        ∧ (st.upper_bound_to_shortest_path_weight = 2147483647 ↔
            ∀ w, Route lineGraph 0 1 w → 2147483647 ≤ w) :=
  ⟨lineHierarchy_pos, lineHierarchy_valid,
    search_correct_zero_keys 2147483647 4294967295 (fun _ => 2147483647) lineGraph lineHierarchy
      0 1 lineHierarchy_pos lineHierarchy_valid⟩

end alternative_path

namespace Contractor

open DynamicGraph

/-- The graph that the constructor builds is direction-explicit. -/
theorem Contractor_directionExplicit (NDEBUG uninit : Bool) (nodes : Nat)
    (inputEdges : List EdgeBasedEdge) :
    DirectionExplicit (Contractor NDEBUG uninit nodes inputEdges) := by
  intro s t d
  by_cases hst : s = t
  · subst hst
    constructor
    · rintro ⟨e, he, h1, _, _⟩
      exact absurd h1.symm (preparedEdges_no_loop NDEBUG uninit inputEdges _ (mem_adj_ofEdges.1 he))
    · rintro ⟨e, he, h1, _, _⟩
      exact absurd h1.symm (preparedEdges_no_loop NDEBUG uninit inputEdges _ (mem_adj_ofEdges.1 he))
  · have hf := flagEdge_iff NDEBUG uninit nodes inputEdges (fun x => x.forward)
      (emitRun_forward_iff uninit) s t d hst
    have hb := flagEdge_iff NDEBUG uninit nodes inputEdges (fun x => x.backward)
      (emitRun_backward_iff uninit) t s d (fun h => hst h.symm)
    unfold FwdEdge BwdEdge
    rw [hf, hb]
    constructor
    · rintro ⟨h1, ⟨c, hc, h2, h3, h4, h5⟩, hmin⟩
      obtain ⟨c', hc', m1, m2, m3, m4, m5⟩ := copies_mirror hc
      refine ⟨h1, ⟨c', hc', by rw [m1, h3], by rw [m2, h2], ?_, by rw [m5, h5]⟩, ?_⟩
      · show c'.data.backward = true
        rw [m4]; exact h4
      · intro x hx x1 x2 x3
        obtain ⟨x', hx', n1, n2, n3, n4, n5⟩ := copies_mirror hx
        rw [← n5]
        exact hmin x' hx' (by rw [n1, x2]) (by rw [n2, x1]) (by
          show x'.data.forward = true
          rw [n3]; exact x3)
    · rintro ⟨h1, ⟨c, hc, h2, h3, h4, h5⟩, hmin⟩
      obtain ⟨c', hc', m1, m2, m3, m4, m5⟩ := copies_mirror hc
      refine ⟨h1, ⟨c', hc', by rw [m1, h3], by rw [m2, h2], ?_, by rw [m5, h5]⟩, ?_⟩
      · show c'.data.forward = true
        rw [m3]; exact h4
      · intro x hx x1 x2 x3
        obtain ⟨x', hx', n1, n2, n3, n4, n5⟩ := copies_mirror hx
        rw [← n5]
        exact hmin x' hx' (by rw [n1, x2]) (by rw [n2, x1]) (by
          show x'.data.backward = true
          rw [n4]; exact x3)

theorem backed_of_directionExplicit {g : _DynamicGraph} (hsym : DirectionExplicit g)
    (R : NodeID → Prop) : BackwardsBacked g R := by
  intro n _ e he hb
  obtain ⟨f, hf, h1, h2, h3⟩ := (hsym e.target n e.data.distance).2 ⟨e, he, rfl, hb, rfl⟩
  exact ⟨f, hf, h1, h2, le_of_eq h3⟩

theorem BackwardsBacked_congr {g : _DynamicGraph} {R R' : NodeID → Prop}
    (h : ∀ x, R' x ↔ R x) (hb : BackwardsBacked g R) : BackwardsBacked g R' :=
  fun n hn e he hbw => hb n ((h n).1 hn) e he hbw

/-- The duplicate merge keeps the mirrors: with every backward-flagged edge that
`_Contract<false>` leaves in the buffer, the buffer holds the edge in the opposite
direction with the forward flag and the same distance. -/
theorem Contract_mirror_step (g : _DynamicGraph) (buffer : List _ImportEdge)
    (x : NodeID) (stats : _ContractionInformation) (hb : MirrorOK buffer) :
    MirrorOK (_Contract false g buffer x stats).1 := by
  obtain ⟨htake, hback, hcov⟩ := Contract_false_spec g buffer x stats
  generalize (_Contract false g buffer x stats).1 = B' at htake hback hcov
  have hsplit : ∀ e, e ∈ B' ↔ e ∈ buffer ∨ e ∈ B'.drop buffer.length := by
    intro e
    conv_lhs => rw [← List.take_append_drop buffer.length B']
    rw [List.mem_append, htake]
  intro e he hbw
  rcases (hsplit e).1 he with h | h
  · obtain ⟨e', he', h1, h2, h3, h4⟩ := hb e h hbw
    exact ⟨e', (hsplit e').2 (Or.inl he'), h1, h2, h3, h4⟩
  · obtain ⟨_, _, hbk⟩ := hback e h
    obtain ⟨r, hr, r1, r2, r3, r4⟩ := hbk hbw
    obtain ⟨i, hi, o, ho, hreq, hmem⟩ := mem_pushedPairs.1 hr
    obtain ⟨p1, p2, p3⟩ := mem_shortcutPair_backward hmem r4
    obtain ⟨a, ha, a1, a2, a3, a4⟩ : ∃ a ∈ shortcutPair x i o, a.source = i.target
        ∧ a.target = o.target ∧ a.data.forward = true
        ∧ a.data.distance = i.data.distance + o.data.distance :=
      ⟨_, List.mem_cons_self _ _, rfl, rfl, rfl, rfl⟩
    have hap : a ∈ pushedPairs g x := mem_pushedPairs.2 ⟨i, hi, o, ho, hreq, ha⟩
    obtain ⟨e', he', c1, c2, c3, _, c5, _⟩ := hcov a hap
    refine ⟨e', (hsplit e').2 (Or.inr he'), ?_, ?_, c5 a3, ?_⟩
    · rw [c1, a1, r2, p2]
    · rw [c2, a2, r1, p1]
    · rw [c3, a4, r3, p3]

theorem contractAll_mirror (st : RunState) : MirrorOK (contractAll st).1 := by
  unfold contractAll
  suffices h : ∀ (l : List NodeID) (acc : List _ImportEdge × List ℚ),
      MirrorOK acc.1 →
      MirrorOK (l.foldl (fun (acc : List _ImportEdge × List ℚ) x =>
          ((_Contract false st.graph acc.1 x default).1, acc.2.set x (-1))) acc).1 from
    h _ _ (fun e he => absurd he (List.not_mem_nil _))
  intro l
  induction l with
  | nil => intro acc h; exact h
  | cons a r ih =>
    intro acc h
    rw [List.foldl_cons]
    exact ih _ (Contract_mirror_step _ _ _ _ h)

/-- A round keeps the backward-flagged edges of the remaining nodes matched. -/
theorem roundGraph_backed (s : RunState) (hg : GraphOK s.graph (Remaining s))
    (hbias : ∀ a b, Remaining s a → Remaining s b →
      biasOf s.nodeData a = biasOf s.nodeData b → a = b)
    (hb : BackwardsBacked s.graph (Remaining s)) :
    BackwardsBacked (roundGraph s) (fun x => Remaining s x ∧ x ∉ independentSet s) := by
  have hIout : ∀ x ∈ independentSet s, ∀ e ∈ s.graph.adj x, e.target ∉ independentSet s := by
    intro x hx e he hy
    obtain ⟨hRx, hix⟩ := mem_independentSet hx
    have := (independent_apart hg hbias hRx hix (mem_independentSet hy).2).1 ⟨e, he, rfl⟩
    exact hg.noLoop x hRx e he this.symm
  have hold : ∀ a, Remaining s a → a ∉ independentSet s →
      ∀ e ∈ ((independentSet s).foldl _DeleteIncomingEdges s.graph).adj a,
        e ∈ s.graph.adj a ∧ e.target ∉ independentSet s := by
    intro a ha hna e he
    have he0 := deleteAll_sub _ _ a e he
    refine ⟨he0, fun hy => ?_⟩
    have hne : a ≠ e.target := fun h => hna (h ▸ hy)
    exact deleteAll_gone _ s.graph e.target a hy (hIout _ hy) (hg.symm a ha e he0) hne e he rfl
  rintro a ⟨ha, hna⟩ e he hbw
  unfold roundGraph at he ⊢
  rcases insertNewEdges_sound _ _ a e he with h | ⟨edge, hedge, h1, h2, _, h4, h5⟩
  · obtain ⟨h1, _⟩ := hold a ha hna e h
    obtain ⟨f, hf, f1, f2, f3⟩ := hb a ha e h1 hbw
    have hk := deleteAll_keep (independentSet s) s.graph e.target f hf (by rw [f1]; exact hna)
    obtain ⟨f', hf', g1, g2, _, g4⟩ := insertNewEdges_mono (sortEdges (contractAll s).1) _ _ f hk
    exact ⟨f', hf', by rw [g1, f1], by rw [g2, f2], le_trans g4 f3⟩
  · have hedge' : edge ∈ (contractAll s).1 := (List.mem_insertionSort _).1 hedge
    obtain ⟨m, hm, m1, m2, m3, m4⟩ := contractAll_mirror s edge hedge' (by rw [← h4]; exact hbw)
    obtain ⟨e', he', t1, t2, _, t4⟩ := insertNewEdges_present (sortEdges (contractAll s).1)
      ((independentSet s).foldl _DeleteIncomingEdges s.graph) m
      ((List.mem_insertionSort _).2 hm)
    rw [m1, ← h2] at he'
    exact ⟨e', he', by rw [t1, m2, h1], by rw [t2, m3], by rw [h5, ← m4]; exact t4⟩

/-- The compaction keeps the backward-flagged edges of the remaining nodes matched. -/
theorem flush_backed (n : Nat) (hn : n ≤ UINT_MAX) (st : RunState) (h : RunInv n st)
    (hb : BackwardsBacked st.graph (Remaining st)) :
    BackwardsBacked (flush n st).graph (Remaining (flush n st)) := by
  have hspec := flushMaps_spec n st h.ids
  obtain ⟨_, hmap, hmiss, _⟩ := hspec
  have hmv := moveEdges_spec st.graph (flushMaps n st).2.1 st.remainingNodes.length
  have hR : ∀ o, Remaining st o → ∃ i, i < st.remainingNodes.length
      ∧ (flushMaps n st).1.getD i 0 = o ∧ (flushMaps n st).2.1.getD o 0 = i := by
    rintro o ⟨p, hp, rfl⟩
    obtain ⟨i, hi, hpi⟩ := mem_getD_of_mem _ default p hp
    obtain ⟨h1, h2, _⟩ := hmap i hi
    refine ⟨i, hi, by rw [h1, hpi], ?_⟩
    rw [← hpi, ← h1]; exact h2
  have hRof : ∀ o, o < n → (flushMaps n st).2.1.getD o 0 ≠ UINT_MAX → Remaining st o := by
    intro o ho hne
    by_contra hnot
    exact hne (hmiss o ho (fun p hp hpo => hnot ⟨p, hp, hpo⟩))
  have hadj : ∀ j e', e' ∈ (flush n st).graph.adj j ↔
      ∃ i, i < st.graph.GetNumberOfNodes ∧ (flushMaps n st).2.1.getD i 0 ≠ UINT_MAX
        ∧ (flushMaps n st).2.1.getD i 0 = j
        ∧ ∃ e ∈ st.graph.adj i, e' = renumberedEdge (flushMaps n st).2.1 e := by
    intro j e'
    rw [flush_eq]
    exact hmv.1 j e'
  intro j _ e' he' hbw
  obtain ⟨i, hi, hne, hij, e, he, rfl⟩ := (hadj j e').1 he'
  have hRi := hRof i (lt_of_lt_of_le hi h.nodesLe) hne
  have hRt := h.graph.closed i hRi e he
  obtain ⟨f, hf, f1, f2, f3⟩ := hb i hRi e he hbw
  obtain ⟨i', hi', _, hnew⟩ := hR _ hRt
  refine ⟨renumberedEdge (flushMaps n st).2.1 f, ?_, ?_, f2, f3⟩
  · apply (hadj _ _).2
    refine ⟨e.target, h.inGraph _ hRt, ?_, rfl, f, hf, rfl⟩
    rw [hnew]
    have : i' < UINT_MAX := lt_of_lt_of_le (lt_of_lt_of_le hi' h.len) hn
    exact ne_of_lt this
  · show (flushMaps n st).2.1.getD f.target 0 = j
    rw [f1, hij]

theorem preRound_backed (n : Nat) (hn : n ≤ UINT_MAX) (st : RunState) (h : RunInv n st)
    (hb : BackwardsBacked st.graph (Remaining st)) :
    BackwardsBacked (preRound n st).graph (Remaining (preRound n st)) := by
  unfold preRound
  split_ifs
  · exact flush_backed n hn st h hb
  · exact hb

theorem round_backed (n : Nat) (hn : n ≤ UINT_MAX) (st : RunState) (h : RunInv n st)
    (hb : BackwardsBacked st.graph (Remaining st)) :
    BackwardsBacked (round n st).graph (Remaining (round n st)) := by
  have hpre := preRound_runInv n hn st h
  have hbias : ∀ a b, Remaining (preRound n st) a → Remaining (preRound n st) b →
      biasOf (preRound n st).nodeData a = biasOf (preRound n st).nodeData b → a = b := by
    rintro a b ⟨p, hp, rfl⟩ ⟨q, hq, rfl⟩ hab
    exact hpre.bias _ _ (hpre.ids.2 p hp) (hpre.ids.2 q hq) hab
  rw [round_eq]
  exact BackwardsBacked_congr (remaining_round_iff (preRound n st))
    (roundGraph_backed _ hpre.graph hbias (preRound_backed n hn st h hb))

theorem afterRounds_backed (g : _DynamicGraph) (shuffled : List NodeID)
    (hperm : shuffled.Perm (List.range g.GetNumberOfNodes))
    (hg : GraphOK g (fun x => x < g.GetNumberOfNodes)) (hn : g.GetNumberOfNodes ≤ UINT_MAX)
    (hb : BackwardsBacked g (fun x => x < g.GetNumberOfNodes)) (k : Nat) :
    BackwardsBacked (afterRounds g shuffled k).graph (Remaining (afterRounds g shuffled k)) := by
  induction k with
  | zero => exact BackwardsBacked_congr (remaining_initial_iff g shuffled hperm) hb
  | succ k ih =>
    have hinv := afterRounds_runInv g shuffled hperm hg hn k
    unfold afterRounds at ih hinv ⊢
    rw [Function.iterate_succ_apply']
    exact round_backed _ hn _ hinv ih

/-- In every graph that `Run` hands to `_Contract`, every backward-flagged edge of a
remaining node is matched by a walk from its source that is not longer. -/
theorem run_inEdge_backed (NDEBUG uninit : Bool) (nodes : Nat) (inputEdges : List EdgeBasedEdge)
    (shuffled : List NodeID)
    (hin : ∀ i ∈ inputEdges, i.source < nodes ∧ i.target < nodes)
    (hperm : shuffled.Perm (List.range nodes)) (hn : nodes ≤ UINT_MAX) (k : Nat)
    (x : NodeID)
    (hx : Remaining (preRound nodes
      (afterRounds (Contractor NDEBUG uninit nodes inputEdges) shuffled k)) x)
    (inEdge : _Edge)
    (hi : inEdge ∈ (preRound nodes
      (afterRounds (Contractor NDEBUG uninit nodes inputEdges) shuffled k)).graph.adj x)
    (hib : inEdge.data.backward = true) :
    InEdgeBacked (preRound nodes
      (afterRounds (Contractor NDEBUG uninit nodes inputEdges) shuffled k)).graph x inEdge := by
  have hg := Contractor_graphOK NDEBUG uninit nodes inputEdges hin
  have hinv := afterRounds_runInv (Contractor NDEBUG uninit nodes inputEdges) shuffled hperm hg hn k
  have hb := afterRounds_backed (Contractor NDEBUG uninit nodes inputEdges) shuffled hperm hg hn
    (backed_of_directionExplicit (Contractor_directionExplicit NDEBUG uninit nodes inputEdges) _) k
  obtain ⟨f, hf, f1, f2, f3⟩ := preRound_backed nodes hn _ hinv hb x hx inEdge hi hib
  exact ⟨f.data.distance, f3, Walk_single ⟨f, hf, f1, f2, rfl⟩⟩

end Contractor

/-! ## Claims -/

namespace Contractor

/-- C1: contracting one node preserves distances. For a direction-explicit graph with
strictly positive edge distances and a node `n`, after `_Contract<false>(n)`,
`_DeleteIncomingEdges(n)` and the insertion of the buffered shortcuts, the shortest-path
distance over forward-flagged edges between two nodes other than `n`, taken in the
resulting graph without `n`, is the shortest-path distance in the graph before. -/
theorem C1_contraction_preserves_distances (g : _DynamicGraph) (n : NodeID)
    (hsym : DirectionExplicit g) (hpos : PositiveWeights g) (u v : NodeID)
    (hu : u ≠ n) (hv : v ≠ n) (d : Nat) :
    IsDist (removeNode (contractNode g n) n) u v d ↔ IsDist g u v d := by
  constructor
  · rintro ⟨hw, hmin⟩
    refine ⟨contractNode_sound hsym hw, ?_⟩
    intro W hW
    obtain ⟨W', hle, hW'⟩ := (contractNode_complete hsym hpos W).1 u v W hu hv hW (le_refl _)
    exact le_trans (hmin W' hW') hle
  · rintro ⟨hw, hmin⟩
    obtain ⟨W', hle, hW'⟩ := (contractNode_complete hsym hpos d).1 u v d hu hv hw (le_refl _)
    have := hmin W' (contractNode_sound hsym hW')
    have heq : W' = d := by omega
    rw [heq] at hW'
    exact ⟨hW', fun W hW => hmin W (contractNode_sound hsym hW)⟩

/-- Witness of C1: the triangle of section 8, contracting node 1, for the pair 0, 2. -/
theorem C1_contraction_preserves_distances_witness :
    DirectionExplicit triangle ∧ PositiveWeights triangle
      ∧ (IsDist (removeNode (contractNode triangle 1) 1) 0 2 7 ↔ IsDist triangle 0 2 7) :=
  ⟨triangle_directionExplicit, triangle_positive,
    C1_contraction_preserves_distances triangle 1 triangle_directionExplicit triangle_positive
      0 2 (by decide) (by decide) 7⟩

/-- C2, amended: when no witness search of `_Contract<false>(x)` reaches the
settled-node limit (each removes at most 2000 nodes from the heap, as in every graph of
at most 2000 nodes), every edge `(u, v)` that `_Contract<false>(x)` leaves in the buffer
has the distance `d(u,x) + d(x,v)`, for the shortest-path distances over forward-flagged
edges of the graph at that moment, in the direction of travel of each of its flags: for
the graph before any round of `Run` on the graph of the constructor (after the test
for the compaction) and every node `x` that is still to be contracted. -/
theorem C2_shortcut_is_sum_of_distances (NDEBUG uninit : Bool) (nodes : Nat)
    (inputEdges : List EdgeBasedEdge) (shuffled : List NodeID)
    (hin : ∀ i ∈ inputEdges, i.source < nodes ∧ i.target < nodes)
    (hperm : shuffled.Perm (List.range nodes)) (hn : nodes ≤ UINT_MAX) (k : Nat) (x : NodeID)
    (hx : Remaining (preRound nodes
      (afterRounds (Contractor NDEBUG uninit nodes inputEdges) shuffled k)) x)
    (hlimit : ∀ inEdge ∈ (preRound nodes
        (afterRounds (Contractor NDEBUG uninit nodes inputEdges) shuffled k)).graph.adj x,
      removedCount (witnessSearch false (preRound nodes
        (afterRounds (Contractor NDEBUG uninit nodes inputEdges) shuffled k)).graph x inEdge)
        ≤ 2000) :
    ShortcutsAreShortest (preRound nodes
      (afterRounds (Contractor NDEBUG uninit nodes inputEdges) shuffled k)).graph x := by
  have hinv := preRound_runInv nodes hn _
    (afterRounds_runInv (Contractor NDEBUG uninit nodes inputEdges) shuffled hperm
      (Contractor_graphOK NDEBUG uninit nodes inputEdges hin) hn k)
  have hback : ∀ i ∈ (preRound nodes
      (afterRounds (Contractor NDEBUG uninit nodes inputEdges) shuffled k)).graph.adj x,
      i.data.backward = true → InEdgeBacked (preRound nodes
        (afterRounds (Contractor NDEBUG uninit nodes inputEdges) shuffled k)).graph x i :=
    fun i hi hib =>
      run_inEdge_backed NDEBUG uninit nodes inputEdges shuffled hin hperm hn k x hx i hi hib
  intro e he
  constructor
  · intro hf
    obtain ⟨i, hi, o, ho, hreq, h1, h2, h3⟩ := buffer_forward_origin he hf
    obtain ⟨d1, d2⟩ := required_isDist (hinv.graph.pos x hx o ho)
      (hback i hi (shortcutRequired_iff.1 hreq).1) ho hreq (hlimit i hi)
    rw [h1] at d1
    rw [h2] at d2
    exact ⟨_, _, d1, d2, h3⟩
  · intro hb
    obtain ⟨i, hi, o, ho, hreq, h1, h2, h3⟩ := buffer_backward_real he hb
    obtain ⟨d1, d2⟩ := required_isDist (hinv.graph.pos x hx o ho)
      (hback i hi (shortcutRequired_iff.1 hreq).1) ho hreq (hlimit i hi)
    rw [h1] at d1
    rw [h2] at d2
    exact ⟨_, _, d1, d2, h3⟩

/-- Witness of C2, amended: the second round of `Run` on `staleInput` with the order
0, 1, 2, 3, 4 (`staleState`). The nodes 0, 2 and 4 remain; node 0 stores the edge to 2
with the distance 2 while node 2 still stores the edge from 0 of distance 5 with the
backward flag, without a forward edge of this distance at node 0. Contracting node 2
leaves the shortcuts between 4 and 0 of distance 5 = 2 + 3 and between 0 and 4 of
distance 4 = 2 + 2 in the buffer. -/
theorem C2_shortcut_is_sum_of_distances_witness :
    (∀ i ∈ staleInput, i.source < 5 ∧ i.target < 5)
      ∧ [0, 1, 2, 3, 4].Perm (List.range 5) ∧ 5 ≤ UINT_MAX
      ∧ Remaining staleState 2
      ∧ (∀ inEdge ∈ staleState.graph.adj 2,
          removedCount (witnessSearch false staleState.graph 2 inEdge) ≤ 2000)
      ∧ (staleState.graph.adj 0).map
            (fun e => (e.target, e.data.distance, e.data.forward, e.data.backward))
          = [(2, 2, true, false), (2, 3, false, true), (4, 5, true, true)]
      ∧ (staleState.graph.adj 2).map
            (fun e => (e.target, e.data.distance, e.data.forward, e.data.backward))
          = [(0, 3, true, false), (0, 5, false, true), (4, 2, true, true), (0, 2, false, true)]
      ∧ (_Contract false staleState.graph [] 2 default).1.map
            (fun e => (e.source, e.target, e.data.distance, e.data.forward, e.data.backward))
          = [(4, 0, 5, true, false), (0, 4, 5, false, true), (0, 4, 4, true, false),
              (4, 0, 4, false, true)]
      ∧ ShortcutsAreShortest staleState.graph 2 :=
  ⟨by decide, by decide, by decide, ⟨(2, false), by decide!, rfl⟩, by decide!, by decide!,
    by decide!, by decide!,
    C2_shortcut_is_sum_of_distances true false 5 staleInput [0, 1, 2, 3, 4] (by decide)
      (by decide) (by decide) 1 2 ⟨(2, false), by decide!, rfl⟩ (by decide!)⟩

/-- Claim C2, counterexample: `limitGraph` is direction-explicit with positive
distances, yet the contraction of node 1 emits a forward edge `(0, 2)` of distance
5000 = 4000 + 1000 although `d(0,1) <= 2501` and `d(1,2) <= 1000`: the witness search
from node 0 removes the 2001 nodes 0, 4, ..., 2003 and stops at its node limit before
it removes node 3 or node 1, so the key of node 2 is still the seeded 5000. -/
theorem C2_limit_counterexample :
    DirectionExplicit limitGraph ∧ PositiveWeights limitGraph
      ∧ ¬ ShortcutsAreShortest limitGraph 1 := by
  refine ⟨limit_directionExplicit, limit_positive, ?_⟩
  intro hs
  obtain ⟨e, he, hsrc, htgt, hd, hf⟩ := limit_buffer
  obtain ⟨a, b, ha, hb, hab⟩ := (hs e he).1 hf
  rw [hsrc] at ha
  rw [htgt] at hb
  have h1 := ha.2 _ limit_walks.1
  have h2 := hb.2 _ limit_walks.2
  omega

end Contractor

namespace Contractor

open BinaryHeap

/-- Counterexample to C4 as stated: at the triangle of section 8 the contraction of
node 1 pushes the pair for the in-edge from 0 and the out-edge to 2 and the pair for
the in-edge from 2 and the out-edge to 0, all of distance 7, and the duplicate merge
at the end of `_Contract<false>` folds them: the buffer that `_Contract<false>(1)`
returns holds the two edges `(2, 0)` and `(0, 2)`, each with both direction flags, and
neither a forward-only nor a backward-only edge. -/
theorem C4_merged_pair_counterexample :
    (contractLoop false triangle 1 ([], default)).1.map
        (fun e => (e.source, e.target, e.data.distance, e.data.forward, e.data.backward))
        = [(0, 2, 7, true, false), (2, 0, 7, false, true), (2, 0, 7, true, false),
            (0, 2, 7, false, true)]
      ∧ (_Contract false triangle [] 1 default).1.map
        (fun e => (e.source, e.target, e.data.distance, e.data.forward, e.data.backward))
        = [(2, 0, 7, true, true), (0, 2, 7, true, true)] := by
  refine ⟨by decide, by decide⟩

/-- Claim C4, amended: the two loops of `_Contract<false>(n)` append to the buffer, for
every in-edge `(s,n)` and out-edge `(n,t)` for which a shortcut is required (the
in-edge is backward, the out-edge is forward and `pathDistance <= heap.GetKey(t)`
after the witness search), exactly the pair `(s,t)` forward-only and `(t,s)`
backward-only, both with the distance `w_in + w_out`, `via = n`, `shortcut = true` and
the sum of the two `originalEdges`, and nothing else; and `_Contract<false>(n)` returns
this buffer after the duplicate merge of its new part: the old part is unchanged,
every returned new edge has the endpoints, distance, shortcut flag and via node of an
appended edge and each of its direction flags from an appended edge with its
endpoints and distance, and every appended edge is represented by a returned edge with
its endpoints, distance and shortcut flag that carries its direction flag. -/
theorem C4_appended_shortcut_pair (g : _DynamicGraph) (buffer : List _ImportEdge) (n : NodeID)
    (stats : _ContractionInformation) :
    (contractLoop false g n (buffer, stats)).1 = buffer ++
      (g.adj n).flatMap (fun inEdge => (g.adj n).flatMap (fun outEdge =>
        if inEdge.data.backward && outEdge.data.forward
            && decide (((inEdge.data.distance + outEdge.data.distance : Nat) : Int)
                ≤ (witnessSearch false g n inEdge).GetKey outEdge.target)
        then
          [ { source := inEdge.target, target := outEdge.target,
              data := { distance := inEdge.data.distance + outEdge.data.distance,
                        originalEdges := inEdge.data.originalEdges + outEdge.data.originalEdges,
                        via := n, nameID := 0, turnInstruction := inEdge.data.turnInstruction,
                        shortcut := true, forward := true, backward := false,
                        originalViaNodeID := false } },
            { source := outEdge.target, target := inEdge.target,
              data := { distance := inEdge.data.distance + outEdge.data.distance,
                        originalEdges := inEdge.data.originalEdges + outEdge.data.originalEdges,
                        via := n, nameID := 0, turnInstruction := inEdge.data.turnInstruction,
                        shortcut := true, forward := false, backward := true,
                        originalViaNodeID := false } } ]
        else []))
      ∧ _Contract false g buffer n stats
          = (mergeDuplicates buffer.length (contractLoop false g n (buffer, stats)).1, stats)
      ∧ (_Contract false g buffer n stats).1.take buffer.length = buffer
      ∧ (∀ e ∈ (_Contract false g buffer n stats).1.drop buffer.length,
          Backed ((contractLoop false g n (buffer, stats)).1.drop buffer.length) e)
      ∧ (∀ r ∈ (contractLoop false g n (buffer, stats)).1.drop buffer.length,
          ∃ e ∈ (_Contract false g buffer n stats).1.drop buffer.length, Covers e r) := by
  have hdrop : (contractLoop false g n (buffer, stats)).1.drop buffer.length
      = pushedPairs g n := by
    rw [contractLoop_false]
    simp
  obtain ⟨h1, h2, h3⟩ := Contract_false_spec g buffer n stats
  refine ⟨?_, ?_, h1, ?_, ?_⟩
  · rw [contractLoop_false]
    rfl
  · rw [Contract_false, contractLoop_false]
  · rw [hdrop]
    exact h2
  · rw [hdrop]
    exact h3

end Contractor

namespace Contractor

open BinaryHeap

/-- Claim C5, evaluated on the triangle scenario: `_Contract<false>(1)` buffers the
shortcut between 0 and 2 of distance 7 with `via = 1` and `shortcut = true`, but after
the deletion of the edges of node 1 and the loop "insert new edges" the only edge of
node 0 and the only edge of node 2 is the original edge with its distance lowered to 7,
`shortcut = false` and the original `via = 0`: the graph holds no shortcut edge between
0 and 2. -/
theorem C5_triangle_shortcut_not_stored :
    sortEdges (_Contract false triangle [] 1 default).1 =
        [ ⟨0, 2, ⟨7, 2, 1, 0, 0, true, true, true, false⟩⟩,
          ⟨2, 0, ⟨7, 2, 1, 0, 0, true, true, true, false⟩⟩ ]
      ∧ triangle.adj 0 = [⟨1, ⟨3, 1, 0, 0, 0, false, true, true, false⟩⟩,
                          ⟨2, ⟨10, 1, 0, 0, 0, false, true, true, false⟩⟩]
      ∧ (contractNode triangle 1).adj 0 = [⟨2, ⟨7, 1, 0, 0, 0, false, true, true, false⟩⟩]
      ∧ (contractNode triangle 1).adj 2 = [⟨0, ⟨7, 1, 0, 0, 0, false, true, true, false⟩⟩] := by
  refine ⟨by decide, by decide, by decide, by decide⟩

end Contractor

namespace Contractor

open BinaryHeap

/-- Claim C9: whatever the input edges are, the edge list that the constructor of
`Contractor` hands to the graph holds no edge whose source equals its target, and
neither does the edge list that `prepareEdgesForUsageInGraph` returns. -/
theorem C9_no_self_loops (NDEBUG uninit : Bool) (inputEdges : List EdgeBasedEdge)
    (INVALID_EDGE_WEIGHT : Int) (INVALID_PAYLOAD : Nat) (edges : List partition.EdgeBasedEdge) :
    (∀ e ∈ preparedEdges NDEBUG uninit inputEdges, e.source ≠ e.target)
      ∧ (∀ e ∈ partition.prepareEdgesForUsageInGraph INVALID_EDGE_WEIGHT INVALID_PAYLOAD edges,
          e.source ≠ e.target) := by
  constructor
  · rw [preparedEdges_eq, reduceList_eq]
    exact groupEmit_no_loop _ (emitRun_key uninit) _ _
  · unfold partition.prepareEdgesForUsageInGraph
    simp only [prepareLoop_eq, List.nil_append]
    exact groupEmit_no_loop _ (emitLightest_key _ _) _ _

end Contractor

namespace Contractor

open BinaryHeap

/-- Claim C10, counterexample: without `NDEBUG` the constructor keeps the copies of the
forward edge `(0,1)` of weight `INT_MAX`, the value that the reduction uses for "no
edge", and the prepared list is empty although a forward copy `(0,1)` exists; likewise
`prepareEdgesForUsageInGraph` returns nothing for a forward edge of weight
`INVALID_EDGE_WEIGHT`. -/
theorem C10_sentinel_counterexample :
    (⟨0, 1, ⟨2147483647, 1, 0, 0, 0, false, true, false, false⟩⟩ : _ImportEdge)
        ∈ directedCopies false [⟨0, 1, 2147483647, 0, 0, 0, true, false⟩]
      ∧ preparedEdges false false [⟨0, 1, 2147483647, 0, 0, 0, true, false⟩] = []
      ∧ partition.prepareEdgesForUsageInGraph 2147483647 0 [⟨0, 1, ⟨0, 2147483647, 0, true, false⟩⟩] = [] := by
  refine ⟨by decide, by decide, by decide⟩

/-- Claim C10, amended: when every weight is below the value that stands for "no edge"
(`INT_MAX` in the constructor, which `NDEBUG` guarantees by its weight test, and
`INVALID_EDGE_WEIGHT` in `prepareEdgesForUsageInGraph`), then for every ordered pair
`(s,t)` with `s != t` the edges `(s,t)` of the prepared list are, by flags and distance,
the reduction of section 4.4 of the direction-explicit copies `(s,t)`: a forward edge
exactly when a copy is forward, with the minimum distance of the forward copies, the
same for backward, one edge with both flags when the two minima are equal, and
otherwise a forward-only and/or a backward-only edge. -/
theorem C10_parallel_edge_reduction (NDEBUG uninit : Bool) (inputEdges : List EdgeBasedEdge)
    (INVALID_EDGE_WEIGHT : Int) (INVALID_PAYLOAD : Nat) (edges : List partition.EdgeBasedEdge)
    (s t : Nat) (hst : s ≠ t)
    (hw : NDEBUG = true ∨ ∀ c ∈ inputEdges, c.weight < (INT_MAX : Int))
    (hw2 : ∀ e ∈ edges, e.data.weight < INVALID_EDGE_WEIGHT) :
    ((preparedEdges NDEBUG uninit inputEdges).filter (sameKey s t)).map flagsAndDistance
        = reducedPair (((directedCopies NDEBUG inputEdges).filter (sameKey s t)).map flagsAndDistance)
      ∧ ((partition.prepareEdgesForUsageInGraph INVALID_EDGE_WEIGHT INVALID_PAYLOAD edges).filter
            (sameKey s t)).map partition.flagsAndWeight
        = reducedPair ((edges.filter (sameKey s t)).map partition.flagsAndWeight) := by
  constructor
  · rw [preparedEdges_eq, reduceList_eq,
      groupEmit_sorted_filter _ (emitRun_key uninit) s t hst]
    apply emitGroup_spec
    intro e he
    obtain ⟨c, hc, hd, hN⟩ := directedCopies_distance (List.mem_filter.1 he).1
    rcases hw with h | h
    · have := hN h
      simp only [INT_MAX]
      omega
    · have := h c hc
      rw [hd]
      simp only [INT_MAX] at this ⊢
      omega
  · unfold partition.prepareEdgesForUsageInGraph
    simp only [prepareLoop_eq, List.nil_append]
    rw [groupEmit_sorted_filter _ (emitLightest_key _ _) s t hst]
    exact emitLightest_spec _ _ _ (fun e he => hw2 e (List.mem_filter.1 he).1)

/-- Witness of C10, amended: the pair `(0,1)` for two parallel input edges of weights
3 (both directions) and 2 (forward only). -/
theorem C10_parallel_edge_reduction_witness :
    ((preparedEdges true false
        [⟨0, 1, 3, 0, 0, 0, true, true⟩, ⟨0, 1, 2, 0, 0, 0, true, false⟩]).filter
          (sameKey 0 1)).map flagsAndDistance = [(true, false, 2), (false, true, 3)]
      ∧ ((partition.prepareEdgesForUsageInGraph 2147483647 0
            [⟨0, 1, ⟨0, 3, 0, true, true⟩⟩, ⟨0, 1, ⟨1, 2, 0, true, false⟩⟩]).filter
              (sameKey 0 1)).map partition.flagsAndWeight = [(true, false, 2), (false, true, 3)] := by
  have h := C10_parallel_edge_reduction true false
    [⟨0, 1, 3, 0, 0, 0, true, true⟩, ⟨0, 1, 2, 0, 0, 0, true, false⟩] 2147483647 0
    [⟨0, 1, ⟨0, 3, 0, true, true⟩⟩, ⟨0, 1, ⟨1, 2, 0, true, false⟩⟩] 0 1 (by decide)
    (Or.inl rfl) (by decide)
  refine ⟨h.1.trans (by decide), h.2.trans (by decide)⟩

end Contractor

namespace Contractor

open BinaryHeap

/-- Claim C11: the cleanup step of the constructor (sort, self-loop removal,
per-direction minimum, bidirectional merge, resize), applied to its own output, returns
that output unchanged, and so does `prepareEdgesForUsageInGraph`; in particular the
edge set is the same as after one application. -/
theorem C11_cleanup_idempotent (uninit : Bool) (edges : List _ImportEdge)
    (INVALID_EDGE_WEIGHT : Int) (INVALID_PAYLOAD : Nat) (graphEdges : List partition.EdgeBasedEdge) :
    cleanup uninit (cleanup uninit edges) = cleanup uninit edges
      ∧ partition.prepareEdgesForUsageInGraph INVALID_EDGE_WEIGHT INVALID_PAYLOAD
          (partition.prepareEdgesForUsageInGraph INVALID_EDGE_WEIGHT INVALID_PAYLOAD graphEdges)
        = partition.prepareEdgesForUsageInGraph INVALID_EDGE_WEIGHT INVALID_PAYLOAD graphEdges := by
  constructor
  · rw [cleanup_eq uninit edges, cleanup_eq]
    exact sorted_groupEmit_idem _ (emitRun_key uninit) (emitRun_block uninit) edges
  · unfold partition.prepareEdgesForUsageInGraph
    simp only [prepareLoop_eq, List.nil_append]
    exact sorted_groupEmit_idem _ (emitLightest_key _ _) (emitLightest_block _ _) graphEdges

end Contractor

namespace Contractor

open BinaryHeap

/-- Claim C12, counterexample: without `NDEBUG` the constructor has no weight test, and
the input edge `(0,1)` of weight `24*60*60*10 + 1` is stored with that distance. -/
theorem C12_debug_build_counterexample :
    (Contractor false false 2 [⟨0, 1, 864001, 0, 0, 0, true, true⟩]).adj 0
      = [⟨1, ⟨864001, 1, 0, 0, 0, false, true, true, false⟩⟩] := by
  decide

/-- Claim C12, amended: with `NDEBUG` defined, every edge of the graph that the
constructor builds has a distance `d` with `1 <= d <= 24*60*60*10`, and the input
edges whose weight exceeds `24*60*60*10` contribute nothing: the graph is the one built
from the other input edges alone. -/
theorem C12_weight_validity (uninit : Bool) (nodes : Nat) (inputEdges : List EdgeBasedEdge) :
    (∀ x, ∀ e ∈ (Contractor true uninit nodes inputEdges).adj x,
        1 ≤ e.data.distance ∧ e.data.distance ≤ 24 * 60 * 60 * 10)
      ∧ Contractor true uninit nodes inputEdges
        = Contractor true uninit nodes
            (inputEdges.filter (fun c => decide (c.weight ≤ 24 * 60 * 60 * 10))) := by
  constructor
  · intro x e he
    have h1 := mem_adj_ofEdges.1 he
    obtain ⟨c, hc, hd⟩ := preparedEdges_distance h1
    obtain ⟨i, _, hi, hN⟩ := directedCopies_distance hc
    have h2 := hN rfl
    simp only at hd
    rw [hd]
    refine ⟨?_, h2⟩
    rw [hi]
    omega
  · unfold Contractor preparedEdges
    rw [← directedCopies_filter_heavy]

/-- Claim C13, counterexample: the input edge `(0,1)` of weight 0 is not rejected; the
constructor stores it, in both ranges, with distance 1. -/
theorem C13_zero_weight_counterexample :
    (Contractor true false 2 [⟨0, 1, 0, 0, 0, 0, true, true⟩]).adj 0
        = [⟨1, ⟨1, 1, 0, 0, 0, false, true, true, false⟩⟩]
      ∧ (Contractor true false 2 [⟨0, 1, 0, 0, 0, 0, true, true⟩]).adj 1
        = [⟨0, ⟨1, 1, 0, 0, 0, false, true, true, false⟩⟩] := by
  refine ⟨by decide, by decide⟩

/-- Claim C13, amended: an input edge whose weight is `<= 0` is not rejected; the
constructor treats it exactly as the same edge with weight 1 (`std::max(weight, 1)`). -/
theorem C13_nonpositive_weight_clamped (NDEBUG uninit : Bool) (nodes : Nat)
    (inputEdges : List EdgeBasedEdge) :
    Contractor NDEBUG uninit nodes inputEdges
      = Contractor NDEBUG uninit nodes
          (inputEdges.map (fun c => if c.weight ≤ 0 then { c with weight := 1 } else c)) := by
  unfold Contractor preparedEdges
  rw [← directedCopies_clamp]

end Contractor

namespace Contractor

open BinaryHeap

/-- Claim C8, counterexample: on the graph with one node and no edge `Run` contracts
node 0 in its first round and stores the priority `-1` for it (`nodePriority[x] = -1`
in the loop "contract independent nodes"). -/
theorem C8_contracted_priority_counterexample :
    (Run (Contractor true false 1 []) [0]).map (fun st => st.nodePriority) = some [-1] := by
  decide!

/-- Claim C8, amended: at the head of every iteration of the `while` loop of `Run`, and
when `Run` returns, every node that is still in `remainingNodes` (not yet contracted)
has a priority `>= 0`. -/
theorem C8_remaining_priority_nonneg (g : _DynamicGraph) (shuffled : List NodeID) :
    (∀ k, ∀ p ∈ (afterRounds g shuffled k).remainingNodes,
        0 ≤ (afterRounds g shuffled k).nodePriority.getD p.1 0)
      ∧ ∀ st, Run g shuffled = some st →
          ∀ p ∈ st.remainingNodes, 0 ≤ st.nodePriority.getD p.1 0 := by
  constructor
  · intro k
    exact (afterRounds_ok g shuffled k).1
  · intro st hst
    obtain ⟨k, hk⟩ := runLoop_afterRounds _ _ _ _ hst
    rw [hk]
    exact (afterRounds_ok g shuffled k).1

end Contractor

namespace Contractor

open BinaryHeap

/-- Claim C15: in every state that `Run` reaches (for an order `shuffled` that is a
permutation of the node ids), the renumbering loop of the compaction with `k`
remaining nodes leaves `oldNodeIDFromNewNodeIDMap` injective on `[0,k)`, with
`newNodeIDFromOldNodeIDMap[oldNodeIDFromNewNodeIDMap[i]] == i` and the priority at the
new id `i` equal to the old priority of `oldNodeIDFromNewNodeIDMap[i]` for `i < k`;
every id below the number of nodes that is no longer in `remainingNodes` maps to
`UINT_MAX`; and `remainingNodes` holds the ids `0, ..., k-1`. -/
theorem C15_renumbering_bijection (g : _DynamicGraph) (shuffled : List NodeID)
    (hperm : shuffled.Perm (List.range g.GetNumberOfNodes)) (r : Nat) :
    (∀ i j, i < (afterRounds g shuffled r).remainingNodes.length →
        j < (afterRounds g shuffled r).remainingNodes.length →
        (flushMaps g.GetNumberOfNodes (afterRounds g shuffled r)).1.getD i 0
          = (flushMaps g.GetNumberOfNodes (afterRounds g shuffled r)).1.getD j 0 → i = j)
      ∧ (∀ i, i < (afterRounds g shuffled r).remainingNodes.length →
          (flushMaps g.GetNumberOfNodes (afterRounds g shuffled r)).1.getD i 0
              = ((afterRounds g shuffled r).remainingNodes.getD i default).1
          ∧ (flushMaps g.GetNumberOfNodes (afterRounds g shuffled r)).2.1.getD
              ((flushMaps g.GetNumberOfNodes (afterRounds g shuffled r)).1.getD i 0) 0 = i
          ∧ (flushMaps g.GetNumberOfNodes (afterRounds g shuffled r)).2.2.1.getD i 0
              = (afterRounds g shuffled r).nodePriority.getD
                  ((flushMaps g.GetNumberOfNodes (afterRounds g shuffled r)).1.getD i 0) 0)
      ∧ (∀ o, o < g.GetNumberOfNodes →
          (∀ p ∈ (afterRounds g shuffled r).remainingNodes, p.1 ≠ o) →
          (flushMaps g.GetNumberOfNodes (afterRounds g shuffled r)).2.1.getD o 0 = UINT_MAX)
      ∧ (flushMaps g.GetNumberOfNodes (afterRounds g shuffled r)).2.2.2.map (fun p => p.1)
          = List.range (afterRounds g shuffled r).remainingNodes.length :=
  flushMaps_spec _ _ (afterRounds_idsOK g shuffled hperm r).1

/-- Witness of C15: `compactionGraph` with the order 0, ..., 12 after the first round,
the state in which `Run` performs the compaction: 10 of the 13 nodes are contracted and
the nodes 2, 3, 9 remain. The loop gives them the new ids 0, 1, 2, maps the ten
contracted ids to `UINT_MAX` and moves the priorities 1, 1, 20 to the new ids. -/
theorem C15_renumbering_bijection_witness :
    (List.range 13).Perm (List.range compactionGraph.GetNumberOfNodes)
      ∧ (afterRounds compactionGraph (List.range 13) 1).numberOfContractedNodes = 10
      ∧ (afterRounds compactionGraph (List.range 13) 1).flushedContractor = false
      ∧ (afterRounds compactionGraph (List.range 13) 1).remainingNodes.map (fun p => p.1)
          = [2, 3, 9]
      ∧ flushMaps compactionGraph.GetNumberOfNodes (afterRounds compactionGraph (List.range 13) 1)
          = ([2, 3, 9],
             [4294967295, 4294967295, 0, 1, 4294967295, 4294967295, 4294967295, 4294967295,
               4294967295, 2, 4294967295, 4294967295, 4294967295],
             [1, 1, 20], [(0, false), (1, false), (2, false)])
      ∧ ((∀ i j, i < (afterRounds compactionGraph (List.range 13) 1).remainingNodes.length →
            j < (afterRounds compactionGraph (List.range 13) 1).remainingNodes.length →
            (flushMaps compactionGraph.GetNumberOfNodes
                (afterRounds compactionGraph (List.range 13) 1)).1.getD i 0
              = (flushMaps compactionGraph.GetNumberOfNodes
                (afterRounds compactionGraph (List.range 13) 1)).1.getD j 0 → i = j)
        ∧ (∀ i, i < (afterRounds compactionGraph (List.range 13) 1).remainingNodes.length →
            (flushMaps compactionGraph.GetNumberOfNodes
                (afterRounds compactionGraph (List.range 13) 1)).1.getD i 0
                = ((afterRounds compactionGraph (List.range 13) 1).remainingNodes.getD i default).1
            ∧ (flushMaps compactionGraph.GetNumberOfNodes
                (afterRounds compactionGraph (List.range 13) 1)).2.1.getD
                ((flushMaps compactionGraph.GetNumberOfNodes
                  (afterRounds compactionGraph (List.range 13) 1)).1.getD i 0) 0 = i
            ∧ (flushMaps compactionGraph.GetNumberOfNodes
                (afterRounds compactionGraph (List.range 13) 1)).2.2.1.getD i 0
                = (afterRounds compactionGraph (List.range 13) 1).nodePriority.getD
                    ((flushMaps compactionGraph.GetNumberOfNodes
                      (afterRounds compactionGraph (List.range 13) 1)).1.getD i 0) 0)
        ∧ (∀ o, o < compactionGraph.GetNumberOfNodes →
            (∀ p ∈ (afterRounds compactionGraph (List.range 13) 1).remainingNodes, p.1 ≠ o) →
            (flushMaps compactionGraph.GetNumberOfNodes
                (afterRounds compactionGraph (List.range 13) 1)).2.1.getD o 0 = UINT_MAX)
        ∧ (flushMaps compactionGraph.GetNumberOfNodes
              (afterRounds compactionGraph (List.range 13) 1)).2.2.2.map (fun p => p.1)
            = List.range (afterRounds compactionGraph (List.range 13) 1).remainingNodes.length) :=
  ⟨List.Perm.refl _, by decide!, by decide!, by decide!, by decide!,
    C15_renumbering_bijection compactionGraph (List.range 13) (List.Perm.refl _) 1⟩

end Contractor

namespace Contractor

open BinaryHeap

/-- Claim C28: when the bias of `n` differs from the bias of every other node within two
hops of `n`, `_IsIndependent(n)` returns `true` if and only if for every node `m != n`
that is a target of an edge of `n`, or a target of an edge of such a target, either
`priority(n) < priority(m)`, or `priority(n) == priority(m)` and `bias(n) > bias(m)`. -/
theorem C28_independent_iff (g : _DynamicGraph) (priorities : List ℚ) (nodeData : List _PriorityData)
    (n : NodeID)
    (hbias : ∀ m, m ≠ n → (HasEdge g n m ∨ ∃ u, HasEdge g n u ∧ HasEdge g u m) →
      biasOf nodeData m ≠ biasOf nodeData n) :
    _IsIndependent g priorities nodeData n = true
      ↔ ∀ m, m ≠ n → (HasEdge g n m ∨ ∃ u, HasEdge g n u ∧ HasEdge g u m) →
          (priorities.getD n 0 < priorities.getD m 0
            ∨ (priorities.getD n 0 = priorities.getD m 0 ∧ biasOf nodeData n > biasOf nodeData m)) := by
  rw [IsIndependent_iff]
  constructor
  · rintro ⟨h1, h2⟩ m hm hreach
    have hb : Beats priorities nodeData n m := by
      rcases hreach with h | ⟨u, hu, hum⟩
      · exact h1 m h
      · exact h2 u m hu hum
    have hne := hbias m hm hreach
    obtain ⟨p, q⟩ := hb
    rcases lt_or_eq_of_le (not_lt.1 p) with hlt | heq
    · exact Or.inl hlt
    · refine Or.inr ⟨heq, ?_⟩
      have : ¬ biasOf nodeData n < biasOf nodeData m := fun h => q ⟨heq, h⟩
      omega
  · intro h
    have key : ∀ m, (HasEdge g n m ∨ ∃ u, HasEdge g n u ∧ HasEdge g u m) →
        Beats priorities nodeData n m := by
      intro m hreach
      by_cases hm : m = n
      · subst hm
        exact ⟨lt_irrefl _, fun hh => lt_irrefl _ hh.2⟩
      · rcases h m hm hreach with hlt | ⟨heq, hgt⟩
        · exact ⟨not_lt.2 (le_of_lt hlt), fun hh => absurd hh.1 (ne_of_lt hlt)⟩
        · exact ⟨not_lt.2 (le_of_eq heq), fun hh => by omega⟩
    exact ⟨fun m hm => key m (Or.inl hm), fun u m hu hum => key m (Or.inr ⟨u, hu, hum⟩)⟩

/-- Witness of C28: node 1 of the triangle of section 8 with the priorities 0, 0, 1 and
the biases 0, 1, 2: node 1 ties with node 0 and has the larger bias. -/
theorem C28_independent_iff_witness :
    (∀ m, m ≠ 1 → (HasEdge triangle 1 m ∨ ∃ u, HasEdge triangle 1 u ∧ HasEdge triangle u m) →
        biasOf [⟨0, 0⟩, ⟨0, 1⟩, ⟨0, 2⟩] m ≠ biasOf [⟨0, 0⟩, ⟨0, 1⟩, ⟨0, 2⟩] 1)
      ∧ _IsIndependent triangle [0, 0, 1] [⟨0, 0⟩, ⟨0, 1⟩, ⟨0, 2⟩] 1 = true
      ∧ (_IsIndependent triangle [0, 0, 1] [⟨0, 0⟩, ⟨0, 1⟩, ⟨0, 2⟩] 1 = true
        ↔ ∀ m, m ≠ 1 → (HasEdge triangle 1 m ∨ ∃ u, HasEdge triangle 1 u ∧ HasEdge triangle u m) →
            (([0, 0, 1] : List ℚ).getD 1 0 < ([0, 0, 1] : List ℚ).getD m 0
              ∨ (([0, 0, 1] : List ℚ).getD 1 0 = ([0, 0, 1] : List ℚ).getD m 0
                ∧ biasOf [⟨0, 0⟩, ⟨0, 1⟩, ⟨0, 2⟩] 1 > biasOf [⟨0, 0⟩, ⟨0, 1⟩, ⟨0, 2⟩] m))) := by
  have hb : ∀ m, m ≠ 1 → (HasEdge triangle 1 m ∨ ∃ u, HasEdge triangle 1 u ∧ HasEdge triangle u m) →
      biasOf [⟨0, 0⟩, ⟨0, 1⟩, ⟨0, 2⟩] m ≠ biasOf [⟨0, 0⟩, ⟨0, 1⟩, ⟨0, 2⟩] 1 := by
    intro m hm hreach
    have hm3 : m = 0 ∨ m = 2 := by
      rcases hreach with ⟨e, he, rfl⟩ | ⟨u, _, e, he, rfl⟩
      · rcases triangle_mem_adj he with ⟨_, rfl⟩ | ⟨_, rfl⟩ | ⟨_, rfl⟩ | ⟨_, rfl⟩ | ⟨_, rfl⟩ | ⟨_, rfl⟩ <;>
          simp at hm ⊢
      · rcases triangle_mem_adj he with ⟨_, rfl⟩ | ⟨_, rfl⟩ | ⟨_, rfl⟩ | ⟨_, rfl⟩ | ⟨_, rfl⟩ | ⟨_, rfl⟩ <;>
          simp at hm ⊢
    rcases hm3 with rfl | rfl <;> decide
  exact ⟨hb, by decide!, C28_independent_iff triangle [0, 0, 1] [⟨0, 0⟩, ⟨0, 1⟩, ⟨0, 2⟩] 1 hb⟩

end Contractor

namespace Contractor

open BinaryHeap
/-- Claim C6: in every round of `Run` on the graph that the constructor builds from
input edges with endpoints below `nodes` (for an order `shuffled` that is a permutation
of the node ids), for every two distinct nodes `a` and `b` that `_IsIndependent` both
selects on the pre-round graph, priorities and bias, `b` is neither a neighbour of `a`
nor a neighbour of a neighbour of `a`. -/
theorem C6_independent_set (NDEBUG uninit : Bool) (nodes : Nat) (inputEdges : List EdgeBasedEdge)
    (shuffled : List NodeID)
    (hin : ∀ i ∈ inputEdges, i.source < nodes ∧ i.target < nodes)
    (hperm : shuffled.Perm (List.range nodes)) (hn : nodes ≤ UINT_MAX) (k : Nat) :
    ∀ a ∈ independentSet (preRound nodes (afterRounds (Contractor NDEBUG uninit nodes inputEdges) shuffled k)),
    ∀ b ∈ independentSet (preRound nodes (afterRounds (Contractor NDEBUG uninit nodes inputEdges) shuffled k)),
      a ≠ b →
      ¬ HasEdge (preRound nodes (afterRounds (Contractor NDEBUG uninit nodes inputEdges) shuffled k)).graph a b
      ∧ ¬ ∃ u, HasEdge (preRound nodes (afterRounds (Contractor NDEBUG uninit nodes inputEdges) shuffled k)).graph a u
          ∧ HasEdge (preRound nodes (afterRounds (Contractor NDEBUG uninit nodes inputEdges) shuffled k)).graph u b := by
  have hinv := preRound_runInv nodes hn _
    (afterRounds_runInv (Contractor NDEBUG uninit nodes inputEdges) shuffled hperm
      (Contractor_graphOK NDEBUG uninit nodes inputEdges hin) hn k)
  intro a ha b hb hab
  obtain ⟨hRa, hia⟩ := mem_independentSet ha
  obtain ⟨hRb, hib⟩ := mem_independentSet hb
  have hlt : ∀ x, Remaining (preRound nodes
      (afterRounds (Contractor NDEBUG uninit nodes inputEdges) shuffled k)) x → x < nodes := by
    rintro x ⟨p, hp, rfl⟩
    exact hinv.ids.2 p hp
  obtain ⟨h1, h2⟩ := independent_apart hinv.graph
    (fun x y hx hy h => hinv.bias x y (hlt x hx) (hlt y hy) h) hRa hia hib
  exact ⟨fun h => hab (h1 h), fun ⟨u, hu1, hu2⟩ => hab (h2 u hu1 hu2)⟩

/-- Witness of C6: the path 0 - 1 - 2 - 3 - 4 with the order 0, ..., 4. In the first round
`_IsIndependent` selects the two end nodes 0 and 4, which both have an edge; the node 4
is neither a neighbour of 0 nor a neighbour of its neighbour 1. -/
theorem C6_independent_set_witness :
    (∀ i ∈ pathInput, i.source < 5 ∧ i.target < 5)
      ∧ [0, 1, 2, 3, 4].Perm (List.range 5) ∧ 5 ≤ UINT_MAX
      ∧ independentSet (preRound 5 (afterRounds (Contractor true false 5 pathInput)
          [0, 1, 2, 3, 4] 0)) = [0, 4]
      ∧ (0 : NodeID) ≠ 4
      ∧ HasEdge (preRound 5 (afterRounds (Contractor true false 5 pathInput)
          [0, 1, 2, 3, 4] 0)).graph 0 1
      ∧ HasEdge (preRound 5 (afterRounds (Contractor true false 5 pathInput)
          [0, 1, 2, 3, 4] 0)).graph 4 3
      ∧ ¬ HasEdge (preRound 5 (afterRounds (Contractor true false 5 pathInput)
          [0, 1, 2, 3, 4] 0)).graph 0 4
      ∧ ¬ ∃ u, HasEdge (preRound 5 (afterRounds (Contractor true false 5 pathInput)
            [0, 1, 2, 3, 4] 0)).graph 0 u
          ∧ HasEdge (preRound 5 (afterRounds (Contractor true false 5 pathInput)
            [0, 1, 2, 3, 4] 0)).graph u 4 :=
  ⟨by decide, by decide, by decide, by decide!, by decide,
    ⟨⟨1, ⟨1, 1, 0, 0, 0, false, true, true, false⟩⟩, by decide!, rfl⟩,
    ⟨⟨3, ⟨1, 1, 0, 0, 0, false, true, true, false⟩⟩, by decide!, rfl⟩,
    C6_independent_set true false 5 pathInput [0, 1, 2, 3, 4] (by decide) (by decide)
      (by decide) 0 0 (by decide!) 4 (by decide!) (by decide)⟩

end Contractor

namespace Contractor

open BinaryHeap
/-- Claim C7: on the graph that the constructor builds from input edges with endpoints
below `nodes` (for an order `shuffled` that is a permutation of the node ids), in every
round in which `remainingNodes` is not empty at least one node is selected as
independent, `numberOfContractedNodes` strictly increases in every round that the loop
runs, and `Run` returns with `numberOfContractedNodes` equal to the number of nodes and
no remaining node. -/
theorem C7_run_terminates (NDEBUG uninit : Bool) (nodes : Nat) (inputEdges : List EdgeBasedEdge)
    (shuffled : List NodeID)
    (hin : ∀ i ∈ inputEdges, i.source < nodes ∧ i.target < nodes)
    (hperm : shuffled.Perm (List.range nodes)) (hn : nodes ≤ UINT_MAX) :
    (∀ k, (afterRounds (Contractor NDEBUG uninit nodes inputEdges) shuffled k).remainingNodes ≠ [] →
        independentSet (preRound nodes
          (afterRounds (Contractor NDEBUG uninit nodes inputEdges) shuffled k)) ≠ []
        ∧ (afterRounds (Contractor NDEBUG uninit nodes inputEdges) shuffled k).numberOfContractedNodes
            < (afterRounds (Contractor NDEBUG uninit nodes inputEdges) shuffled (k + 1)).numberOfContractedNodes)
      ∧ ∃ st, Run (Contractor NDEBUG uninit nodes inputEdges) shuffled = some st
          ∧ st.numberOfContractedNodes = nodes ∧ st.remainingNodes = [] := by
  have hinv := afterRounds_runInv (Contractor NDEBUG uninit nodes inputEdges) shuffled hperm
    (Contractor_graphOK NDEBUG uninit nodes inputEdges hin) hn
  constructor
  · intro k hne
    have hk := hinv k
    obtain ⟨c1, c2⟩ := preRound_counts nodes
      (afterRounds (Contractor NDEBUG uninit nodes inputEdges) shuffled k)
    have hne2 : (preRound nodes
        (afterRounds (Contractor NDEBUG uninit nodes inputEdges) shuffled k)).remainingNodes ≠ [] := by
      intro h0
      rw [h0] at c2
      exact hne (List.length_eq_zero.1 c2.symm)
    refine ⟨progress nodes _ (preRound_runInv nodes hn _ hk) hne2, ?_⟩
    have hlt : (afterRounds (Contractor NDEBUG uninit nodes inputEdges) shuffled k).numberOfContractedNodes
        < nodes := by
      have hc : (afterRounds (Contractor NDEBUG uninit nodes inputEdges) shuffled k).numberOfContractedNodes
          + (afterRounds (Contractor NDEBUG uninit nodes inputEdges) shuffled k).remainingNodes.length
          = nodes := hk.count
      have hpos := List.length_pos.2 hne
      omega
    have := round_progress nodes hn _ hk hlt
    unfold afterRounds at this ⊢
    rw [Function.iterate_succ_apply']
    exact this
  · exact runLoop_terminates nodes hn nodes _ (hinv 0) (Nat.sub_le _ _)

/-- Witness of C7: the triangle of section 8 with the order 0, 1, 2. -/
theorem C7_run_terminates_witness :
    (∀ i ∈ triangleInput, i.source < 3 ∧ i.target < 3)
      ∧ [0, 1, 2].Perm (List.range 3) ∧ 3 ≤ UINT_MAX
      ∧ ∃ st, Run (Contractor true false 3 triangleInput) [0, 1, 2] = some st
          ∧ st.numberOfContractedNodes = 3 ∧ st.remainingNodes = [] :=
  ⟨by decide, by decide, by decide,
    (C7_run_terminates true false 3 triangleInput [0, 1, 2] (by decide) (by decide) (by decide)).2⟩

end Contractor

namespace Contractor

open BinaryHeap
/-- Counterexample to C14 as stated: on the triangle of section 8 with the order 0, 1, 2
the first round contracts node 2 and the graph still holds the two edges whose source
is node 2; the second round contracts node 1 and the graph still holds the edge from
node 2 whose target is node 1. -/
theorem C14_incident_edges_counterexample :
    independentSet (preRound 3 (afterRounds triangle [0, 1, 2] 0)) = [2]
      ∧ ((afterRounds triangle [0, 1, 2] 1).graph.adj 2).map (fun e => e.target) = [0, 1]
      ∧ independentSet (preRound 3 (afterRounds triangle [0, 1, 2] 1)) = [1]
      ∧ ((afterRounds triangle [0, 1, 2] 2).graph.adj 2).map (fun e => e.target) = [0, 1] := by
  decide!

/-- Claim C14, amended: after each contraction round of `Run` (on the graph that the
constructor builds from input edges with endpoints below `nodes`, for an order
`shuffled` that is a permutation of the node ids), no edge of the mutable graph leads
from a node that is still in `remainingNodes` to a node contracted in that round. -/
theorem C14_no_edge_into_contracted (NDEBUG uninit : Bool) (nodes : Nat)
    (inputEdges : List EdgeBasedEdge) (shuffled : List NodeID)
    (hin : ∀ i ∈ inputEdges, i.source < nodes ∧ i.target < nodes)
    (hperm : shuffled.Perm (List.range nodes)) (hn : nodes ≤ UINT_MAX) (k : Nat) :
    ∀ x ∈ independentSet (preRound nodes (afterRounds (Contractor NDEBUG uninit nodes inputEdges) shuffled k)),
    ∀ a, Remaining (afterRounds (Contractor NDEBUG uninit nodes inputEdges) shuffled (k + 1)) a →
      ¬ HasEdge (afterRounds (Contractor NDEBUG uninit nodes inputEdges) shuffled (k + 1)).graph a x := by
  have hinv := afterRounds_runInv (Contractor NDEBUG uninit nodes inputEdges) shuffled hperm
    (Contractor_graphOK NDEBUG uninit nodes inputEdges hin) hn (k + 1)
  have hstep : afterRounds (Contractor NDEBUG uninit nodes inputEdges) shuffled (k + 1)
      = round nodes (afterRounds (Contractor NDEBUG uninit nodes inputEdges) shuffled k) := by
    unfold afterRounds
    rw [Function.iterate_succ_apply']
    rfl
  intro x hx a ha ⟨e, he, hex⟩
  have hR := hinv.graph.closed a ha e he
  rw [hex, hstep, round_eq] at hR
  exact ((remaining_round_iff _ x).1 hR).2 hx

/-- Witness of C14, amended: the triangle of section 8 with the order 0, 1, 2, first
round. -/
theorem C14_no_edge_into_contracted_witness :
    (∀ i ∈ triangleInput, i.source < 3 ∧ i.target < 3)
      ∧ [0, 1, 2].Perm (List.range 3) ∧ 3 ≤ UINT_MAX
      ∧ ∀ x ∈ independentSet (preRound 3 (afterRounds (Contractor true false 3 triangleInput) [0, 1, 2] 0)),
        ∀ a, Remaining (afterRounds (Contractor true false 3 triangleInput) [0, 1, 2] (0 + 1)) a →
          ¬ HasEdge (afterRounds (Contractor true false 3 triangleInput) [0, 1, 2] (0 + 1)).graph a x :=
  ⟨by decide, by decide, by decide,
    C14_no_edge_into_contracted true false 3 triangleInput [0, 1, 2] (by decide) (by decide) (by decide) 0⟩

end Contractor

namespace Contractor

open BinaryHeap
/-- Claim C29: when the compaction of `Run` is applied to a state that `Run` reaches (on
the graph that the constructor builds from input edges with endpoints below `nodes`,
for an order `shuffled` that is a permutation of the node ids), every edge of the old
graph whose two endpoints are still uncontracted is copied, with both endpoints
renumbered and the renumbered target not `UINT_MAX`, into the new graph and is not in
the spill list; every other edge is written to the spill list with its original
endpoint ids; the new graph holds nothing but the copies of the edges with both
endpoints uncontracted, and the spill list nothing but the edges of contracted
nodes. -/
theorem C29_compaction_partitions (NDEBUG uninit : Bool) (nodes : Nat)
    (inputEdges : List EdgeBasedEdge) (shuffled : List NodeID)
    (hin : ∀ i ∈ inputEdges, i.source < nodes ∧ i.target < nodes)
    (hperm : shuffled.Perm (List.range nodes)) (hn : nodes ≤ UINT_MAX) (k : Nat) :
    (∀ i, i < (afterRounds (Contractor NDEBUG uninit nodes inputEdges) shuffled k).graph.GetNumberOfNodes →
      ∀ e ∈ (afterRounds (Contractor NDEBUG uninit nodes inputEdges) shuffled k).graph.adj i,
      ((Remaining (afterRounds (Contractor NDEBUG uninit nodes inputEdges) shuffled k) i
          ∧ Remaining (afterRounds (Contractor NDEBUG uninit nodes inputEdges) shuffled k) e.target) →
          renumberedEdge (flushMaps nodes (afterRounds (Contractor NDEBUG uninit nodes inputEdges) shuffled k)).2.1 e
              ∈ (flush nodes (afterRounds (Contractor NDEBUG uninit nodes inputEdges) shuffled k)).graph.adj
                  ((flushMaps nodes (afterRounds (Contractor NDEBUG uninit nodes inputEdges) shuffled k)).2.1.getD i 0)
          ∧ (flushMaps nodes (afterRounds (Contractor NDEBUG uninit nodes inputEdges) shuffled k)).2.1.getD i 0 ≠ UINT_MAX
          ∧ (renumberedEdge (flushMaps nodes (afterRounds (Contractor NDEBUG uninit nodes inputEdges) shuffled k)).2.1 e).target ≠ UINT_MAX
          ∧ (⟨i, e.target, e.data⟩ : _ImportEdge)
              ∉ (flush nodes (afterRounds (Contractor NDEBUG uninit nodes inputEdges) shuffled k)).temporaryEdgeStorage)
      ∧ (¬ (Remaining (afterRounds (Contractor NDEBUG uninit nodes inputEdges) shuffled k) i
            ∧ Remaining (afterRounds (Contractor NDEBUG uninit nodes inputEdges) shuffled k) e.target) →
          (⟨i, e.target, e.data⟩ : _ImportEdge)
              ∈ (flush nodes (afterRounds (Contractor NDEBUG uninit nodes inputEdges) shuffled k)).temporaryEdgeStorage
          ∧ (flushMaps nodes (afterRounds (Contractor NDEBUG uninit nodes inputEdges) shuffled k)).2.1.getD i 0 = UINT_MAX))
    ∧ (∀ j e', e' ∈ (flush nodes (afterRounds (Contractor NDEBUG uninit nodes inputEdges) shuffled k)).graph.adj j ↔
        ∃ i, i < (afterRounds (Contractor NDEBUG uninit nodes inputEdges) shuffled k).graph.GetNumberOfNodes
          ∧ Remaining (afterRounds (Contractor NDEBUG uninit nodes inputEdges) shuffled k) i
          ∧ (flushMaps nodes (afterRounds (Contractor NDEBUG uninit nodes inputEdges) shuffled k)).2.1.getD i 0 = j
          ∧ ∃ e ∈ (afterRounds (Contractor NDEBUG uninit nodes inputEdges) shuffled k).graph.adj i,
            Remaining (afterRounds (Contractor NDEBUG uninit nodes inputEdges) shuffled k) e.target
            ∧ e' = renumberedEdge (flushMaps nodes (afterRounds (Contractor NDEBUG uninit nodes inputEdges) shuffled k)).2.1 e)
    ∧ (∀ x, x ∈ (flush nodes (afterRounds (Contractor NDEBUG uninit nodes inputEdges) shuffled k)).temporaryEdgeStorage ↔
        ∃ i, i < (afterRounds (Contractor NDEBUG uninit nodes inputEdges) shuffled k).graph.GetNumberOfNodes
          ∧ ¬ Remaining (afterRounds (Contractor NDEBUG uninit nodes inputEdges) shuffled k) i
          ∧ ∃ e ∈ (afterRounds (Contractor NDEBUG uninit nodes inputEdges) shuffled k).graph.adj i,
            x = ⟨i, e.target, e.data⟩) :=
  flush_partition nodes hn _
    (afterRounds_runInv (Contractor NDEBUG uninit nodes inputEdges) shuffled hperm
      (Contractor_graphOK NDEBUG uninit nodes inputEdges hin) hn k)

/-- Witness of C29: the triangle of section 8 with the order 0, 1, 2, after the first
round. -/
theorem C29_compaction_partitions_witness :
    (∀ i ∈ triangleInput, i.source < 3 ∧ i.target < 3)
      ∧ [0, 1, 2].Perm (List.range 3) ∧ 3 ≤ UINT_MAX ∧ (
    (∀ i, i < (afterRounds (Contractor true false 3 triangleInput) [0, 1, 2] 1).graph.GetNumberOfNodes →
      ∀ e ∈ (afterRounds (Contractor true false 3 triangleInput) [0, 1, 2] 1).graph.adj i,
      ((Remaining (afterRounds (Contractor true false 3 triangleInput) [0, 1, 2] 1) i
          ∧ Remaining (afterRounds (Contractor true false 3 triangleInput) [0, 1, 2] 1) e.target) →
          renumberedEdge (flushMaps 3 (afterRounds (Contractor true false 3 triangleInput) [0, 1, 2] 1)).2.1 e
              ∈ (flush 3 (afterRounds (Contractor true false 3 triangleInput) [0, 1, 2] 1)).graph.adj
                  ((flushMaps 3 (afterRounds (Contractor true false 3 triangleInput) [0, 1, 2] 1)).2.1.getD i 0)
          ∧ (flushMaps 3 (afterRounds (Contractor true false 3 triangleInput) [0, 1, 2] 1)).2.1.getD i 0 ≠ UINT_MAX
          ∧ (renumberedEdge (flushMaps 3 (afterRounds (Contractor true false 3 triangleInput) [0, 1, 2] 1)).2.1 e).target ≠ UINT_MAX
          ∧ (⟨i, e.target, e.data⟩ : _ImportEdge)
              ∉ (flush 3 (afterRounds (Contractor true false 3 triangleInput) [0, 1, 2] 1)).temporaryEdgeStorage)
      ∧ (¬ (Remaining (afterRounds (Contractor true false 3 triangleInput) [0, 1, 2] 1) i
            ∧ Remaining (afterRounds (Contractor true false 3 triangleInput) [0, 1, 2] 1) e.target) →
          (⟨i, e.target, e.data⟩ : _ImportEdge)
              ∈ (flush 3 (afterRounds (Contractor true false 3 triangleInput) [0, 1, 2] 1)).temporaryEdgeStorage
          ∧ (flushMaps 3 (afterRounds (Contractor true false 3 triangleInput) [0, 1, 2] 1)).2.1.getD i 0 = UINT_MAX))
    ∧ (∀ j e', e' ∈ (flush 3 (afterRounds (Contractor true false 3 triangleInput) [0, 1, 2] 1)).graph.adj j ↔
        ∃ i, i < (afterRounds (Contractor true false 3 triangleInput) [0, 1, 2] 1).graph.GetNumberOfNodes
          ∧ Remaining (afterRounds (Contractor true false 3 triangleInput) [0, 1, 2] 1) i
          ∧ (flushMaps 3 (afterRounds (Contractor true false 3 triangleInput) [0, 1, 2] 1)).2.1.getD i 0 = j
          ∧ ∃ e ∈ (afterRounds (Contractor true false 3 triangleInput) [0, 1, 2] 1).graph.adj i,
            Remaining (afterRounds (Contractor true false 3 triangleInput) [0, 1, 2] 1) e.target
            ∧ e' = renumberedEdge (flushMaps 3 (afterRounds (Contractor true false 3 triangleInput) [0, 1, 2] 1)).2.1 e)
    ∧ (∀ x, x ∈ (flush 3 (afterRounds (Contractor true false 3 triangleInput) [0, 1, 2] 1)).temporaryEdgeStorage ↔
        ∃ i, i < (afterRounds (Contractor true false 3 triangleInput) [0, 1, 2] 1).graph.GetNumberOfNodes
          ∧ ¬ Remaining (afterRounds (Contractor true false 3 triangleInput) [0, 1, 2] 1) i
          ∧ ∃ e ∈ (afterRounds (Contractor true false 3 triangleInput) [0, 1, 2] 1).graph.adj i,
            x = ⟨i, e.target, e.data⟩)) :=
  ⟨by decide, by decide, by decide,
    C29_compaction_partitions true false 3 triangleInput [0, 1, 2] (by decide) (by decide) (by decide) 1⟩

end Contractor

namespace Contractor

open BinaryHeap
/-- Claim C17, evaluation of the code: on `compactionGraph` with the order 0, ..., 12
`GetEdges` after `Run` returns the edge from node 9 to node 2 (node 9 is contracted
before node 2), and the same contraction without the compaction does not produce
this edge (there node 2 is contracted before node 9). -/
theorem C17_compaction_changes_edges :
    ((Run compactionGraph (List.range 13)).bind GetEdges).map
        (fun l => decide ((⟨9, 2, ⟨3, false, 0, 0, 0, true, true⟩⟩ : OutputEdge) ∈ l)) = some true
      ∧ (RunWithoutCompaction compactionGraph (List.range 13)).map
        (fun st => decide ((⟨9, 2, ⟨3, false, 0, 0, 0, true, true⟩⟩ : OutputEdge) ∈ plainEdges st))
          = some false := by
  decide!

end Contractor

namespace Contractor

open BinaryHeap
/-- Claim C18, evaluation of the code: on `compactionGraph` with the order 0, ..., 12 the
compaction runs at the head of the second round and gives the nodes 2, 3, 9 the new
ids 0, 1, 2; the node 3 had depth 1 and bias 3 before, and under its new id 1 `Run`
reads depth 0 and bias 1, the entry of the old node 1 (`nodeData` is not renumbered). -/
theorem C18_depth_lost_in_compaction :
    (preRound 13 (afterRounds compactionGraph (List.range 13) 1)).oldNodeIDFromNewNodeIDMap
        = [2, 3, 9]
      ∧ (afterRounds compactionGraph (List.range 13) 1).nodeData.getD 3 default = ⟨1, 3⟩
      ∧ (preRound 13 (afterRounds compactionGraph (List.range 13) 1)).nodeData.getD 1 default
          = ⟨0, 1⟩ := by
  decide!

end Contractor

namespace Contractor

open BinaryHeap
/-- Claim C30, evaluation of the code: on the triangle of section 8 with the order
0, 1, 2 `Run` returns without having performed the compaction
(`flushedContractor` is still `false` and `oldNodeIDFromNewNodeIDMap` is empty), and
`GetEdges` indexes the empty map out of bounds. -/
theorem C30_no_compaction_on_triangle :
    (Run triangle [0, 1, 2]).map (fun st => (st.flushedContractor, st.oldNodeIDFromNewNodeIDMap))
        = some (false, [])
      ∧ (Run triangle [0, 1, 2]).bind GetEdges = none := by
  decide!

end Contractor

namespace Contractor

open BinaryHeap
/-- Claim C27, evaluation of the code: in `mergeGraph` node 0 holds the edges to node 2
`(5, forward)` and `(7, backward)`; the contraction of node 1 buffers the shortcut
`(0, 2)` of distance 2 with the flags `backward` only, and the insertion step, which
looks at the first edge `(0, 2)` only, adds it as a third edge although the edge
`(7, backward)` has the same flags; that edge keeps the distance 7. -/
theorem C27_merge_misses_second_edge :
    (mergeGraph.adj 0).map (fun e => (e.target, e.data.distance, e.data.forward, e.data.backward))
        = [(1, 1, false, true), (2, 5, true, false), (2, 7, false, true)]
      ∧ (sortEdges (_Contract false mergeGraph [] 1 default).1).map
          (fun e => (e.source, e.target, e.data.distance, e.data.forward, e.data.backward))
        = [(0, 2, 2, false, true), (2, 0, 2, true, false)]
      ∧ ((contractNode mergeGraph 1).adj 0).map
          (fun e => (e.target, e.data.distance, e.data.forward, e.data.backward))
        = [(2, 5, true, false), (2, 7, false, true), (2, 2, false, true)] := by
  decide

end Contractor

namespace Contractor

open BinaryHeap
/-- Claim C16: when `Run` (on the graph that the constructor builds from input edges
with endpoints below `nodes`, for an order `shuffled` that is a permutation of the node
ids) has performed the compaction, `oldNodeIDFromNewNodeIDMap` still is the map that
the compaction built, entry `i` being the id that the node with the new id `i` had
before the compaction; every lookup of `GetEdges` in it is within bounds; and
`GetEdges` emits for every edge of the in-memory graph the edge whose source and
target are the pre-compaction ids of its endpoints and whose via is the via field
translated through the map exactly when `originalViaNodeID` is `false`, followed by
the edges of the temporary file. -/
theorem C16_output_id_space (NDEBUG uninit : Bool) (nodes : Nat)
    (inputEdges : List EdgeBasedEdge) (shuffled : List NodeID)
    (hin : ∀ i ∈ inputEdges, i.source < nodes ∧ i.target < nodes)
    (hperm : shuffled.Perm (List.range nodes)) (hn : nodes ≤ UINT_MAX) :
    ∀ st, Run (Contractor NDEBUG uninit nodes inputEdges) shuffled = some st →
      st.flushedContractor = true →
      (∃ r, (afterRounds (Contractor NDEBUG uninit nodes inputEdges) shuffled r).flushedContractor
            = false
          ∧ st.oldNodeIDFromNewNodeIDMap.length
              = (afterRounds (Contractor NDEBUG uninit nodes inputEdges) shuffled r).remainingNodes.length
          ∧ ∀ i, i < (afterRounds (Contractor NDEBUG uninit nodes inputEdges) shuffled r).remainingNodes.length →
              st.oldNodeIDFromNewNodeIDMap.getD i 0
                = ((afterRounds (Contractor NDEBUG uninit nodes inputEdges) shuffled r).remainingNodes.getD
                    i default).1)
      ∧ (∀ p ∈ graphEdges st.graph,
          p.1 < st.oldNodeIDFromNewNodeIDMap.length
          ∧ p.2.target < st.oldNodeIDFromNewNodeIDMap.length
          ∧ (p.2.data.originalViaNodeID = false →
              p.2.data.via < st.oldNodeIDFromNewNodeIDMap.length))
      ∧ GetEdges st = some ((graphEdges st.graph).map
            (fun p => translatedEdge st.oldNodeIDFromNewNodeIDMap p.1 p.2)
          ++ st.temporaryEdgeStorage.map storedEdge) := by
  intro st hrun hflush
  have hg := Contractor_graphOK NDEBUG uninit nodes inputEdges hin
  obtain ⟨k, hk⟩ := runLoop_afterRounds _ _ _ _ hrun
  have hk2 : st = afterRounds (Contractor NDEBUG uninit nodes inputEdges) shuffled k := hk
  rw [hk2] at hflush ⊢
  obtain ⟨hlen, hedges, r, _, hr1, hr2, hr3⟩ :=
    afterRounds_flushed (Contractor NDEBUG uninit nodes inputEdges) shuffled hperm hg hn k hflush
  have hids := (afterRounds_runInv (Contractor NDEBUG uninit nodes inputEdges) shuffled hperm hg hn r).ids
  refine ⟨⟨r, hr1, ?_, ?_⟩, ?_, GetEdges_eq _ hlen hedges⟩
  · rw [hlen, hr3]
  · intro i hi
    rw [hr2]
    exact ((flushMaps_spec _ _ hids).2.1 i hi).1
  · intro p hp
    obtain ⟨h1, h2⟩ := mem_graphEdges.1 hp
    obtain ⟨h3, h4⟩ := hedges p.1 p.2 h2
    rw [hlen]
    exact ⟨h1, h3, h4⟩

/-- Witness of C16: `compactionInput` on 13 nodes with the order 0, ..., 12. The
compaction runs with the nodes 2, 3, 9 remaining; when `Run` returns, the in-memory
graph holds the edges from the new id 1 to 2 and from 2 to 0, both with
`originalViaNodeID` set, and `GetEdges` emits them as the edges from 3 to 9 and from 9
to 2, followed by the two edges of the temporary file. -/
theorem C16_output_id_space_witness :
    (∀ i ∈ compactionInput, i.source < 13 ∧ i.target < 13)
      ∧ (List.range 13).Perm (List.range 13) ∧ 13 ≤ UINT_MAX
      ∧ (Run (Contractor true false 13 compactionInput) (List.range 13)).map
          (fun st => (st.flushedContractor, st.oldNodeIDFromNewNodeIDMap)) = some (true, [2, 3, 9])
      ∧ (Run (Contractor true false 13 compactionInput) (List.range 13)).map
          (fun st => (graphEdges st.graph).map
            (fun p => (p.1, p.2.target, p.2.data.via, p.2.data.originalViaNodeID)))
          = some [(1, 2, 0, true), (2, 0, 0, true)]
      ∧ ((Run (Contractor true false 13 compactionInput) (List.range 13)).bind GetEdges).map
          (fun l => l.map (fun e => (e.source, e.target)))
          = some [(3, 9), (9, 2), (5, 3), (6, 2)]
      ∧ ∀ st, Run (Contractor true false 13 compactionInput) (List.range 13) = some st →
          st.flushedContractor = true →
          (∃ r, (afterRounds (Contractor true false 13 compactionInput) (List.range 13)
                  r).flushedContractor = false
              ∧ st.oldNodeIDFromNewNodeIDMap.length
                  = (afterRounds (Contractor true false 13 compactionInput) (List.range 13)
                      r).remainingNodes.length
              ∧ ∀ i, i < (afterRounds (Contractor true false 13 compactionInput) (List.range 13)
                      r).remainingNodes.length →
                  st.oldNodeIDFromNewNodeIDMap.getD i 0
                    = ((afterRounds (Contractor true false 13 compactionInput) (List.range 13)
                        r).remainingNodes.getD i default).1)
          ∧ (∀ p ∈ graphEdges st.graph,
              p.1 < st.oldNodeIDFromNewNodeIDMap.length
              ∧ p.2.target < st.oldNodeIDFromNewNodeIDMap.length
              ∧ (p.2.data.originalViaNodeID = false →
                  p.2.data.via < st.oldNodeIDFromNewNodeIDMap.length))
          ∧ GetEdges st = some ((graphEdges st.graph).map
                (fun p => translatedEdge st.oldNodeIDFromNewNodeIDMap p.1 p.2)
              ++ st.temporaryEdgeStorage.map storedEdge) :=
  ⟨by decide, List.Perm.refl _, by decide, by decide!, by decide!, by decide!,
    C16_output_id_space true false 13 compactionInput (List.range 13)
      (by decide) (List.Perm.refl _) (by decide)⟩

end Contractor

namespace EdgeBasedGraphFactory

/-- Claim C22: when the node `u` has an edge to `v` and `v` an edge to `w`, and these
edges are roundabout segments, `AnalyzeTurn(u, v, w)` returns `NoTurn` when `v` has
exactly one outgoing edge and `StayOnRoundAbout` when `v` has more than one, whatever
the names, the angle and the direction function are. -/
theorem C22_roundabout_instruction (g : _NodeBasedDynamicGraph)
    (GetTurnDirectionOfInstruction : ℚ → Int) (angle : ℚ) (u v w : NodeID)
    (h1 : ∃ e ∈ g.adj u, e.target = v)
    (r1 : ∀ e ∈ g.adj u, e.target = v → e.data.roundabout = true)
    (h2 : ∃ e ∈ g.adj v, e.target = w)
    (r2 : ∀ e ∈ g.adj v, e.target = w → e.data.roundabout = true) :
    ((g.adj v).length = 1 →
        AnalyzeTurn g GetTurnDirectionOfInstruction angle u v w = some NoTurn)
      ∧ (1 < (g.adj v).length →
        AnalyzeTurn g GetTurnDirectionOfInstruction angle u v w = some StayOnRoundAbout) := by
  obtain ⟨i, hi, hmi, hti⟩ := FindEdge_some g u v h1
  obtain ⟨j, hj, hmj, htj⟩ := FindEdge_some g v w h2
  have a1 := r1 _ hmi hti
  have a2 := r2 _ hmj htj
  unfold AnalyzeTurn
  rw [hi, hj]
  simp only [a1, a2, Bool.and_self, if_true]
  constructor
  · intro h
    simp [h]
  · intro h
    have : ¬ (1 = (g.adj v).length) := by omega
    simp [this]

/-- Witness of C22: in `roundaboutExits` the turn from 0 -> 1 onto 1 -> 2 stays on the
roundabout, node 1 having two outgoing edges. -/
theorem C22_roundabout_instruction_witness :
    AnalyzeTurn roundaboutExits (fun _ => 1) 90 0 1 2 = some StayOnRoundAbout :=
  (C22_roundabout_instruction roundaboutExits (fun _ => 1) 90 0 1 2
    ⟨(roundaboutExits.adj 0).getD 0 default, by decide, by decide⟩ (by decide)
    ⟨(roundaboutExits.adj 1).getD 0 default, by decide, by decide⟩ (by decide)).2 (by decide)

end EdgeBasedGraphFactory

namespace EdgeBasedGraphFactory

/-- Claim C21: for every node-based graph `g` (and coordinates, angle and direction
functions) `Run` with an empty restriction list returns, and the edge-based edges it
emits are, in the order of the loops, one edge for every pair of an edge `e1 = (u, v)`
and an edge `e2 = (v, w)` with `u != w`, with source the id of `e1`, target the id of
`e2`, via `v` and the name id of `e2`; no edge is emitted for a pair with `u == w`. -/
theorem C21_turn_expansion_exact (g : _NodeBasedDynamicGraph) (nI : List NodeInfo)
    (GetAngleBetweenTwoEdges : NodeInfo → NodeInfo → NodeInfo → ℚ)
    (GetTurnDirectionOfInstruction : ℚ → Int) :
    ∃ out, Run ⟨[], nI, g⟩ GetAngleBetweenTwoEdges GetTurnDirectionOfInstruction = some out
      ∧ out.edgeBasedEdges.map (fun x => (x.source, x.target, x.via, x.nameIDOfTurnTarget))
        = (adjacentPairs g).map (fun t =>
            (t.2.1.data.edgeBasedNodeID, t.2.2.data.edgeBasedNodeID, t.2.1.target,
              t.2.2.data.nameID)) := by
  obtain ⟨out, hout⟩ := Run_nil_isSome nI g GetAngleBetweenTwoEdges GetTurnDirectionOfInstruction
  refine ⟨out, hout, ?_⟩
  rw [(Run_char _ _ _ out hout).1]
  unfold adjacentPairs
  simp only [List.map_flatMap]
  congr 1
  funext u
  congr 1
  funext e1
  unfold edgesOfEdge
  simp only [emit_nil]
  rw [flatMap_ite, List.map_map, List.map_map]
  rfl

end EdgeBasedGraphFactory

namespace EdgeBasedGraphFactory

/-- Claim C19, evaluation of the code: for the witness of the claim, the edges 0 -> 1,
1 -> 2 and 1 -> 3 with the single restriction `(0, 1, 2)` flagged `only`, the loop
`do ... while(u == secondRestrictionIterator->fromNode)` of `Run` passes the only
entry of `inputRestrictions` and reads `fromNode` at the end of the vector, whatever
the angle and direction functions are; with a second restriction behind it, from a
node without edges, `Run` returns and keeps exactly the turn onto 1 -> 2. -/
theorem C19_only_restriction_overrun
    (GetAngleBetweenTwoEdges : NodeInfo → NodeInfo → NodeInfo → ℚ)
    (GetTurnDirectionOfInstruction : ℚ → Int) :
    Run (forkFactory [⟨0, 1, 2, true⟩]) GetAngleBetweenTwoEdges GetTurnDirectionOfInstruction
        = none
      ∧ (Run (forkFactory [⟨0, 1, 2, true⟩, ⟨3, 0, 0, false⟩]) (fun _ _ _ => 180)
          (fun _ => 1)).map (fun out => out.edgeBasedEdges.map (fun x => (x.source, x.target)))
        = some [(0, 1)] := by
  constructor
  · exact Run_overrun _ _ _ 0 (by decide) (by decide) (by decide)
  · decide!

end EdgeBasedGraphFactory

namespace EdgeBasedGraphFactory

/-- C20, evaluation of the code: for the edges 0 -> 1, 1 -> 2 and 1 -> 3 with the
single restriction `(0, 1, 2)` without the only flag, the loop
`do ... while(u == secondRestrictionIterator->fromNode)` of `Run` passes the only entry
of `inputRestrictions` and reads `fromNode` at the end of the vector, whatever the
angle and direction functions are, so that no output is defined; with a second
restriction behind it, from a node without edges, the read stays within the vector and
`Run` returns without the restricted turn onto 1 -> 2: it keeps exactly the turn onto
1 -> 3. -/
theorem C20_restricted_turn_overrun
    (GetAngleBetweenTwoEdges : NodeInfo → NodeInfo → NodeInfo → ℚ)
    (GetTurnDirectionOfInstruction : ℚ → Int) :
    Run (forkFactory [⟨0, 1, 2, false⟩]) GetAngleBetweenTwoEdges GetTurnDirectionOfInstruction
        = none
      ∧ (Run (forkFactory [⟨0, 1, 2, false⟩, ⟨3, 0, 0, false⟩]) (fun _ _ _ => 180)
          (fun _ => 1)).map (fun out => out.edgeBasedEdges.map (fun x => (x.source, x.target)))
        = some [(0, 2)] := by
  constructor
  · exact Run_overrun _ _ _ 0 (by decide) (by decide) (by decide)
  · decide!

end EdgeBasedGraphFactory

namespace EdgeBasedGraphFactory

/-- C23, evaluation of the code: for the edges 0 -> 1, 1 -> 2 and 1 -> 3, none of type
14 and without restrictions, the graph holds the edge 1 -> 2 with id 1 and the edge
1 -> 3 with id 2, and `Run` returns a node list with the single id 0: the nodes 2 and
3 have no outgoing edge, so neither the branch for a target with exactly one edge nor
the push next to an emitted turn is reached for these two edges, and no edge-based
node is produced for them. -/
theorem C23_dead_end_edges_uncovered :
    ((forkFactory [])._nodeBasedGraph.adj 1).map
        (fun e => (e.target, e.data.edgeBasedNodeID, decide (e.data.type ≠ 14)))
        = [(2, 1, true), (3, 2, true)]
      ∧ ((forkFactory [])._nodeBasedGraph.adj 2).length = 0
      ∧ ((forkFactory [])._nodeBasedGraph.adj 3).length = 0
      ∧ (Run (forkFactory []) (fun _ _ _ => 180) (fun _ => 1)).map
          (fun out => out.edgeBasedNodes.map (fun nd => nd.id)) = some [0] := by
  refine ⟨by decide, by decide, by decide, by decide!⟩

end EdgeBasedGraphFactory

namespace StaticGraph

/-- Counterexample to C24 as stated: with `INVALID_EDGE_WEIGHT = 2147483647` the node 0
of `heavyGraph` has an edge to node 1, of distance 2147483647, and `FindEdge(0, 1)`
returns `SPECIAL_EDGEID`. -/
theorem C24_heavy_edge_counterexample :
    heavyGraph.GetAdjacentEdgeRange 0 = [0] ∧ heavyGraph.GetTarget 0 = 1
      ∧ FindEdge 4294967295 2147483647 heavyGraph id 0 1 = 4294967295 := by
  decide

/-- Claim C24, amended: `FindEdge(u, v)` returns `SPECIAL_EDGEID` when the range of `u`
holds no edge to `v` that is lighter than `INVALID_EDGE_WEIGHT`; otherwise it returns
such an edge, strictly lighter than every such edge before it in the range and not
heavier than any such edge after it. When `SPECIAL_NODEID`, with which
`FindEdgeInEitherDirection` compares, equals `SPECIAL_EDGEID` and is no edge id of the
range of `u`, `FindEdgeInEitherDirection(u, v)` returns `FindEdge(u, v)` when the
range of `u` holds such an edge and `FindEdge(v, u)` otherwise. -/
theorem C24_find_edge (SPECIAL_EDGEID SPECIAL_NODEID : Nat) (INVALID_EDGE_WEIGHT : Int)
    {EdgeDataT : Type} [Inhabited EdgeDataT] (g : StaticGraph EdgeDataT)
    (distance : EdgeDataT → Int) (u v : NodeID) :
    ((∀ e ∈ g.GetAdjacentEdgeRange u, ¬ Candidate INVALID_EDGE_WEIGHT g distance v e) →
        FindEdge SPECIAL_EDGEID INVALID_EDGE_WEIGHT g distance u v = SPECIAL_EDGEID)
      ∧ ((∃ e ∈ g.GetAdjacentEdgeRange u, Candidate INVALID_EDGE_WEIGHT g distance v e) →
        ∃ l1 l2, g.GetAdjacentEdgeRange u
            = l1 ++ FindEdge SPECIAL_EDGEID INVALID_EDGE_WEIGHT g distance u v :: l2
          ∧ Candidate INVALID_EDGE_WEIGHT g distance v
              (FindEdge SPECIAL_EDGEID INVALID_EDGE_WEIGHT g distance u v)
          ∧ (∀ e ∈ l1, Candidate INVALID_EDGE_WEIGHT g distance v e →
              distance (g.GetEdgeData (FindEdge SPECIAL_EDGEID INVALID_EDGE_WEIGHT g distance u v))
                < distance (g.GetEdgeData e))
          ∧ (∀ e ∈ l2, Candidate INVALID_EDGE_WEIGHT g distance v e →
              distance (g.GetEdgeData (FindEdge SPECIAL_EDGEID INVALID_EDGE_WEIGHT g distance u v))
                ≤ distance (g.GetEdgeData e)))
      ∧ (SPECIAL_NODEID = SPECIAL_EDGEID →
          (∀ e ∈ g.GetAdjacentEdgeRange u, e ≠ SPECIAL_EDGEID) →
          ((∃ e ∈ g.GetAdjacentEdgeRange u, Candidate INVALID_EDGE_WEIGHT g distance v e) →
              FindEdgeInEitherDirection SPECIAL_EDGEID SPECIAL_NODEID INVALID_EDGE_WEIGHT g distance u v
                = FindEdge SPECIAL_EDGEID INVALID_EDGE_WEIGHT g distance u v)
            ∧ ((∀ e ∈ g.GetAdjacentEdgeRange u, ¬ Candidate INVALID_EDGE_WEIGHT g distance v e) →
              FindEdgeInEitherDirection SPECIAL_EDGEID SPECIAL_NODEID INVALID_EDGE_WEIGHT g distance u v
                = FindEdge SPECIAL_EDGEID INVALID_EDGE_WEIGHT g distance v u)) := by
  obtain ⟨h1, h2⟩ := FindEdge_spec SPECIAL_EDGEID INVALID_EDGE_WEIGHT g distance u v
  refine ⟨h1, h2, ?_⟩
  intro hS hE
  unfold FindEdgeInEitherDirection
  dsimp only
  constructor
  · intro hex
    obtain ⟨l1, l2, hpre, _⟩ := h2 hex
    have hmem : FindEdge SPECIAL_EDGEID INVALID_EDGE_WEIGHT g distance u v
        ∈ g.GetAdjacentEdgeRange u := by
      rw [hpre]; simp
    have hne := hE _ hmem
    have : (SPECIAL_NODEID != FindEdge SPECIAL_EDGEID INVALID_EDGE_WEIGHT g distance u v) = true := by
      rw [hS]
      simp only [bne_iff_ne, ne_eq]
      exact fun h => hne h.symm
    simp only [this, if_true]
  · intro hnone
    rw [h1 hnone, hS]
    simp

/-- Witness of C24, amended: in `parallelGraph` the edges 0, 1, 2 lead from node 0 to
node 1 with the distances 7, 4, 4; `FindEdgeInEitherDirection(0, 1)` returns the
edge 1. -/
theorem C24_find_edge_witness :
    (4294967295 : Nat) = 4294967295
      ∧ (∀ e ∈ parallelGraph.GetAdjacentEdgeRange 0, e ≠ 4294967295)
      ∧ (∃ e ∈ parallelGraph.GetAdjacentEdgeRange 0, Candidate 2147483647 parallelGraph id 1 e)
      ∧ FindEdge 4294967295 2147483647 parallelGraph id 0 1 = 1
      ∧ FindEdgeInEitherDirection 4294967295 4294967295 2147483647 parallelGraph id 0 1
          = FindEdge 4294967295 2147483647 parallelGraph id 0 1 :=
  ⟨rfl, by decide, ⟨1, by decide, by decide⟩, by decide,
    ((C24_find_edge 4294967295 4294967295 2147483647 parallelGraph id 0 1).2.2 rfl (by decide)).1
      ⟨1, by decide, by decide⟩⟩

end StaticGraph

namespace alternative_path

/-- Claim C25: when the shortest-path weight is not negative and the selection loop of
`alternativePathSearch` ends with a via node other than `SPECIAL_NODEID`, this node is
a preselected node for which the sharing computed by
`computeLengthAndSharingOfViaPath` is at most 0.75 times the shortest-path weight and
the computed length at most 1.15 times the shortest-path weight, whatever the
results of that function and of the T-test are. -/
theorem C25_alternative_admissible (SPECIAL_NODEID : NodeID)
    (computeLengthAndSharingOfViaPath : NodeID → Int × Int)
    (viaNodeCandidatePassesTTest : RankedCandidateNode → Bool)
    (upper_bound_to_shortest_path_weight : Int) (preselected_node_list : List NodeID)
    (hub : 0 ≤ upper_bound_to_shortest_path_weight)
    (hsel : selectViaNode SPECIAL_NODEID viaNodeCandidatePassesTTest
      (rankedCandidates computeLengthAndSharingOfViaPath upper_bound_to_shortest_path_weight
        preselected_node_list) ≠ SPECIAL_NODEID) :
    selectViaNode SPECIAL_NODEID viaNodeCandidatePassesTTest
        (rankedCandidates computeLengthAndSharingOfViaPath upper_bound_to_shortest_path_weight
          preselected_node_list) ∈ preselected_node_list
      ∧ (((computeLengthAndSharingOfViaPath
            (selectViaNode SPECIAL_NODEID viaNodeCandidatePassesTTest
              (rankedCandidates computeLengthAndSharingOfViaPath
                upper_bound_to_shortest_path_weight preselected_node_list))).2 : Int) : ℚ)
          ≤ (75 / 100) * (upper_bound_to_shortest_path_weight : ℚ)
      ∧ (((computeLengthAndSharingOfViaPath
            (selectViaNode SPECIAL_NODEID viaNodeCandidatePassesTTest
              (rankedCandidates computeLengthAndSharingOfViaPath
                upper_bound_to_shortest_path_weight preselected_node_list))).1 : Int) : ℚ)
          ≤ (115 / 100) * (upper_bound_to_shortest_path_weight : ℚ) := by
  obtain ⟨c, hc, _, hnode⟩ := selectViaNode_mem _ _ _ hsel
  rw [← hnode]
  unfold rankedCandidates sortCandidates at hc
  have hc2 := (List.perm_insertionSort _ _).mem_iff.1 hc
  rcases mem_rankFold _ _ c _ _ hc2 with h | ⟨h1, h2, h3, h4, h5⟩
  · exact absurd h (List.not_mem_nil _)
  · refine ⟨h1, ?_, ?_⟩
    · rw [← h3]
      have hnn : (0 : ℚ) ≤ (upper_bound_to_shortest_path_weight : ℚ) * VIAPATH_GAMMA := by
        apply mul_nonneg
        · exact_mod_cast hub
        · unfold VIAPATH_GAMMA; norm_num
      have := castToInt_le _ hnn
      have h6 : (c.sharing : ℚ) ≤ (castToInt ((upper_bound_to_shortest_path_weight : ℚ) * VIAPATH_GAMMA) : ℚ) := by
        exact_mod_cast h4
      unfold VIAPATH_GAMMA at this h6
      linarith
    · rw [← h2]
      unfold VIAPATH_EPSILON at h5
      linarith

/-- Witness of C25: for a shortest path of weight 100, the via node 1 with length 110
and sharing 90 and the via node 2 with length 110 and sharing 20, both passing the
T-test, the node 2 is selected; the node 1 is not ranked. -/
theorem C25_alternative_admissible_witness :
    (0 : Int) ≤ 100
      ∧ selectViaNode 4294967295 (fun _ => true)
          (rankedCandidates (fun node => if node = 1 then (110, 90) else (110, 20)) 100 [1, 2])
          ≠ 4294967295
      ∧ selectViaNode 4294967295 (fun _ => true)
          (rankedCandidates (fun node => if node = 1 then (110, 90) else (110, 20)) 100 [1, 2])
          ∈ [1, 2]
      ∧ selectViaNode 4294967295 (fun _ => true)
          (rankedCandidates (fun node => if node = 1 then (110, 90) else (110, 20)) 100 [1, 2]) = 2
      ∧ selectViaNode 4294967295 (fun _ => true)
          (rankedCandidates (fun node => if node = 1 then (110, 90) else (110, 20)) 100 [1]) = 4294967295 :=
  ⟨by decide, by decide!, (C25_alternative_admissible 4294967295
      (fun node => if node = 1 then (110, 90) else (110, 20)) (fun _ => true) 100 [1, 2]
      (by decide) (by decide!)).1, by decide!, by decide!⟩

end alternative_path

namespace alternative_path

/-- C26, evaluation of the code: a source on the segment 0 with weight plus offset 5 and a
target on the same segment with weight plus offset 2, behind the source, over the
hierarchy with a loop of weight 12 at the node 0. `alternativePathSearch` enters the
search with the node 0 at key -5 in `forward_heap1` and at key 2 in `reverse_heap1` and
with `min_edge_offset` -5; the loop "search from s and t" ends after one round with
both heaps empty, the middle node 0 and the upper bound 12, the weight of the loop
alone, while the path from the source around the loop to the target weighs
-5 + 2 + 12 = 9. -/
theorem C26_loop_detour_bound :
    min_edge_offset loopPhantoms = -5
      ∧ (initialSearch 2147483647 4294967295 loopPhantoms).forward_heap1.queued = [0]
      ∧ (initialSearch 2147483647 4294967295 loopPhantoms).reverse_heap1.queued = [0]
      ∧ (initialSearch 2147483647 4294967295 loopPhantoms).forward_heap1.GetKey 0 = -5
      ∧ (initialSearch 2147483647 4294967295 loopPhantoms).reverse_heap1.GetKey 0 = 2
      ∧ (shortestPathSearch 2147483647 4294967295 (fun _ => 12) loopHierarchy loopPhantoms 1).map
          (fun st => (st.forward_heap1.Size, st.reverse_heap1.Size, st.middle_node,
            st.upper_bound_to_shortest_path_weight)) = some (0, 0, 0, 12)
      ∧ (initialSearch 2147483647 4294967295 loopPhantoms).forward_heap1.GetKey 0
          + (initialSearch 2147483647 4294967295 loopPhantoms).reverse_heap1.GetKey 0 + 12 = 9 := by
  refine ⟨by decide, by decide, by decide, by decide, by decide, by decide!, by decide⟩

end alternative_path

namespace alternative_path

/-- C31: the candidate choice of `alternativePathSearch`, for every list
`ranked_candidates_list` that the ranking loop leaves, every result of the T-test and
every unpacked path. The call of `std::sort` leaves the same candidates, in ascending
order of the `int` expression `2 * length + sharing` that `operator<` compares (which
is the exact value of `2 * length + sharing` whenever `2 * length` and the sum fit into
32 bits); the selected via node is the node of the first candidate of the sorted list
for which `viaNodeCandidatePassesTTest` returns true, whatever stands before and behind
it; and when no ranked candidate passes, `selected_via_node` stays `SPECIAL_NODEID` and
`unpacked_alternative` stays empty. -/
theorem C31_candidate_choice (SPECIAL_NODEID : NodeID)
    (viaNodeCandidatePassesTTest : RankedCandidateNode → Bool)
    (ranked_candidates_list : List RankedCandidateNode) (unpackPath : List NodeID) :
    (sortCandidates ranked_candidates_list).Perm ranked_candidates_list
      ∧ (sortCandidates ranked_candidates_list).Pairwise (fun a b => a.key ≤ b.key)
      ∧ (∀ c : RankedCandidateNode, -2147483648 ≤ 2 * c.length → 2 * c.length ≤ 2147483647 →
          -2147483648 ≤ 2 * c.length + c.sharing → 2 * c.length + c.sharing ≤ 2147483647 →
          c.key = 2 * c.length + c.sharing)
      ∧ (∀ front candidate back,
          sortCandidates ranked_candidates_list = front ++ candidate :: back →
          (∀ x ∈ front, viaNodeCandidatePassesTTest x = false) →
          viaNodeCandidatePassesTTest candidate = true →
          selectViaNode SPECIAL_NODEID viaNodeCandidatePassesTTest
              (sortCandidates ranked_candidates_list) = candidate.node)
      ∧ ((∀ x ∈ ranked_candidates_list, viaNodeCandidatePassesTTest x = false) →
          selectViaNode SPECIAL_NODEID viaNodeCandidatePassesTTest
              (sortCandidates ranked_candidates_list) = SPECIAL_NODEID
            ∧ unpacked_alternative SPECIAL_NODEID
                (selectViaNode SPECIAL_NODEID viaNodeCandidatePassesTTest
                  (sortCandidates ranked_candidates_list)) unpackPath
              = []) := by
  refine ⟨sortCandidates_perm _, sortCandidates_sorted _, ?_, ?_, ?_⟩
  · intro c h1 h2 h3 h4
    unfold RankedCandidateNode.key
    rw [toInt32_of_range _ h1 h2, toInt32_of_range _ h3 h4]
  · intro front candidate back hl hfront hc
    rw [hl]
    exact selectViaNode_first _ _ candidate back hc front hfront
  · intro hnone
    have h := selectViaNode_none SPECIAL_NODEID viaNodeCandidatePassesTTest
      (sortCandidates ranked_candidates_list)
      (fun x hx => hnone x ((sortCandidates_perm _).mem_iff.1 hx))
    refine ⟨h, ?_⟩
    rw [h]
    simp [unpacked_alternative]

end alternative_path

namespace EdgeBasedGraphFactory

/-- C37, evaluation of the code: for the edges 0 -> 1, 1 -> 2 and 1 -> 3 and the
restriction list with the single restriction `(0, 1, 3)`, which is sorted by
`fromNode`, the loop `do ... while(u == secondRestrictionIterator->fromNode)` of `Run`
advances past the only entry for `u = 0` and reads `fromNode` at the end of
`inputRestrictions`, whatever the angle and direction functions are; the same
happens for every sorted list whose last restrictions are from a node with an edge,
as for the list of `(0, 1, 3)` and `(1, 2, 0)`. -/
theorem C37_scan_reads_past_end
    (GetAngleBetweenTwoEdges : NodeInfo → NodeInfo → NodeInfo → ℚ)
    (GetTurnDirectionOfInstruction : ℚ → Int) :
    (forkFactory [⟨0, 1, 3, false⟩]).inputRestrictions = [⟨0, 1, 3, false⟩]
      ∧ Run (forkFactory [⟨0, 1, 3, false⟩]) GetAngleBetweenTwoEdges
          GetTurnDirectionOfInstruction = none
      ∧ (forkFactory [⟨0, 1, 3, false⟩, ⟨1, 2, 0, false⟩]).inputRestrictions
          = [⟨0, 1, 3, false⟩, ⟨1, 2, 0, false⟩]
      ∧ Run (forkFactory [⟨0, 1, 3, false⟩, ⟨1, 2, 0, false⟩]) GetAngleBetweenTwoEdges
          GetTurnDirectionOfInstruction = none := by
  refine ⟨by decide, ?_, by decide, ?_⟩
  · exact Run_overrun _ _ _ 0 (by decide) (by decide) (by decide)
  · exact Run_overrun _ _ _ 1 (by decide) (by decide) (by decide)

end EdgeBasedGraphFactory

namespace alternative_path

/-- C39, evaluation of the code: with `INVALID_EDGE_WEIGHT` the largest 32-bit `int`, a
via node whose search for `<s,..,v>` finds no meeting node (middle node
`SPECIAL_NODEID`, upper bound `INVALID_EDGE_WEIGHT`) and whose search for `<v,..,t>`
ends with the upper bound 100 gets the length `INVALID_EDGE_WEIGHT + 100`, which wraps
around to -2147483549; for a shortest path of weight 1000 the node passes both tests
and is added to the ranked candidate list. A node for which both searches find
nothing gets the length -2 and is added as well. -/
theorem C39_sentinel_sum_is_ranked :
    rankStep (fun _ => computeLengthAndSharingOfViaPath 4294967295
        4294967295 2147483647 7 100 0) 1000 [] 5 = [⟨5, -2147483549, 0⟩]
      ∧ rankStep (fun _ => computeLengthAndSharingOfViaPath 4294967295
        4294967295 2147483647 4294967295 2147483647 0) 1000 [] 5 = [⟨5, -2, 0⟩] := by
  refine ⟨by decide!, by decide!⟩

end alternative_path

namespace alternative_path

/-- C40, evaluation of the code: in the state `loopState`, where the node 0 is queued
forwards with key -5 and in reverse with key 2, with a loop of weight 12 at the node
and no upper bound yet, the forward step of `alternativeRoutingStep` meets the reverse
search at the node 0 with the negative weight -3 and takes the loop branch: it sets
`middle_node` to 0 and the upper bound to 12, the loop weight alone, while the forward
key plus the reverse key plus the loop weight is 9. The same update raises an upper
bound of 10 to 12. -/
theorem C40_loop_branch_stores_loop_weight :
    (alternativeRoutingStep 2147483647 (fun _ => 12) loopHierarchy (-5) true
        loopState).upper_bound_to_shortest_path_weight = 12
      ∧ (alternativeRoutingStep 2147483647 (fun _ => 12) loopHierarchy (-5) true
        loopState).middle_node = 0
      ∧ loopState.forward_heap1.GetKey 0 + loopState.reverse_heap1.GetKey 0 + 12 = 9
      ∧ updateUpperBound 2147483647 (fun _ => 12) 0 (-3) (4294967295, 10) = (0, 12) := by
  refine ⟨by decide!, by decide!, by decide!, by decide!⟩

end alternative_path

namespace EdgeBasedGraphFactory

/-- C38, evaluation of the code: for the input edge between 0 and 1 that is open
backwards only (traversable from 1 to 0) and the input edge 1 -> 2, the constructor
stores the edge 0 -> 1 with id 0 and without the forward flag (the copy in the input
direction is pushed whatever its flags are, only the reversed copy is guarded by
`if( edge.data.backward )`), and `Run`, which reads neither flag, emits exactly one
edge-based edge: the turn from this edge onto 1 -> 2 (id 2), a turn that starts on an
edge not traversable in that direction. -/
theorem C38_backward_only_edge_yields_turn :
    (backwardFactory._nodeBasedGraph.adj 0).map
        (fun e => (e.target, e.data.edgeBasedNodeID, e.data.forward)) = [(1, 0, false)]
      ∧ (backwardFactory._nodeBasedGraph.adj 1).map
        (fun e => (e.target, e.data.edgeBasedNodeID, e.data.forward))
          = [(0, 1, true), (2, 2, true)]
      ∧ (Run backwardFactory (fun _ _ _ => 180) (fun _ => 1)).map
          (fun out => out.edgeBasedEdges.map (fun x => (x.source, x.via, x.target)))
        = some [(0, 1, 2)] := by
  refine ⟨by decide, by decide, by decide!⟩

end EdgeBasedGraphFactory

namespace Contractor

open BinaryHeap
open DynamicGraph

/-- C33: the graph that the constructor of the contractor builds is direction-explicit
and symmetric. For every input edge list, with or without `NDEBUG`, and all `s`, `t`
and `d`, the graph holds an edge from `s` to `t` with the forward flag and distance `d`
if and only if it holds an edge from `t` to `s` with the backward flag and distance
`d`. -/
theorem C33_prepared_graph_symmetric (NDEBUG uninit : Bool) (nodes : Nat)
    (inputEdges : List EdgeBasedEdge) (s t : NodeID) (d : Nat) :
    FwdEdge (Contractor NDEBUG uninit nodes inputEdges) s t d
      ↔ BwdEdge (Contractor NDEBUG uninit nodes inputEdges) t s d := by
  by_cases hst : s = t
  · subst hst
    constructor
    · rintro ⟨e, he, h1, _, _⟩
      exact absurd h1.symm (preparedEdges_no_loop NDEBUG uninit inputEdges _ (mem_adj_ofEdges.1 he))
    · rintro ⟨e, he, h1, _, _⟩
      exact absurd h1.symm (preparedEdges_no_loop NDEBUG uninit inputEdges _ (mem_adj_ofEdges.1 he))
  · have hf := flagEdge_iff NDEBUG uninit nodes inputEdges (fun x => x.forward)
      (emitRun_forward_iff uninit) s t d hst
    have hb := flagEdge_iff NDEBUG uninit nodes inputEdges (fun x => x.backward)
      (emitRun_backward_iff uninit) t s d (fun h => hst h.symm)
    unfold FwdEdge BwdEdge
    rw [hf, hb]
    constructor
    · rintro ⟨h1, ⟨c, hc, h2, h3, h4, h5⟩, hmin⟩
      obtain ⟨c', hc', m1, m2, m3, m4, m5⟩ := copies_mirror hc
      refine ⟨h1, ⟨c', hc', by rw [m1, h3], by rw [m2, h2], ?_, by rw [m5, h5]⟩, ?_⟩
      · show c'.data.backward = true
        rw [m4]; exact h4
      · intro x hx x1 x2 x3
        obtain ⟨x', hx', n1, n2, n3, n4, n5⟩ := copies_mirror hx
        rw [← n5]
        exact hmin x' hx' (by rw [n1, x2]) (by rw [n2, x1]) (by
          show x'.data.forward = true
          rw [n3]; exact x3)
    · rintro ⟨h1, ⟨c, hc, h2, h3, h4, h5⟩, hmin⟩
      obtain ⟨c', hc', m1, m2, m3, m4, m5⟩ := copies_mirror hc
      refine ⟨h1, ⟨c', hc', by rw [m1, h3], by rw [m2, h2], ?_, by rw [m5, h5]⟩, ?_⟩
      · show c'.data.forward = true
        rw [m3]; exact h4
      · intro x hx x1 x2 x3
        obtain ⟨x', hx', n1, n2, n3, n4, n5⟩ := copies_mirror hx
        rw [← n5]
        exact hmin x' hx' (by rw [n1, x2]) (by rw [n2, x1]) (by
          show x'.data.backward = true
          rw [n4]; exact x3)

end Contractor

namespace Contractor

open BinaryHeap
/-- C34: the reduction loop of the constructor is safe in place. For every vector
`edges` that the loop starts on and every number `k` of iterations, in the state after
`k` iterations the write index `edge` is at most the read index `i`, the read index is
at most the size of the vector, the vector has kept its size and from the read index
on it is still the input; the next iteration leaves the read index at least as large
as the write index, changes the vector only from the old write index up to the new
one, below the read index, and the loop `reduceEdges` is these iterations; the write
index with which the loop ends is at most the size of the vector, so `resize` does not
enlarge it. -/
theorem C34_in_place_cleanup_safe (uninit : Bool) (edges : List _ImportEdge) (k : Nat) :
    let st := (reduceBody uninit)^[k] (edges, 0, 0)
    st.2.2 ≤ st.2.1 ∧ st.2.1 ≤ edges.length ∧ st.1.length = edges.length
      ∧ st.1.drop st.2.1 = edges.drop st.2.1
      ∧ (reduceBody uninit st).2.2 ≤ (reduceBody uninit st).2.1
      ∧ st.2.2 ≤ (reduceBody uninit st).2.2
      ∧ (reduceBody uninit st).1.take st.2.2 = st.1.take st.2.2
      ∧ (reduceBody uninit st).1.drop (reduceBody uninit st).2.2
          = st.1.drop (reduceBody uninit st).2.2
      ∧ reduceEdges uninit k edges 0 0 = (st.1, st.2.2)
      ∧ (reduceEdges uninit edges.length edges 0 0).2 ≤ edges.length := by
  intro st
  obtain ⟨i1, i2, i3, i4⟩ := reduce_inv uninit edges k
  obtain ⟨s1, _, _, _, s5, s6, s7⟩ := reduceBody_step uninit st i1 (by rw [i3]; exact i2)
  refine ⟨i1, i2, i3, i4, s1, s5, s7, s6, reduceEdges_iterate uninit k edges 0 0, ?_⟩
  rw [reduceEdges_iterate]
  obtain ⟨j1, j2, _, _⟩ := reduce_inv uninit edges edges.length
  exact le_trans j1 j2

end Contractor

namespace Contractor

open BinaryHeap
/-- C35: no self-loop shortcuts. For every graph with strictly positive edge distances,
every node `n` and every content of the buffer at the call, no edge that
`_Contract<false>(n)` adds to the buffer `insertedEdges` has its source equal to its
target. -/
theorem C35_no_self_loop_shortcuts (g : _DynamicGraph) (hpos : PositiveWeights g)
    (insertedEdges : List _ImportEdge) (n : NodeID) (stats : _ContractionInformation) :
    ∀ e ∈ (_Contract false g insertedEdges n stats).1.drop insertedEdges.length,
      e.source ≠ e.target := by
  intro e he
  obtain ⟨_, hback, _⟩ := Contract_false_spec g insertedEdges n stats
  obtain ⟨⟨r, hr, h1, h2, _⟩, _⟩ := hback e he
  obtain ⟨inEdge, hin, outEdge, hout, hreq, hmem⟩ := mem_pushedPairs.1 hr
  have hne := required_ne hreq (by have := hpos n inEdge hin; omega)
  unfold shortcutPair at hmem
  simp only [List.mem_cons, List.mem_singleton, List.not_mem_nil, or_false] at hmem
  rw [h1, h2]
  rcases hmem with rfl | rfl
  · exact hne
  · exact fun h => hne h.symm

/-- Witness of C35: the triangle of section 8 has positive distances, and the contraction
of the node 1 adds the shortcuts between 0 and 2 to the empty buffer, none of them a
self-loop. -/
theorem C35_no_self_loop_shortcuts_witness :
    PositiveWeights triangle
      ∧ ((_Contract false triangle [] 1 default).1.drop ([] : List _ImportEdge).length).map
          (fun e => (e.source, e.target)) = [(2, 0), (0, 2)]
      ∧ ∀ e ∈ (_Contract false triangle [] 1 default).1.drop ([] : List _ImportEdge).length,
          e.source ≠ e.target :=
  ⟨triangle_positive, by decide,
    C35_no_self_loop_shortcuts triangle triangle_positive [] 1 default⟩

end Contractor

namespace Contractor

open BinaryHeap
end Contractor

namespace alternative_path


/-- C32: the T-test of `viaNodeCandidatePassesTTest`, with `T` the floor of 0.15 times the
weight of the shortest path. The graph is one in which every edge of the two packed half
paths is found and unpacks into edges that are no shortcuts, the weight of a shortcut
being the sum of the weights of its two halves, and all weights are at least 0;
`Ls i` and `Lt i` are the unpacked edges of the packed edge that ends at index `i` of
the half path from `s` to `v` and from `v` to `t`. When one of the two half paths does
not exist (its upper bound is `INVALID_EDGE_WEIGHT`), the function returns false. When
both exist, the two loops over `unpack_stack` finish, and the function returns true if and
only if the weight that the fresh search from `s_P` and `t_P` finds is at most
`t_test_path_length`, which is the weight of `S` plus the weight of `P`: `S` is an end
piece of the unpacked half path from `s` to `v` that starts in `s_P`, `P` a front piece
of the unpacked half path from `v` to `t` that ends in `t_P`; each is the shortest piece
with at least one edge whose weight reaches `T` (without its outermost edge its weight is
below `T`), or the whole half path when that does not reach `T`. -/
theorem C32_t_test_plateau (SPECIAL_NODEID SPECIAL_EDGEID : Nat) (INVALID_EDGE_WEIGHT : Int)
    (find : NodeID → NodeID → Nat) (facade : StaticGraph EdgeData)
    (s_v_middle : NodeID) (upper_bound_s_v_path_length : Int)
    (v_t_middle : NodeID) (upper_bound_of_v_t_path_length : Int)
    (packed_s_v_path packed_v_t_path : List NodeID) (freshSearch : NodeID → NodeID → Int)
    (length_of_shortest_path : Int) (fuel : Nat) (Ls Lt : Nat → List PathEdge)
    (hnn : ∀ e d, edgeDataAt facade e = some d → 0 ≤ d.weight)
    (hs : packed_s_v_path ≠ []) (ht : packed_v_t_path ≠ [])
    (hLs : ∀ i, 1 ≤ i → i < packed_s_v_path.length →
      Unpacked SPECIAL_EDGEID find facade (packed_s_v_path.getD (i - 1) default)
        (packed_s_v_path.getD i default) (Ls i))
    (hLt : ∀ i, 1 ≤ i → i < packed_v_t_path.length →
      Unpacked SPECIAL_EDGEID find facade (packed_v_t_path.getD (i - 1) default)
        (packed_v_t_path.getD i default) (Lt i))
    (hms : upper_bound_s_v_path_length ≠ INVALID_EDGE_WEIGHT → s_v_middle ≠ SPECIAL_NODEID)
    (hmt : upper_bound_of_v_t_path_length ≠ INVALID_EDGE_WEIGHT → v_t_middle ≠ SPECIAL_NODEID)
    (hfs : (unpackedBetween Ls 0 (packed_s_v_path.length - 1)).length ≤ fuel)
    (hft : (unpackedBetween Lt 0 (packed_v_t_path.length - 1)).length ≤ fuel) :
    (upper_bound_s_v_path_length = INVALID_EDGE_WEIGHT
        ∨ upper_bound_of_v_t_path_length = INVALID_EDGE_WEIGHT →
      viaNodeCandidatePassesTTest SPECIAL_NODEID SPECIAL_EDGEID INVALID_EDGE_WEIGHT find facade
        s_v_middle upper_bound_s_v_path_length v_t_middle upper_bound_of_v_t_path_length
        packed_s_v_path packed_v_t_path freshSearch length_of_shortest_path fuel = some false)
    ∧ (upper_bound_s_v_path_length ≠ INVALID_EDGE_WEIGHT →
        upper_bound_of_v_t_path_length ≠ INVALID_EDGE_WEIGHT →
        ∃ S front P back,
          unpackedBetween Ls 0 (packed_s_v_path.length - 1) = front ++ S
          ∧ unpackedBetween Lt 0 (packed_v_t_path.length - 1) = P ++ back
          ∧ (front ≠ [] → S ≠ [])
          ∧ (S.tail ≠ [] → pathWeight S.tail < ⌊(15 / 100 : ℚ) * (length_of_shortest_path : ℚ)⌋)
          ∧ (front ≠ [] → ⌊(15 / 100 : ℚ) * (length_of_shortest_path : ℚ)⌋ ≤ pathWeight S)
          ∧ (back ≠ [] → P ≠ [])
          ∧ (P.dropLast ≠ [] →
              pathWeight P.dropLast < ⌊(15 / 100 : ℚ) * (length_of_shortest_path : ℚ)⌋)
          ∧ (back ≠ [] → ⌊(15 / 100 : ℚ) * (length_of_shortest_path : ℚ)⌋ ≤ pathWeight P)
          ∧ viaNodeCandidatePassesTTest SPECIAL_NODEID SPECIAL_EDGEID INVALID_EDGE_WEIGHT find
              facade s_v_middle upper_bound_s_v_path_length v_t_middle
              upper_bound_of_v_t_path_length packed_s_v_path packed_v_t_path freshSearch
              length_of_shortest_path fuel
            = some (decide (freshSearch (startOf S s_v_middle) (endOf P v_t_middle)
                ≤ pathWeight S + pathWeight P))) := by
  constructor
  · intro h
    unfold viaNodeCandidatePassesTTest
    by_cases h1 : upper_bound_s_v_path_length = INVALID_EDGE_WEIGHT
    · rw [if_pos (by simp [h1])]
    · have h2 : upper_bound_of_v_t_path_length = INVALID_EDGE_WEIGHT := h.resolve_left h1
      rw [if_neg (by simpa using fun hh => h1 hh.symm), if_pos (by simp [h2])]
  · intro h1 h2
    obtain ⟨st, S, front, a1, a2, a3, a4, a5, a6, a7⟩ :=
      @sv_side SPECIAL_EDGEID find facade
        (castToInt (VIAPATH_EPSILON * (length_of_shortest_path : ℚ))) packed_s_v_path Ls
        s_v_middle hnn hs hLs fuel hfs
    obtain ⟨st2, P, back, b1, b2, b3, b4, b5, b6, b7⟩ :=
      @vt_side SPECIAL_EDGEID find facade
        (castToInt (VIAPATH_EPSILON * (length_of_shortest_path : ℚ))) packed_v_t_path Lt
        v_t_middle hnn ht hLt fuel hft
    have hε : VIAPATH_EPSILON = (15 / 100 : ℚ) := rfl
    rw [hε] at a5 a6 b5 b6
    have ta := threshold_floor ((15 / 100 : ℚ) * (length_of_shortest_path : ℚ))
      (pathWeight S.tail) (pathWeight S)
      (pathWeight_nonneg _ (fun x hx => a7 x (List.mem_of_mem_tail hx))) _ _ a5 a6
      (pathWeight_nonneg _ a7)
    have tb := threshold_floor ((15 / 100 : ℚ) * (length_of_shortest_path : ℚ))
      (pathWeight P.dropLast) (pathWeight P)
      (pathWeight_nonneg _ (fun x hx => b7 x (List.dropLast_subset _ hx))) _ _ b5 b6
      (pathWeight_nonneg _ b7)
    refine ⟨S, front, P, back, a2, b2, a4, ta.1, ta.2, b4, tb.1, tb.2, ?_⟩
    have i1 : packed_s_v_path.isEmpty = false := by
      cases packed_s_v_path with
      | nil => exact absurd rfl hs
      | cons x rest => rfl
    have i2 : packed_v_t_path.isEmpty = false := by
      cases packed_v_t_path with
      | nil => exact absurd rfl ht
      | cons x rest => rfl
    unfold viaNodeCandidatePassesTTest
    rw [if_neg (by simpa using fun hh => h1 hh.symm),
      if_neg (by simpa using fun hh => h2 hh.symm),
      if_neg (by simpa using fun hh => hms h1 hh.symm),
      if_neg (by simpa using fun hh => hmt h2 hh.symm)]
    simp only [i1, i2, a1, a3, b1, b3, Bool.false_eq_true, if_false]

/-- C32 at the chain hierarchy, for the half path from 0 to 2, packed in the shortcut over
1, and the half path from 2 to 3, with the weight 20 of the shortest path: `T` is 3. -/
theorem C32_t_test_plateau_witness :
    (∀ e d, edgeDataAt chainHierarchy e = some d → 0 ≤ d.weight)
      ∧ Unpacked 4294967295 chainFind chainHierarchy 0 2 [(0, 1, 2), (1, 2, 3)]
      ∧ Unpacked 4294967295 chainFind chainHierarchy 2 3 [(2, 3, 4)]
      ∧ ∃ S front P back,
          [((0 : NodeID), (1 : NodeID), (2 : Int)), (1, 2, 3)] = front ++ S
          ∧ [((2 : NodeID), (3 : NodeID), (4 : Int))] = P ++ back
          ∧ (front ≠ [] → S ≠ [])
          ∧ (S.tail ≠ [] → pathWeight S.tail < ⌊(15 / 100 : ℚ) * ((20 : Int) : ℚ)⌋)
          ∧ (front ≠ [] → ⌊(15 / 100 : ℚ) * ((20 : Int) : ℚ)⌋ ≤ pathWeight S)
          ∧ (back ≠ [] → P ≠ [])
          ∧ (P.dropLast ≠ [] → pathWeight P.dropLast < ⌊(15 / 100 : ℚ) * ((20 : Int) : ℚ)⌋)
          ∧ (back ≠ [] → ⌊(15 / 100 : ℚ) * ((20 : Int) : ℚ)⌋ ≤ pathWeight P)
          ∧ viaNodeCandidatePassesTTest 4294967295 4294967295 2147483647 chainFind
              chainHierarchy 0 5 3 4 [0, 2] [2, 3] (fun _ _ => 7) 20 2
            = some (decide ((fun _ _ => (7 : Int)) (startOf S 0) (endOf P 3)
                ≤ pathWeight S + pathWeight P)) :=
  ⟨chainHierarchy_nonneg, chainHierarchy_unpacked_0_2, chainHierarchy_unpacked_2_3,
    (C32_t_test_plateau 4294967295 4294967295 2147483647 chainFind chainHierarchy 0 5 3 4
      [0, 2] [2, 3] (fun _ _ => 7) 20 2 (fun _ => [(0, 1, 2), (1, 2, 3)])
      (fun _ => [(2, 3, 4)]) chainHierarchy_nonneg (by decide) (by decide)
      (fun i h1 h2 => by
        have hi : i = 1 := by simp at h2; omega
        subst hi
        exact chainHierarchy_unpacked_0_2)
      (fun i h1 h2 => by
        have hi : i = 1 := by simp at h2; omega
        subst hi
        exact chainHierarchy_unpacked_2_3)
      (fun _ => by decide) (fun _ => by decide) (by decide) (by decide)).2
      (by decide) (by decide)⟩

end alternative_path
